import Mathlib

/-!
Cell scheduling core of hivedscheduler

A shallow embedding of `pkg/algorithm/topology_aware_scheduler.go` and
`pkg/algorithm/sku_scheduler.go`, followed by theorems about the embedded
functions.

Conventions of the embedding.

* Cells live in an arena: a `Cell` is the identity of a cell, and a
  `Hierarchy` gives, for every identity, what the Go accessors
  (`GetLevel`, `GetParent`, `GetChildren`, ...) return.  `CellEqual` is
  equality of identities.
* A Go value that may be `nil` is an `Option`.
* A function that follows parent or child pointers, or runs a `for` loop
  without a syntactic bound, takes a `fuel : Nat`; it answers `none` when
  the fuel is used up, and also where the Go code panics.
* Integers are `Int`: levels (`CellLevel`), priorities (`CellPriority`) and counts are
  `int32` in the Go code, and no theorem here depends on wrap-around.
-/

namespace Hived

/-! ## Data model -/

abbrev Cell := Nat
abbrev CellList := List Cell
abbrev CellAddress := String
abbrev CellType := String

/-- Modelled from the spec: the constant `opportunisticPriority`, declared outside the
listed sources ("the lowest non-free value used to disable preemption"; the first pass
"sets priority to -1"). -/
def opportunisticPriority : Int := -1

/-- Modelled from the spec: the constant `freePriority`, declared outside the listed
sources (the sentinel "no occupant", below every priority a pod can have). -/
def freePriority : Int := opportunisticPriority - 1

/-- Modelled from the spec: the constant `lowestLevel`, declared outside the listed
sources ("Level: positive integer; 1 = leaf"). -/
def lowestLevel : Int := 1

/-- Modelled from the spec: the constant `highestLevel`, declared outside the listed
sources; the largest `int32`, used as "no affinity seen yet". -/
def highestLevel : Int := 2147483647

/-- The two variants of a cell and what only they carry. -/
inductive CellKind
  | physical (healthy : Bool) (nodes : List String)
  | virtual (physicalCell : Option Cell)
  deriving DecidableEq, Repr

/-- What the accessors of the Go interface `Cell` return for one cell. -/
structure CellData where
  level : Int
  parent : Option Cell
  children : CellList
  priority : Int
  totalLeafCellNum : Int
  usedLeafCellNumAtPriorities : List (Int × Int)
  atOrHigherThanNode : Bool
  address : CellAddress
  kind : CellKind
  deriving DecidableEq, Repr

/-- A snapshot of the cell arena. -/
abbrev Hierarchy := Cell → CellData

/-- The Go type `ChainCellList` (`map[CellLevel]CellList` with keys `1..len`): the entry
of level `l` is at position `l - 1`. -/
abbrev ChainCellList := List CellList

/-- The Go expression `ccl[l]`: the empty list for a level that is not a key. -/
def ChainCellList.atLevel (ccl : ChainCellList) (l : Int) : CellList :=
  if 1 ≤ l then ccl.getD (l - 1).toNat [] else []

/-- The Go map `levelLeafCellNum` (keys `1..len`): the entry of level `l` is at
position `l - 1`. -/
abbrev LevelLeafCellNum := List Int

/-- The Go expression `levelLeafCellNum[l]`: zero for a level that is not a key. -/
def levelLeafCellNumAt (lln : LevelLeafCellNum) (l : Int) : Int :=
  if 1 ≤ l then lln.getD (l - 1).toNat 0 else 0

/-- Modelled from the spec: `CellEqual`, declared outside the listed sources ("equality
by identity"); two absent cells are equal, an absent and a present one are not. -/
def CellEqual (c1 c2 : Option Cell) : Bool :=
  decide (c1 = c2)

/-! ## Running a loop -/

/-- Run a loop body until it returns: `step` answers `none` for a panic, `Sum.inl` for
the state of the next iteration and `Sum.inr` for the returned value. -/
def runLoop {σ ρ : Type} (step : σ → Option (σ ⊕ ρ)) : Nat → σ → Option ρ
  | 0, _ => none
  | fuel + 1, st =>
    match step st with
    | none => none
    | some (Sum.inl st') => runLoop step fuel st'
    | some (Sum.inr r) => some r

/-! ## Walking the hierarchy -/

/-- The Go function `ancestorNoHigherThanNode`. -/
def ancestorNoHigherThanNode (H : Hierarchy) : Nat → Cell → Option Cell
  | 0, _ => none
  | fuel + 1, c =>
    if (H c).atOrHigherThanNode then some c
    else match (H c).parent with
      | none => some c
      | some p => ancestorNoHigherThanNode H fuel p

/-- The Go function `ancestorNoHigherThanLevel`. -/
def ancestorNoHigherThanLevel (H : Hierarchy) (withinLevel : Int) : Nat → Cell → Option Cell
  | 0, _ => none
  | fuel + 1, cell =>
    if (H cell).level ≥ withinLevel then some cell
    else match (H cell).parent with
      | none => some cell
      | some p => ancestorNoHigherThanLevel H withinLevel fuel p

/-- The Go function `isAncestor`. -/
def isAncestor (H : Hierarchy) : Nat → Cell → Cell → Option Bool
  | 0, _, _ => none
  | fuel + 1, ancestor, cell =>
    if ancestor = cell then some true
    else if (H cell).level ≥ (H ancestor).level then some false
    else match (H cell).parent with
      | none => some false
      | some p => isAncestor H fuel ancestor p

/-- The first loop of `findLCA`: lift `lower` to the level of `higher`. The inner `none`
is the Go `nil` returned when a parent is missing. -/
def findLCA.lift (H : Hierarchy) (higher : Cell) : Nat → Cell → Option (Option Cell)
  | 0, _ => none
  | fuel + 1, lower =>
    if (H lower).level < (H higher).level then
      match (H lower).parent with
      | none => some none
      | some p => findLCA.lift H higher fuel p
    else some (some lower)

/-- The second loop of `findLCA`: walk both parents in lock-step; the result is the
return value of `findLCA`. -/
def findLCA.walk (H : Hierarchy) : Nat → Cell → Cell → Option (Option Cell)
  | 0, _, _ => none
  | fuel + 1, lower, higher =>
    if !CellEqual (H lower).parent (H higher).parent then
      match (H lower).parent, (H higher).parent with
      | some pl, some ph => findLCA.walk H fuel pl ph
      | _, _ => some none
    else some (H lower).parent

/-- The Go function `findLCA`: the outer `Option` is the fuel, the inner one the Go
`nil`. -/
def findLCA (H : Hierarchy) (fuel : Nat) (lower higher : Cell) : Option (Option Cell) :=
  match findLCA.lift H higher fuel lower with
  | none => none
  | some none => some none
  | some (some lower') =>
    if CellEqual (some lower') (some higher) then some (some lower')
    else findLCA.walk H fuel lower' higher

/-- The Go function `getLeafCellsFromNode`. -/
def getLeafCellsFromNode (H : Hierarchy) (p : Int) :
    Nat → Cell → CellList → CellList → Option (CellList × CellList)
  | 0, _, _, _ => none
  | fuel + 1, c, freeLeafCells, preemptibleLeafCells =>
    if (H c).level > 1 then
      (H c).children.foldlM
        (fun acc cc => getLeafCellsFromNode H p fuel cc acc.1 acc.2)
        (freeLeafCells, preemptibleLeafCells)
    else if (H c).priority = freePriority then
      some (freeLeafCells ++ [c], preemptibleLeafCells)
    else if (H c).priority < p then
      some (freeLeafCells, preemptibleLeafCells ++ [c])
    else some (freeLeafCells, preemptibleLeafCells)

/-! ## Affinity search inside a node -/

/-- The Go function `getOptimalAffinity`; `none` is its panic. -/
def getOptimalAffinity (leafCellNum : Int) (lln : LevelLeafCellNum) : Option Int :=
  ((List.range lln.length).find? (fun i => decide (lln.getD i 0 ≥ leafCellNum))).map
    (fun (i : Nat) => (i : Int) + 1)

/-- The Go builtin `copy(l[dLo:dHi], l[sLo:sHi])` on one backing list; `none` when a
slice expression is out of range. -/
def copyWithin (l : CellList) (dLo dHi sLo sHi : Int) : Option CellList :=
  if 0 ≤ dLo ∧ dLo ≤ dHi ∧ dHi ≤ l.length ∧ 0 ≤ sLo ∧ sLo ≤ sHi ∧ sHi ≤ l.length then
    let n := min (dHi - dLo).toNat (sHi - sLo).toNat
    some (l.take dLo.toNat ++ (l.drop sLo.toNat).take n ++ l.drop (dLo.toNat + n))
  else none

/-- The first loop of `removePickedLeafCells`, from position `i` of `indices` on. -/
def removePickedLeafCells.shift :
    Nat → List Nat → CellList → Option CellList
  | _, [], leafCells => some leafCells
  | i, [index], leafCells =>
    copyWithin leafCells ((index : Int) - i) leafCells.length ((index : Int) + 1) leafCells.length
  | i, index :: nextIndex :: rest, leafCells =>
    match copyWithin leafCells ((index : Int) - i) ((nextIndex : Int) - i - 1)
        ((index : Int) + 1) nextIndex with
    | none => none
    | some l => removePickedLeafCells.shift (i + 1) (nextIndex :: rest) l

/-- The Go function `removePickedLeafCells`. The slots it sets to `nil` are the ones it
cuts off, so they are not represented. -/
def removePickedLeafCells (leafCells : CellList) (indices : List Nat) : Option CellList :=
  match removePickedLeafCells.shift 0 indices leafCells with
  | none => none
  | some l =>
    if indices.length ≤ l.length then some (l.take (l.length - indices.length)) else none

/-- The local variables of the search loop of `findLeafCellsInNode`, named as there. The
loop of `findCellsForPod` has the same variables under the names `freeCellIndex`,
`searchCellIndex`, `currentCellIndices`, `currentAffinity`, `bestAffinityCells`,
`bestAffinityCellIndices` and `bestAffinity`. -/
structure SearchState where
  availableLeafCellIndex : Nat
  searchLeafCellIndex : Nat
  currentLeafCellIndices : List Nat
  currentAffinity : List (Option Cell)
  bestAffinityLeafCells : List (Option Cell)
  bestAffinityLeafCellIndices : List Nat
  bestAffinity : Int
  deriving DecidableEq, Repr

/-- The Go function `checkCurrentLeafCells`, which is also `checkCurrentCells` of the SKU
scheduler (the same text): the new best affinity, whether it is optimal, and the two
slices it writes. `none` when an index is outside `leafCells`. -/
def checkCurrentLeafCells (affinity : Int) (leafCells : CellList)
    (currentIndices : List Nat) (bestAffinity : Int)
    (bestAffinityLeafCells : List (Option Cell)) (bestAffinityLeafCellIndices : List Nat)
    (optimalAffinity : Int) :
    Option (Int × Bool × List (Option Cell) × List Nat) :=
  if affinity < bestAffinity then
    if currentIndices.all (fun i => decide (i < leafCells.length)) then
      some (affinity, decide (affinity = optimalAffinity),
        currentIndices.map (fun i => leafCells[i]?), currentIndices)
    else none
  else some (bestAffinity, false, bestAffinityLeafCells, bestAffinityLeafCellIndices)

/-- The cells of a list in which no slot is `nil`. -/
def nonNil (l : List (Option Cell)) : CellList :=
  l.reduceOption

/-- The value that the body of the inner loop stores in
`currentAffinity[searchLeafCellIndex]` (lines 421-424) for the candidate `leafCell`: the
outer `none` is a panic (the previous affinity is `nil`) or the fuel of `findLCA`. -/
def affinitySearch.lca (H : Hierarchy) (fuel : Nat) (st : SearchState) (leafCell : Cell) :
    Option (Option Cell) :=
  if st.searchLeafCellIndex = 0 then some (some leafCell)
  else match st.currentAffinity[st.searchLeafCellIndex - 1]? with
    | some (some higher) => findLCA H fuel leafCell higher
    | _ => none

/-- The pruning test of the inner loop (lines 427-428), made only when
`searchLeafCellIndex` is not zero, for the affinity `a` just stored. -/
def affinitySearch.pruned (H : Hierarchy) (st : SearchState) (a : Option Cell) : Bool :=
  decide (st.searchLeafCellIndex ≠ 0) &&
    match a with
    | none => decide (st.bestAffinity < highestLevel)
    | some x => decide ((H x).level > st.bestAffinity)

/-- One iteration of the search loop that `findLeafCellsInNode` (lines 417-463) and
`findCellsForPod` (lines 280-324) share word for word, taken at the test of the inner
`for`: either the body of the inner loop, or the code after it. On return it hands
back `bestAffinityLeafCells` and `bestAffinityLeafCellIndices`. -/
def affinitySearch.step (H : Hierarchy) (fuel : Nat) (availableLeafCells : CellList)
    (leafCellNum : Nat) (optimalAffinity : Int) (st : SearchState) :
    Option (SearchState ⊕ (List (Option Cell) × List Nat)) :=
  if st.availableLeafCellIndex < availableLeafCells.length then
    match availableLeafCells[st.availableLeafCellIndex]? with
    | none => none
    | some leafCell =>
      if st.searchLeafCellIndex < st.currentLeafCellIndices.length ∧
          st.searchLeafCellIndex < st.currentAffinity.length then
        let indices := st.currentLeafCellIndices.set st.searchLeafCellIndex st.availableLeafCellIndex
        match affinitySearch.lca H fuel st leafCell with
        | none => none
        | some a =>
          let affinity := st.currentAffinity.set st.searchLeafCellIndex a
          if affinitySearch.pruned H st a then
            some (Sum.inl { st with
              availableLeafCellIndex := st.availableLeafCellIndex + 1
              currentLeafCellIndices := indices
              currentAffinity := affinity })
          else if st.searchLeafCellIndex + 1 = leafCellNum then
            match affinity.getLast? with
            | some (some last) =>
              match checkCurrentLeafCells (H last).level availableLeafCells indices
                  st.bestAffinity st.bestAffinityLeafCells st.bestAffinityLeafCellIndices
                  optimalAffinity with
              | none => none
              | some (best, foundOptimalAffinity, bestCells, bestIndices) =>
                if foundOptimalAffinity then some (Sum.inr (bestCells, bestIndices))
                else
                  some (Sum.inl { st with
                    availableLeafCellIndex := st.availableLeafCellIndex + 1
                    currentLeafCellIndices := indices
                    currentAffinity := affinity
                    bestAffinity := best
                    bestAffinityLeafCells := bestCells
                    bestAffinityLeafCellIndices := bestIndices })
            | _ => none
          else
            some (Sum.inl { st with
              availableLeafCellIndex := st.availableLeafCellIndex + 1
              searchLeafCellIndex := st.searchLeafCellIndex + 1
              currentLeafCellIndices := indices
              currentAffinity := affinity })
      else none
  else if st.searchLeafCellIndex = 0 then
    if st.bestAffinity = highestLevel then none
    else some (Sum.inr (st.bestAffinityLeafCells, st.bestAffinityLeafCellIndices))
  else
    match st.currentLeafCellIndices[st.searchLeafCellIndex - 1]? with
    | none => none
    | some i =>
      some (Sum.inl { st with
        availableLeafCellIndex := i + 1
        searchLeafCellIndex := st.searchLeafCellIndex - 1 })

/-- The state in which the search starts: four slices made by `make` and
`bestAffinity := highestLevel`. -/
def affinitySearch.init (leafCellNum : Nat) : SearchState where
  availableLeafCellIndex := 0
  searchLeafCellIndex := 0
  currentLeafCellIndices := List.replicate leafCellNum 0
  currentAffinity := List.replicate leafCellNum none
  bestAffinityLeafCells := List.replicate leafCellNum none
  bestAffinityLeafCellIndices := List.replicate leafCellNum 0
  bestAffinity := highestLevel

/-- The search loop run from its start: the cells with the best affinity and their
indices in `availableLeafCells`. -/
def affinitySearch (H : Hierarchy) (fuel : Nat) (availableLeafCells : CellList)
    (leafCellNum : Nat) (optimalAffinity : Int) :
    Option (List (Option Cell) × List Nat) :=
  runLoop (affinitySearch.step H fuel availableLeafCells leafCellNum optimalAffinity) fuel
    (affinitySearch.init leafCellNum)

/-- The candidate list of `findLeafCellsInNode`: the list handed in, or, when that is
`nil`, the free leaf cells of the node followed by the preemptible ones. -/
def candidateLeafCells (H : Hierarchy) (fuel : Nat) (n : Cell) (p : Int)
    (availableLeafCells : Option CellList) : Option CellList :=
  match availableLeafCells with
  | some l => some l
  | none =>
    match getLeafCellsFromNode H p fuel n [] [] with
    | none => none
    | some (freeLeafCells, preemptibleLeafCells) => some (freeLeafCells ++ preemptibleLeafCells)

/-- The Go function `findLeafCellsInNode`: the picked leaf cells and the remaining
available ones. A negative `leafCellNum` makes `make` panic. -/
def findLeafCellsInNode (H : Hierarchy) (fuel : Nat) (n : Cell) (leafCellNum : Int)
    (p : Int) (availableLeafCells : Option CellList) (lln : LevelLeafCellNum) :
    Option (CellList × CellList) :=
  if leafCellNum < 0 then none
  else
    match getOptimalAffinity leafCellNum lln with
    | none => none
    | some optimalAffinity =>
      match candidateLeafCells H fuel n p availableLeafCells with
      | none => none
      | some available =>
        match affinitySearch H fuel available leafCellNum.toNat optimalAffinity with
        | none => none
        | some (bestAffinityLeafCells, bestAffinityLeafCellIndices) =>
          (removePickedLeafCells available bestAffinityLeafCellIndices).map
            (fun rest => (nonNil bestAffinityLeafCells, rest))

/-! ## Failure reasons and sorting -/

/-- The failure reason of a schedule call. The Go code returns a string; the variant
records which `fmt.Sprintf` produced it and with which address, `none` is the empty
string. -/
inductive FailedReason
  | none
  | insufficientCapacity
  | badNode (address : CellAddress)
  | nonSuggestedNode (address : CellAddress)
  | badCell (address : CellAddress)
  deriving DecidableEq, Repr

/-- The first step of an insertion sort that moves `x` to the left while `less x y`
holds for its left neighbour `y`; the sorted part is given right to left. -/
def insertFromRight {α : Type} (less : α → α → Bool) (x : α) : List α → List α
  | [] => [x]
  | y :: ys => if less x y then y :: insertFromRight less x ys else x :: y :: ys

/-- Modelled from the spec: Go's library function `sort.Stable`, which is not part of
the repository ("stable sort"): the insertion sort the library runs on a slice,
`for j := i; j > a && Less(j, j-1); j-- { Swap(j, j-1) }`. -/
def sortStable {α : Type} (less : α → α → Bool) (l : List α) : List α :=
  (l.foldl (fun sortedRev x => insertFromRight less x sortedRev) []).reverse

/-- Modelled from the spec: `common.SortInt32`, declared outside the listed sources
("a sorted multiset of per-pod leaf counts (ascending)"). -/
def SortInt32 (l : List Int) : List Int :=
  l.insertionSort (fun a b => a ≤ b)

/-! ## Topology-aware scheduler -/

/-- The Go struct `node`. -/
structure node where
  c : Cell
  freeLeafCellNumAtPriority : Int
  usedLeafCellNumSamePriority : Int
  usedLeafCellNumHigherPriority : Int
  healthy : Bool
  suggested : Bool
  nodeAddress : CellAddress
  deriving DecidableEq, Repr

/-- The Go type `clusterView`. -/
abbrev clusterView := List node

/-- The Go struct `topologyAwareScheduler`. -/
structure topologyAwareScheduler where
  cv : clusterView
  levelLeafCellNum : LevelLeafCellNum
  crossPriorityPack : Bool
  deriving DecidableEq, Repr

/-- The Go expression `m[p]` on a usage map: zero for a missing key. -/
def usedAt (used : List (Int × Int)) (p : Int) : Int :=
  (used.lookup p).getD 0

/-- The Go method `node.updateUsedLeafCellNumForPriority`. -/
def node.updateUsedLeafCellNumForPriority (H : Hierarchy) (n : node) (p : Int)
    (crossPriorityPack : Bool) : node :=
  let used := (H n.c).usedLeafCellNumAtPriorities
  let start : node := { n with
    usedLeafCellNumSamePriority := usedAt used p
    usedLeafCellNumHigherPriority := 0
    freeLeafCellNumAtPriority := (H n.c).totalLeafCellNum }
  used.foldl (fun (acc : node) (e : Int × Int) =>
    let acc1 : node :=
      if crossPriorityPack then
        if e.1 ≠ p then
          { acc with usedLeafCellNumSamePriority := acc.usedLeafCellNumSamePriority + e.2 }
        else acc
      else if e.1 > p then
        { acc with usedLeafCellNumHigherPriority := acc.usedLeafCellNumHigherPriority + e.2 }
      else acc
    if e.1 ≥ p then
      { acc1 with freeLeafCellNumAtPriority := acc1.freeLeafCellNumAtPriority - e.2 }
    else acc1) start

/-- The Go method `clusterView.containsCell`. -/
def clusterView.containsCell (cv : clusterView) (c : Cell) : Bool :=
  cv.any (fun n => CellEqual (some c) (some n.c))

/-- The first loop of `newClusterView`: the lowest level whose first cell is at or above
node level, `len(ccl) + 1` when there is none; `none` when a level has no cell. -/
def newClusterView.nodeLevel (H : Hierarchy) (ccl : ChainCellList) : Nat → Nat → Option Int
  | 0, l => some l
  | remaining + 1, l =>
    match (ccl.atLevel l).head? with
    | none => none
    | some c =>
      if (H c).atOrHigherThanNode then some l
      else newClusterView.nodeLevel H ccl remaining (l + 1)

/-- The levels `l, l - 1, ..., 1` visited by a loop `for ; l >= 1; l--`. -/
def levelsDownFrom (l : Int) : List Int :=
  (List.range l.toNat).reverse.map (fun (i : Nat) => (i : Int) + 1)

/-- The Go literal `&node{c: c}`: the other fields have their zero values. -/
def node.ofCell (c : Cell) : node where
  c := c
  freeLeafCellNumAtPriority := 0
  usedLeafCellNumSamePriority := 0
  usedLeafCellNumHigherPriority := 0
  healthy := false
  suggested := false
  nodeAddress := ""

/-- The Go function `newClusterView`. -/
def newClusterView (H : Hierarchy) (fuel : Nat) (ccl : ChainCellList) : Option clusterView :=
  match newClusterView.nodeLevel H ccl ccl.length 1 with
  | none => none
  | some l =>
    (levelsDownFrom l).foldlM (fun cv l' =>
      (ccl.atLevel l').foldlM (fun (cv : clusterView) c =>
        match ancestorNoHigherThanNode H fuel c with
        | none => none
        | some a =>
          if !cv.containsCell a then
            some (cv ++ [node.ofCell c])
          else some cv) cv) []

/-- The Go function `NewTopologyAwareScheduler`. -/
def NewTopologyAwareScheduler (H : Hierarchy) (fuel : Nat) (ccl : ChainCellList)
    (levelLeafCellNum : LevelLeafCellNum) (crossPriorityPack : Bool) :
    Option topologyAwareScheduler :=
  (newClusterView H fuel ccl).map (fun cv =>
    { cv := cv, levelLeafCellNum := levelLeafCellNum, crossPriorityPack := crossPriorityPack })

/-- The Go method `clusterView.Less`, on two entries. -/
def clusterView.Less (a b : node) : Bool :=
  if a.healthy ≠ b.healthy then a.healthy
  else if a.suggested ≠ b.suggested then a.suggested
  else if a.usedLeafCellNumSamePriority > b.usedLeafCellNumSamePriority then true
  else if a.usedLeafCellNumSamePriority < b.usedLeafCellNumSamePriority then false
  else if a.usedLeafCellNumHigherPriority < b.usedLeafCellNumHigherPriority then true
  else false

/-- The value `ignoreSuggestedNodes || suggestedNodes.Contains(nodeNames[0])`; `none`
when `nodeNames[0]` is evaluated on an empty list. -/
def inSuggested (nodeNames : List String) (suggestedNodes : List String)
    (ignoreSuggestedNodes : Bool) : Option Bool :=
  if ignoreSuggestedNodes then some true
  else nodeNames.head?.map (fun name => suggestedNodes.contains name)

/-- The Go function `nodeHealthyAndInSuggested`. -/
def nodeHealthyAndInSuggested (H : Hierarchy) (n : node) (suggestedNodes : List String)
    (ignoreSuggestedNodes : Bool) : Option (Bool × Bool × CellAddress) :=
  match (H n.c).kind with
  | CellKind.physical healthy nodeNames =>
    (inSuggested nodeNames suggestedNodes ignoreSuggestedNodes).map
      (fun s => (healthy, s, (H n.c).address))
  | CellKind.virtual (some pn) =>
    match (H pn).kind with
    | CellKind.physical healthy nodeNames =>
      (inSuggested nodeNames suggestedNodes ignoreSuggestedNodes).map
        (fun s => (healthy, s, (H pn).address))
    | CellKind.virtual _ => none
  | CellKind.virtual none => some (true, true, "")

/-- The Go method `topologyAwareScheduler.updateClusterView`, returning the new view. -/
def topologyAwareScheduler.updateClusterView (H : Hierarchy) (t : topologyAwareScheduler)
    (p : Int) (suggestedNodes : List String) (ignoreSuggestedNodes : Bool) :
    Option clusterView :=
  t.cv.mapM (fun n =>
    let n1 := n.updateUsedLeafCellNumForPriority H p t.crossPriorityPack
    (nodeHealthyAndInSuggested H n1 suggestedNodes ignoreSuggestedNodes).map
      (fun r => { n1 with healthy := r.1, suggested := r.2.1, nodeAddress := r.2.2 }))

/-- The local variables of the loop of `findNodesForPods`. -/
structure PickState where
  nodeIndex : Nat
  podIndex : Nat
  pickedLeafCellNum : Int
  pickedNodeIndices : List Nat
  deriving DecidableEq, Repr

/-- One iteration of the loop of `findNodesForPods` over the sorted view, taken at the
loop test. The result is the pair returned: the picked indices (`none` for `nil`) and
the failure reason. -/
def findNodesForPods.step (cv : clusterView) (leafCellNums : List Int) (st : PickState) :
    Option (PickState ⊕ (Option (List Nat) × FailedReason)) :=
  match cv[st.nodeIndex]? with
  | none => some (Sum.inr (none, FailedReason.insufficientCapacity))
  | some n =>
    match leafCellNums[st.podIndex]? with
    | none => none
    | some leafCellNum =>
      if n.freeLeafCellNumAtPriority - st.pickedLeafCellNum ≥ leafCellNum then
        if !n.healthy then some (Sum.inr (none, FailedReason.badNode n.nodeAddress))
        else if !n.suggested then
          some (Sum.inr (none, FailedReason.nonSuggestedNode n.nodeAddress))
        else
          let picked := st.pickedNodeIndices.set st.podIndex st.nodeIndex
          if st.podIndex + 1 = leafCellNums.length then
            some (Sum.inr (some picked, FailedReason.none))
          else
            some (Sum.inl { st with
              pickedNodeIndices := picked
              pickedLeafCellNum := st.pickedLeafCellNum + leafCellNum
              podIndex := st.podIndex + 1 })
      else
        some (Sum.inl { st with pickedLeafCellNum := 0, nodeIndex := st.nodeIndex + 1 })

/-- The Go function `findNodesForPods`: the view as `sort.Stable` leaves it, the picked
node indices (`none` for `nil`) and the failure reason. Every iteration advances the pod
or the node, which bounds the number of iterations. -/
def findNodesForPods (cv : clusterView) (leafCellNums : List Int) :
    Option (clusterView × Option (List Nat) × FailedReason) :=
  let sorted := sortStable clusterView.Less cv
  (runLoop (findNodesForPods.step sorted leafCellNums)
    (sorted.length + leafCellNums.length + 1)
    { nodeIndex := 0, podIndex := 0, pickedLeafCellNum := 0,
      pickedNodeIndices := List.replicate leafCellNums.length 0 }).map
    (fun r => (sorted, r))

/-- The first loop of `Schedule` followed by `common.SortInt32`: one entry per pod. -/
def sortedPodLeafCellNumbers (podLeafCellNumbers : List (Int × Int)) : List Int :=
  SortInt32 (podLeafCellNumbers.flatMap (fun e => List.replicate e.2.toNat e.1))

/-- The Go statement `podPlacements[k] = append(podPlacements[k], cells)` on a map kept
as an association list. -/
def appendPlacement (podPlacements : List (Int × List CellList)) (k : Int) (cells : CellList) :
    List (Int × List CellList) :=
  match podPlacements with
  | [] => [(k, [cells])]
  | e :: rest =>
    if e.1 = k then (k, e.2 ++ [cells]) :: rest else e :: appendPlacement rest k cells

/-- The last loop of `Schedule`: the leaf cells of every pod inside its selected node,
from pod `podIndex` on. -/
def topologyAwareScheduler.placePods (H : Hierarchy) (fuel : Nat) (lln : LevelLeafCellNum)
    (priority : Int) :
    List (Int × Cell) → (Cell → Option CellList) → List (Int × List CellList) →
      Option (List (Int × List CellList))
  | [], _, podPlacements => some podPlacements
  | (leafCellNumber, n) :: rest, nodeAvailableLeafCells, podPlacements =>
    match findLeafCellsInNode H fuel n leafCellNumber priority (nodeAvailableLeafCells n) lln with
    | none => none
    | some (selectedLeafCells, available) =>
      topologyAwareScheduler.placePods H fuel lln priority rest
        (Function.update nodeAvailableLeafCells n (some available))
        (appendPlacement podPlacements leafCellNumber selectedLeafCells)

/-- One pass of `Schedule` at a given priority: `updateClusterView` followed by
`findNodesForPods`. -/
def topologyAwareScheduler.pass (H : Hierarchy) (t : topologyAwareScheduler)
    (priority : Int) (suggestedNodes : List String) (ignoreSuggestedNodes : Bool)
    (leafCellNums : List Int) : Option (clusterView × Option (List Nat) × FailedReason) :=
  match t.updateClusterView H priority suggestedNodes ignoreSuggestedNodes with
  | none => none
  | some cv => findNodesForPods cv leafCellNums

/-- The node selection of `Schedule`: the first pass at `opportunisticPriority` and, when
it fails and `p` is higher, the second pass at `p`. The result is the priority of the
pass that counts, with what that pass returned. -/
def topologyAwareScheduler.selectNodes (H : Hierarchy) (t : topologyAwareScheduler)
    (p : Int) (suggestedNodes : List String) (ignoreSuggestedNodes : Bool)
    (leafCellNums : List Int) :
    Option (Int × clusterView × Option (List Nat) × FailedReason) :=
  match t.pass H opportunisticPriority suggestedNodes ignoreSuggestedNodes leafCellNums with
  | none => none
  | some (cv, selectedNodeIndices, failedReason) =>
    if selectedNodeIndices.isNone ∧ p > opportunisticPriority then
      ({ t with cv := cv }.pass H p suggestedNodes ignoreSuggestedNodes leafCellNums).map
        (fun r => (p, r))
    else some (opportunisticPriority, cv, selectedNodeIndices, failedReason)

/-- The Go method `topologyAwareScheduler.Schedule`: the placements (a map kept as an
association list, empty for `nil`) and the failure reason. -/
def topologyAwareScheduler.Schedule (H : Hierarchy) (fuel : Nat) (t : topologyAwareScheduler)
    (podLeafCellNumbers : List (Int × Int)) (p : Int) (suggestedNodes : List String)
    (ignoreSuggestedNodes : Bool) : Option (List (Int × List CellList) × FailedReason) :=
  let sorted := sortedPodLeafCellNumbers podLeafCellNumbers
  match t.selectNodes H p suggestedNodes ignoreSuggestedNodes sorted with
  | none => none
  | some (_, _, none, failedReason) => some ([], failedReason)
  | some (priority, cv, some selectedNodeIndices, _) =>
    match selectedNodeIndices.mapM (fun i => cv[i]?.map (fun (n : node) => n.c)) with
    | none => none
    | some selectedNodes =>
      (topologyAwareScheduler.placePods H fuel t.levelLeafCellNum priority
        (sorted.zip selectedNodes) (fun _ => none) []).map
        (fun podPlacements => (podPlacements, FailedReason.none))

/-! ## SKU scheduler -/

/-- The Go struct `apiv2.PodGroupMemberSpec`, with the fields the scheduler reads
(`CellType` and `CellNumber` are the fields of its `CellsPerPod`). -/
structure PodGroupMemberSpec where
  PodMinNumber : Int
  CellType : CellType
  CellNumber : Int
  deriving DecidableEq, Repr

/-- The Go struct `apiv2.PodGroupSpec`, with the fields the scheduler reads. -/
inductive PodGroupSpec
  | mk (Pods : List PodGroupMemberSpec) (ChildGroups : List PodGroupSpec)
      (WithinOneCell : CellType)
  deriving Repr

/-- The field `Pods`. -/
def PodGroupSpec.Pods : PodGroupSpec → List PodGroupMemberSpec
  | PodGroupSpec.mk pods _ _ => pods

/-- The field `ChildGroups`. -/
def PodGroupSpec.ChildGroups : PodGroupSpec → List PodGroupSpec
  | PodGroupSpec.mk _ childGroups _ => childGroups

/-- The field `WithinOneCell`. -/
def PodGroupSpec.WithinOneCell : PodGroupSpec → CellType
  | PodGroupSpec.mk _ _ withinOneCell => withinOneCell

/-- The Go struct `PodGroupPlacement`. -/
inductive PodGroupPlacement
  | mk (podsPlacement : List CellList) (childGroupsPlacement : List PodGroupPlacement)
  deriving Repr

/-- The field `podsPlacement`. -/
def PodGroupPlacement.podsPlacement : PodGroupPlacement → List CellList
  | PodGroupPlacement.mk podsPlacement _ => podsPlacement

/-- The field `childGroupsPlacement`. -/
def PodGroupPlacement.childGroupsPlacement : PodGroupPlacement → List PodGroupPlacement
  | PodGroupPlacement.mk _ childGroupsPlacement => childGroupsPlacement

mutual
/-- Equality of two placements can be decided. -/
def PodGroupPlacement.decEq : (a b : PodGroupPlacement) → Decidable (a = b)
  | PodGroupPlacement.mk p1 c1, PodGroupPlacement.mk p2 c2 =>
    match (inferInstance : Decidable (p1 = p2)), PodGroupPlacement.decEqGroups c1 c2 with
    | isTrue h1, isTrue h2 => isTrue (by rw [h1, h2])
    | isFalse h1, _ => isFalse (by intro h; cases h; exact h1 rfl)
    | _, isFalse h2 => isFalse (by intro h; cases h; exact h2 rfl)
/-- Equality of two lists of placements can be decided. -/
def PodGroupPlacement.decEqGroups : (a b : List PodGroupPlacement) → Decidable (a = b)
  | [], [] => isTrue rfl
  | [], _ :: _ => isFalse (by intro h; cases h)
  | _ :: _, [] => isFalse (by intro h; cases h)
  | x :: xs, y :: ys =>
    match PodGroupPlacement.decEq x y, PodGroupPlacement.decEqGroups xs ys with
    | isTrue h1, isTrue h2 => isTrue (by rw [h1, h2])
    | isFalse h1, _ => isFalse (by intro h; cases h; exact h1 rfl)
    | _, isFalse h2 => isFalse (by intro h; cases h; exact h2 rfl)
end

instance : DecidableEq PodGroupPlacement := PodGroupPlacement.decEq

mutual
/-- Modelled from the spec: `PodGroupPlacement.Iterator`, declared outside the listed
sources ("iteration yields every leaf-cell list across the tree in deterministic
traversal order"): the cell lists of the group, then those of its child groups. -/
def PodGroupPlacement.cellLists : PodGroupPlacement → List CellList
  | PodGroupPlacement.mk podsPlacement childGroupsPlacement =>
    podsPlacement ++ PodGroupPlacement.cellListsOfGroups childGroupsPlacement
/-- The cell lists of a list of placements, in order. -/
def PodGroupPlacement.cellListsOfGroups : List PodGroupPlacement → List CellList
  | [] => []
  | g :: rest => g.cellLists ++ PodGroupPlacement.cellListsOfGroups rest
end

mutual
/-- The assignment `*cells = f(*cells)` done on every cell list the iterator yields. -/
def PodGroupPlacement.mapCellLists (f : CellList → CellList) : PodGroupPlacement → PodGroupPlacement
  | PodGroupPlacement.mk podsPlacement childGroupsPlacement =>
    PodGroupPlacement.mk (podsPlacement.map f)
      (PodGroupPlacement.mapCellListsOfGroups f childGroupsPlacement)
/-- The same assignment in a list of placements. -/
def PodGroupPlacement.mapCellListsOfGroups (f : CellList → CellList) :
    List PodGroupPlacement → List PodGroupPlacement
  | [] => []
  | g :: rest => g.mapCellLists f :: PodGroupPlacement.mapCellListsOfGroups f rest
end

/-- The Go struct `skuCell`. -/
structure skuCell where
  cell : Cell
  freeLeafCellNumAtPriority : Int
  usedLeafCellNumAtPriority : Int
  usedLeafCellNumHigherPriority : Int
  healthy : Bool
  address : CellAddress
  deriving DecidableEq, Repr

/-- The Go type `skuClusterView`. -/
abbrev skuClusterView := List skuCell

/-- The Go struct `skuScheduler`; `cellLevels` is a Go map, read with zero for a missing
key. -/
structure skuScheduler where
  chainCellList : ChainCellList
  levelLeafCellNum : LevelLeafCellNum
  cellLevels : CellType → Int
  crossPriorityPack : Bool

/-- The Go method `skuClusterView.Less`, on two entries. -/
def skuClusterView.Less (H : Hierarchy) (a b : skuCell) : Bool :=
  if a.healthy ≠ b.healthy then a.healthy
  else if (H a.cell).level ≠ (H b.cell).level then
    decide ((H a.cell).level < (H b.cell).level)
  else if a.usedLeafCellNumAtPriority ≠ b.usedLeafCellNumAtPriority then
    decide (a.usedLeafCellNumAtPriority > b.usedLeafCellNumAtPriority)
  else if a.usedLeafCellNumHigherPriority ≠ b.usedLeafCellNumHigherPriority then
    decide (a.usedLeafCellNumHigherPriority < b.usedLeafCellNumHigherPriority)
  else true

/-- The Go method `skuClusterView.containsAncestor`. -/
def skuClusterView.containsAncestor (cv : skuClusterView) (cell : Cell) : Bool :=
  cv.any (fun withinCell => CellEqual (some cell) (some withinCell.cell))

/-- The entry that `createSkuClusterView` builds for the cell `c` (lines 407-439). -/
def skuScheduler.newSkuCell (H : Hierarchy) (s : skuScheduler) (priority : Int)
    (c : Cell) : Option skuCell :=
  let start : skuCell :=
    { cell := c, freeLeafCellNumAtPriority := (H c).totalLeafCellNum,
      usedLeafCellNumAtPriority := 0, usedLeafCellNumHigherPriority := 0,
      healthy := true, address := "" }
  let counted := (H c).usedLeafCellNumAtPriorities.foldl
    (fun (cell : skuCell) (e : Int × Int) =>
      let cell1 : skuCell :=
        if e.1 ≥ priority then
          { cell with freeLeafCellNumAtPriority := cell.freeLeafCellNumAtPriority - e.2 }
        else cell
      if s.crossPriorityPack then
        { cell1 with usedLeafCellNumAtPriority := cell1.usedLeafCellNumAtPriority + e.2 }
      else
        let cell2 : skuCell :=
          if e.1 = priority then
            { cell1 with usedLeafCellNumAtPriority := cell1.usedLeafCellNumAtPriority + e.2 }
          else cell1
        if e.1 > priority then
          { cell2 with usedLeafCellNumHigherPriority := cell2.usedLeafCellNumHigherPriority + e.2 }
        else cell2) start
  match (H c).kind with
  | CellKind.physical healthy _ =>
    some { counted with healthy := healthy, address := (H c).address }
  | CellKind.virtual (some pn) =>
    match (H pn).kind with
    | CellKind.physical healthy _ =>
      some { counted with healthy := healthy, address := (H pn).address }
    | CellKind.virtual _ => none
  | CellKind.virtual none => some counted

/-- The Go method `skuScheduler.createSkuClusterView`. -/
def skuScheduler.createSkuClusterView (H : Hierarchy) (s : skuScheduler) (fuel : Nat)
    (within : Option skuCell) (withinLevel : Int) (priority : Int) :
    Option skuClusterView :=
  ((levelsDownFrom withinLevel).foldlM (fun cv l =>
    (s.chainCellList.atLevel l).foldlM (fun (cv : skuClusterView) c =>
      match (match within with
        | none => some true
        | some w => isAncestor H fuel w.cell c) with
      | none => none
      | some false => some cv
      | some true =>
        match ancestorNoHigherThanLevel H withinLevel fuel c with
        | none => none
        | some a =>
          if cv.containsAncestor a then some cv
          else (s.newSkuCell H priority c).map (fun cell => cv ++ [cell])) cv) []).map
    (fun cv => sortStable (skuClusterView.Less H) cv)

/-- The Go method `skuScheduler.getNodeLevel`; `none` when a level has no cell. -/
def skuScheduler.getNodeLevel (H : Hierarchy) (s : skuScheduler) : Nat → Nat → Option Int
  | 0, _ => some (-1)
  | remaining + 1, l =>
    match (s.chainCellList.atLevel l).head? with
    | none => none
    | some c =>
      if (H c).atOrHigherThanNode then some l
      else skuScheduler.getNodeLevel H s remaining (l + 1)

/-- The loop of `getFreeCellsAtLevel` that looks for an allocated cell above or below
`cell`. -/
def getFreeCellsAtLevel.isAllocated (H : Hierarchy) (fuel : Nat) (cell : Cell) :
    CellList → Option Bool
  | [] => some false
  | c :: rest =>
    match isAncestor H fuel cell c with
    | none => none
    | some true => some true
    | some false =>
      match isAncestor H fuel c cell with
      | none => none
      | some true => some true
      | some false => getFreeCellsAtLevel.isAllocated H fuel cell rest

/-- The Go function `getFreeCellsAtLevel`. -/
def getFreeCellsAtLevel (H : Hierarchy) (level : Int) (priority : Int)
    (allocatedCells : CellList) :
    Nat → Cell → CellList → CellList → Option (CellList × CellList)
  | 0, _, _, _ => none
  | fuel + 1, cell, freeCells, preemptibleCells =>
    if (H cell).level > level then
      (H cell).children.foldlM
        (fun acc c => getFreeCellsAtLevel H level priority allocatedCells fuel c acc.1 acc.2)
        (freeCells, preemptibleCells)
    else if (H cell).level = level then
      match getFreeCellsAtLevel.isAllocated H (fuel + 1) cell allocatedCells with
      | none => none
      | some true => some (freeCells, preemptibleCells)
      | some false =>
        if (H cell).priority = freePriority then some (freeCells ++ [cell], preemptibleCells)
        else if (H cell).priority < priority then some (freeCells, preemptibleCells ++ [cell])
        else some (freeCells, preemptibleCells)
    else some (freeCells, preemptibleCells)

/-- The loop of `findCellsForPod` that computes `optimalAffinity` (lines 272-278). -/
def findCellsForPod.optimalAffinity (lln : LevelLeafCellNum) (currLevel : Int)
    (cellNumber : Int) : Int :=
  (((List.range lln.length).map (fun (i : Nat) => (i : Int) + 1)).find?
    (fun l => decide (currLevel ≤ l) &&
      decide (levelLeafCellNumAt lln l ≥ levelLeafCellNumAt lln currLevel * cellNumber))).getD 1

/-- The Go method `skuScheduler.findCellsForPod`: the outer `Option` is a panic or the
fuel, the inner one the Go `nil`. -/
def skuScheduler.findCellsForPod (H : Hierarchy) (s : skuScheduler) (fuel : Nat)
    (pod : PodGroupMemberSpec) (priority : Int) (within : skuCell)
    (allocatedCells : CellList) : Option (Option CellList) :=
  let currLevel := s.cellLevels pod.CellType
  match getFreeCellsAtLevel H currLevel priority allocatedCells fuel within.cell [] [] with
  | none => none
  | some (freeCells0, preemptibleCells) =>
    let freeCells := freeCells0 ++ preemptibleCells
    if pod.CellNumber > freeCells.length then some none
    else if pod.CellNumber < 0 then none
    else
      (affinitySearch H fuel freeCells pod.CellNumber.toNat
        (findCellsForPod.optimalAffinity s.levelLeafCellNum currLevel pod.CellNumber)).map
        (fun r => some (nonNil r.1))

/-- The local variables of the loop of `findCellsForPods`. -/
structure PodsState where
  withinCellIndex : Nat
  podIndex : Nat
  placement : List CellList
  allocatedCells : CellList
  deriving DecidableEq, Repr

/-- One iteration of the loop of `findCellsForPods`, taken at the loop test. -/
def skuScheduler.findCellsForPods.step (H : Hierarchy) (s : skuScheduler) (fuel : Nat)
    (pods : List PodGroupMemberSpec) (priority : Int) (cv : skuClusterView)
    (st : PodsState) : Option (PodsState ⊕ (List CellList × FailedReason)) :=
  match pods[st.podIndex]? with
  | none => some (Sum.inr (st.placement, FailedReason.none))
  | some pod =>
    match cv[st.withinCellIndex]? with
    | none => some (Sum.inr ([], FailedReason.insufficientCapacity))
    | some withinCell =>
      if !withinCell.healthy then some (Sum.inr ([], FailedReason.badCell withinCell.address))
      else
        match s.findCellsForPod H fuel pod priority withinCell st.allocatedCells with
        | none => none
        | some none => some (Sum.inl { st with withinCellIndex := st.withinCellIndex + 1 })
        | some (some podPlacement) =>
          some (Sum.inl { st with
            placement := st.placement ++ [podPlacement]
            allocatedCells := st.allocatedCells ++ podPlacement
            podIndex := st.podIndex + 1 })

/-- The cells of an allocated placement, as the first loop of `findCellsForPods`
collects them; a `nil` placement has none. -/
def allocatedCellsOf (allocated : Option PodGroupPlacement) : CellList :=
  match allocated with
  | none => []
  | some placement => placement.cellLists.flatten

/-- The Go method `skuScheduler.findCellsForPods`. Every iteration advances the pod or
the candidate cell, which bounds the number of iterations. -/
def skuScheduler.findCellsForPods (H : Hierarchy) (s : skuScheduler) (fuel : Nat)
    (pods : List PodGroupMemberSpec) (priority : Int) (within : skuCell)
    (allocated : Option PodGroupPlacement) : Option (List CellList × FailedReason) :=
  match s.getNodeLevel H s.chainCellList.length 1 with
  | none => none
  | some nodeLevel =>
    match (if (H within.cell).level > nodeLevel then
        s.createSkuClusterView H fuel (some within) nodeLevel priority
      else some [within]) with
    | none => none
    | some cv =>
      runLoop (skuScheduler.findCellsForPods.step H s fuel pods priority cv)
        (pods.length + cv.length + 1)
        { withinCellIndex := 0, podIndex := 0, placement := [],
          allocatedCells := allocatedCellsOf allocated }

/-- The inner loop of `findCellsForPodGroup` over the child groups (lines 177-187);
`recur` is the recursive call, given the child group and the placement so far. -/
def skuScheduler.findCellsForPodGroup.children
    (recur : PodGroupSpec → PodGroupPlacement → Option (PodGroupPlacement × FailedReason)) :
    List PodGroupSpec → PodGroupPlacement → Option (PodGroupPlacement × FailedReason)
  | [], placement => some (placement, FailedReason.none)
  | childGroup :: rest, placement =>
    match recur childGroup placement with
    | none => none
    | some (childPodsPlacement, childFailedReason) =>
      if childFailedReason ≠ FailedReason.none then
        some (PodGroupPlacement.mk placement.podsPlacement [], childFailedReason)
      else
        skuScheduler.findCellsForPodGroup.children recur rest
          (PodGroupPlacement.mk placement.podsPlacement
            (placement.childGroupsPlacement ++ [childPodsPlacement]))

/-- The outer loop of `findCellsForPodGroup` over the candidate cells (lines 170-192);
`recur` is the recursive call, given the child group, the candidate cell and the
placement so far. -/
def skuScheduler.findCellsForPodGroup.candidates (H : Hierarchy) (s : skuScheduler)
    (fuel : Nat) (podGroup : PodGroupSpec) (priority : Int)
    (allocated : Option PodGroupPlacement)
    (recur : PodGroupSpec → skuCell → PodGroupPlacement →
      Option (PodGroupPlacement × FailedReason)) :
    List skuCell → PodGroupPlacement → FailedReason → Option (PodGroupPlacement × FailedReason)
  | [], placement, failedReason => some (placement, failedReason)
  | withinCell :: rest, placement, _ =>
    if podGroup.Pods.length > 0 ∧ withinCell.healthy = false then
      some (PodGroupPlacement.mk [] [], FailedReason.badCell withinCell.address)
    else
      match s.findCellsForPods H fuel podGroup.Pods priority withinCell allocated with
      | none => none
      | some (podsPlacement, failedReason) =>
        let placement1 := PodGroupPlacement.mk podsPlacement placement.childGroupsPlacement
        if failedReason = FailedReason.none then
          match skuScheduler.findCellsForPodGroup.children
              (fun childGroup placement => recur childGroup withinCell placement)
              podGroup.ChildGroups placement1 with
          | none => none
          | some (placement2, failedReason2) =>
            if failedReason2 = FailedReason.none then some (placement2, FailedReason.none)
            else
              skuScheduler.findCellsForPodGroup.candidates H s fuel podGroup priority
                allocated recur rest placement2 failedReason2
        else
          skuScheduler.findCellsForPodGroup.candidates H s fuel podGroup priority
            allocated recur rest placement1 failedReason

/-- The Go method `skuScheduler.findCellsForPodGroup`. -/
def skuScheduler.findCellsForPodGroup (H : Hierarchy) (s : skuScheduler) :
    Nat → PodGroupSpec → Int → Option skuCell → Option PodGroupPlacement →
      Option (PodGroupPlacement × FailedReason)
  | 0, _, _, _, _ => none
  | fuel + 1, podGroup, priority, within, allocated =>
    match s.createSkuClusterView H fuel within (s.cellLevels podGroup.WithinOneCell) priority with
    | none => none
    | some cv =>
      skuScheduler.findCellsForPodGroup.candidates H s fuel podGroup priority allocated
        (fun childGroup withinCell placement =>
          skuScheduler.findCellsForPodGroup H s fuel childGroup priority (some withinCell)
            (some placement))
        cv (PodGroupPlacement.mk [] []) FailedReason.none

/-- The Go method `skuScheduler.countLeafCellNums` on a member spec. -/
def skuScheduler.countLeafCellNums (s : skuScheduler) (p : PodGroupMemberSpec) : Int :=
  levelLeafCellNumAt s.levelLeafCellNum (s.cellLevels p.CellType) * p.CellNumber

mutual
/-- The Go method `skuScheduler.countLeafCellNums` on a pod group. -/
def skuScheduler.countLeafCellNumsOfGroup (s : skuScheduler) : PodGroupSpec → Int
  | PodGroupSpec.mk pods childGroups _ =>
    (pods.map s.countLeafCellNums).sum + skuScheduler.countLeafCellNumsOfGroups s childGroups
/-- The Go method `skuScheduler.countLeafCellNums` on a list of pod groups. -/
def skuScheduler.countLeafCellNumsOfGroups (s : skuScheduler) : List PodGroupSpec → Int
  | [] => 0
  | g :: rest =>
    skuScheduler.countLeafCellNumsOfGroup s g + skuScheduler.countLeafCellNumsOfGroups s rest
end

mutual
/-- The Go method `skuScheduler.sortPodGroup`, returning the pod group it leaves.
`sort.SliceStable` orders the child groups by the counts they have before the calls
`s.sortPodGroup(g)` change them: every child group is paired with that count, and the
pairs are sorted by it. -/
def skuScheduler.sortPodGroup (s : skuScheduler) : PodGroupSpec → PodGroupSpec
  | PodGroupSpec.mk pods childGroups withinOneCell =>
    PodGroupSpec.mk
      ((sortStable (fun a b => decide (s.countLeafCellNums a > s.countLeafCellNums b)) pods).flatMap
        (fun p => List.replicate p.PodMinNumber.toNat p))
      ((sortStable (fun (a b : Int × PodGroupSpec) => decide (a.1 > b.1))
        (skuScheduler.sortPodGroups s childGroups)).map Prod.snd)
      withinOneCell
/-- Every child group as the call `s.sortPodGroup(g)` leaves it, with the count that
`s.countLeafCellNums(g)` gives before that call. -/
def skuScheduler.sortPodGroups (s : skuScheduler) :
    List PodGroupSpec → List (Int × PodGroupSpec)
  | [] => []
  | g :: rest =>
    (skuScheduler.countLeafCellNumsOfGroup s g, skuScheduler.sortPodGroup s g) ::
      skuScheduler.sortPodGroups s rest
end

/-- The loop `for currLevelCells[0].GetLevel() > CellLevel(1)` of `Schedule` (lines
104-110): the cells are replaced by their children until the first one is a leaf. -/
def skuScheduler.Schedule.expand (H : Hierarchy) : Nat → CellList → Option CellList
  | 0, _ => none
  | fuel + 1, currLevelCells =>
    match currLevelCells.head? with
    | none => none
    | some c =>
      if (H c).level > 1 then
        skuScheduler.Schedule.expand H fuel (currLevelCells.flatMap (fun cc => (H cc).children))
      else some currLevelCells

/-- The body of the iterator loop of `Schedule` (lines 101-113): the leaf cells that
replace one cell list. -/
def skuScheduler.Schedule.leafCells (H : Hierarchy) (fuel : Nat) : CellList → Option CellList
  | [] => some []
  | c :: rest =>
    match skuScheduler.Schedule.expand H fuel [c] with
    | none => none
    | some currLevelCells =>
      (skuScheduler.Schedule.leafCells H fuel rest).map (fun l => currLevelCells ++ l)

/-- The two passes of `Schedule` (lines 90-96): the placement and the failure reason
before the conversion to leaf cells. -/
def skuScheduler.Schedule.passes (H : Hierarchy) (s : skuScheduler) (fuel : Nat)
    (podRootGroup : PodGroupSpec) (priority : Int) :
    Option (PodGroupPlacement × FailedReason) :=
  match s.findCellsForPodGroup H fuel podRootGroup opportunisticPriority none none with
  | none => none
  | some (placement, failedReason) =>
    if failedReason ≠ FailedReason.none ∧ priority > opportunisticPriority then
      s.findCellsForPodGroup H fuel podRootGroup priority none none
    else some (placement, failedReason)

/-- The conversion of `Schedule` (lines 98-115): on success every cell list of the
placement is replaced by its leaf cells; a failure is returned as it is. -/
def skuScheduler.Schedule.convert (H : Hierarchy) (fuel : Nat)
    (r : PodGroupPlacement × FailedReason) : Option (PodGroupPlacement × FailedReason) :=
  if r.2 = FailedReason.none then
    if r.1.cellLists.all (fun cells => (skuScheduler.Schedule.leafCells H fuel cells).isSome) then
      some (r.1.mapCellLists (fun cells =>
        (skuScheduler.Schedule.leafCells H fuel cells).getD []), r.2)
    else none
  else some r

/-- The Go method `skuScheduler.Schedule`. -/
def skuScheduler.Schedule (H : Hierarchy) (s : skuScheduler) (fuel : Nat)
    (podRootGroup : PodGroupSpec) (priority : Int) :
    Option (PodGroupPlacement × FailedReason) :=
  match skuScheduler.Schedule.passes H s fuel (s.sortPodGroup podRootGroup) priority with
  | none => none
  | some r => skuScheduler.Schedule.convert H fuel r

/-- One pass of the topology-aware `Schedule` at a given priority carried through to the
end: node selection, then the leaf cells of every pod. -/
def topologyAwareScheduler.passResult (H : Hierarchy) (fuel : Nat) (t : topologyAwareScheduler)
    (priority : Int) (suggestedNodes : List String) (ignoreSuggestedNodes : Bool)
    (leafCellNums : List Int) : Option (List (Int × List CellList) × FailedReason) :=
  match t.pass H priority suggestedNodes ignoreSuggestedNodes leafCellNums with
  | none => none
  | some (_, none, failedReason) => some ([], failedReason)
  | some (cv, some selectedNodeIndices, _) =>
    match selectedNodeIndices.mapM (fun i => cv[i]?.map (fun (n : node) => n.c)) with
    | none => none
    | some selectedNodes =>
      (topologyAwareScheduler.placePods H fuel t.levelLeafCellNum priority
        (leafCellNums.zip selectedNodes) (fun _ => none) []).map
        (fun podPlacements => (podPlacements, FailedReason.none))

/-! ## An example cluster

The topology of the end-to-end scenarios: one chain with the level map
`1:1, 2:2, 3:4, 4:8` and two nodes of eight leaf cells. Leaf cells are `0..15`, the
cells of level 2 are `16..23`, those of level 3 are `24..27`, the nodes are `28` and
`29`; every other identity is a lone leaf. -/

/-- The leaf cells below a cell of the example cluster. -/
def exampleLeaves (c : Nat) : CellList :=
  if c < 16 then [c]
  else if c < 24 then List.range' (2 * (c - 16)) 2
  else if c < 28 then List.range' (4 * (c - 24)) 4
  else if c < 30 then List.range' (8 * (c - 28)) 8
  else [c]

/-- The usage map of a cell of the example cluster, for leaf priorities `prio`. -/
def exampleUsage (prio : Nat → Int) (c : Nat) : List (Int × Int) :=
  ([-1, 0, 1, 2, 3, 4, 5] : List Int).filterMap (fun q =>
    let used := ((exampleLeaves c).filter (fun l => decide (prio l = q))).length
    if used = 0 then none else some (q, (used : Int)))

/-- A cell of the example cluster: a healthy physical cell whose priority is the highest
priority among its leaf cells. -/
def exampleCell (prio : Nat → Int) (c : Nat) (level : Int)
    (parent : Option Cell) (children : CellList) : CellData where
  level := level
  parent := parent
  children := children
  priority := ((exampleLeaves c).map prio).foldl max freePriority
  totalLeafCellNum := (exampleLeaves c).length
  usedLeafCellNumAtPriorities := exampleUsage prio c
  atOrHigherThanNode := decide (4 ≤ level)
  address := ""
  kind := CellKind.physical true []

/-- The example cluster, for leaf priorities `prio`. -/
def exampleCluster (prio : Nat → Int) : Hierarchy := fun (c : Nat) =>
  if c < 16 then exampleCell prio c 1 (some (16 + c / 2)) []
  else if c < 24 then
    exampleCell prio c 2 (some (24 + (c - 16) / 2)) [2 * (c - 16), 2 * (c - 16) + 1]
  else if c < 28 then
    exampleCell prio c 3 (some (28 + (c - 24) / 2)) [16 + 2 * (c - 24), 16 + 2 * (c - 24) + 1]
  else if c < 30 then
    exampleCell prio c 4 none [24 + 2 * (c - 28), 24 + 2 * (c - 28) + 1]
  else exampleCell prio c 1 none []

/-- The chain cell list of the example cluster. -/
def exampleChain : ChainCellList :=
  [List.range 16, List.range' 16 8, List.range' 24 4, [28, 29]]

/-- The level map of the example cluster. -/
def exampleLevelLeafCellNum : LevelLeafCellNum := [1, 2, 4, 8]

/-- The leaf priorities of an empty cluster. -/
def exampleAllFree : Nat → Int := fun _ => freePriority

/-- The topology-aware scheduler of the example cluster, with cross-priority packing. -/
def exampleTopologyScheduler : topologyAwareScheduler where
  cv := [node.ofCell 28, node.ofCell 29]
  levelLeafCellNum := exampleLevelLeafCellNum
  crossPriorityPack := true

/-- The cell types of the example cluster: 1 is the leaf cell, 2 the socket, 3 the half
node, 4 the node; any other type is not a key of the map. -/
def exampleCellLevels : CellType → Int := fun t =>
  if t = "leaf" then 1 else if t = "socket" then 2 else if t = "half" then 3
  else if t = "node" then 4 else 0

/-- The SKU scheduler of the example cluster, with cross-priority packing. -/
def exampleSkuScheduler : skuScheduler where
  chainCellList := exampleChain
  levelLeafCellNum := exampleLevelLeafCellNum
  cellLevels := exampleCellLevels
  crossPriorityPack := true

/-! ## Notions used to state the theorems -/

/-- `Anc H a c`: the cell `a` is `c` itself or is reached from `c` by parent links. -/
inductive Anc (H : Hierarchy) (a : Cell) : Cell → Prop
  | refl : Anc H a a
  | step {c p : Cell} : (H c).parent = some p → Anc H a p → Anc H a c

/-- `a` is an ancestor-or-self of every cell of `cells`. -/
def CommonAnc (H : Hierarchy) (a : Cell) (cells : CellList) : Prop :=
  ∀ c ∈ cells, Anc H a c

/-- `a` is the lowest common ancestor of `cells`: a common ancestor below every other. -/
def IsLCA (H : Hierarchy) (a : Cell) (cells : CellList) : Prop :=
  CommonAnc H a cells ∧ ∀ b, CommonAnc H b cells → Anc H b a

/-- The level goes up by one along every parent link. -/
def LevelsByOne (H : Hierarchy) : Prop :=
  ∀ c p, (H c).parent = some p → (H p).level = (H c).level + 1


/-- The cells of `availableLeafCells` at the positions `indices`. -/
def cellsAt (availableLeafCells : CellList) (indices : List Nat) : CellList :=
  indices.filterMap (fun i => availableLeafCells[i]?)

/-- A choice of `k` positions out of `n`, in ascending order. -/
def IsCombo (n k : Nat) (c : List Nat) : Prop :=
  c.length = k ∧ c.Pairwise (fun i j => i < j) ∧ ∀ i ∈ c, i < n

/-- `LexBefore combo (x :: prevRev)`: the choice `combo` comes, in lexicographic order, before
every choice that starts with the reverse of `prevRev` followed by a position `>= x`. -/
def LexBefore (combo : List Nat) : List Nat → Prop
  | [] => False
  | x :: prevRev =>
    LexBefore combo prevRev ∨
      (combo.take prevRev.length = prevRev.reverse ∧
        ∃ y, combo[prevRev.length]? = some y ∧ y < x)

/-- What a result of `findLCA` says about a list of cells: the lowest common ancestor,
or `nil` when the cells have no common ancestor. -/
def LCAopt (H : Hierarchy) (oa : Option Cell) (cells : CellList) : Prop :=
  match oa with
  | some a => IsLCA H a cells
  | none => ∀ b, ¬ CommonAnc H b cells

/-- The running affinities (last first) are the lowest common ancestors of the prefixes
of the picked positions (last first). -/
def AffOk (H : Hierarchy) (availableLeafCells : CellList) :
    List Nat → List (Option Cell) → Prop
  | [], [] => True
  | i :: prevRev, oa :: affRev =>
    LCAopt H oa (cellsAt availableLeafCells (i :: prevRev).reverse) ∧
      AffOk H availableLeafCells prevRev affRev
  | _, _ => False

/-- The facts about the hierarchy under which the search is optimal: levels go up by one
along parent links, the candidates are on one level, and no choice of `k` candidates has
a common ancestor below `optimalAffinity`. -/
structure SearchSem (H : Hierarchy) (availableLeafCells : CellList) (k : Nat)
    (optimalAffinity : Int) : Prop where
  levels : LevelsByOne H
  sameLevel : ∃ l0, ∀ c ∈ availableLeafCells, (H c).level = l0
  optimal_le : ∀ c, IsCombo availableLeafCells.length k c →
    ∀ b, CommonAnc H b (cellsAt availableLeafCells c) → optimalAffinity ≤ (H b).level

/-- The best choice recorded is the first one, in lexicographic order, whose lowest
common ancestor is at level `best`. -/
def BestIsFirst (H : Hierarchy) (availableLeafCells : CellList) (k : Nat) (best : Int)
    (bestIndices : List Nat) : Prop :=
  (∃ a, IsLCA H a (cellsAt availableLeafCells bestIndices) ∧ (H a).level = best) ∧
    ∀ c, IsCombo availableLeafCells.length k c → LexBefore c bestIndices.reverse →
      ∀ b, CommonAnc H b (cellsAt availableLeafCells c) → best < (H b).level

/-- The invariant of the search loop at the test of the inner `for`, for the picked
positions `prevRev` (last first) and their affinities `affRev`. -/
structure SearchInvAt (H : Hierarchy) (availableLeafCells : CellList) (k : Nat)
    (optimalAffinity : Int) (st : SearchState) (prevRev : List Nat)
    (affRev : List (Option Cell)) (curRest : List Nat) (affRest : List (Option Cell)) :
    Prop where
  cur_eq : st.currentLeafCellIndices = prevRev.reverse ++ curRest
  aff_eq : st.currentAffinity = affRev.reverse ++ affRest
  len_prev : prevRev.length = st.searchLeafCellIndex
  len_affRev : affRev.length = st.searchLeafCellIndex
  len_cur : st.currentLeafCellIndices.length = k
  len_aff : st.currentAffinity.length = k
  s_lt : st.searchLeafCellIndex < k
  idx_le : st.availableLeafCellIndex ≤ availableLeafCells.length
  sorted : prevRev.Pairwise (fun i j => i > j)
  prev_lt : ∀ i ∈ prevRev, i < st.availableLeafCellIndex
  best_le : st.bestAffinity ≤ highestLevel
  best_ok : st.bestAffinity < highestLevel →
    IsCombo availableLeafCells.length k st.bestAffinityLeafCellIndices ∧
      st.bestAffinityLeafCells =
        st.bestAffinityLeafCellIndices.map (fun i => availableLeafCells[i]?)
  sem : SearchSem H availableLeafCells k optimalAffinity →
    AffOk H availableLeafCells prevRev affRev ∧
    (∀ c, IsCombo availableLeafCells.length k c →
      LexBefore c (st.availableLeafCellIndex :: prevRev) →
      ∀ b, CommonAnc H b (cellsAt availableLeafCells c) → st.bestAffinity ≤ (H b).level) ∧
    (st.bestAffinity < highestLevel →
      LexBefore st.bestAffinityLeafCellIndices (st.availableLeafCellIndex :: prevRev) ∧
      BestIsFirst H availableLeafCells k st.bestAffinity st.bestAffinityLeafCellIndices)

/-- The invariant of the search loop. -/
def SearchInv (H : Hierarchy) (availableLeafCells : CellList) (k : Nat)
    (optimalAffinity : Int) (st : SearchState) : Prop :=
  ∃ prevRev affRev curRest affRest,
    SearchInvAt H availableLeafCells k optimalAffinity st prevRev affRev curRest affRest

/-- What the search returns: `k` ascending positions with their cells and, under
`SearchSem`, the first choice among those whose lowest common ancestor is lowest. -/
def SearchPost (H : Hierarchy) (availableLeafCells : CellList) (k : Nat)
    (optimalAffinity : Int) (r : List (Option Cell) × List Nat) : Prop :=
  IsCombo availableLeafCells.length k r.2 ∧
    r.1 = r.2.map (fun i => availableLeafCells[i]?) ∧
    (SearchSem H availableLeafCells k optimalAffinity →
      ∃ a, IsLCA H a (cellsAt availableLeafCells r.2) ∧
        (∀ c, IsCombo availableLeafCells.length k c →
          ∀ b, CommonAnc H b (cellsAt availableLeafCells c) → (H a).level ≤ (H b).level) ∧
        (∀ c, IsCombo availableLeafCells.length k c → LexBefore c r.2.reverse →
          ∀ b, CommonAnc H b (cellsAt availableLeafCells c) → (H a).level < (H b).level))

/-- The picked positions followed by the candidate position, read as a number in base
`B` with `m` digits (each digit one more than the position, missing digits zero): it
grows with every iteration of the search loop. -/
def encodeFrontier (B : Nat) : Nat → List Nat → Nat
  | 0, _ => 0
  | _ + 1, [] => 0
  | m + 1, x :: xs => (x + 1) * B ^ m + encodeFrontier B m xs

/-- The measure of the search loop for `n` candidates and `k` cells to pick. -/
def searchMeasure (n k : Nat) (st : SearchState) : Nat :=
  encodeFrontier (n + 2) k
    (st.currentLeafCellIndices.take st.searchLeafCellIndex ++ [st.availableLeafCellIndex])

/-- The facts under which the search runs to its end: those of `SearchSem`, a cell `n`
above all candidates and below `highestLevel`, enough fuel for every call of `findLCA`,
and at least `k` candidates. -/
structure SearchTotal (H : Hierarchy) (fuel : Nat) (availableLeafCells : CellList) (k : Nat)
    (optimalAffinity : Int) (n : Cell) : Prop where
  sem : SearchSem H availableLeafCells k optimalAffinity
  under : ∀ c ∈ availableLeafCells, Anc H n c
  level_lt : (H n).level < highestLevel
  fuel_ok : ∀ c ∈ availableLeafCells, ((H n).level - (H c).level).toNat < fuel
  k_le : k ≤ availableLeafCells.length

/-- The list `l`, whose first element has position `base`, without the elements at the
ascending positions `indices`; the other elements keep their order. -/
def removeIndices (l : CellList) : Nat → List Nat → CellList
  | _, [] => l
  | base, index :: rest =>
    l.take (index - base) ++ removeIndices (l.drop (index - base + 1)) (index + 1) rest

/-- `levelLeafCellNum` describes the hierarchy: a cell of level `l` has at most
`levelLeafCellNum[l]` leaf cells below it. -/
def LeafCountBound (H : Hierarchy) (lln : LevelLeafCellNum) : Prop :=
  ∀ (a : Cell) (cells : CellList), cells.Nodup →
    (∀ c ∈ cells, (H c).level = 1 ∧ Anc H a c) →
    (cells.length : Int) ≤ levelLeafCellNumAt lln (H a).level

/-- The positions `idxs` are the first choice of `k` candidates, in the lexicographic
order of the positions, among the choices whose lowest common ancestor is lowest. -/
def FirstLowest (H : Hierarchy) (cands : CellList) (k : Nat) (idxs : List Nat) : Prop :=
  IsCombo cands.length k idxs ∧
    ∃ a, IsLCA H a (cellsAt cands idxs) ∧
      (∀ c, IsCombo cands.length k c → ∀ b, IsLCA H b (cellsAt cands c) →
        (H a).level ≤ (H b).level) ∧
      (∀ c, IsCombo cands.length k c → List.Lex (fun i j => i < j) c idxs →
        ∀ b, IsLCA H b (cellsAt cands c) → (H a).level < (H b).level)

/-- The leaf priorities of the example cluster in which leaf cell 1 is used at
priority 0 and every other leaf cell is free. -/
def exampleOneUsed : Nat → Int := fun c => if c = 1 then 0 else freePriority

/-- The leaf priorities of the example cluster in which one leaf cell of each node, the
leaf cell 1 of node 28 and the leaf cell 9 of node 29, is used at priority 0 and every
other leaf cell is free. -/
def exampleOneUsedPerNode : Nat → Int := fun c =>
  if c = 1 ∨ c = 9 then 0 else freePriority

/-- `Desc H a c`: the cell `c` is `a` itself or is reached from `a` by child links. -/
inductive Desc (H : Hierarchy) (a : Cell) : Cell → Prop
  | refl : Desc H a a
  | step {x c : Cell} : Desc H a x → c ∈ (H x).children → Desc H a c

/-- Every child points back to its parent. -/
def ChildrenOk (H : Hierarchy) : Prop :=
  ∀ x c, c ∈ (H x).children → (H c).parent = some x

/-- No cell lists a child twice. -/
def ChildrenNodup (H : Hierarchy) : Prop :=
  ∀ x, (H x).children.Nodup

/-- A candidate of `findLeafCellsInNode` for the node `n` at priority `p`: a cell of the
sub-tree of `n` that is not above level 1 and is free or used at a priority below `p`. -/
def Cand (H : Hierarchy) (p : Int) (n c : Cell) : Prop :=
  Desc H n c ∧ (H c).level ≤ 1 ∧ ((H c).priority = freePriority ∨ (H c).priority < p)

/-- The Go expression `podPlacements[k]`: the cell lists stored under the key `k`. -/
def placementsOf (podPlacements : List (Int × List CellList)) (k : Int) : List CellList :=
  (podPlacements.lookup k).getD []

/-- The cell lists, out of `results`, of the pods whose leaf cell number is `k`. -/
def cellListsFor (k : Int) (leafCellNums : List Int) (results : List CellList) :
    List CellList :=
  ((leafCellNums.zip results).filter (fun e => decide (e.1 = k))).map Prod.snd

/-- The invariant of the last loop of `Schedule`, for the nodes `nodes` of the view, the
map `m` of the leaf cells still available in the visited nodes and the cells `placed` so
far: no cell is placed twice, the available cells of a node are distinct cells of its
sub-tree that are not placed, and every placed cell is in the sub-tree of a visited
node. -/
def PlaceInv (H : Hierarchy) (nodes : CellList) (m : Cell → Option CellList)
    (placed : CellList) : Prop :=
  placed.Nodup ∧
    (∀ n l, m n = some l → n ∈ nodes ∧ l.Nodup ∧ ∀ c ∈ l, Desc H n c ∧ c ∉ placed) ∧
    (∀ c ∈ placed, ∃ n l, m n = some l ∧ Desc H n c)

/-- A cell `c` that the SKU search can pick inside the cell `w` at priority `q`: `c` is
reached by child links from a cell `v` that is `w` or below `w`, and it is free or used
at a priority below `q`. -/
def SkuPicked (H : Hierarchy) (q : Int) (w c : Cell) : Prop :=
  (∃ v, Anc H w v ∧ Desc H v c) ∧ ((H c).priority = freePriority ∨ (H c).priority < q)

/-- The leaf descendants of the cell `c`, from left to right: `c` itself when it is not
above level 1, else the leaf descendants of its children, in the order of the children;
`depth` bounds the descent and is at least the level of `c` minus one. -/
def leafDescendants (H : Hierarchy) : Nat → Cell → CellList
  | 0, c => [c]
  | depth + 1, c =>
    if (H c).level > 1 then (H c).children.flatMap (leafDescendants H depth) else [c]

/-- The leaf descendants of a cell, the descent bounded by its level. -/
def leavesOf (H : Hierarchy) (c : Cell) : CellList :=
  leafDescendants H ((H c).level - 1).toNat c

/-- Every cell above level 1 has a child. -/
def ChildrenNonempty (H : Hierarchy) : Prop :=
  ∀ x, (H x).level > 1 → (H x).children ≠ []

/-- The sum of the entries of a usage map whose priority satisfies `P`. -/
def usedSum (used : List (Int × Int)) (P : Int → Bool) : Int :=
  ((used.filter (fun e => P e.1)).map Prod.snd).sum

/-- The first key, in the order health, suggestion, `usedLeafCellNumSamePriority`,
`usedLeafCellNumHigherPriority`, on which the nodes `a` and `b` differ favours `a`: `a`
is the healthy one, or the suggested one, or the one with the larger
`usedLeafCellNumSamePriority`, or the one with the smaller
`usedLeafCellNumHigherPriority`. -/
def nodeFavoured (a b : node) : Prop :=
  (a.healthy = true ∧ b.healthy = false) ∨
    (a.healthy = b.healthy ∧
      ((a.suggested = true ∧ b.suggested = false) ∨
        (a.suggested = b.suggested ∧
          (a.usedLeafCellNumSamePriority > b.usedLeafCellNumSamePriority ∨
            (a.usedLeafCellNumSamePriority = b.usedLeafCellNumSamePriority ∧
              a.usedLeafCellNumHigherPriority < b.usedLeafCellNumHigherPriority)))))

/-- The entries `a` and `b` of a SKU view differ on a sort key. -/
def skuKeysDiffer (H : Hierarchy) (a b : skuCell) : Prop :=
  a.healthy ≠ b.healthy ∨ (H a.cell).level ≠ (H b.cell).level ∨
    a.usedLeafCellNumAtPriority ≠ b.usedLeafCellNumAtPriority ∨
    a.usedLeafCellNumHigherPriority ≠ b.usedLeafCellNumHigherPriority

/-- The first key, in the order health, cell level, `usedLeafCellNumAtPriority`,
`usedLeafCellNumHigherPriority`, on which the entries `a` and `b` differ favours `a`:
`a` is the healthy one, or the one at the lower level, or the one with the higher
`usedLeafCellNumAtPriority`, or the one with the lower `usedLeafCellNumHigherPriority`. -/
def skuFavoured (H : Hierarchy) (a b : skuCell) : Prop :=
  (a.healthy = true ∧ b.healthy = false) ∨
    (a.healthy = b.healthy ∧
      ((H a.cell).level < (H b.cell).level ∨
        ((H a.cell).level = (H b.cell).level ∧
          (a.usedLeafCellNumAtPriority > b.usedLeafCellNumAtPriority ∨
            (a.usedLeafCellNumAtPriority = b.usedLeafCellNumAtPriority ∧
              a.usedLeafCellNumHigherPriority < b.usedLeafCellNumHigherPriority)))))

/-- The sum of the leaf cell numbers of the pods that `picked` assigns to the node at
position `j` of the view: pod `i` has the leaf cell number `leafCellNums[i]` and the node
`picked[i]`. -/
def assignedSum (picked : List Nat) (leafCellNums : List Int) (j : Nat) : Int :=
  (((picked.zip leafCellNums).filter (fun e => decide (e.1 = j))).map Prod.snd).sum

/-- The leaf priorities of the example cluster in which the leaf cells 0 to 4 of node 28
and the leaf cells 8 to 11 of node 29 are used at priority 0 and the others are free. -/
def exampleNineUsed : Nat → Int := fun c =>
  if c < 5 then 0 else if 8 ≤ c ∧ c < 12 then 0 else freePriority

/-- What holds of a list `picked` of node indices, one per pod placed so far, in the
sorted view `cv`: the indices do not decrease, every node picked is healthy and
suggested, and the leaf cell numbers of the pods of a node sum up to at most its
`freeLeafCellNumAtPriority`. -/
def PickedOk (cv : clusterView) (leafCellNums : List Int) (picked : List Nat) : Prop :=
  picked.Pairwise (fun i j => i ≤ j) ∧
    (∀ i ∈ picked, ∃ n, cv[i]? = some n ∧ n.healthy = true ∧ n.suggested = true) ∧
    (∀ j n, cv[j]? = some n → j ∈ picked →
      assignedSum picked leafCellNums j ≤ n.freeLeafCellNumAtPriority)

/-- The invariant of the loop of `findNodesForPods` at the loop test: the indices of the
pods placed so far are as `PickedOk` says, none is beyond the current node, and
`pickedLeafCellNum` is the sum of the leaf cell numbers placed in the current node. -/
def PickInv (cv : clusterView) (leafCellNums : List Int) (st : PickState) : Prop :=
  st.pickedNodeIndices.length = leafCellNums.length ∧
    PickedOk cv leafCellNums (st.pickedNodeIndices.take st.podIndex) ∧
    (∀ i ∈ st.pickedNodeIndices.take st.podIndex, i ≤ st.nodeIndex) ∧
    assignedSum (st.pickedNodeIndices.take st.podIndex) leafCellNums st.nodeIndex =
      st.pickedLeafCellNum

/-- The level goes up along every parent link. -/
def StrictLevels (H : Hierarchy) : Prop :=
  ∀ c p, (H c).parent = some p → (H c).level < (H p).level

/-- The walk that the specification describes for `isAncestor`, without the level test
of the code: walk the parent chain of `cell`, true when `ancestor` is met (also at
`cell` itself), false at a cell without a parent. -/
def isAncestorWalk (H : Hierarchy) : Nat → Cell → Cell → Option Bool
  | 0, _, _ => none
  | fuel + 1, ancestor, cell =>
    if ancestor = cell then some true
    else match (H cell).parent with
      | none => some false
      | some p => isAncestorWalk H fuel ancestor p

/-- The cell list of a chain: every cell is listed at its level, and the parent of a
listed cell is listed on the next level. -/
structure ChainOk (H : Hierarchy) (ccl : ChainCellList) : Prop where
  level_eq : ∀ l c, c ∈ ccl.atLevel l → (H c).level = l
  parent_mem : ∀ l c p, c ∈ ccl.atLevel l → (H c).parent = some p → p ∈ ccl.atLevel (l + 1)

/-- The node boundary of a chain: no level of the list is empty, and the cells of one
level are all below node level or all at or above it. -/
structure NodeBoundaryOk (H : Hierarchy) (ccl : ChainCellList) : Prop where
  nonempty : ∀ l : Int, 1 ≤ l → l ≤ ccl.length → ccl.atLevel l ≠ []
  uniform : ∀ l c c', c ∈ ccl.atLevel l → c' ∈ ccl.atLevel l →
    (H c).atOrHigherThanNode = (H c').atOrHigherThanNode

mutual
/-- The pod group and the groups below it. -/
def PodGroupSpec.groups : PodGroupSpec → List PodGroupSpec
  | PodGroupSpec.mk pods childGroups withinOneCell =>
    PodGroupSpec.mk pods childGroups withinOneCell :: PodGroupSpec.groupsOfList childGroups
/-- The groups of a list of pod groups, with the groups below them. -/
def PodGroupSpec.groupsOfList : List PodGroupSpec → List PodGroupSpec
  | [] => []
  | g :: rest => PodGroupSpec.groups g ++ PodGroupSpec.groupsOfList rest
end

mutual
/-- The total leaf cell demand of a pod group, as the specification counts it: the leaf
cells of all the pods it schedules, every member counted `PodMinNumber` times, and the
demand of the groups below it. -/
def skuScheduler.demandOfGroup (s : skuScheduler) : PodGroupSpec → Int
  | PodGroupSpec.mk pods childGroups _ =>
    (pods.map (fun p => s.countLeafCellNums p * (p.PodMinNumber.toNat : Int))).sum +
      skuScheduler.demandOfGroups s childGroups
/-- The total leaf cell demand of a list of pod groups. -/
def skuScheduler.demandOfGroups (s : skuScheduler) : List PodGroupSpec → Int
  | [] => 0
  | g :: rest => skuScheduler.demandOfGroup s g + skuScheduler.demandOfGroups s rest
end

/-- The leaf priorities of the example cluster in which leaf cell 0 is used at
priority 0 and every other leaf cell is free. -/
def exampleLeafZeroUsed : Nat → Int := fun c => if c = 0 then 0 else freePriority

/-- The state of the search loop at its `j`-th loop test, the first one being the test
number zero: `none` when the loop has returned or panicked before that test. -/
def affinitySearch.stateAfter (H : Hierarchy) (fuel : Nat) (availableLeafCells : CellList)
    (leafCellNum : Nat) (optimalAffinity : Int) : Nat → Option SearchState
  | 0 => some (affinitySearch.init leafCellNum)
  | j + 1 =>
    match affinitySearch.stateAfter H fuel availableLeafCells leafCellNum optimalAffinity j with
    | none => none
    | some st =>
      match affinitySearch.step H fuel availableLeafCells leafCellNum optimalAffinity st with
      | some (Sum.inl st') => some st'
      | _ => none

/-- The positions picked so far, in the order of picking, followed by the position of
the candidate that the loop test looks at. -/
def affinitySearch.frontier (st : SearchState) : List Nat :=
  st.currentLeafCellIndices.take st.searchLeafCellIndex ++ [st.availableLeafCellIndex]

/-- The candidates of a search that cannot panic: at least `k` cells, all on the level
`l0` and all below the cell `n`, in a hierarchy whose levels go up by one, with fuel
for every call of `findLCA`. -/
structure SearchUnder (H : Hierarchy) (fuel : Nat) (availableLeafCells : CellList) (k : Nat)
    (n : Cell) (l0 : Int) : Prop where
  levels : LevelsByOne H
  same : ∀ c ∈ availableLeafCells, (H c).level = l0
  under : ∀ c ∈ availableLeafCells, Anc H n c
  level_lt : (H n).level < highestLevel
  fuel_ok : ((H n).level - l0).toNat < fuel
  k_le : k ≤ availableLeafCells.length

/-- What keeps the search from panicking at its `j`-th loop test: the affinities of the
picked positions are cells below `n`, and as long as no best choice is recorded the
loop has only descended. -/
structure SearchSafe (H : Hierarchy) (n : Cell) (l0 : Int) (j : Nat) (st : SearchState) :
    Prop where
  aff : ∀ i, i < st.searchLeafCellIndex →
    ∃ a, st.currentAffinity[i]? = some (some a) ∧ Anc H n a ∧ l0 ≤ (H a).level
  first : st.bestAffinity = highestLevel →
    st.availableLeafCellIndex = j ∧ st.searchLeafCellIndex = j

/-- Two unrelated cells of level one, `0` and `1`. -/
def exampleTwoRoots : Hierarchy := fun (c : Nat) =>
  exampleCell exampleAllFree c 1 none []

/-! ## Theorems -/

theorem Anc.trans {H : Hierarchy} {a b c : Cell} (h1 : Anc H a b) (h2 : Anc H b c) : Anc H a c := by
  induction h2 with
  | refl => exact h1
  | step hp _ ih => exact Anc.step hp ih

theorem Anc.level_le {H : Hierarchy} (hl : LevelsByOne H) {a c : Cell} (h : Anc H a c) :
    (H c).level ≤ (H a).level := by
  induction h with
  | refl => exact le_refl _
  | step hp _ ih => have := hl _ _ hp; omega

theorem Anc.eq_of_level_eq {H : Hierarchy} (hl : LevelsByOne H) {a c : Cell} (h : Anc H a c)
    (he : (H a).level ≤ (H c).level) : a = c := by
  cases h with
  | refl => rfl
  | step hp h' =>
    have := hl _ _ hp
    have := h'.level_le hl
    omega

/-- The ancestors of one cell form a chain. -/
theorem Anc.chain {H : Hierarchy} (hl : LevelsByOne H) {a b c : Cell} (ha : Anc H a c)
    (hb : Anc H b c) (hle : (H a).level ≤ (H b).level) : Anc H b a := by
  induction ha with
  | refl => exact hb
  | step hp ha' ih =>
    cases hb with
    | refl =>
      have := hl _ _ hp
      have := ha'.level_le hl
      omega
    | step hp' hb' =>
      rw [hp] at hp'
      cases hp'
      exact ih hb'

theorem Anc.of_parent {H : Hierarchy} {a c p : Cell} (h : Anc H a c) (hp : (H c).parent = some p)
    (hne : a ≠ c) : Anc H a p := by
  cases h with
  | refl => exact absurd rfl hne
  | step hp' h' => rw [hp] at hp'; cases hp'; exact h'

theorem Anc.eq_of_no_parent {H : Hierarchy} {a c : Cell} (h : Anc H a c) (hp : (H c).parent = none) :
    a = c := by
  cases h with
  | refl => rfl
  | step hp' _ => rw [hp] at hp'; cases hp'

/-- What `findLCA.lift` returns. -/
theorem findLCA.lift_spec {H : Hierarchy} (hl : LevelsByOne H) (higher : Cell) :
    ∀ (fuel : Nat) (lower : Cell) (r : Option Cell),
      findLCA.lift H higher fuel lower = some r →
      (∀ l, r = some l → Anc H l lower ∧ (H higher).level ≤ (H l).level ∧
        ((H lower).level ≤ (H higher).level → (H l).level = (H higher).level)) ∧
      (r = none → ∀ b, Anc H b lower → (H b).level < (H higher).level) := by
  intro fuel
  induction fuel with
  | zero => intro lower r h; simp [findLCA.lift] at h
  | succ fuel ih =>
    intro lower r h
    rw [findLCA.lift] at h
    split_ifs at h with hlt
    · cases hp : (H lower).parent with
      | none =>
        rw [hp] at h
        simp only [Option.some.injEq] at h
        subst h
        refine ⟨(by intro l hl'; cases hl'), ?_⟩
        intro _ b hb
        have := hb.eq_of_no_parent hp
        subst this
        exact hlt
      | some p =>
        rw [hp] at h
        simp only at h
        have hlev := hl _ _ hp
        obtain ⟨h1, h2⟩ := ih p r h
        refine ⟨?_, ?_⟩
        · intro l hl'
          obtain ⟨a1, a2, a3⟩ := h1 l hl'
          exact ⟨Anc.step hp a1, a2, fun _ => a3 (by omega)⟩
        · intro hr b hb
          by_cases hbl : b = lower
          · subst hbl; exact hlt
          · exact h2 hr b (hb.of_parent hp hbl)
    · simp only [Option.some.injEq] at h
      subst h
      refine ⟨?_, by intro h; cases h⟩
      intro l hl'
      cases hl'
      exact ⟨Anc.refl, by omega, fun h => by omega⟩

/-- What `findLCA.walk` returns for two distinct cells of one level. -/
theorem findLCA.walk_spec {H : Hierarchy} (hl : LevelsByOne H) :
    ∀ (fuel : Nat) (lower higher : Cell) (r : Option Cell),
      (H lower).level = (H higher).level → lower ≠ higher →
      findLCA.walk H fuel lower higher = some r →
      (∀ a, r = some a → Anc H a lower ∧ Anc H a higher ∧
        ∀ b, Anc H b lower → Anc H b higher → Anc H b a) ∧
      (r = none → ∀ b, ¬ (Anc H b lower ∧ Anc H b higher)) := by
  intro fuel
  induction fuel with
  | zero => intro lower higher r _ _ h; simp [findLCA.walk] at h
  | succ fuel ih =>
    intro lower higher r hlev hne h
    have hnot : ∀ b, Anc H b lower → Anc H b higher → b ≠ lower ∧ b ≠ higher := by
      intro b h1 h2
      constructor
      · intro hb; subst hb
        exact hne (h2.eq_of_level_eq hl (le_of_eq hlev))
      · intro hb; subst hb
        exact hne (h1.eq_of_level_eq hl (le_of_eq hlev.symm)).symm
    rw [findLCA.walk] at h
    cases hpl : (H lower).parent with
    | none =>
      cases hph : (H higher).parent with
      | none =>
        simp [hpl, hph, CellEqual] at h
        subst h
        refine ⟨(by intro a ha; cases ha), ?_⟩
        rintro _ b ⟨h1, h2⟩
        exact (hnot b h1 h2).1 (h1.eq_of_no_parent hpl)
      | some ph =>
        simp [hpl, hph, CellEqual] at h
        subst h
        refine ⟨(by intro a ha; cases ha), ?_⟩
        rintro _ b ⟨h1, h2⟩
        exact (hnot b h1 h2).1 (h1.eq_of_no_parent hpl)
    | some pl =>
      cases hph : (H higher).parent with
      | none =>
        simp [hpl, hph, CellEqual] at h
        subst h
        refine ⟨(by intro a ha; cases ha), ?_⟩
        rintro _ b ⟨h1, h2⟩
        exact (hnot b h1 h2).2 (h2.eq_of_no_parent hph)
      | some ph =>
        by_cases hpe : pl = ph
        · subst hpe
          simp [hpl, hph, CellEqual] at h
          subst h
          refine ⟨?_, by intro h; cases h⟩
          intro a ha
          cases ha
          refine ⟨Anc.step hpl (Anc.refl), Anc.step hph (Anc.refl), ?_⟩
          intro b h1 h2
          exact h1.of_parent hpl (hnot b h1 h2).1
        · simp [hpl, hph, CellEqual, hpe] at h
          have e1 := hl _ _ hpl
          have e2 := hl _ _ hph
          obtain ⟨i1, i2⟩ := ih pl ph r (by omega) hpe h
          refine ⟨?_, ?_⟩
          · intro a ha
            obtain ⟨a1, a2, a3⟩ := i1 a ha
            refine ⟨Anc.step hpl a1, Anc.step hph a2, ?_⟩
            intro b h1 h2
            exact a3 b (h1.of_parent hpl (hnot b h1 h2).1) (h2.of_parent hph (hnot b h1 h2).2)
          · intro hr b ⟨h1, h2⟩
            exact i2 hr b ⟨h1.of_parent hpl (hnot b h1 h2).1, h2.of_parent hph (hnot b h1 h2).2⟩

/-- What `findLCA` returns when its first argument is not above its second. -/
theorem findLCA_spec {H : Hierarchy} (hl : LevelsByOne H) (fuel : Nat) (lower higher : Cell)
    (r : Option Cell) (hlev : (H lower).level ≤ (H higher).level)
    (h : findLCA H fuel lower higher = some r) :
    (∀ a, r = some a → Anc H a lower ∧ Anc H a higher ∧
      ∀ b, Anc H b lower → Anc H b higher → Anc H b a) ∧
    (r = none → ∀ b, ¬ (Anc H b lower ∧ Anc H b higher)) := by
  unfold findLCA at h
  cases hlift : findLCA.lift H higher fuel lower with
  | none => simp [hlift] at h
  | some r1 =>
    obtain ⟨s1, s2⟩ := findLCA.lift_spec hl higher fuel lower r1 hlift
    cases r1 with
    | none =>
      simp [hlift] at h
      subst h
      refine ⟨(by intro a ha; cases ha), ?_⟩
      rintro _ b ⟨h1, h2⟩
      have := s2 rfl b h1
      have := h2.level_le hl
      omega
    | some l =>
      obtain ⟨a1, a2, a3⟩ := s1 l rfl
      have a3 := a3 hlev
      by_cases hlh : l = higher
      · subst hlh
        simp [hlift, CellEqual] at h
        subst h
        refine ⟨?_, by intro h; cases h⟩
        intro a ha
        cases ha
        exact ⟨a1, Anc.refl, fun b _ h2 => h2⟩
      · simp [hlift, CellEqual, hlh] at h
        obtain ⟨w1, w2⟩ := findLCA.walk_spec hl fuel l higher r a3 hlh h
        refine ⟨?_, ?_⟩
        · intro a ha
          obtain ⟨b1, b2, b3⟩ := w1 a ha
          refine ⟨b1.trans a1, b2, ?_⟩
          intro b h1 h2
          have := h2.level_le hl
          exact b3 b (Anc.chain hl a1 h1 (by omega)) h2
        · intro hr b ⟨h1, h2⟩
          have := h2.level_le hl
          exact w2 hr b ⟨Anc.chain hl a1 h1 (by omega), h2⟩

/-! generic loop lemmas -/

theorem runLoop_post {σ ρ : Type} (step : σ → Option (σ ⊕ ρ)) (Inv : σ → Prop) (Post : ρ → Prop)
    (hnext : ∀ st st', Inv st → step st = some (Sum.inl st') → Inv st')
    (hdone : ∀ st r, Inv st → step st = some (Sum.inr r) → Post r) :
    ∀ (fuel : Nat) (st : σ) (r : ρ), Inv st → runLoop step fuel st = some r → Post r := by
  intro fuel
  induction fuel with
  | zero => intro st r _ h; simp [runLoop] at h
  | succ fuel ih =>
    intro st r hinv h
    rw [runLoop] at h
    cases hs : step st with
    | none => simp [hs] at h
    | some out =>
      cases out with
      | inl st' =>
        simp only [hs] at h
        exact ih st' r (hnext st st' hinv hs) h
      | inr r' =>
        simp only [hs, Option.some.injEq] at h
        subst h
        exact hdone st r' hinv hs

theorem runLoop_terminates {σ ρ : Type} (step : σ → Option (σ ⊕ ρ)) (Inv : σ → Prop)
    (μ : σ → Nat) (bound : Nat)
    (hstep : ∀ st, Inv st → (∃ r, step st = some (Sum.inr r)) ∨
      (∃ st', step st = some (Sum.inl st') ∧ Inv st' ∧ μ st < μ st'))
    (hbound : ∀ st, Inv st → μ st ≤ bound) :
    ∀ (fuel : Nat) (st : σ), Inv st → bound - μ st < fuel → ∃ r, runLoop step fuel st = some r := by
  intro fuel
  induction fuel with
  | zero => intro st _ h; omega
  | succ fuel ih =>
    intro st hinv hf
    rw [runLoop]
    rcases hstep st hinv with ⟨r, hr⟩ | ⟨st', hs, hinv', hμ⟩
    · exact ⟨r, by simp [hr]⟩
    · simp only [hs]
      have := hbound st' hinv'
      exact ih st' hinv' (by omega)

theorem runLoop_mono {σ ρ : Type} (step : σ → Option (σ ⊕ ρ)) :
    ∀ (fuel fuel' : Nat) (st : σ) (r : ρ), fuel ≤ fuel' → runLoop step fuel st = some r →
      runLoop step fuel' st = some r := by
  intro fuel
  induction fuel with
  | zero => intro _ st r _ h; simp [runLoop] at h
  | succ fuel ih =>
    intro fuel' st r hle h
    obtain ⟨f, rfl⟩ : ∃ f, fuel' = f + 1 := ⟨fuel' - 1, by omega⟩
    rw [runLoop] at h ⊢
    cases hs : step st with
    | none => simp [hs] at h
    | some out =>
      cases out with
      | inl st' =>
        simp only [hs] at h ⊢
        exact ih f st' r (by omega) h
      | inr r' =>
        simp only [hs] at h ⊢
        exact h

theorem LexBefore.mono {combo prevRev : List Nat} {x x' : Nat}
    (h : LexBefore combo (x :: prevRev)) (hx : x ≤ x') : LexBefore combo (x' :: prevRev) := by
  rw [LexBefore] at h ⊢
  rcases h with h | ⟨h1, y, h2, h3⟩
  · exact Or.inl h
  · exact Or.inr ⟨h1, y, h2, by omega⟩

theorem LexBefore.of_succ {combo prevRev : List Nat} {x : Nat}
    (h : LexBefore combo ((x + 1) :: prevRev)) :
    LexBefore combo (x :: prevRev) ∨
      (combo.take prevRev.length = prevRev.reverse ∧ combo[prevRev.length]? = some x) := by
  rw [LexBefore] at h
  rcases h with h | ⟨h1, y, h2, h3⟩
  · exact Or.inl (by rw [LexBefore]; exact Or.inl h)
  · by_cases hy : y < x
    · exact Or.inl (by rw [LexBefore]; exact Or.inr ⟨h1, y, h2, hy⟩)
    · have : y = x := by omega
      subst this
      exact Or.inr ⟨h1, h2⟩

theorem getElem?_of_take_eq_concat {combo p : List Nat} {x : Nat}
    (h : combo.take (p.length + 1) = p ++ [x]) : combo[p.length]? = some x := by
  have h1 : (combo.take (p.length + 1))[p.length]? = some x := by
    rw [h]; exact List.getElem?_concat_length p x
  rw [List.getElem?_take] at h1
  simpa using h1

theorem take_of_take_eq_concat {combo p : List Nat} {x : Nat}
    (h : combo.take (p.length + 1) = p ++ [x]) : combo.take p.length = p := by
  have := congrArg (List.take p.length) h
  rw [List.take_take] at this
  simpa using this

theorem take_concat_of {combo p : List Nat} {x : Nat}
    (h1 : combo.take p.length = p) (h2 : combo[p.length]? = some x) :
    combo.take (p.length + 1) = p ++ [x] := by
  rw [List.take_succ, h1, h2]
  rfl

theorem LexBefore.descend {n k : Nat} {combo prevRev : List Nat} {x : Nat}
    (hc : IsCombo n k combo) (h : LexBefore combo ((x + 1) :: x :: prevRev)) :
    LexBefore combo (x :: prevRev) := by
  rw [LexBefore] at h
  rcases h with h | ⟨h1, y, h2, h3⟩
  · exact h
  · exfalso
    have e : (x :: prevRev).length = prevRev.reverse.length + 1 := by simp
    rw [e, List.reverse_cons] at h1
    have hx := getElem?_of_take_eq_concat h1
    rw [List.length_reverse] at hx
    simp only [List.length_cons] at h2
    obtain ⟨hi, hxe⟩ := List.getElem?_eq_some_iff.mp hx
    obtain ⟨hj, hye⟩ := List.getElem?_eq_some_iff.mp h2
    have := (List.pairwise_iff_getElem.mp hc.2.1) prevRev.length (prevRev.length + 1) hi hj
      (by omega)
    omega

theorem LexBefore.backtrack {n k : Nat} {combo prev : List Nat} {i : Nat}
    (hc : IsCombo n k combo) (hk : prev.length + 1 < k)
    (h : LexBefore combo ((i + 1) :: prev)) : LexBefore combo (n :: i :: prev) := by
  rcases LexBefore.of_succ h with h | ⟨h1, h2⟩
  · rw [LexBefore]; exact Or.inl h
  · rw [LexBefore]
    right
    refine ⟨?_, ?_⟩
    · have := take_concat_of (p := prev.reverse) (by simpa using h1) (by simpa using h2)
      simpa using this
    · have hlen : prev.length + 1 < combo.length := by rw [hc.1]; exact hk
      refine ⟨combo[prev.length + 1], ?_, ?_⟩
      · simp [List.getElem?_eq_getElem hlen]
      · exact hc.2.2 _ (List.getElem_mem _)

theorem LexBefore.final {n k : Nat} {combo : List Nat} (hc : IsCombo n k combo) (hk : 0 < k) :
    LexBefore combo [n] := by
  rw [LexBefore]
  right
  have hlen : 0 < combo.length := by rw [hc.1]; exact hk
  refine ⟨by simp, combo[0], ?_, ?_⟩
  · simp [List.getElem?_eq_getElem hlen]
  · exact hc.2.2 _ (List.getElem_mem _)

theorem combo_eq_of_prefix {n k : Nat} {combo prevRev : List Nat} {x : Nat}
    (hc : IsCombo n k combo) (hk : prevRev.length + 1 = k)
    (h1 : combo.take prevRev.length = prevRev.reverse) (h2 : combo[prevRev.length]? = some x) :
    combo = prevRev.reverse ++ [x] := by
  have := take_concat_of (p := prevRev.reverse) (by simpa using h1) (by simpa using h2)
  rw [List.length_reverse, hk, ← hc.1, List.take_length] at this
  exact this

theorem cellsAt_append (avail : CellList) (p q : List Nat) :
    cellsAt avail (p ++ q) = cellsAt avail p ++ cellsAt avail q := by
  simp [cellsAt]

theorem cellsAt_concat {avail : CellList} {p : List Nat} {i : Nat} {leaf : Cell}
    (h : avail[i]? = some leaf) : cellsAt avail (p ++ [i]) = cellsAt avail p ++ [leaf] := by
  simp [cellsAt, h]

theorem CommonAnc.of_prefix {H : Hierarchy} {avail : CellList} {combo prevRev : List Nat}
    {x : Nat} {b : Cell} (h1 : combo.take prevRev.length = prevRev.reverse)
    (h2 : combo[prevRev.length]? = some x) (hb : CommonAnc H b (cellsAt avail combo)) :
    CommonAnc H b (cellsAt avail (prevRev.reverse ++ [x])) := by
  have ht := take_concat_of (p := prevRev.reverse) (by simpa using h1) (by simpa using h2)
  have hsplit : combo = (prevRev.reverse ++ [x]) ++ combo.drop (prevRev.reverse.length + 1) := by
    rw [← ht, List.take_append_drop]
  intro c hcm
  apply hb
  rw [hsplit, cellsAt_append]
  exact List.mem_append_left _ hcm

theorem AffOk.cons_inv {H : Hierarchy} {avail : CellList} {i : Nat} {prev : List Nat}
    {affRev : List (Option Cell)} (h : AffOk H avail (i :: prev) affRev) :
    ∃ oa arev, affRev = oa :: arev ∧ LCAopt H oa (cellsAt avail (i :: prev).reverse) ∧
      AffOk H avail prev arev := by
  cases affRev with
  | nil => simp [AffOk] at h
  | cons oa arev => exact ⟨oa, arev, rfl, h.1, h.2⟩

theorem LCAopt.snoc {H : Hierarchy} {h leaf : Cell} {cells : CellList} {oa : Option Cell}
    (hh : IsLCA H h cells)
    (h1 : ∀ a, oa = some a → Anc H a leaf ∧ Anc H a h ∧
      ∀ b, Anc H b leaf → Anc H b h → Anc H b a)
    (h2 : oa = none → ∀ b, ¬ (Anc H b leaf ∧ Anc H b h)) :
    LCAopt H oa (cells ++ [leaf]) := by
  cases oa with
  | none =>
    intro b hb
    refine h2 rfl b ⟨hb leaf (by simp), hh.2 b ?_⟩
    intro c hc
    exact hb c (List.mem_append_left _ hc)
  | some a =>
    obtain ⟨a1, a2, a3⟩ := h1 a rfl
    refine ⟨?_, ?_⟩
    · intro c hc
      rcases List.mem_append.mp hc with hc | hc
      · exact a2.trans (hh.1 c hc)
      · simp at hc; subst hc; exact a1
    · intro b hb
      refine a3 b (hb leaf (by simp)) (hh.2 b ?_)
      intro c hc
      exact hb c (List.mem_append_left _ hc)

theorem IsLCA.singleton (H : Hierarchy) (c : Cell) : IsLCA H c [c] := by
  refine ⟨?_, ?_⟩
  · intro x hx; simp at hx; subst hx; exact Anc.refl
  · intro b hb; exact hb c (by simp)

section

theorem set_append_cons {α : Type} (P : List α) (r x : α) (rest : List α) (s : Nat)
    (hs : P.length = s) : (P ++ r :: rest).set s x = P ++ x :: rest := by
  subst hs
  rw [List.set_append_right _ _ (le_refl _)]
  simp

theorem getElem?_append_cons {α : Type} (P : List α) (r : α) (rest : List α) (s : Nat)
    (hs : P.length = s) : (P ++ r :: rest)[s]? = some r := by
  subst hs
  rw [List.getElem?_append_right (le_refl _)]
  simp

theorem exists_cons_of_length_lt {α : Type} (P rest : List α) (k : Nat)
    (h : (P ++ rest).length = k) (hs : P.length < k) : ∃ r rest', rest = r :: rest' := by
  cases rest with
  | nil => simp at h; omega
  | cons r rest' => exact ⟨r, rest', rfl⟩

variable {H : Hierarchy} {fuel : Nat} {avail : CellList} {k : Nat} {optimal : Int}

theorem getElem?_snoc_append {α : Type} (P : List α) (x : α) (rest : List α) (s : Nat)
    (hs : P.length + 1 = s) : (P ++ [x] ++ rest)[s - 1]? = some x := by
  subst hs
  rw [List.append_assoc, Nat.add_sub_cancel]
  exact getElem?_append_cons P x rest _ rfl

/-- The affinity computed in the body of the inner loop is the lowest common ancestor of
the cells picked so far and the candidate at hand. -/
theorem affinitySearch.lca_fact {st : SearchState} {prevRev : List Nat}
    {affRev : List (Option Cell)} {curRest : List Nat} {affRest : List (Option Cell)}
    (inv : SearchInvAt H avail k optimal st prevRev affRev curRest affRest)
    (hidx : st.availableLeafCellIndex < avail.length) (oa : Option Cell)
    (hl : affinitySearch.lca H fuel st avail[st.availableLeafCellIndex] = some oa)
    (hsem : SearchSem H avail k optimal) :
    LCAopt H oa (cellsAt avail (prevRev.reverse ++ [st.availableLeafCellIndex])) := by
  have hleaf : avail[st.availableLeafCellIndex]? = some avail[st.availableLeafCellIndex] :=
    List.getElem?_eq_getElem hidx
  rw [cellsAt_concat hleaf]
  unfold affinitySearch.lca at hl
  by_cases hs0 : st.searchLeafCellIndex = 0
  · rw [if_pos hs0] at hl
    simp only [Option.some.injEq] at hl
    subst hl
    have : prevRev = [] := List.eq_nil_of_length_eq_zero (by rw [inv.len_prev, hs0])
    subst this
    simpa [cellsAt, LCAopt] using IsLCA.singleton H _
  · rw [if_neg hs0] at hl
    obtain ⟨hok, _, _⟩ := inv.sem hsem
    cases prevRev with
    | nil => exact absurd inv.len_prev.symm (by simpa using hs0)
    | cons i prev =>
      obtain ⟨oa', arev, harev, hlca, _⟩ := hok.cons_inv
      have hget : st.currentAffinity[st.searchLeafCellIndex - 1]? = some oa' := by
        rw [inv.aff_eq, harev, List.reverse_cons]
        apply getElem?_snoc_append
        rw [← inv.len_affRev, harev]
        simp
      rw [hget] at hl
      cases oa' with
      | none => simp at hl
      | some higher =>
        simp only [] at hl
        have hi : i < avail.length := lt_trans (inv.prev_lt i (by simp)) hidx
        have himem : avail[i] ∈ cellsAt avail (i :: prev).reverse := by
          simp only [cellsAt, List.reverse_cons, List.filterMap_append, List.mem_append,
            List.mem_filterMap]
          right
          exact ⟨i, by simp, by simp [List.getElem?_eq_getElem hi]⟩
        obtain ⟨l0, hl0⟩ := hsem.sameLevel
        have hlev : (H avail[st.availableLeafCellIndex]).level ≤ (H higher).level := by
          have h1 := (hlca.1 _ himem).level_le hsem.levels
          rw [hl0 _ (List.getElem_mem _)] at h1
          rw [hl0 _ (List.getElem_mem _)]
          exact h1
        obtain ⟨f1, f2⟩ := findLCA_spec hsem.levels fuel _ _ oa hlev hl
        exact LCAopt.snoc hlca f1 f2

theorem visited_advance {prevRev : List Nat} {idx : Nat} {best best' : Int} (hle : best' ≤ best)
    (old : ∀ c, IsCombo avail.length k c → LexBefore c (idx :: prevRev) →
      ∀ b, CommonAnc H b (cellsAt avail c) → best ≤ (H b).level)
    (hpre : ∀ b, CommonAnc H b (cellsAt avail (prevRev.reverse ++ [idx])) → best' ≤ (H b).level) :
    ∀ c, IsCombo avail.length k c → LexBefore c ((idx + 1) :: prevRev) →
      ∀ b, CommonAnc H b (cellsAt avail c) → best' ≤ (H b).level := by
  intro c hc hlex b hb
  rcases LexBefore.of_succ hlex with h | ⟨h1, h2⟩
  · exact le_trans hle (old c hc h b hb)
  · exact hpre b (CommonAnc.of_prefix h1 h2 hb)

theorem LCAopt.opt_level_le {oa : Option Cell} {cells : CellList} (hl : LevelsByOne H)
    (h : LCAopt H oa cells) (b : Cell) (hb : CommonAnc H b cells) :
    ∃ a, oa = some a ∧ (H a).level ≤ (H b).level := by
  cases oa with
  | none => exact absurd hb (h b)
  | some a => exact ⟨a, rfl, (h.2 b hb).level_le hl⟩

theorem isCombo_snoc {n k : Nat} {prevRev : List Nat} {idx : Nat}
    (hsorted : prevRev.Pairwise (fun i j => i > j)) (hlt : ∀ i ∈ prevRev, i < idx)
    (hidx : idx < n) (hk : prevRev.length + 1 = k) : IsCombo n k (prevRev.reverse ++ [idx]) := by
  refine ⟨by simp [hk], ?_, ?_⟩
  · rw [List.pairwise_append]
    refine ⟨List.pairwise_reverse.mpr hsorted, by simp, ?_⟩
    intro a ha b hb
    simp at hb
    subst hb
    exact hlt a (by simpa using ha)
  · intro i hi
    simp at hi
    rcases hi with hi | hi
    · exact lt_trans (hlt i hi) hidx
    · subst hi; exact hidx

end

theorem encodeFrontier_nil (B m : Nat) : encodeFrontier B m [] = 0 := by
  cases m <;> rfl

theorem encodeFrontier_concat (B : Nat) :
    ∀ (m : Nat) (P : List Nat) (x : Nat), P.length < m →
      encodeFrontier B m (P ++ [x]) = encodeFrontier B m P + (x + 1) * B ^ (m - 1 - P.length) := by
  intro m
  induction m with
  | zero => intro P x h; omega
  | succ m ih =>
    intro P x h
    cases P with
    | nil => simp [encodeFrontier, encodeFrontier_nil]
    | cons p P =>
      show (p + 1) * B ^ m + encodeFrontier B m (P ++ [x]) =
        (p + 1) * B ^ m + encodeFrontier B m P + (x + 1) * B ^ (m + 1 - 1 - (P.length + 1))
      rw [ih P x (by simpa using h)]
      have : m + 1 - 1 - (P.length + 1) = m - 1 - P.length := by omega
      rw [this]
      ring

theorem encodeFrontier_lt (B : Nat) (hB : 0 < B) :
    ∀ (m : Nat) (l : List Nat), (∀ x ∈ l, x + 1 < B) → encodeFrontier B m l < B ^ m := by
  intro m
  induction m with
  | zero => intro l _; simp [encodeFrontier]
  | succ m ih =>
    intro l hl
    cases l with
    | nil => simp [encodeFrontier]; exact pow_pos hB _
    | cons x xs =>
      simp only [encodeFrontier]
      have h1 := ih xs (fun y hy => hl y (List.mem_cons_of_mem _ hy))
      have h2 : x + 1 < B := hl x (List.mem_cons_self _ _)
      have h3 : (x + 1) * B ^ m + B ^ m ≤ B * B ^ m := by
        have : x + 1 + 1 ≤ B := h2
        calc (x + 1) * B ^ m + B ^ m = (x + 1 + 1) * B ^ m := by ring
          _ ≤ B * B ^ m := Nat.mul_le_mul_right _ this
      rw [pow_succ]
      linarith [mul_comm B (B ^ m)]

theorem encodeFrontier_advance (B : Nat) (hB : 0 < B) (m : Nat) (P : List Nat) (x : Nat)
    (h : P.length < m) : encodeFrontier B m (P ++ [x]) < encodeFrontier B m (P ++ [x + 1]) := by
  rw [encodeFrontier_concat B m P x h, encodeFrontier_concat B m P (x + 1) h]
  have : 0 < B ^ (m - 1 - P.length) := pow_pos hB _
  nlinarith

theorem encodeFrontier_descend (B : Nat) (hB : 0 < B) (m : Nat) (P : List Nat) (x y : Nat)
    (h : P.length + 1 < m) :
    encodeFrontier B m (P ++ [x]) < encodeFrontier B m (P ++ [x] ++ [y]) := by
  rw [encodeFrontier_concat B m (P ++ [x]) y (by simpa using h)]
  have : 0 < B ^ (m - 1 - (P ++ [x]).length) := pow_pos hB _
  nlinarith

theorem encodeFrontier_backtrack (n m : Nat) (P : List Nat) (i : Nat) (h : P.length + 1 < m) :
    encodeFrontier (n + 2) m (P ++ [i] ++ [n]) < encodeFrontier (n + 2) m (P ++ [i + 1]) := by
  rw [encodeFrontier_concat _ m (P ++ [i]) n (by simpa using h),
    encodeFrontier_concat _ m P i (by omega), encodeFrontier_concat _ m P (i + 1) (by omega)]
  have e : m - 1 - P.length = (m - 1 - (P ++ [i]).length) + 1 := by simp; omega
  rw [e, pow_succ]
  have : 0 < (n + 2) ^ (m - 1 - (P ++ [i]).length) := pow_pos (by omega) _
  nlinarith

theorem searchMeasure_eq (n k : Nat) (st : SearchState) (P rest : List Nat)
    (hcur : st.currentLeafCellIndices = P ++ rest) (hlen : P.length = st.searchLeafCellIndex) :
    searchMeasure n k st = encodeFrontier (n + 2) k (P ++ [st.availableLeafCellIndex]) := by
  unfold searchMeasure
  rw [hcur, List.take_left' hlen]

section

variable {H : Hierarchy} {fuel : Nat} {avail : CellList} {k : Nat} {optimal : Int}

/-- One iteration of the search keeps the invariant, and a returned value satisfies
`SearchPost`. -/
theorem affinitySearch.step_spec (st : SearchState) (hinv : SearchInv H avail k optimal st)
    (out : SearchState ⊕ (List (Option Cell) × List Nat))
    (h : affinitySearch.step H fuel avail k optimal st = some out) :
    match out with
    | Sum.inl st' => SearchInv H avail k optimal st' ∧
        searchMeasure avail.length k st < searchMeasure avail.length k st'
    | Sum.inr r => SearchPost H avail k optimal r := by
  obtain ⟨prevRev, affRev, curRest, affRest, inv⟩ := hinv
  unfold affinitySearch.step at h
  by_cases hidx : st.availableLeafCellIndex < avail.length
  · -- the body of the inner loop
    obtain ⟨r0, rest', hrest⟩ := exists_cons_of_length_lt prevRev.reverse curRest k
      (by rw [← inv.cur_eq]; exact inv.len_cur) (by simp [inv.len_prev, inv.s_lt])
    obtain ⟨a0, arest', harest⟩ := exists_cons_of_length_lt affRev.reverse affRest k
      (by rw [← inv.aff_eq]; exact inv.len_aff) (by simp [inv.len_affRev, inv.s_lt])
    have hcur' : st.currentLeafCellIndices.set st.searchLeafCellIndex st.availableLeafCellIndex
        = prevRev.reverse ++ st.availableLeafCellIndex :: rest' := by
      rw [inv.cur_eq, hrest]
      exact set_append_cons _ _ _ _ _ (by simp [inv.len_prev])
    have haff' : ∀ a, st.currentAffinity.set st.searchLeafCellIndex a
        = affRev.reverse ++ a :: arest' := by
      intro a
      rw [inv.aff_eq, harest]
      exact set_append_cons _ _ _ _ _ (by simp [inv.len_affRev])
    have hlenc : (prevRev.reverse ++ st.availableLeafCellIndex :: rest').length = k := by
      rw [← hcur', List.length_set]; exact inv.len_cur
    have hlena : ∀ a, (affRev.reverse ++ a :: arest').length = k := by
      intro a; rw [← haff', List.length_set]; exact inv.len_aff
    have hleaf : avail[st.availableLeafCellIndex]? = some avail[st.availableLeafCellIndex] :=
      List.getElem?_eq_getElem hidx
    have hμ := searchMeasure_eq avail.length k st _ _ inv.cur_eq
      (by rw [List.length_reverse]; exact inv.len_prev)
    have hplen : prevRev.reverse.length < k := by
      rw [List.length_reverse, inv.len_prev]; exact inv.s_lt
    have hadv : ∀ (st' : SearchState) (rest : List Nat),
        st'.currentLeafCellIndices = prevRev.reverse ++ rest →
        st'.searchLeafCellIndex = st.searchLeafCellIndex →
        st'.availableLeafCellIndex = st.availableLeafCellIndex + 1 →
        searchMeasure avail.length k st < searchMeasure avail.length k st' := by
      intro st' rest e1 e2 e3
      rw [hμ, searchMeasure_eq avail.length k st' _ _ e1
        (by rw [List.length_reverse, e2]; exact inv.len_prev), e3]
      exact encodeFrontier_advance _ (by omega) _ _ _ hplen
    rw [if_pos hidx, hleaf] at h
    simp only [] at h
    rw [if_pos ⟨by rw [inv.len_cur]; exact inv.s_lt, by rw [inv.len_aff]; exact inv.s_lt⟩] at h
    simp only [hcur', haff'] at h
    cases hl : affinitySearch.lca H fuel st avail[st.availableLeafCellIndex] with
    | none => rw [hl] at h; simp at h
    | some oa =>
      rw [hl] at h
      simp only [] at h
      have hlca := affinitySearch.lca_fact inv hidx oa hl
      by_cases hpr : affinitySearch.pruned H st oa = true
      · -- pruned
        rw [if_pos hpr] at h
        simp only [Option.some.injEq] at h
        subst h
        refine ⟨⟨prevRev, affRev, st.availableLeafCellIndex :: rest', oa :: arest', ?_⟩, hadv _ _ rfl rfl rfl⟩
        exact {
          cur_eq := rfl
          aff_eq := rfl
          len_prev := inv.len_prev
          len_affRev := inv.len_affRev
          len_cur := hlenc
          len_aff := hlena oa
          s_lt := inv.s_lt
          idx_le := hidx
          sorted := inv.sorted
          prev_lt := fun i hi => Nat.lt_succ_of_lt (inv.prev_lt i hi)
          best_le := inv.best_le
          best_ok := inv.best_ok
          sem := by
            intro hsem
            obtain ⟨s1, s2, s3⟩ := inv.sem hsem
            refine ⟨s1, ?_, ?_⟩
            · apply visited_advance (le_refl _) s2
              intro b hb
              obtain ⟨a, ha, hle⟩ := (hlca hsem).opt_level_le hsem.levels b hb
              subst ha
              simp only [affinitySearch.pruned, Bool.and_eq_true, decide_eq_true_eq] at hpr
              have := hpr.2
              omega
            · intro hb
              obtain ⟨t1, t2⟩ := s3 hb
              exact ⟨t1.mono (Nat.le_succ _), t2⟩ }
      · rw [if_neg hpr] at h
        by_cases hk : st.searchLeafCellIndex + 1 = k
        · -- a complete choice: check it
          rw [if_pos hk] at h
          have harest' : arest' = [] := by
            have := hlena oa
            simp [inv.len_affRev] at this
            apply List.eq_nil_of_length_eq_zero
            omega
          have hrest' : rest' = [] := by
            have := hlenc
            simp [inv.len_prev] at this
            apply List.eq_nil_of_length_eq_zero
            omega
          subst harest' hrest'
          rw [List.getLast?_concat] at h
          cases oa with
          | none => simp at h
          | some last =>
            simp only [] at h
            have hcombo : IsCombo avail.length k (prevRev.reverse ++ [st.availableLeafCellIndex]) :=
              isCombo_snoc inv.sorted inv.prev_lt hidx (by rw [inv.len_prev]; exact hk)
            unfold checkCurrentLeafCells at h
            by_cases hlt : (H last).level < st.bestAffinity
            · rw [if_pos hlt] at h
              by_cases hall : ((prevRev.reverse ++ [st.availableLeafCellIndex]).all
                  (fun i => decide (i < avail.length))) = true
              swap
              · rw [if_neg hall] at h; simp at h
              rw [if_pos hall] at h
              simp only [] at h
              by_cases hfound : (H last).level = optimal
              · -- the optimal affinity: return
                rw [if_pos (decide_eq_true hfound)] at h
                simp only [Option.some.injEq] at h
                subst h
                refine ⟨hcombo, rfl, ?_⟩
                intro hsem
                obtain ⟨s1, s2, s3⟩ := inv.sem hsem
                refine ⟨last, hlca hsem, ?_, ?_⟩
                · intro c hc b hb
                  rw [hfound]
                  exact hsem.optimal_le c hc b hb
                · intro c hc hlex b hb
                  rw [List.reverse_append, List.reverse_reverse] at hlex
                  have := s2 c hc hlex b hb
                  omega
              · -- a better choice: record it
                rw [if_neg (by simpa using hfound)] at h
                simp only [Option.some.injEq] at h
                subst h
                refine ⟨⟨prevRev, affRev, [st.availableLeafCellIndex], [some last], ?_⟩, hadv _ _ rfl rfl rfl⟩
                exact {
                  cur_eq := rfl
                  aff_eq := rfl
                  len_prev := inv.len_prev
                  len_affRev := inv.len_affRev
                  len_cur := hlenc
                  len_aff := hlena (some last)
                  s_lt := inv.s_lt
                  idx_le := hidx
                  sorted := inv.sorted
                  prev_lt := fun i hi => Nat.lt_succ_of_lt (inv.prev_lt i hi)
                  best_le := le_trans (le_of_lt hlt) inv.best_le
                  best_ok := fun _ => ⟨hcombo, rfl⟩
                  sem := by
                    intro hsem
                    obtain ⟨s1, s2, s3⟩ := inv.sem hsem
                    refine ⟨s1, ?_, ?_⟩
                    · apply visited_advance (le_of_lt hlt) s2
                      intro b hb
                      obtain ⟨a, ha, hle⟩ := (hlca hsem).opt_level_le hsem.levels b hb
                      cases ha
                      exact hle
                    · intro _
                      refine ⟨?_, ⟨last, hlca hsem, rfl⟩, ?_⟩
                      · rw [LexBefore]
                        right
                        refine ⟨by simp, st.availableLeafCellIndex, ?_, Nat.lt_succ_self _⟩
                        rw [← List.length_reverse]
                        exact List.getElem?_concat_length _ _
                      · intro c hc hlex b hb
                        rw [List.reverse_append, List.reverse_reverse] at hlex
                        have := s2 c hc hlex b hb
                        show (H last).level < (H b).level
                        omega }
            · -- not better: go on
              rw [if_neg hlt] at h
              simp only [Bool.false_eq_true, if_false, Option.some.injEq] at h
              subst h
              refine ⟨⟨prevRev, affRev, [st.availableLeafCellIndex], [some last], ?_⟩, hadv _ _ rfl rfl rfl⟩
              exact {
                cur_eq := rfl
                aff_eq := rfl
                len_prev := inv.len_prev
                len_affRev := inv.len_affRev
                len_cur := hlenc
                len_aff := hlena (some last)
                s_lt := inv.s_lt
                idx_le := hidx
                sorted := inv.sorted
                prev_lt := fun i hi => Nat.lt_succ_of_lt (inv.prev_lt i hi)
                best_le := inv.best_le
                best_ok := inv.best_ok
                sem := by
                  intro hsem
                  obtain ⟨s1, s2, s3⟩ := inv.sem hsem
                  refine ⟨s1, ?_, ?_⟩
                  · apply visited_advance (le_refl _) s2
                    intro b hb
                    obtain ⟨a, ha, hle⟩ := (hlca hsem).opt_level_le hsem.levels b hb
                    cases ha
                    show st.bestAffinity ≤ (H b).level
                    omega
                  · intro hb
                    obtain ⟨t1, t2⟩ := s3 hb
                    exact ⟨t1.mono (Nat.le_succ _), t2⟩ }
        · -- pick the candidate and search the next position
          rw [if_neg hk] at h
          simp only [Option.some.injEq] at h
          subst h
          refine ⟨⟨st.availableLeafCellIndex :: prevRev, oa :: affRev, rest', arest', ?_⟩, ?_⟩
          swap
          · rw [hμ, searchMeasure_eq avail.length k _
              (prevRev.reverse ++ [st.availableLeafCellIndex]) rest' (by simp)
              (by simp [inv.len_prev])]
            have := inv.s_lt
            exact encodeFrontier_descend _ (by omega) _ _ _ _
              (by rw [List.length_reverse, inv.len_prev]; omega)
          exact {
            cur_eq := by simp
            aff_eq := by simp
            len_prev := by simp [inv.len_prev]
            len_affRev := by simp [inv.len_affRev]
            len_cur := hlenc
            len_aff := hlena oa
            s_lt := by have := inv.s_lt; show st.searchLeafCellIndex + 1 < k; omega
            idx_le := hidx
            sorted := List.pairwise_cons.mpr ⟨fun i hi => inv.prev_lt i hi, inv.sorted⟩
            prev_lt := by
              intro i hi
              show i < st.availableLeafCellIndex + 1
              rcases List.mem_cons.mp hi with hi | hi
              · omega
              · have := inv.prev_lt i hi; omega
            best_le := inv.best_le
            best_ok := inv.best_ok
            sem := by
              intro hsem
              obtain ⟨s1, s2, s3⟩ := inv.sem hsem
              refine ⟨⟨by simpa using hlca hsem, s1⟩, ?_, ?_⟩
              · intro c hc hlex b hb
                exact s2 c hc (LexBefore.descend hc hlex) b hb
              · intro hb
                obtain ⟨t1, t2⟩ := s3 hb
                refine ⟨?_, t2⟩
                show LexBefore _ ((st.availableLeafCellIndex + 1) :: st.availableLeafCellIndex :: prevRev)
                rw [LexBefore]
                exact Or.inl t1 }
  · -- after the inner loop
    rw [if_neg hidx] at h
    have hidxn : st.availableLeafCellIndex = avail.length := le_antisymm inv.idx_le (not_lt.mp hidx)
    by_cases hs0 : st.searchLeafCellIndex = 0
    · rw [if_pos hs0] at h
      by_cases hbest : st.bestAffinity = highestLevel
      · simp [hbest] at h
      · rw [if_neg hbest] at h
        simp only [Option.some.injEq] at h
        subst h
        have hblt : st.bestAffinity < highestLevel := lt_of_le_of_ne inv.best_le hbest
        have : prevRev = [] := List.eq_nil_of_length_eq_zero (by rw [inv.len_prev, hs0])
        subst this
        refine ⟨(inv.best_ok hblt).1, (inv.best_ok hblt).2, ?_⟩
        intro hsem
        obtain ⟨s1, s2, s3⟩ := inv.sem hsem
        obtain ⟨t1, ⟨a, ha, hal⟩, t3⟩ := s3 hblt
        refine ⟨a, ha, ?_, ?_⟩
        · intro c hc b hb
          rw [hal]
          apply s2 c hc _ b hb
          rw [hidxn]
          exact LexBefore.final hc (lt_of_le_of_lt (Nat.zero_le _) inv.s_lt)
        · intro c hc hlex b hb
          rw [hal]
          exact t3 c hc hlex b hb
    · rw [if_neg hs0] at h
      cases prevRev with
      | nil => exact absurd inv.len_prev.symm (by simpa using hs0)
      | cons i prev =>
        have hlen : prev.length + 1 = st.searchLeafCellIndex := by
          rw [← inv.len_prev]; simp
        have hget : st.currentLeafCellIndices[st.searchLeafCellIndex - 1]? = some i := by
          rw [inv.cur_eq, List.reverse_cons]
          exact getElem?_snoc_append _ _ _ _ (by simpa using hlen)
        rw [hget] at h
        simp only [Option.some.injEq] at h
        subst h
        cases affRev with
        | nil => exact absurd inv.len_affRev.symm (by simpa using hs0)
        | cons oa arev =>
          refine ⟨⟨prev, arev, i :: curRest, oa :: affRest, ?_⟩, ?_⟩
          swap
          · rw [searchMeasure_eq avail.length k st _ _ inv.cur_eq
                (by rw [List.length_reverse]; exact inv.len_prev),
              searchMeasure_eq avail.length k _ prev.reverse (i :: curRest)
                (by rw [inv.cur_eq]; simp) (by rw [List.length_reverse]; show prev.length = st.searchLeafCellIndex - 1; omega),
              hidxn, List.reverse_cons]
            have := inv.s_lt
            exact encodeFrontier_backtrack _ _ _ _ (by rw [List.length_reverse]; omega)
          have hsorted := List.pairwise_cons.mp inv.sorted
          exact {
            cur_eq := by rw [inv.cur_eq]; simp
            aff_eq := by rw [inv.aff_eq]; simp
            len_prev := by show prev.length = st.searchLeafCellIndex - 1; omega
            len_affRev := by
              have := inv.len_affRev
              simp at this
              show arev.length = st.searchLeafCellIndex - 1
              omega
            len_cur := inv.len_cur
            len_aff := inv.len_aff
            s_lt := by have := inv.s_lt; show st.searchLeafCellIndex - 1 < k; omega
            idx_le := by
              have := inv.prev_lt i (by simp)
              have := inv.idx_le
              show i + 1 ≤ avail.length
              omega
            sorted := hsorted.2
            prev_lt := by
              intro j hj
              have := hsorted.1 j hj
              show j < i + 1
              omega
            best_le := inv.best_le
            best_ok := inv.best_ok
            sem := by
              intro hsem
              obtain ⟨s1, s2, s3⟩ := inv.sem hsem
              have hk1 : prev.length + 1 < k := by have := inv.s_lt; omega
              refine ⟨s1.2, ?_, ?_⟩
              · intro c hc hlex b hb
                apply s2 c hc _ b hb
                rw [hidxn]
                exact LexBefore.backtrack hc hk1 hlex
              · intro hb
                obtain ⟨t1, t2⟩ := s3 hb
                refine ⟨?_, t2⟩
                show LexBefore st.bestAffinityLeafCellIndices ((i + 1) :: prev)
                rw [LexBefore] at t1
                rcases t1 with t1 | ⟨u1, y, u2, u3⟩
                · exact t1.mono (Nat.le_succ _)
                · rw [LexBefore]
                  right
                  have e : (i :: prev).length = prev.reverse.length + 1 := by simp
                  rw [e, List.reverse_cons] at u1
                  refine ⟨by simpa using take_of_take_eq_concat u1, i, ?_, Nat.lt_succ_self _⟩
                  simpa using getElem?_of_take_eq_concat u1 }

end

theorem Anc.exists_parent {H : Hierarchy} {n c : Cell} (h : Anc H n c) (hne : n ≠ c) :
    ∃ p, (H c).parent = some p ∧ Anc H n p := by
  cases h with
  | refl => exact absurd rfl hne
  | step hp h' => exact ⟨_, hp, h'⟩

theorem findLCA.lift_total {H : Hierarchy} (hl : LevelsByOne H) (n higher : Cell)
    (hn : (H higher).level ≤ (H n).level) :
    ∀ (fuel : Nat) (lower : Cell), Anc H n lower →
      ((H higher).level - (H lower).level).toNat < fuel →
      ∃ r, findLCA.lift H higher fuel lower = some r := by
  intro fuel
  induction fuel with
  | zero => intro lower _ h; omega
  | succ fuel ih =>
    intro lower hanc hf
    rw [findLCA.lift]
    by_cases hlt : (H lower).level < (H higher).level
    · rw [if_pos hlt]
      have hne : n ≠ lower := by
        intro e; subst e; omega
      obtain ⟨p, hp, hanc'⟩ := hanc.exists_parent hne
      rw [hp]
      have := hl _ _ hp
      exact ih p hanc' (by omega)
    · rw [if_neg hlt]
      exact ⟨_, rfl⟩

theorem findLCA.walk_total {H : Hierarchy} (hl : LevelsByOne H) (n : Cell) :
    ∀ (fuel : Nat) (lower higher : Cell), Anc H n lower → Anc H n higher →
      (H lower).level = (H higher).level → lower ≠ higher →
      ((H n).level - (H lower).level).toNat < fuel →
      ∃ r, findLCA.walk H fuel lower higher = some r := by
  intro fuel
  induction fuel with
  | zero => intro lower higher _ _ _ _ h; omega
  | succ fuel ih =>
    intro lower higher h1 h2 hlev hne hf
    have hn1 : n ≠ lower := by
      intro e; subst e
      exact hne (h2.eq_of_level_eq hl (le_of_eq hlev))
    have hn2 : n ≠ higher := by
      intro e; subst e
      exact hne (h1.eq_of_level_eq hl (le_of_eq hlev.symm)).symm
    obtain ⟨pl, hpl, al⟩ := h1.exists_parent hn1
    obtain ⟨ph, hph, ah⟩ := h2.exists_parent hn2
    rw [findLCA.walk, hpl, hph]
    by_cases hpe : pl = ph
    · subst hpe
      simp [CellEqual]
    · have e1 := hl _ _ hpl
      have e2 := hl _ _ hph
      have := al.level_le hl
      simp only [CellEqual, Option.some.injEq, hpe, decide_False, Bool.not_false, if_true]
      exact ih pl ph al ah (by omega) hpe (by omega)

/-- With enough fuel `findLCA` finds the lowest common ancestor of two cells that have a
common ancestor. -/
theorem findLCA_total {H : Hierarchy} (hl : LevelsByOne H) (n : Cell) (fuel : Nat)
    (lower higher : Cell) (h1 : Anc H n lower) (h2 : Anc H n higher)
    (hlev : (H lower).level ≤ (H higher).level)
    (hf : ((H n).level - (H lower).level).toNat < fuel) :
    ∃ a, findLCA H fuel lower higher = some (some a) := by
  have hn := h2.level_le hl
  have key : ∃ r, findLCA H fuel lower higher = some r := by
    unfold findLCA
    obtain ⟨r1, hr1⟩ := findLCA.lift_total hl n higher hn fuel lower h1 (by omega)
    rw [hr1]
    obtain ⟨s1, s2⟩ := findLCA.lift_spec hl higher fuel lower r1 hr1
    cases r1 with
    | none => exact ⟨_, rfl⟩
    | some l =>
      obtain ⟨a1, a2, a3⟩ := s1 l rfl
      have a3 := a3 hlev
      by_cases hlh : l = higher
      · subst hlh
        simp [CellEqual]
      · simp only [CellEqual, Option.some.injEq, hlh, decide_False, Bool.false_eq_true, if_false]
        have hnl : Anc H n l := Anc.chain hl a1 h1 (by omega)
        exact findLCA.walk_total hl n fuel l higher hnl h2 a3 hlh (by omega)
  obtain ⟨r, hr⟩ := key
  cases r with
  | none =>
    exact absurd ⟨h1, h2⟩ ((findLCA_spec hl fuel lower higher none hlev hr).2 rfl n)
  | some a => exact ⟨a, hr⟩

section

variable {H : Hierarchy} {fuel : Nat} {avail : CellList} {k : Nat} {optimal : Int}

theorem mem_of_mem_cellsAt {avail : CellList} {idxs : List Nat} {c : Cell}
    (h : c ∈ cellsAt avail idxs) : c ∈ avail := by
  simp only [cellsAt, List.mem_filterMap] at h
  obtain ⟨i, _, hi⟩ := h
  obtain ⟨h1, h2⟩ := List.getElem?_eq_some_iff.mp hi
  exact h2 ▸ List.getElem_mem _

theorem isCombo_range {n k : Nat} (h : k ≤ n) : IsCombo n k (List.range k) := by
  refine ⟨List.length_range k, List.pairwise_lt_range k, ?_⟩
  intro i hi
  have := List.mem_range.mp hi
  omega

theorem affinitySearch.lca_total {st : SearchState} {prevRev : List Nat}
    {affRev : List (Option Cell)} {curRest : List Nat} {affRest : List (Option Cell)} {n : Cell}
    (inv : SearchInvAt H avail k optimal st prevRev affRev curRest affRest)
    (tot : SearchTotal H fuel avail k optimal n)
    (hidx : st.availableLeafCellIndex < avail.length) :
    ∃ a, affinitySearch.lca H fuel st avail[st.availableLeafCellIndex] = some (some a) := by
  unfold affinitySearch.lca
  by_cases hs0 : st.searchLeafCellIndex = 0
  · rw [if_pos hs0]; exact ⟨_, rfl⟩
  · rw [if_neg hs0]
    obtain ⟨hok, _, _⟩ := inv.sem tot.sem
    cases prevRev with
    | nil => exact absurd inv.len_prev.symm (by simpa using hs0)
    | cons i prev =>
      obtain ⟨oa', arev, harev, hlca, _⟩ := hok.cons_inv
      have hget : st.currentAffinity[st.searchLeafCellIndex - 1]? = some oa' := by
        rw [inv.aff_eq, harev, List.reverse_cons]
        apply getElem?_snoc_append
        rw [← inv.len_affRev, harev]
        simp
      rw [hget]
      have hcommon : CommonAnc H n (cellsAt avail (i :: prev).reverse) :=
        fun c hc => tot.under c (mem_of_mem_cellsAt hc)
      cases oa' with
      | none => exact absurd hcommon (hlca n)
      | some higher =>
        simp only []
        have hi : i < avail.length := lt_trans (inv.prev_lt i (by simp)) hidx
        have himem : avail[i] ∈ cellsAt avail (i :: prev).reverse := by
          simp only [cellsAt, List.reverse_cons, List.filterMap_append, List.mem_append,
            List.mem_filterMap]
          right
          exact ⟨i, by simp, by simp [List.getElem?_eq_getElem hi]⟩
        obtain ⟨l0, hl0⟩ := tot.sem.sameLevel
        have hlev : (H avail[st.availableLeafCellIndex]).level ≤ (H higher).level := by
          have h1 := (hlca.1 _ himem).level_le tot.sem.levels
          rw [hl0 _ (List.getElem_mem _)] at h1
          rw [hl0 _ (List.getElem_mem _)]
          exact h1
        exact findLCA_total tot.sem.levels n fuel _ higher (tot.under _ (List.getElem_mem _))
          (hlca.2 n hcommon) hlev (tot.fuel_ok _ (List.getElem_mem _))

/-- Under `SearchTotal` no iteration of the search panics. -/
theorem affinitySearch.step_total {n : Cell} (st : SearchState)
    (hinv : SearchInv H avail k optimal st) (tot : SearchTotal H fuel avail k optimal n) :
    ∃ out, affinitySearch.step H fuel avail k optimal st = some out := by
  obtain ⟨prevRev, affRev, curRest, affRest, inv⟩ := hinv
  unfold affinitySearch.step
  by_cases hidx : st.availableLeafCellIndex < avail.length
  · obtain ⟨a0, arest', harest⟩ := exists_cons_of_length_lt affRev.reverse affRest k
      (by rw [← inv.aff_eq]; exact inv.len_aff) (by simp [inv.len_affRev, inv.s_lt])
    have haff' : ∀ a, st.currentAffinity.set st.searchLeafCellIndex a
        = affRev.reverse ++ a :: arest' := by
      intro a
      rw [inv.aff_eq, harest]
      exact set_append_cons _ _ _ _ _ (by simp [inv.len_affRev])
    have hlena : ∀ a, (affRev.reverse ++ a :: arest').length = k := by
      intro a; rw [← haff', List.length_set]; exact inv.len_aff
    have hleaf : avail[st.availableLeafCellIndex]? = some avail[st.availableLeafCellIndex] :=
      List.getElem?_eq_getElem hidx
    obtain ⟨a, ha⟩ := affinitySearch.lca_total inv tot hidx
    rw [if_pos hidx, hleaf]
    simp only []
    rw [if_pos ⟨by rw [inv.len_cur]; exact inv.s_lt, by rw [inv.len_aff]; exact inv.s_lt⟩, ha]
    simp only []
    by_cases hpr : affinitySearch.pruned H st (some a) = true
    · rw [if_pos hpr]; exact ⟨_, rfl⟩
    · rw [if_neg hpr]
      by_cases hk : st.searchLeafCellIndex + 1 = k
      · rw [if_pos hk, haff']
        have harest' : arest' = [] := by
          have := hlena (some a)
          simp [inv.len_affRev] at this
          apply List.eq_nil_of_length_eq_zero
          omega
        subst harest'
        rw [List.getLast?_concat]
        simp only []
        unfold checkCurrentLeafCells
        by_cases hlt : (H a).level < st.bestAffinity
        · rw [if_pos hlt]
          have hall : ((st.currentLeafCellIndices.set st.searchLeafCellIndex
              st.availableLeafCellIndex).all (fun i => decide (i < avail.length))) = true := by
            obtain ⟨r0, rest', hrest⟩ := exists_cons_of_length_lt prevRev.reverse curRest k
              (by rw [← inv.cur_eq]; exact inv.len_cur) (by simp [inv.len_prev, inv.s_lt])
            have hcur' : st.currentLeafCellIndices.set st.searchLeafCellIndex
                st.availableLeafCellIndex
                = prevRev.reverse ++ st.availableLeafCellIndex :: rest' := by
              rw [inv.cur_eq, hrest]
              exact set_append_cons _ _ _ _ _ (by simp [inv.len_prev])
            have hrest' : rest' = [] := by
              have := inv.len_cur
              rw [inv.cur_eq, hrest] at this
              simp [inv.len_prev] at this
              apply List.eq_nil_of_length_eq_zero
              omega
            subst hrest'
            rw [hcur', List.all_eq_true]
            intro x hx
            simp only [decide_eq_true_eq]
            simp only [List.mem_append, List.mem_reverse, List.mem_singleton] at hx
            rcases hx with hx | hx
            · exact lt_trans (inv.prev_lt x hx) hidx
            · subst hx; exact hidx
          rw [if_pos hall]
          simp only []
          split_ifs <;> exact ⟨_, rfl⟩
        · rw [if_neg hlt]
          simp
      · rw [if_neg hk]; exact ⟨_, rfl⟩
  · rw [if_neg hidx]
    by_cases hs0 : st.searchLeafCellIndex = 0
    · rw [if_pos hs0]
      have hbest : st.bestAffinity ≠ highestLevel := by
        obtain ⟨_, s2, _⟩ := inv.sem tot.sem
        have hidxn : st.availableLeafCellIndex = avail.length :=
          le_antisymm inv.idx_le (not_lt.mp hidx)
        have : prevRev = [] := List.eq_nil_of_length_eq_zero (by rw [inv.len_prev, hs0])
        subst this
        have hc := isCombo_range tot.k_le
        have := s2 _ hc (by rw [hidxn]; exact LexBefore.final hc (lt_of_le_of_lt (Nat.zero_le _) inv.s_lt))
          n (fun c hc => tot.under c (mem_of_mem_cellsAt hc))
        have := tot.level_lt
        omega
      rw [if_neg hbest]; exact ⟨_, rfl⟩
    · rw [if_neg hs0]
      have : st.searchLeafCellIndex - 1 < st.currentLeafCellIndices.length := by
        rw [inv.len_cur]; have := inv.s_lt; omega
      rw [List.getElem?_eq_getElem this]
      exact ⟨_, rfl⟩

end

section

variable {H : Hierarchy} {fuel : Nat} {avail : CellList} {k : Nat} {optimal : Int}

theorem affinitySearch.init_inv (hk : 0 < k) :
    SearchInv H avail k optimal (affinitySearch.init k) := by
  refine ⟨[], [], List.replicate k 0, List.replicate k none, ?_⟩
  exact {
    cur_eq := rfl
    aff_eq := rfl
    len_prev := rfl
    len_affRev := rfl
    len_cur := List.length_replicate _ _
    len_aff := List.length_replicate _ _
    s_lt := hk
    idx_le := Nat.zero_le _
    sorted := List.Pairwise.nil
    prev_lt := by intro i hi; cases hi
    best_le := le_refl _
    best_ok := by intro h; exact absurd h (lt_irrefl _)
    sem := by
      intro _
      refine ⟨trivial, ?_, ?_⟩
      · intro c _ hlex
        simp [LexBefore, affinitySearch.init] at hlex
      · intro h; exact absurd h (lt_irrefl _) }

/-- What the affinity search returns, whenever it returns. -/
theorem affinitySearch_post (r : List (Option Cell) × List Nat)
    (h : affinitySearch H fuel avail k optimal = some r) : SearchPost H avail k optimal r := by
  unfold affinitySearch at h
  rcases Nat.eq_zero_or_pos k with hk | hk
  · subst hk
    exfalso
    cases fuel with
    | zero => simp [runLoop] at h
    | succ f =>
      rw [runLoop] at h
      have : affinitySearch.step H (f + 1) avail 0 optimal (affinitySearch.init 0) = none := by
        unfold affinitySearch.step
        simp only [affinitySearch.init, List.replicate, List.length_nil, lt_self_iff_false,
          false_and, if_false, if_true]
        split_ifs
        · split <;> rfl
        · rfl
      rw [this] at h
      simp at h
  · refine runLoop_post (affinitySearch.step H fuel avail k optimal) (SearchInv H avail k optimal)
      (SearchPost H avail k optimal) ?_ ?_ fuel _ r (affinitySearch.init_inv hk) h
    · intro st st' hinv hs
      exact (affinitySearch.step_spec st hinv _ hs).1
    · intro st r' hinv hs
      exact affinitySearch.step_spec st hinv _ hs

theorem searchMeasure_le {st : SearchState} (hinv : SearchInv H avail k optimal st) :
    searchMeasure avail.length k st ≤ (avail.length + 2) ^ k := by
  obtain ⟨prevRev, affRev, curRest, affRest, inv⟩ := hinv
  rw [searchMeasure_eq avail.length k st _ _ inv.cur_eq
    (by rw [List.length_reverse]; exact inv.len_prev)]
  apply le_of_lt
  apply encodeFrontier_lt _ (by omega)
  intro x hx
  have := inv.idx_le
  simp only [List.mem_append, List.mem_reverse, List.mem_singleton] at hx
  rcases hx with hx | hx
  · have := inv.prev_lt x hx; omega
  · omega

/-- Under `SearchTotal`, and with fuel for every iteration, the affinity search returns. -/
theorem affinitySearch_total {n : Cell} (tot : SearchTotal H fuel avail k optimal n)
    (hk : 0 < k) (hfuel : (avail.length + 2) ^ k < fuel) :
    ∃ r, affinitySearch H fuel avail k optimal = some r := by
  unfold affinitySearch
  refine runLoop_terminates (affinitySearch.step H fuel avail k optimal)
    (SearchInv H avail k optimal) (searchMeasure avail.length k) ((avail.length + 2) ^ k)
    ?_ (fun st hinv => searchMeasure_le hinv) fuel _ (affinitySearch.init_inv hk) (by omega)
  intro st hinv
  obtain ⟨out, hout⟩ := affinitySearch.step_total st hinv tot
  have hspec := affinitySearch.step_spec st hinv out hout
  cases out with
  | inl st' => exact Or.inr ⟨st', hout, hspec.1, hspec.2⟩
  | inr r => exact Or.inl ⟨r, hout⟩

end

theorem copyWithin_eq (l : CellList) (a b c d : Nat) (hab : a ≤ b) (hb : b ≤ l.length)
    (hcd : c ≤ d) (hd : d ≤ l.length) :
    copyWithin l a b c d =
      some (l.take a ++ (l.drop c).take (min (b - a) (d - c)) ++ l.drop (a + min (b - a) (d - c))) := by
  unfold copyWithin
  rw [if_pos (by omega)]
  have e1 : ((b : Int) - a).toNat = b - a := by omega
  have e2 : ((d : Int) - c).toNat = d - c := by omega
  simp only [Int.toNat_ofNat, e1, e2]

/-- What the first loop of `removePickedLeafCells` leaves in the list. -/
theorem removePickedLeafCells.shift_spec (l0 : CellList) :
    ∀ (rest : List Nat) (index i : Nat) (L G junk : CellList),
      (index :: rest).Pairwise (fun a b => a < b) → (∀ x ∈ index :: rest, x < l0.length) →
      L = G ++ junk ++ l0.drop index → G.length + i = index → junk.length = i →
      ∃ L', removePickedLeafCells.shift i (index :: rest) L = some L' ∧
        L'.length = l0.length ∧
        L'.take (l0.length - (i + (rest.length + 1))) =
          G ++ removeIndices (l0.drop index) index (index :: rest) := by
  intro rest
  induction rest with
  | nil =>
    intro index i L G junk _ hlt hL hG hj
    have hidx : index < l0.length := hlt index (by simp)
    have hLlen : L.length = l0.length := by
      rw [hL]; simp; omega
    have hGi : index - i = G.length := by omega
    have h1 : L.take (index - i) = G := by
      rw [hL, hGi, List.append_assoc, List.take_left]
    have h2 : L.drop (index + 1) = l0.drop (index + 1) := by
      rw [hL]
      have : index + 1 = (G ++ junk).length + 1 := by simp; omega
      rw [this, List.drop_append, List.drop_drop]
      congr 1
    have hm : min (L.length - (index - i)) (L.length - (index + 1)) = l0.length - (index + 1) := by
      omega
    have hcopy := copyWithin_eq L (index - i) L.length (index + 1) L.length (by omega) (le_refl _)
      (by omega) (le_refl _)
    rw [hm, h1, h2] at hcopy
    have h3 : (l0.drop (index + 1)).take (l0.length - (index + 1)) = l0.drop (index + 1) := by
      apply List.take_of_length_le
      simp
    rw [h3] at hcopy
    refine ⟨G ++ l0.drop (index + 1) ++ L.drop (index - i + (l0.length - (index + 1))), ?_, ?_, ?_⟩
    · rw [removePickedLeafCells.shift]
      have e : ((index : Int) - i) = ((index - i : Nat) : Int) := by omega
      have e2 : ((index : Int) + 1) = ((index + 1 : Nat) : Int) := by omega
      rw [e, e2]
      exact hcopy
    · simp; omega
    · have h4 : (G ++ l0.drop (index + 1)).length = l0.length - (i + ([] : List Nat).length + 1) := by
        simp; omega
      have h5 : l0.length - (i + (([] : List Nat).length + 1)) = (G ++ l0.drop (index + 1)).length := by
        rw [h4]; simp
      rw [h5, List.take_left]
      simp [removeIndices]
  | cons next rest ih =>
    intro index i L G junk hsorted hlt hL hG hj
    have hidx : index < l0.length := hlt index (by simp)
    have hnext : next < l0.length := hlt next (by simp)
    have hin : index < next := (List.pairwise_cons.mp hsorted).1 next (by simp)
    have hLlen : L.length = l0.length := by
      rw [hL]; simp; omega
    have hGi : index - i = G.length := by omega
    have h1 : L.take (index - i) = G := by
      rw [hL, hGi, List.append_assoc, List.take_left]
    have h2 : L.drop (index + 1) = l0.drop (index + 1) := by
      rw [hL]
      have : index + 1 = (G ++ junk).length + 1 := by simp; omega
      rw [this, List.drop_append, List.drop_drop]
      congr 1
    have hm : min (next - i - 1 - (index - i)) (next - (index + 1)) = next - (index + 1) := by
      omega
    have hcopy := copyWithin_eq L (index - i) (next - i - 1) (index + 1) next (by omega) (by omega)
      (by omega) (by omega)
    rw [hm, h1, h2] at hcopy
    have hshift : removePickedLeafCells.shift i (index :: next :: rest) L =
        removePickedLeafCells.shift (i + 1) (next :: rest)
          (G ++ (l0.drop (index + 1)).take (next - (index + 1)) ++
            L.drop (index - i + (next - (index + 1)))) := by
      rw [removePickedLeafCells.shift]
      have e : ((index : Int) - i) = ((index - i : Nat) : Int) := by omega
      have e2 : ((index : Int) + 1) = ((index + 1 : Nat) : Int) := by omega
      have e3 : ((next : Int) - i - 1) = ((next - i - 1 : Nat) : Int) := by omega
      rw [e, e2, e3, hcopy]
    rw [hshift]
    have hdrop : L.drop (index - i + (next - (index + 1))) =
        (L.drop (index - i + (next - (index + 1)))).take (i + 1) ++ l0.drop next := by
      have h6 : L.drop next = l0.drop next := by
        have : next = (index + 1) + (next - (index + 1)) := by omega
        rw [this, ← List.drop_drop, h2, List.drop_drop]
      have h7 : (L.drop (index - i + (next - (index + 1)))).drop (i + 1) = l0.drop next := by
        rw [List.drop_drop, ← h6]
        congr 1
        omega
      rw [← h7, List.take_append_drop]
    obtain ⟨L', hL', hlen', htake'⟩ := ih next (i + 1)
      (G ++ (l0.drop (index + 1)).take (next - (index + 1)) ++
            L.drop (index - i + (next - (index + 1))))
      (G ++ (l0.drop (index + 1)).take (next - (index + 1)))
      ((L.drop (index - i + (next - (index + 1)))).take (i + 1))
      (List.pairwise_cons.mp hsorted).2 (fun x hx => hlt x (List.mem_cons_of_mem _ hx))
      (by rw [List.append_assoc _ _ (l0.drop next), ← hdrop])
      (by simp; omega) (by simp; omega)
    refine ⟨L', hL', hlen', ?_⟩
    have e4 : l0.length - (i + ((next :: rest).length + 1)) =
        l0.length - (i + 1 + (rest.length + 1)) := by simp; omega
    rw [e4, htake']
    have e5 : removeIndices (l0.drop index) index (index :: next :: rest) =
        (l0.drop (index + 1)).take (next - (index + 1)) ++
          removeIndices (l0.drop next) next (next :: rest) := by
      simp only [removeIndices, Nat.sub_self, List.take_zero, List.nil_append, zero_add,
        List.drop_drop]
      have : index + 1 + (next - (index + 1) + 1) = next + 1 := by omega
      rw [this]
    rw [e5, List.append_assoc]

/-- The elements of `l` at the ascending positions `is` form a sublist of `l`, the other
elements are `removeIndices l base is`, and together they are the elements of `l`. -/
theorem removeIndices_spec :
    ∀ (is : List Nat) (base : Nat) (l : CellList), is.Pairwise (fun a b => a < b) →
      (∀ i ∈ is, base ≤ i ∧ i < base + l.length) →
      (is.filterMap (fun i => l[i - base]?) ++ removeIndices l base is).Perm l ∧
        (removeIndices l base is).Sublist l ∧
        (is.filterMap (fun i => l[i - base]?)).Sublist l ∧
        (is.filterMap (fun i => l[i - base]?)).length = is.length := by
  intro is
  induction is with
  | nil => intro base l _ _; simp [removeIndices]
  | cons index rest ih =>
    intro base l hs hb
    obtain ⟨hb1, hb2⟩ := hb index (by simp)
    have hj : index - base < l.length := by omega
    have hsplit : l = l.take (index - base) ++ l[index - base] :: l.drop (index - base + 1) := by
      rw [← List.drop_eq_getElem_cons hj, List.take_append_drop]
    obtain ⟨hs1, hs2⟩ := List.pairwise_cons.mp hs
    have hpick : rest.filterMap (fun i => l[i - base]?) =
        rest.filterMap (fun i => (l.drop (index - base + 1))[i - (index + 1)]?) := by
      apply List.filterMap_congr
      intro i hi
      have := hs1 i hi
      rw [List.getElem?_drop]
      congr 1
      omega
    obtain ⟨i1, i2, i3, i4⟩ := ih (index + 1) (l.drop (index - base + 1)) hs2 (by
      intro i hi
      have := hs1 i hi
      have := (hb i (List.mem_cons_of_mem _ hi)).2
      simp only [List.length_drop]
      omega)
    rw [← hpick] at i1 i3 i4
    simp only [List.filterMap_cons, List.getElem?_eq_getElem hj, removeIndices]
    refine ⟨?_, ?_, ?_, ?_⟩
    · conv_rhs => rw [hsplit]
      refine List.Perm.trans ?_ List.perm_middle.symm
      simp only [List.cons_append]
      refine List.Perm.cons _ ?_
      refine List.Perm.trans ?_ (List.Perm.append_left _ i1)
      rw [← List.append_assoc, ← List.append_assoc]
      exact List.Perm.append_right _ List.perm_append_comm
    · conv_rhs => rw [hsplit]
      exact List.Sublist.append_left (List.Sublist.cons _ i2) _
    · conv_rhs => rw [hsplit]
      exact List.sublist_append_of_sublist_right (List.Sublist.cons₂ _ i3)
    · simp [i4]

theorem isCombo_length_le {n k : Nat} {c : List Nat} (h : IsCombo n k c) : k ≤ n := by
  have hnd : c.Nodup := h.2.1.imp (fun hab => Nat.ne_of_lt hab)
  have hsub : c ⊆ List.range n := fun i hi => List.mem_range.mpr (h.2.2 i hi)
  have := (hnd.subperm hsub).length_le
  rw [List.length_range, h.1] at this
  exact this

theorem removeIndices_combo {l : CellList} {k : Nat} {is : List Nat} (h : IsCombo l.length k is) :
    (cellsAt l is ++ removeIndices l 0 is).Perm l ∧ (removeIndices l 0 is).Sublist l ∧
      (cellsAt l is).Sublist l ∧ (cellsAt l is).length = k := by
  have := removeIndices_spec is 0 l h.2.1 (fun i hi => ⟨Nat.zero_le _, by have := h.2.2 i hi; omega⟩)
  simp only [Nat.sub_zero] at this
  rw [h.1] at this
  exact this

/-- `removePickedLeafCells` returns the list without the elements at the given ascending
positions. -/
theorem removePickedLeafCells_eq {l : CellList} {k : Nat} {is : List Nat}
    (h : IsCombo l.length k is) : removePickedLeafCells l is = some (removeIndices l 0 is) := by
  unfold removePickedLeafCells
  cases is with
  | nil => simp [removePickedLeafCells.shift, removeIndices]
  | cons index rest =>
    obtain ⟨L', h1, h2, h3⟩ := removePickedLeafCells.shift_spec l rest index 0 l (l.take index) []
      h.2.1 h.2.2 (by simp) (by
        have := h.2.2 index (by simp)
        simp; omega) rfl
    rw [h1]
    have hk := isCombo_length_le h
    rw [← h.1] at hk
    simp only [h2]
    rw [if_pos hk]
    simp only [Nat.zero_add, List.length_cons] at h3 ⊢
    rw [h3]
    simp [removeIndices]

theorem nonNil_map_getElem? (l : CellList) (is : List Nat) :
    nonNil (is.map (fun i => l[i]?)) = cellsAt l is := by
  simp [nonNil, cellsAt, List.reduceOption, List.filterMap_map]

/-- Every sublist of `l` is made of the elements of `l` at ascending positions. -/
theorem exists_combo_of_sublist {S l : CellList} (h : S.Sublist l) :
    ∃ c, IsCombo l.length S.length c ∧ cellsAt l c = S := by
  induction h with
  | slnil => exact ⟨[], ⟨rfl, List.Pairwise.nil, by simp⟩, rfl⟩
  | @cons S l a _ ih =>
    obtain ⟨c, ⟨h1, h2, h3⟩, h4⟩ := ih
    refine ⟨c.map (· + 1), ⟨by simp [h1], ?_, ?_⟩, ?_⟩
    · exact List.Pairwise.map _ (fun _ _ hab => Nat.succ_lt_succ hab) h2
    · intro i hi
      obtain ⟨j, hj, rfl⟩ := List.mem_map.mp hi
      have := h3 j hj
      simp; omega
    · rw [← h4]
      simp [cellsAt, List.filterMap_map, Function.comp_def]
  | @cons₂ S l a _ ih =>
    obtain ⟨c, ⟨h1, h2, h3⟩, h4⟩ := ih
    refine ⟨0 :: c.map (· + 1), ⟨by simp [h1], ?_, ?_⟩, ?_⟩
    · refine List.pairwise_cons.mpr ⟨?_, List.Pairwise.map _ (fun _ _ hab => Nat.succ_lt_succ hab) h2⟩
      intro i hi
      obtain ⟨j, _, rfl⟩ := List.mem_map.mp hi
      exact Nat.succ_pos _
    · intro i hi
      rcases List.mem_cons.mp hi with hi | hi
      · subst hi; simp
      · obtain ⟨j, hj, rfl⟩ := List.mem_map.mp hi
        have := h3 j hj
        simp; omega
    · rw [← h4]
      simp [cellsAt, List.filterMap_map, Function.comp_def]

/-- Every set of distinct candidates is, up to its order, the candidates at ascending
positions. -/
theorem exists_combo_of_subset {other cands : CellList} (hc : cands.Nodup) (ho : other.Nodup)
    (hsub : ∀ c ∈ other, c ∈ cands) :
    ∃ c, IsCombo cands.length other.length c ∧ ∀ x, x ∈ cellsAt cands c ↔ x ∈ other := by
  have hS : (cands.filter (fun x => decide (x ∈ other))).Sublist cands := List.filter_sublist _
  obtain ⟨c, h1, h2⟩ := exists_combo_of_sublist hS
  have hperm : (cands.filter (fun x => decide (x ∈ other))).Perm other := by
    rw [List.perm_ext_iff_of_nodup (hc.filter _) ho]
    intro x
    simp only [List.mem_filter, decide_eq_true_eq]
    exact ⟨fun h => h.2, fun h => ⟨hsub x h, h⟩⟩
  rw [hperm.length_eq] at h1
  refine ⟨c, h1, ?_⟩
  intro x
  rw [h2]
  exact hperm.mem_iff

theorem cellsAt_nodup {l : CellList} {k : Nat} {is : List Nat} (hl : l.Nodup)
    (h : IsCombo l.length k is) : (cellsAt l is).Nodup :=
  (removeIndices_combo h).2.2.1.nodup hl

/-- `getOptimalAffinity` returns the lowest level whose leaf cell number suffices. -/
theorem getOptimalAffinity_le {lln : LevelLeafCellNum} {k : Int} {l : Int} (hk : 1 ≤ k)
    (h : k ≤ levelLeafCellNumAt lln l) : ∃ o, getOptimalAffinity k lln = some o ∧ o ≤ l := by
  unfold levelLeafCellNumAt at h
  by_cases hl : 1 ≤ l
  · rw [if_pos hl] at h
    have hlen : (l - 1).toNat < lln.length := by
      by_contra hcon
      rw [List.getD_eq_default _ _ (not_lt.mp hcon)] at h
      omega
    have hex : ((List.range lln.length).find? (fun i => decide (lln.getD i 0 ≥ k))).isSome := by
      rw [List.find?_isSome]
      exact ⟨(l - 1).toNat, List.mem_range.mpr hlen, by simpa using h⟩
    obtain ⟨i, hi⟩ := Option.isSome_iff_exists.mp hex
    refine ⟨(i : Int) + 1, by unfold getOptimalAffinity; rw [hi]; rfl, ?_⟩
    obtain ⟨_, as, bs, hsplit, hnot⟩ := List.find?_eq_some.mp hi
    by_contra hcon
    have hlt : (l - 1).toNat < i := by omega
    have hmem : (l - 1).toNat ∈ as ++ i :: bs := by
      rw [← hsplit]; exact List.mem_range.mpr hlen
    have hpw : (as ++ i :: bs).Pairwise (fun a b => a < b) := by
      rw [← hsplit]; exact List.pairwise_lt_range _
    rcases List.mem_append.mp hmem with hm | hm
    · have hn := hnot _ hm
      simp only [ge_iff_le, Bool.not_eq_true', decide_eq_false_iff_not] at hn
      exact hn h
    · rcases List.mem_cons.mp hm with hm | hm
      · omega
      · have := (List.pairwise_cons.mp (List.pairwise_append.mp hpw).2.1).1 _ hm
        omega
  · rw [if_neg hl] at h
    omega

/-- The facts of `SearchSem` for the candidates of `findLeafCellsInNode`. -/
theorem searchSem_of_leaves {H : Hierarchy} {cands : CellList} {k : Int}
    {lln : LevelLeafCellNum} {optimal : Int} (hl : LevelsByOne H) (hk : 1 ≤ k)
    (hnd : cands.Nodup) (hleaf : ∀ c ∈ cands, (H c).level = 1)
    (hcount : LeafCountBound H lln) (hopt : getOptimalAffinity k lln = some optimal) :
    SearchSem H cands k.toNat optimal := by
  refine ⟨hl, ⟨1, hleaf⟩, ?_⟩
  intro c hc b hb
  have hlen := (removeIndices_combo hc).2.2.2
  have hbound := hcount b (cellsAt cands c) (cellsAt_nodup hnd hc)
    (fun x hx => ⟨hleaf x (mem_of_mem_cellsAt hx), hb x hx⟩)
  rw [hlen] at hbound
  obtain ⟨o, ho, hle⟩ := getOptimalAffinity_le hk (by rw [Int.toNat_of_nonneg (by omega)] at hbound; exact hbound)
  rw [hopt] at ho
  cases ho
  exact hle

theorem exists_optimalAffinity {H : Hierarchy} {n : Cell} {cands : CellList} {k : Int}
    {lln : LevelLeafCellNum} (hk : 1 ≤ k) (hkn : k ≤ cands.length) (hnd : cands.Nodup)
    (hleaf : ∀ c ∈ cands, (H c).level = 1 ∧ Anc H n c) (hcount : LeafCountBound H lln) :
    ∃ o, getOptimalAffinity k lln = some o := by
  have := hcount n cands hnd hleaf
  obtain ⟨o, ho, _⟩ := getOptimalAffinity_le hk (le_trans hkn this)
  exact ⟨o, ho⟩

/-- C5: for a node `n`, `k >= 1` and a list of at least `k` distinct leaf cells of `n`
(level 1, below `n`), in a hierarchy whose levels go up by one along parent links and
whose leaf counts `levelLeafCellNum` bounds, `findLeafCellsInNode` returns, given enough
fuel, `k` distinct candidates whose lowest common ancestor is at a level `<=` the level
of the lowest common ancestor of every `k`-subset of the candidates. -/
theorem findLeafCellsInNode_lowest_affinity (H : Hierarchy) (n : Cell) (k : Int) (p : Int)
    (cands : CellList) (lln : LevelLeafCellNum)
    (hl : LevelsByOne H) (hk : 1 ≤ k) (hkn : k ≤ cands.length) (hnd : cands.Nodup)
    (hleaf : ∀ c ∈ cands, (H c).level = 1 ∧ Anc H n c) (hcount : LeafCountBound H lln)
    (hn : (H n).level < highestLevel) :
    ∃ N, ∀ fuel, N ≤ fuel → ∃ cells rest,
      findLeafCellsInNode H fuel n k p (some cands) lln = some (cells, rest) ∧
      (cells.length : Int) = k ∧ cells.Nodup ∧ (∀ c ∈ cells, c ∈ cands) ∧
      ∃ a, IsLCA H a cells ∧
        ∀ other : CellList, other.Nodup → (other.length : Int) = k →
          (∀ c ∈ other, c ∈ cands) → ∀ b, IsLCA H b other → (H a).level ≤ (H b).level := by
  obtain ⟨optimal, hopt⟩ := exists_optimalAffinity hk hkn hnd hleaf hcount
  have hsem := searchSem_of_leaves hl hk hnd (fun c hc => (hleaf c hc).1) hcount hopt
  refine ⟨(cands.length + 2) ^ k.toNat + ((H n).level - 1).toNat + 1, ?_⟩
  intro fuel hfuel
  have htot : SearchTotal H fuel cands k.toNat optimal n := {
    sem := hsem
    under := fun c hc => (hleaf c hc).2
    level_lt := hn
    fuel_ok := by
      intro c hc
      rw [(hleaf c hc).1]
      omega
    k_le := by omega }
  obtain ⟨r, hr⟩ := affinitySearch_total htot (by omega) (by omega)
  obtain ⟨hcombo, hcells, hpost⟩ := affinitySearch_post r hr
  obtain ⟨a, ha, hmin, _⟩ := hpost hsem
  obtain ⟨_, _, hsub, hlen⟩ := removeIndices_combo hcombo
  refine ⟨cellsAt cands r.2, removeIndices cands 0 r.2, ?_, ?_, ?_, ?_, a, ha, ?_⟩
  · unfold findLeafCellsInNode
    rw [if_neg (by omega), hopt]
    simp only [candidateLeafCells, hr]
    rw [removePickedLeafCells_eq hcombo, hcells, nonNil_map_getElem?]
    rfl
  · rw [hlen]; omega
  · exact hsub.nodup hnd
  · exact fun c hc => hsub.subset hc
  · intro other ho holen hosub b hb
    obtain ⟨c, hc, hmem⟩ := exists_combo_of_subset hnd ho hosub
    have hkk : other.length = k.toNat := by omega
    rw [hkk] at hc
    exact hmin c hc b (fun x hx => hb.1 x ((hmem x).mp hx))

theorem exampleCluster_parent (prio : Nat → Int) (c : Nat) :
    (exampleCluster prio c).parent =
      if c < 16 then some (16 + c / 2) else if c < 24 then some (24 + (c - 16) / 2)
      else if c < 28 then some (28 + (c - 24) / 2) else none := by
  unfold exampleCluster
  split_ifs <;> rfl

theorem exampleCluster_level (prio : Nat → Int) (c : Nat) :
    (exampleCluster prio c).level =
      if c < 16 then 1 else if c < 24 then 2 else if c < 28 then 3 else if c < 30 then 4
      else 1 := by
  unfold exampleCluster
  split_ifs <;> rfl

theorem exampleCluster_levelsByOne (prio : Nat → Int) : LevelsByOne (exampleCluster prio) := by
  intro c p h
  rw [exampleCluster_parent] at h
  rw [exampleCluster_level, exampleCluster_level]
  split_ifs at h with h1 h2 h3 <;> simp only [Option.some.injEq] at h <;> subst h <;>
    split_ifs <;> omega

theorem exampleCluster_anc_leaf (prio : Nat → Int) (a c : Nat) (hc16 : c < 16)
    (h : Anc (exampleCluster prio) a c) :
    a = c ∨ a = 16 + c / 2 ∨ a = 24 + (16 + c / 2 - 16) / 2 ∨
      a = 28 + (24 + (16 + c / 2 - 16) / 2 - 24) / 2 := by
  cases h with
  | refl => exact Or.inl rfl
  | step hp1 h1 =>
    rw [exampleCluster_parent, if_pos hc16] at hp1
    cases hp1
    right
    cases h1 with
    | refl => exact Or.inl rfl
    | step hp2 h2 =>
      rw [exampleCluster_parent] at hp2
      rw [if_neg (by omega), if_pos (by omega)] at hp2
      cases hp2
      cases h2 with
      | refl => exact Or.inr (Or.inl rfl)
      | step hp3 h3 =>
        rw [exampleCluster_parent] at hp3
        rw [if_neg (by omega), if_neg (by omega), if_pos (by omega)] at hp3
        cases hp3
        cases h3 with
        | refl => exact Or.inr (Or.inr rfl)
        | step hp4 _ =>
          rw [exampleCluster_parent] at hp4
          rw [if_neg (by omega), if_neg (by omega), if_neg (by omega)] at hp4
          cases hp4

theorem exampleCluster_leaf_mem (prio : Nat → Int) (a c : Nat)
    (hc : (exampleCluster prio c).level = 1) (h : Anc (exampleCluster prio) a c) :
    c ∈ exampleLeaves a := by
  rw [exampleCluster_level] at hc
  unfold exampleLeaves
  by_cases hc16 : c < 16
  · rcases exampleCluster_anc_leaf prio a c hc16 h with rfl | rfl | rfl | rfl
    · rw [if_pos hc16]; simp
    · rw [if_neg (by omega), if_pos (by omega), List.mem_range'_1]; omega
    · rw [if_neg (by omega), if_neg (by omega), if_pos (by omega), List.mem_range'_1]; omega
    · rw [if_neg (by omega), if_neg (by omega), if_neg (by omega), if_pos (by omega),
        List.mem_range'_1]; omega
  · have h30 : ¬ c < 30 := by
      intro h30
      rw [if_neg hc16] at hc
      split_ifs at hc <;> omega
    have hp : (exampleCluster prio c).parent = none := by
      rw [exampleCluster_parent]
      rw [if_neg (by omega), if_neg (by omega), if_neg (by omega)]
    have := h.eq_of_no_parent hp
    subst this
    rw [if_neg (by omega), if_neg (by omega), if_neg (by omega), if_neg (by omega)]
    simp

theorem exampleLeaves_length (prio : Nat → Int) (a : Nat) :
    ((exampleLeaves a).length : Int) =
      levelLeafCellNumAt exampleLevelLeafCellNum (exampleCluster prio a).level := by
  rw [exampleCluster_level]
  unfold exampleLeaves
  split_ifs <;> simp [levelLeafCellNumAt, exampleLevelLeafCellNum]

theorem exampleLeaves_nodup (a : Nat) : (exampleLeaves a).Nodup := by
  unfold exampleLeaves
  split_ifs <;> first | exact List.nodup_range' _ _ | simp

theorem exampleCluster_leafCountBound (prio : Nat → Int) :
    LeafCountBound (exampleCluster prio) exampleLevelLeafCellNum := by
  intro a cells hnd hcells
  rw [← exampleLeaves_length prio a]
  have hsub : cells ⊆ exampleLeaves a :=
    fun c hc => exampleCluster_leaf_mem prio a c (hcells c hc).1 (hcells c hc).2
  exact_mod_cast (hnd.subperm hsub).length_le

theorem exampleCluster_anc_node28 (prio : Nat → Int) (c : Nat) (hc : c < 8) :
    (exampleCluster prio c).level = 1 ∧ Anc (exampleCluster prio) 28 c := by
  interval_cases c <;>
    exact ⟨rfl, Anc.step rfl (Anc.step rfl (Anc.step rfl Anc.refl))⟩

/-- C5, on the example cluster: two of the eight leaf cells of node 28. -/
theorem findLeafCellsInNode_lowest_affinity_witness :
    ∃ N, ∀ fuel, N ≤ fuel → ∃ cells rest,
      findLeafCellsInNode (exampleCluster exampleAllFree) fuel 28 2 0
        (some [0, 1, 2, 3, 4, 5, 6, 7]) exampleLevelLeafCellNum = some (cells, rest) ∧
      (cells.length : Int) = 2 ∧ cells.Nodup ∧ (∀ c ∈ cells, c ∈ [0, 1, 2, 3, 4, 5, 6, 7]) ∧
      ∃ a, IsLCA (exampleCluster exampleAllFree) a cells ∧
        ∀ other : CellList, other.Nodup → (other.length : Int) = 2 →
          (∀ c ∈ other, c ∈ [0, 1, 2, 3, 4, 5, 6, 7]) →
          ∀ b, IsLCA (exampleCluster exampleAllFree) b other →
            (exampleCluster exampleAllFree a).level ≤ (exampleCluster exampleAllFree b).level :=
  findLeafCellsInNode_lowest_affinity (exampleCluster exampleAllFree) 28 2 0
    [0, 1, 2, 3, 4, 5, 6, 7] exampleLevelLeafCellNum
    (exampleCluster_levelsByOne _) (by decide) (by decide) (by decide)
    (fun c hc => exampleCluster_anc_node28 _ c
      ((by decide : ∀ x ∈ ([0, 1, 2, 3, 4, 5, 6, 7] : List Nat), x < 8) c hc))
    (exampleCluster_leafCountBound _) (by decide)

theorem LexBefore.append {combo tail : List Nat} (front : List Nat)
    (h : LexBefore combo tail) : LexBefore combo (front ++ tail) := by
  induction front with
  | nil => exact h
  | cons x xs ih => rw [List.cons_append, LexBefore]; exact Or.inl ih

theorem lex_split {c r : List Nat} (h : List.Lex (fun i j => i < j) c r)
    (hlen : c.length = r.length) :
    ∃ p y x c' r', c = p ++ y :: c' ∧ r = p ++ x :: r' ∧ y < x := by
  induction h with
  | nil => simp at hlen
  | @cons a l1 l2 _ ih =>
    obtain ⟨p, y, x, c', r', h1, h2, h3⟩ := ih (by simpa using hlen)
    exact ⟨a :: p, y, x, c', r', by rw [h1]; rfl, by rw [h2]; rfl, h3⟩
  | @rel a1 l1 a2 l2 hr => exact ⟨[], a1, a2, l1, l2, rfl, rfl, hr⟩

/-- A choice that comes before `r` in the lexicographic order has been visited when the
search stands at the end of `r`. -/
theorem LexBefore.of_lex {c r : List Nat} (h : List.Lex (fun i j => i < j) c r)
    (hlen : c.length = r.length) : LexBefore c r.reverse := by
  obtain ⟨p, y, x, c', r', h1, h2, h3⟩ := lex_split h hlen
  rw [h2, List.reverse_append, List.reverse_cons, List.append_assoc]
  apply LexBefore.append
  rw [List.singleton_append, LexBefore]
  right
  refine ⟨by simp [h1], y, ?_, h3⟩
  rw [h1, List.length_reverse, List.getElem?_append_right (le_refl _)]
  simp

theorem IsLCA.level_eq {H : Hierarchy} (hl : LevelsByOne H) {a b : Cell} {cells : CellList}
    (ha : IsLCA H a cells) (hb : IsLCA H b cells) : (H a).level = (H b).level := by
  have h1 := (ha.2 b hb.1).level_le hl
  have h2 := (hb.2 a ha.1).level_le hl
  omega

/-- Two first choices are the same choice. -/
theorem FirstLowest.unique {H : Hierarchy} {cands : CellList} {k : Nat}
    {c1 c2 : List Nat} (h1 : FirstLowest H cands k c1) (h2 : FirstLowest H cands k c2) :
    c1 = c2 := by
  obtain ⟨hc1, a1, ha1, hmin1, hfirst1⟩ := h1
  obtain ⟨hc2, a2, ha2, hmin2, hfirst2⟩ := h2
  rcases trichotomous_of (List.Lex (fun i j : Nat => i < j)) c1 c2 with h | h | h
  · have := hfirst2 c1 hc1 h a1 ha1
    have := hmin1 c2 hc2 a2 ha2
    omega
  · exact h
  · have := hfirst1 c2 hc2 h a2 ha2
    have := hmin2 c1 hc1 a1 ha1
    omega

/-- The search of `findLeafCellsInNode` on a list of distinct leaf cells of `n`: given
enough fuel it returns the cells of the first choice whose lowest common ancestor is
lowest, and the other candidates. -/
theorem findLeafCellsInNode_first {H : Hierarchy} {n : Cell} {k : Int} (p : Int)
    {cands : CellList} {lln : LevelLeafCellNum}
    (hl : LevelsByOne H) (hk : 1 ≤ k) (hkn : k ≤ cands.length) (hnd : cands.Nodup)
    (hleaf : ∀ c ∈ cands, (H c).level = 1 ∧ Anc H n c) (hcount : LeafCountBound H lln)
    (hn : (H n).level < highestLevel) :
    ∃ N, ∀ fuel, N ≤ fuel → ∃ idxs,
      findLeafCellsInNode H fuel n k p (some cands) lln =
        some (cellsAt cands idxs, removeIndices cands 0 idxs) ∧
      FirstLowest H cands k.toNat idxs := by
  obtain ⟨optimal, hopt⟩ := exists_optimalAffinity hk hkn hnd hleaf hcount
  have hsem := searchSem_of_leaves hl hk hnd (fun c hc => (hleaf c hc).1) hcount hopt
  refine ⟨(cands.length + 2) ^ k.toNat + ((H n).level - 1).toNat + 1, ?_⟩
  intro fuel hfuel
  have htot : SearchTotal H fuel cands k.toNat optimal n := {
    sem := hsem
    under := fun c hc => (hleaf c hc).2
    level_lt := hn
    fuel_ok := by
      intro c hc
      rw [(hleaf c hc).1]
      omega
    k_le := by omega }
  obtain ⟨r, hr⟩ := affinitySearch_total htot (by omega) (by omega)
  obtain ⟨hcombo, hcells, hpost⟩ := affinitySearch_post r hr
  obtain ⟨a, ha, hmin, hfirst⟩ := hpost hsem
  refine ⟨r.2, ?_, hcombo, a, ha, fun c hc b hb => hmin c hc b hb.1, ?_⟩
  · unfold findLeafCellsInNode
    rw [if_neg (by omega), hopt]
    simp only [candidateLeafCells, hr]
    rw [removePickedLeafCells_eq hcombo, hcells, nonNil_map_getElem?]
    rfl
  · intro c hc hlex b hb
    exact hfirst c hc (LexBefore.of_lex hlex (by rw [hc.1, hcombo.1])) b hb.1

/-- A common ancestor of two or more distinct leaf cells is at level 2 or above. -/
theorem two_le_level_of_commonAnc {H : Hierarchy} (hl : LevelsByOne H) {cells : CellList}
    {b : Cell} (hnd : cells.Nodup) (hlen : 2 ≤ cells.length)
    (hleaf : ∀ c ∈ cells, (H c).level = 1) (hb : CommonAnc H b cells) :
    2 ≤ (H b).level := by
  match cells, hnd, hlen, hleaf, hb with
  | x :: y :: rest, hnd, _, hleaf, hb =>
    have hx := hb x (by simp)
    have hy := hb y (by simp)
    have h1 := hx.level_le hl
    rw [hleaf x (by simp)] at h1
    by_contra hcon
    have e1 := hx.eq_of_level_eq hl (by rw [hleaf x (by simp)]; omega)
    have e2 := hy.eq_of_level_eq hl (by rw [hleaf y (by simp)]; omega)
    rw [List.nodup_cons] at hnd
    exact hnd.1 (by rw [← e1, e2]; simp)

theorem exampleCluster_isLCA_17 (prio : Nat → Int) : IsLCA (exampleCluster prio) 17 [2, 3] := by
  refine ⟨?_, ?_⟩
  · intro c hc
    simp only [List.mem_cons, List.mem_singleton, List.not_mem_nil, or_false] at hc
    rcases hc with rfl | rfl <;> exact Anc.step rfl Anc.refl
  · intro b hb
    have h2 := exampleCluster_anc_leaf prio b 2 (by decide) (hb 2 (by simp))
    have h3 := exampleCluster_anc_leaf prio b 3 (by decide) (hb 3 (by simp))
    simp only [Nat.reduceDiv, Nat.reduceAdd, Nat.reduceSub] at h2 h3
    rcases h2 with rfl | rfl | rfl | rfl
    · omega
    · exact Anc.refl
    · exact Anc.step rfl Anc.refl
    · exact Anc.step rfl (Anc.step rfl Anc.refl)

theorem isCombo_two {n : Nat} {c : List Nat} (h : IsCombo n 2 c) :
    ∃ i j, c = [i, j] ∧ i < j ∧ j < n := by
  obtain ⟨hlen, hp, hlt⟩ := h
  match c, hlen, hp, hlt with
  | [i, j], _, hp, hlt =>
    exact ⟨i, j, rfl, by simpa using hp, hlt j (by simp)⟩

theorem not_lex_zero_one {n : Nat} {c : List Nat} (h : IsCombo n 2 c) :
    ¬ List.Lex (fun i j => i < j) c [0, 1] := by
  obtain ⟨i, j, rfl, hij, _⟩ := isCombo_two h
  intro hlex
  cases hlex with
  | rel hr => omega
  | cons h' =>
    cases h' with
    | rel hr => omega
    | cons h'' => cases h''

/-- C8: the code does not keep to "free leaf cells will be used first (before
preemptible leaf cells)", the comment on the candidate list of `findLeafCellsInNode`.
On node 28 of the example cluster, with leaf cell 1 used at priority 0 and every other
leaf cell free, a pod of two leaf cells at priority 3 has the candidates
`0, 2, 3, 4, 5, 6, 7` (free) followed by `1` (preemptible). The free leaf cells `2, 3`
have their lowest common ancestor at level 2, the lowest level of any two candidates,
and yet `findLeafCellsInNode` returns `0, 1`, of which `1` is not free. The same
happens through `Schedule`: with the leaf cells 1 and 9 used at priority 0, a pod of
two and a pod of eight leaf cells at priority 3 are placed on `0, 1` and on node 29. -/
theorem findLeafCellsInNode_free_only_counterexample :
    getLeafCellsFromNode (exampleCluster exampleOneUsed) 3 100 28 [] [] =
        some ([0, 2, 3, 4, 5, 6, 7], [1]) ∧
      findLeafCellsInNode (exampleCluster exampleOneUsed) 100 28 2 3 none
        exampleLevelLeafCellNum = some ([0, 1], [2, 3, 4, 5, 6, 7]) ∧
      (exampleCluster exampleOneUsed 1).priority ≠ freePriority ∧
      (∀ c ∈ ([2, 3] : CellList), (exampleCluster exampleOneUsed c).priority = freePriority) ∧
      IsLCA (exampleCluster exampleOneUsed) 17 [2, 3] ∧
      (exampleCluster exampleOneUsed 17).level = 2 ∧
      (∀ other : CellList, other.Nodup → other.length = 2 →
        (∀ c ∈ other, c ∈ ([0, 2, 3, 4, 5, 6, 7, 1] : CellList)) →
        ∀ b, IsLCA (exampleCluster exampleOneUsed) b other →
          2 ≤ (exampleCluster exampleOneUsed b).level) ∧
      exampleTopologyScheduler.Schedule (exampleCluster exampleOneUsedPerNode) 100
          [(2, 1), (8, 1)] 3 [] true =
        some ([(2, [[0, 1]]), (8, [[8, 10, 11, 12, 13, 14, 15, 9]])], FailedReason.none) ∧
      (exampleCluster exampleOneUsedPerNode 1).priority ≠ freePriority ∧
      (∀ c ∈ ([2, 3] : CellList),
        (exampleCluster exampleOneUsedPerNode c).priority = freePriority) := by
  refine ⟨by decide!, by decide!, by decide!, by decide!, exampleCluster_isLCA_17 _, rfl, ?_,
    by decide!, by decide!, by decide!⟩
  intro other hnd hlen hsub b hb
  refine two_le_level_of_commonAnc (exampleCluster_levelsByOne _) hnd (by omega) ?_ hb.1
  intro c hc
  exact (exampleCluster_anc_node28 _ c
    ((by decide : ∀ x ∈ ([0, 2, 3, 4, 5, 6, 7, 1] : List Nat), x < 8) c (hsub c hc))).1

/-- What the order of the candidates does give: for a node `n`, `k >= 1` and a list of
at least `k` distinct leaf cells of `n`, `findLeafCellsInNode` returns, given enough
fuel, the cells of the first choice of `k` candidates, in the lexicographic order of
the candidate positions, whose lowest common ancestor is at the lowest level; so when
the cells of that first choice are all free, the `k` cells returned are all free. -/
theorem findLeafCellsInNode_first_choice_free (H : Hierarchy) (n : Cell) (k : Int) (p : Int)
    (cands : CellList) (lln : LevelLeafCellNum) (first : List Nat)
    (hl : LevelsByOne H) (hk : 1 ≤ k) (hkn : k ≤ cands.length) (hnd : cands.Nodup)
    (hleaf : ∀ c ∈ cands, (H c).level = 1 ∧ Anc H n c) (hcount : LeafCountBound H lln)
    (hn : (H n).level < highestLevel)
    (hfirst : FirstLowest H cands k.toNat first)
    (hfree : ∀ c ∈ cellsAt cands first, (H c).priority = freePriority) :
    ∃ N, ∀ fuel, N ≤ fuel → ∃ cells rest,
      findLeafCellsInNode H fuel n k p (some cands) lln = some (cells, rest) ∧
      cells = cellsAt cands first ∧ ∀ c ∈ cells, (H c).priority = freePriority := by
  obtain ⟨N, hN⟩ := findLeafCellsInNode_first p hl hk hkn hnd hleaf hcount hn
  refine ⟨N, fun fuel hfuel => ?_⟩
  obtain ⟨idxs, hres, hidx⟩ := hN fuel hfuel
  have e : idxs = first := FirstLowest.unique hidx hfirst
  subst e
  exact ⟨_, _, hres, rfl, hfree⟩

/-- On node 28 of the example cluster with leaf cell 1 used at priority 0:
of the candidates `2, 3, 4, 5, 6, 7, 1` left after leaf cell 0 was given away, a pod of
two leaf cells gets the free cells `2, 3`. -/
theorem findLeafCellsInNode_first_choice_free_witness :
    ∃ N, ∀ fuel, N ≤ fuel → ∃ cells rest,
      findLeafCellsInNode (exampleCluster exampleOneUsed) fuel 28 2 3
        (some [2, 3, 4, 5, 6, 7, 1]) exampleLevelLeafCellNum = some (cells, rest) ∧
      cells = cellsAt [2, 3, 4, 5, 6, 7, 1] [0, 1] ∧
      ∀ c ∈ cells, (exampleCluster exampleOneUsed c).priority = freePriority :=
  findLeafCellsInNode_first_choice_free (exampleCluster exampleOneUsed) 28 2 3
    [2, 3, 4, 5, 6, 7, 1] exampleLevelLeafCellNum [0, 1]
    (exampleCluster_levelsByOne _) (by decide) (by decide) (by decide)
    (fun c hc => exampleCluster_anc_node28 _ c
      ((by decide : ∀ x ∈ ([2, 3, 4, 5, 6, 7, 1] : List Nat), x < 8) c hc))
    (exampleCluster_leafCountBound _) (by decide)
    ⟨⟨rfl, by decide, by decide⟩, 17, exampleCluster_isLCA_17 _,
      fun c hc b hb =>
        two_le_level_of_commonAnc (exampleCluster_levelsByOne _)
          (cellsAt_nodup (by decide) hc) (by rw [(removeIndices_combo hc).2.2.2]; decide)
          (fun x hx => (exampleCluster_anc_node28 _ x
            ((by decide : ∀ x ∈ ([2, 3, 4, 5, 6, 7, 1] : List Nat), x < 8) x
              (mem_of_mem_cellsAt hx))).1) hb.1,
      fun c hc hlex => absurd hlex (not_lex_zero_one hc)⟩
    (by decide!)

theorem levelsDownFrom_nonpos {l : Int} (h : l ≤ 0) : levelsDownFrom l = [] := by
  unfold levelsDownFrom
  rw [Int.toNat_eq_zero.mpr h]
  rfl

theorem skuScheduler.sortPodGroup_withinOneCell (s : skuScheduler) (g : PodGroupSpec) :
    (s.sortPodGroup g).WithinOneCell = g.WithinOneCell := by
  cases g
  unfold skuScheduler.sortPodGroup
  rfl

/-- With a level below 1 for `WithinOneCell` the view is empty and the loop over it does
not run: the call succeeds with the empty placement. -/
theorem skuScheduler.findCellsForPodGroup_empty_view (H : Hierarchy) (s : skuScheduler)
    (fuel : Nat) (g : PodGroupSpec) (p : Int) (within : Option skuCell)
    (allocated : Option PodGroupPlacement) (h : s.cellLevels g.WithinOneCell ≤ 0) :
    s.findCellsForPodGroup H (fuel + 1) g p within allocated =
      some (PodGroupPlacement.mk [] [], FailedReason.none) := by
  unfold skuScheduler.findCellsForPodGroup skuScheduler.createSkuClusterView
  rw [levelsDownFrom_nonpos h]
  rfl

/-- C2 (code defect): when the level of the root group's `WithinOneCell` is below 1, as
it is for the empty string, which is not a key of `cellLevels`, `Schedule` returns the
empty failure reason with a placement that holds no cell list and no child placement,
whatever pods and child groups the group has. -/
theorem skuScheduler_Schedule_empty_placement (H : Hierarchy) (s : skuScheduler) (fuel : Nat)
    (g : PodGroupSpec) (p : Int) (h : s.cellLevels g.WithinOneCell ≤ 0) :
    s.Schedule H (fuel + 1) g p = some (PodGroupPlacement.mk [] [], FailedReason.none) := by
  have h' : s.cellLevels (s.sortPodGroup g).WithinOneCell ≤ 0 := by
    rw [skuScheduler.sortPodGroup_withinOneCell]; exact h
  unfold skuScheduler.Schedule skuScheduler.Schedule.passes
  rw [skuScheduler.findCellsForPodGroup_empty_view H s fuel _ _ none none h']
  rfl

/-- C2 (code defect), on the example cluster: one pod of one leaf cell in a group whose
`WithinOneCell` is empty gets no cell list. -/
theorem skuScheduler_Schedule_empty_placement_witness :
    exampleSkuScheduler.Schedule (exampleCluster exampleAllFree) (9 + 1)
        (PodGroupSpec.mk [⟨1, "leaf", 1⟩] [] "") 0 =
      some (PodGroupPlacement.mk [] [], FailedReason.none) :=
  skuScheduler_Schedule_empty_placement (exampleCluster exampleAllFree) exampleSkuScheduler 9
    (PodGroupSpec.mk [⟨1, "leaf", 1⟩] [] "") 0 (by decide)

/-- C4 (code defect): on the free example cluster, a root group, its child group and its
grandchild group, each with one pod of one leaf cell and each within one node: the pod
of the grandchild group gets leaf cell 8, which the pod of the root group holds. -/
theorem skuScheduler_Schedule_overlap_at_depth_two :
    exampleSkuScheduler.Schedule (exampleCluster exampleAllFree) 20
        (PodGroupSpec.mk [⟨1, "leaf", 1⟩]
          [PodGroupSpec.mk [⟨1, "leaf", 1⟩]
            [PodGroupSpec.mk [⟨1, "leaf", 1⟩] [] "node"] "node"] "node") 0 =
      some (PodGroupPlacement.mk [[8]]
        [PodGroupPlacement.mk [[9]] [PodGroupPlacement.mk [[8]] []]], FailedReason.none) := by
  decide!

theorem Desc.comp {H : Hierarchy} {a b c : Cell} (h1 : Desc H a b) (h2 : Desc H b c) :
    Desc H a c := by
  induction h2 with
  | refl => exact h1
  | step _ hc ih => exact Desc.step ih hc

theorem Desc.of_child {H : Hierarchy} {a b c : Cell} (hb : b ∈ (H a).children)
    (h : Desc H b c) : Desc H a c :=
  Desc.comp (Desc.step Desc.refl hb) h

theorem Desc.anc {H : Hierarchy} (hc : ChildrenOk H) {a c : Cell} (h : Desc H a c) :
    Anc H a c := by
  induction h with
  | refl => exact Anc.refl
  | step _ hx ih => exact Anc.step (hc _ _ hx) ih

/-- What `getLeafCellsFromNode` adds to the two lists: candidates of the cell `c`. -/
theorem getLeafCellsFromNode_spec (H : Hierarchy) (p : Int) :
    ∀ (fuel : Nat) (c : Cell) (f pr : CellList) (r : CellList × CellList),
      getLeafCellsFromNode H p fuel c f pr = some r →
      ∃ f' pr', r = (f ++ f', pr ++ pr') ∧ ∀ x ∈ f' ++ pr', Cand H p c x := by
  intro fuel
  induction fuel with
  | zero => intro c f pr r h; simp [getLeafCellsFromNode] at h
  | succ fuel ih =>
    intro c f pr r h
    rw [getLeafCellsFromNode] at h
    by_cases hlev : (H c).level > 1
    · rw [if_pos hlev] at h
      have key : ∀ (l : CellList), (∀ cc ∈ l, cc ∈ (H c).children) →
          ∀ (acc r : CellList × CellList),
          l.foldlM (fun acc cc => getLeafCellsFromNode H p fuel cc acc.1 acc.2) acc = some r →
          ∃ f' pr', r = (acc.1 ++ f', acc.2 ++ pr') ∧ ∀ x ∈ f' ++ pr', Cand H p c x := by
        intro l
        induction l with
        | nil =>
          intro _ acc r h
          simp only [List.foldlM, Option.pure_def, Option.some.injEq] at h
          exact ⟨[], [], by simp [← h], by simp⟩
        | cons cc l ihl =>
          intro hsub acc r h
          simp only [List.foldlM, Option.bind_eq_bind, Option.bind_eq_some] at h
          obtain ⟨acc1, h1, h2⟩ := h
          obtain ⟨f1, pr1, e1, hc1⟩ := ih cc acc.1 acc.2 acc1 h1
          obtain ⟨f2, pr2, e2, hc2⟩ := ihl (fun x hx => hsub x (List.mem_cons_of_mem _ hx)) acc1 r h2
          refine ⟨f1 ++ f2, pr1 ++ pr2, by rw [e2, e1]; simp, ?_⟩
          intro x hx
          have hx' : x ∈ f1 ++ pr1 ∨ x ∈ f2 ++ pr2 := by
            simp only [List.mem_append] at hx ⊢; tauto
          rcases hx' with hx' | hx'
          · have := hc1 x hx'
            exact ⟨Desc.of_child (hsub cc (List.mem_cons_self _ _)) this.1, this.2⟩
          · exact hc2 x hx'
      exact key _ (fun _ h => h) _ _ h
    · rw [if_neg hlev] at h
      split_ifs at h with h1 h2
      · cases h
        exact ⟨[c], [], by simp, by
          intro x hx; simp at hx; subst hx; exact ⟨Desc.refl, by omega, Or.inl h1⟩⟩
      · cases h
        exact ⟨[], [c], by simp, by
          intro x hx; simp at hx; subst hx; exact ⟨Desc.refl, by omega, Or.inr h2⟩⟩
      · cases h
        exact ⟨[], [], by simp, by simp⟩

theorem candidateLeafCells_none {H : Hierarchy} {fuel : Nat} {n : Cell} {p : Int}
    {cands : CellList} (h : candidateLeafCells H fuel n p none = some cands) :
    ∀ x ∈ cands, Cand H p n x := by
  unfold candidateLeafCells at h
  simp only at h
  cases hg : getLeafCellsFromNode H p fuel n [] [] with
  | none => rw [hg] at h; cases h
  | some r =>
    rw [hg] at h
    obtain ⟨f', pr', e, hc⟩ := getLeafCellsFromNode_spec H p fuel n [] [] r hg
    subst e
    simp only [List.nil_append, Option.some.injEq] at h
    subst h
    exact hc

/-- What `findLeafCellsInNode` returns: `leafCellNum >= 1` cells of the candidate list,
at ascending positions, and the candidate list without them. -/
theorem findLeafCellsInNode_some {H : Hierarchy} {fuel : Nat} {n : Cell} {k p : Int}
    {avail : Option CellList} {lln : LevelLeafCellNum} {cells rest : CellList}
    (h : findLeafCellsInNode H fuel n k p avail lln = some (cells, rest)) :
    ∃ cands idxs, candidateLeafCells H fuel n p avail = some cands ∧ 1 ≤ k ∧
      IsCombo cands.length k.toNat idxs ∧ cells = cellsAt cands idxs ∧
      rest = removeIndices cands 0 idxs := by
  unfold findLeafCellsInNode at h
  by_cases hk : k < 0
  · rw [if_pos hk] at h; cases h
  rw [if_neg hk] at h
  cases hopt : getOptimalAffinity k lln with
  | none => rw [hopt] at h; cases h
  | some optimal =>
    rw [hopt] at h
    simp only at h
    cases hcand : candidateLeafCells H fuel n p avail with
    | none => rw [hcand] at h; cases h
    | some cands =>
      rw [hcand] at h
      simp only at h
      cases hs : affinitySearch H fuel cands k.toNat optimal with
      | none => rw [hs] at h; cases h
      | some r =>
        rw [hs] at h
        obtain ⟨hcombo, hcells, _⟩ := affinitySearch_post r hs
        obtain ⟨bc, bi⟩ := r
        simp only at h hcombo hcells
        rw [removePickedLeafCells_eq hcombo] at h
        simp only [Option.map_some', Option.some.injEq, Prod.mk.injEq] at h
        refine ⟨cands, bi, rfl, ?_, hcombo, ?_, h.2.symm⟩
        · by_contra hcon
          have hk0 : k.toNat = 0 := by omega
          rw [hk0] at hs
          unfold affinitySearch at hs
          cases fuel with
          | zero => simp [runLoop] at hs
          | succ f =>
            have := hcombo.1
            rcases Nat.eq_zero_or_pos cands.length with hz | hz
            · simp [runLoop, affinitySearch.step, affinitySearch.init, hz, highestLevel] at hs
            · simp [runLoop, affinitySearch.step, affinitySearch.init, hz] at hs
        · rw [← h.1, hcells, nonNil_map_getElem?]

theorem placementsOf_appendPlacement (pl : List (Int × List CellList)) (k k' : Int)
    (cells : CellList) :
    placementsOf (appendPlacement pl k cells) k' =
      if k' = k then placementsOf pl k ++ [cells] else placementsOf pl k' := by
  induction pl with
  | nil =>
    by_cases h : k' = k
    · subst h; simp [appendPlacement, placementsOf, List.lookup]
    · have : (k' == k) = false := by simpa using h
      simp [appendPlacement, placementsOf, List.lookup, this, h]
  | cons e rest ih =>
    obtain ⟨a, b⟩ := e
    unfold appendPlacement
    by_cases hak : a = k
    · subst hak
      simp only [if_true]
      by_cases h : k' = a
      · subst h; simp [placementsOf, List.lookup]
      · have : (k' == a) = false := by simpa using h
        simp [placementsOf, List.lookup, this, h]
    · simp only [if_neg hak]
      by_cases h : k' = a
      · subst h
        have : ¬ k' = k := hak
        simp [placementsOf, List.lookup, this]
      · have hb : (k' == a) = false := by simpa using h
        have ih' := ih
        simp only [placementsOf] at ih' ⊢
        have hka : (k == a) = false := by simpa using fun e : k = a => hak e.symm
        simp only [List.lookup, hb, hka]
        exact ih'

theorem appendPlacement_perm (pl : List (Int × List CellList)) (k : Int) (cells : CellList) :
    ((appendPlacement pl k cells).flatMap Prod.snd).Perm (pl.flatMap Prod.snd ++ [cells]) := by
  induction pl with
  | nil => simp [appendPlacement]
  | cons e rest ih =>
    unfold appendPlacement
    by_cases hak : e.1 = k
    · simp only [if_pos hak, List.flatMap_cons, List.append_assoc]
      exact List.Perm.append_left _ List.perm_append_comm
    · simp only [if_neg hak, List.flatMap_cons, List.append_assoc]
      exact List.Perm.append_left _ ih

theorem cellListsFor_cons (k a : Int) (ks : List Int) (x : CellList) (xs : List CellList) :
    cellListsFor k (a :: ks) (x :: xs) =
      (if a = k then [x] else []) ++ cellListsFor k ks xs := by
  unfold cellListsFor
  by_cases h : a = k <;> simp [List.filter_cons, h]

/-- What the last loop of `Schedule` adds to `podPlacements`: one cell list per pod, of
as many candidates of the pod's node as the pod has leaf cells. -/
theorem placePods_spec (H : Hierarchy) (fuel : Nat) (lln : LevelLeafCellNum) (priority : Int) :
    ∀ (pods : List (Int × Cell)) (m : Cell → Option CellList)
      (acc final : List (Int × List CellList)),
      (∀ n l, m n = some l → ∀ c ∈ l, Cand H priority n c) →
      topologyAwareScheduler.placePods H fuel lln priority pods m acc = some final →
      ∃ results : List CellList,
        List.Forall₂ (fun (pod : Int × Cell) cells =>
          1 ≤ pod.1 ∧ (cells.length : Int) = pod.1 ∧ ∀ c ∈ cells, Cand H priority pod.2 c)
          pods results ∧
        (∀ k, placementsOf final k =
          placementsOf acc k ++ cellListsFor k (pods.map Prod.fst) results) ∧
        (final.flatMap Prod.snd).Perm (acc.flatMap Prod.snd ++ results) := by
  intro pods
  induction pods with
  | nil =>
    intro m acc final _ h
    simp only [topologyAwareScheduler.placePods, Option.some.injEq] at h
    subst h
    exact ⟨[], List.Forall₂.nil, by simp [cellListsFor], by simp⟩
  | cons pod rest ih =>
    intro m acc final hm h
    obtain ⟨k, n⟩ := pod
    rw [topologyAwareScheduler.placePods] at h
    cases hf : findLeafCellsInNode H fuel n k priority (m n) lln with
    | none => rw [hf] at h; cases h
    | some r =>
      obtain ⟨cells, avail⟩ := r
      rw [hf] at h
      simp only at h
      obtain ⟨cands, idxs, hcand, hk, hcombo, hcells, hrest⟩ := findLeafCellsInNode_some hf
      have hcandOk : ∀ x ∈ cands, Cand H priority n x := by
        cases hmn : m n with
        | none => rw [hmn] at hcand; exact candidateLeafCells_none hcand
        | some l =>
          rw [hmn] at hcand
          simp only [candidateLeafCells, Option.some.injEq] at hcand
          subst hcand
          exact hm n l hmn
      obtain ⟨_, hsubRest, hsubCells, hlen⟩ := removeIndices_combo hcombo
      have hm' : ∀ n' l, Function.update m n (some avail) n' = some l →
          ∀ c ∈ l, Cand H priority n' c := by
        intro n' l hl c hc
        by_cases hn : n' = n
        · subst hn
          rw [Function.update_same] at hl
          cases hl
          exact hcandOk c (by rw [hrest] at hc; exact hsubRest.subset hc)
        · rw [Function.update_noteq hn] at hl
          exact hm n' l hl c hc
      obtain ⟨results, hall, hlook, hperm⟩ := ih _ _ final hm' h
      refine ⟨cells :: results, List.Forall₂.cons ⟨hk, ?_, ?_⟩ hall, ?_, ?_⟩
      · rw [hcells, hlen]; omega
      · intro c hc
        exact hcandOk c (by rw [hcells] at hc; exact hsubCells.subset hc)
      · intro k'
        rw [hlook k', placementsOf_appendPlacement, List.map_cons, cellListsFor_cons]
        by_cases hk' : k' = k
        · subst hk'; simp
        · have : ¬ k = k' := fun e => hk' e.symm
          simp [hk', this]
      · refine hperm.trans ?_
        refine (List.Perm.append_right _ (appendPlacement_perm acc k cells)).trans ?_
        simp

theorem insertFromRight_perm {α : Type} (less : α → α → Bool) (x : α) (ys : List α) :
    (insertFromRight less x ys).Perm (x :: ys) := by
  induction ys with
  | nil => simp [insertFromRight]
  | cons y ys ih =>
    unfold insertFromRight
    split_ifs
    · exact (List.Perm.cons y ih).trans (List.Perm.swap x y ys)
    · exact List.Perm.refl _

/-- The stable sort keeps the elements of the list. -/
theorem sortStable_perm {α : Type} (less : α → α → Bool) (l : List α) :
    (sortStable less l).Perm l := by
  unfold sortStable
  have key : ∀ (l init : List α),
      (l.foldl (fun sortedRev x => insertFromRight less x sortedRev) init).Perm (l ++ init) := by
    intro l
    induction l with
    | nil => intro init; simp
    | cons x xs ih =>
      intro init
      rw [List.foldl_cons]
      refine (ih _).trans ?_
      refine (List.Perm.append_left xs (insertFromRight_perm less x init)).trans ?_
      simp
  refine (List.reverse_perm _).trans ?_
  simpa using key l []

theorem node.updateUsedLeafCellNumForPriority_c (H : Hierarchy) (n : node) (p : Int)
    (cpp : Bool) : (n.updateUsedLeafCellNumForPriority H p cpp).c = n.c := by
  unfold node.updateUsedLeafCellNumForPriority
  simp only
  generalize (H n.c).usedLeafCellNumAtPriorities = used
  have key : ∀ (l : List (Int × Int)) (start : node),
      (l.foldl (fun (acc : node) (e : Int × Int) =>
        let acc1 : node :=
          if cpp then
            if e.1 ≠ p then
              { acc with usedLeafCellNumSamePriority := acc.usedLeafCellNumSamePriority + e.2 }
            else acc
          else if e.1 > p then
            { acc with usedLeafCellNumHigherPriority := acc.usedLeafCellNumHigherPriority + e.2 }
          else acc
        if e.1 ≥ p then
          { acc1 with freeLeafCellNumAtPriority := acc1.freeLeafCellNumAtPriority - e.2 }
        else acc1) start).c = start.c := by
    intro l
    induction l with
    | nil => intro start; rfl
    | cons e l ih =>
      intro start
      rw [List.foldl_cons, ih]
      simp only
      split_ifs <;> rfl
  rw [key]

/-- `updateClusterView` keeps the cell of every entry of the view. -/
theorem topologyAwareScheduler.updateClusterView_cells {H : Hierarchy}
    {t : topologyAwareScheduler} {p : Int} {suggestedNodes : List String}
    {ignoreSuggestedNodes : Bool} {cv : clusterView}
    (h : t.updateClusterView H p suggestedNodes ignoreSuggestedNodes = some cv) :
    cv.map (fun n => n.c) = t.cv.map (fun n => n.c) := by
  unfold topologyAwareScheduler.updateClusterView at h
  generalize t.cv = l at h
  induction l generalizing cv with
  | nil =>
    simp only [List.mapM_nil, Option.pure_def, Option.some.injEq] at h
    subst h; rfl
  | cons n l ih =>
    simp only [List.mapM_cons, Option.pure_def, Option.bind_eq_bind, Option.bind_eq_some,
      Option.map_eq_some', Option.some.injEq] at h
    obtain ⟨n', ⟨r, _, hn'⟩, cv', hcv', e⟩ := h
    subst e
    rw [List.map_cons, List.map_cons, ih hcv', ← hn']
    simp only [node.updateUsedLeafCellNumForPriority_c]

/-- What `findNodesForPods` returns: the sorted view with one picked index per pod, or
no index and a failure reason that is not empty. -/
theorem findNodesForPods_spec {cv sorted : clusterView} {leafCellNums : List Int}
    {sel : Option (List Nat)} {fr : FailedReason}
    (h : findNodesForPods cv leafCellNums = some (sorted, sel, fr)) :
    sorted = sortStable clusterView.Less cv ∧
      (∀ picked, sel = some picked → picked.length = leafCellNums.length) ∧
      (sel = none → fr ≠ FailedReason.none) := by
  unfold findNodesForPods at h
  simp only [Option.map_eq_some'] at h
  obtain ⟨r, hr, e⟩ := h
  simp only [Prod.mk.injEq] at e
  obtain ⟨e1, e2⟩ := e
  subst e2
  refine ⟨e1.symm, ?_⟩
  refine runLoop_post (findNodesForPods.step (sortStable clusterView.Less cv) leafCellNums)
    (fun st => st.pickedNodeIndices.length = leafCellNums.length)
    (fun r => (∀ picked, r.1 = some picked → picked.length = leafCellNums.length) ∧
      (r.1 = none → r.2 ≠ FailedReason.none)) ?_ ?_ _ _ _ (by simp) hr
  · intro st st' hinv hs
    unfold findNodesForPods.step at hs
    split at hs
    · cases hs
    · split at hs
      · cases hs
      · split_ifs at hs <;> simp only [Option.some.injEq, Sum.inl.injEq, reduceCtorEq] at hs <;>
          subst hs <;> simp [hinv]
  · intro st r hinv hs
    unfold findNodesForPods.step at hs
    split at hs
    · simp only [Option.some.injEq, Sum.inr.injEq] at hs
      subst hs
      simp
    · split at hs
      · cases hs
      · split_ifs at hs <;> simp only [Option.some.injEq, Sum.inr.injEq, reduceCtorEq] at hs <;>
          subst hs <;> simp [hinv]

theorem mapM_option_forall₂ {α β : Type} (f : α → Option β) :
    ∀ (l : List α) (r : List β), l.mapM f = some r → List.Forall₂ (fun a b => f a = some b) l r := by
  intro l
  induction l with
  | nil =>
    intro r h
    simp only [List.mapM_nil, Option.pure_def, Option.some.injEq] at h
    subst h; exact List.Forall₂.nil
  | cons a l ih =>
    intro r h
    simp only [List.mapM_cons, Option.pure_def, Option.bind_eq_bind, Option.bind_eq_some,
      Option.some.injEq] at h
    obtain ⟨b, hb, r', hr', e⟩ := h
    subst e
    exact List.Forall₂.cons hb (ih r' hr')

theorem forall₂_exists_left {α β : Type} {R : α → β → Prop} {l : List α} {r : List β}
    (h : List.Forall₂ R l r) : ∀ b ∈ r, ∃ a ∈ l, R a b := by
  induction h with
  | nil => intro b hb; cases hb
  | cons hab _ ih =>
    intro b hb
    rcases List.mem_cons.mp hb with rfl | hb
    · exact ⟨_, List.mem_cons_self _ _, hab⟩
    · obtain ⟨a, ha, hr⟩ := ih b hb
      exact ⟨a, List.mem_cons_of_mem _ ha, hr⟩

/-- One pass of `Schedule`: the view keeps its cells, and either every pod has a picked
index or the failure reason is not empty. -/
theorem topologyAwareScheduler.pass_spec {H : Hierarchy} {t : topologyAwareScheduler}
    {q : Int} {suggestedNodes : List String} {ignoreSuggestedNodes : Bool}
    {leafCellNums : List Int} {cv : clusterView} {sel : Option (List Nat)} {fr : FailedReason}
    (h : t.pass H q suggestedNodes ignoreSuggestedNodes leafCellNums = some (cv, sel, fr)) :
    (cv.map (fun n => n.c)).Perm (t.cv.map (fun n => n.c)) ∧
      (∀ picked, sel = some picked → picked.length = leafCellNums.length) ∧
      (sel = none → fr ≠ FailedReason.none) := by
  unfold topologyAwareScheduler.pass at h
  cases hu : t.updateClusterView H q suggestedNodes ignoreSuggestedNodes with
  | none => rw [hu] at h; cases h
  | some cv1 =>
    rw [hu] at h
    simp only at h
    obtain ⟨e, h2, h3⟩ := findNodesForPods_spec h
    refine ⟨?_, h2, h3⟩
    rw [← topologyAwareScheduler.updateClusterView_cells hu, e]
    exact (sortStable_perm _ _).map _

/-- The node selection of `Schedule`: the priority that counts is `opportunisticPriority`
or, when `p` is higher, `p`. -/
theorem topologyAwareScheduler.selectNodes_spec {H : Hierarchy} {t : topologyAwareScheduler}
    {p q : Int} {suggestedNodes : List String} {ignoreSuggestedNodes : Bool}
    {leafCellNums : List Int} {cv : clusterView} {sel : Option (List Nat)} {fr : FailedReason}
    (h : t.selectNodes H p suggestedNodes ignoreSuggestedNodes leafCellNums =
      some (q, cv, sel, fr)) :
    (q = opportunisticPriority ∨ (q = p ∧ opportunisticPriority < p)) ∧
      (cv.map (fun n => n.c)).Perm (t.cv.map (fun n => n.c)) ∧
      (∀ picked, sel = some picked → picked.length = leafCellNums.length) ∧
      (sel = none → fr ≠ FailedReason.none) := by
  unfold topologyAwareScheduler.selectNodes at h
  cases h1 : t.pass H opportunisticPriority suggestedNodes ignoreSuggestedNodes leafCellNums with
  | none => rw [h1] at h; cases h
  | some r1 =>
    obtain ⟨cv1, sel1, fr1⟩ := r1
    rw [h1] at h
    simp only at h
    obtain ⟨hp1, hl1, hf1⟩ := topologyAwareScheduler.pass_spec h1
    split_ifs at h with hc
    · simp only [Option.map_eq_some'] at h
      obtain ⟨r2, h2, e⟩ := h
      obtain ⟨cv2, sel2, fr2⟩ := r2
      simp only [Prod.mk.injEq] at e
      obtain ⟨rfl, rfl, rfl, rfl⟩ := e
      obtain ⟨hp2, hl2, hf2⟩ := topologyAwareScheduler.pass_spec h2
      exact ⟨Or.inr ⟨rfl, hc.2⟩, hp2.trans hp1, hl2, hf2⟩
    · simp only [Option.some.injEq, Prod.mk.injEq] at h
      obtain ⟨rfl, rfl, rfl, rfl⟩ := h
      exact ⟨Or.inl rfl, hp1, hl1, hf1⟩

/-- A successful `Schedule`: the node selection gave one node of the view per pod, and
the placement is what the last loop made of them. -/
theorem topologyAwareScheduler.Schedule_success {H : Hierarchy} {fuel : Nat}
    {t : topologyAwareScheduler} {plc : List (Int × Int)} {p : Int}
    {suggestedNodes : List String} {ignoreSuggestedNodes : Bool}
    {pl : List (Int × List CellList)}
    (h : t.Schedule H fuel plc p suggestedNodes ignoreSuggestedNodes =
      some (pl, FailedReason.none)) :
    ∃ q selectedNodes,
      (q = opportunisticPriority ∨ (q = p ∧ opportunisticPriority < p)) ∧
      selectedNodes.length = (sortedPodLeafCellNumbers plc).length ∧
      (∀ n ∈ selectedNodes, ∃ nd ∈ t.cv, nd.c = n) ∧
      topologyAwareScheduler.placePods H fuel t.levelLeafCellNum q
        ((sortedPodLeafCellNumbers plc).zip selectedNodes) (fun _ => none) [] = some pl := by
  unfold topologyAwareScheduler.Schedule at h
  simp only at h
  cases hs : t.selectNodes H p suggestedNodes ignoreSuggestedNodes
      (sortedPodLeafCellNumbers plc) with
  | none => rw [hs] at h; cases h
  | some r =>
    obtain ⟨q, cv, sel, fr⟩ := r
    rw [hs] at h
    obtain ⟨hq, hperm, hlen, hfail⟩ := topologyAwareScheduler.selectNodes_spec hs
    cases sel with
    | none =>
      simp only [Option.some.injEq, Prod.mk.injEq] at h
      exact absurd h.2 (hfail rfl)
    | some picked =>
      simp only at h
      cases hm : picked.mapM (fun i => cv[i]?.map (fun (n : node) => n.c)) with
      | none => rw [hm] at h; cases h
      | some selectedNodes =>
        rw [hm] at h
        simp only [Option.map_eq_some', Prod.mk.injEq, and_true, exists_eq_right] at h
        have hall := mapM_option_forall₂ _ _ _ hm
        refine ⟨q, selectedNodes, hq, ?_, ?_, h⟩
        · rw [← hall.length_eq, hlen picked rfl]
        · intro n hn
          obtain ⟨i, _, hi⟩ := forall₂_exists_left hall n hn
          simp only [Option.map_eq_some'] at hi
          obtain ⟨nd, hnd, e⟩ := hi
          have hmem : nd ∈ cv := by
            obtain ⟨hlt, e'⟩ := List.getElem?_eq_some_iff.mp hnd
            exact e' ▸ List.getElem_mem _
          have : n ∈ cv.map (fun n => n.c) := List.mem_map.mpr ⟨nd, hmem, e⟩
          have := hperm.subset this
          obtain ⟨nd0, h0, e0⟩ := List.mem_map.mp this
          exact ⟨nd0, h0, e0⟩

theorem cellListsFor_length (k : Int) :
    ∀ (ks : List Int) (results : List CellList), ks.length = results.length →
      (cellListsFor k ks results).length = ks.count k := by
  intro ks
  induction ks with
  | nil => intro results _; simp [cellListsFor]
  | cons a ks ih =>
    intro results h
    cases results with
    | nil => simp at h
    | cons x xs =>
      rw [cellListsFor_cons, List.length_append, ih xs (by simpa using h), List.count_cons]
      by_cases hak : a = k
      · subst hak; simp; omega
      · have : (a == k) = false := by simpa using hak
        simp [hak, this]

theorem cellListsFor_mem {R : Int × Cell → CellList → Prop} {pods : List (Int × Cell)}
    {results : List CellList} (h : List.Forall₂ R pods results) {k : Int} {cells : CellList}
    (hc : cells ∈ cellListsFor k (pods.map Prod.fst) results) :
    ∃ pod ∈ pods, pod.1 = k ∧ R pod cells := by
  induction h with
  | nil => simp [cellListsFor] at hc
  | @cons pod x pods xs hR _ ih =>
    rw [List.map_cons, cellListsFor_cons, List.mem_append] at hc
    rcases hc with hc | hc
    · by_cases hk : pod.1 = k
      · rw [if_pos hk] at hc
        simp only [List.mem_singleton] at hc
        subst hc
        exact ⟨pod, List.mem_cons_self _ _, hk, hR⟩
      · rw [if_neg hk] at hc; cases hc
    · obtain ⟨pod', h1, h2, h3⟩ := ih hc
      exact ⟨pod', List.mem_cons_of_mem _ h1, h2, h3⟩

/-- The sorted leaf cell numbers hold the number `n` of an entry `n -> m` of the map
`m` times. -/
theorem count_sortedPodLeafCellNumbers {plc : List (Int × Int)}
    (hkeys : (plc.map Prod.fst).Nodup) {e : Int × Int} (he : e ∈ plc) :
    (sortedPodLeafCellNumbers plc).count e.1 = e.2.toNat := by
  unfold sortedPodLeafCellNumbers SortInt32
  rw [(List.perm_insertionSort _ _).count_eq]
  induction plc with
  | nil => cases he
  | cons x rest ih =>
    rw [List.map_cons, List.nodup_cons] at hkeys
    rw [List.flatMap_cons, List.count_append, List.count_replicate]
    rcases List.mem_cons.mp he with rfl | he'
    · have hz : (rest.flatMap (fun e => List.replicate e.2.toNat e.1)).count e.1 = 0 := by
        rw [List.count_eq_zero]
        intro hmem
        obtain ⟨y, hy, hy2⟩ := List.mem_flatMap.mp hmem
        have := (List.mem_replicate.mp hy2).2
        exact hkeys.1 (List.mem_map.mpr ⟨y, hy, this.symm⟩)
      rw [hz]; simp
    · have hne : ¬ x.1 = e.1 := by
        intro heq
        exact hkeys.1 (List.mem_map.mpr ⟨e, he', heq.symm⟩)
      have : (x.1 == e.1) = false := by simpa using hne
      rw [this, ih hkeys.2 he']
      simp

theorem exampleCluster_level_pos (prio : Nat → Int) (c : Nat) :
    lowestLevel ≤ (exampleCluster prio c).level := by
  rw [exampleCluster_level]
  unfold lowestLevel
  split_ifs <;> omega

/-- C1: when `topologyAwareScheduler.Schedule` returns the empty failure reason, for
every entry `n -> m` of `podLeafCellNumbers` (a map: no key twice) with `n >= 1` and
`m >= 1` the result holds exactly `m` cell lists under `n`, each of exactly `n` cells of
level 1 (no cell being below `lowestLevel`) that are all reached by child links from the
cell of one node of the cluster view. -/
theorem topologyAwareScheduler_Schedule_placement (H : Hierarchy) (fuel : Nat)
    (t : topologyAwareScheduler) (podLeafCellNumbers : List (Int × Int)) (p : Int)
    (suggestedNodes : List String) (ignoreSuggestedNodes : Bool)
    (podPlacements : List (Int × List CellList))
    (hlev : ∀ c, lowestLevel ≤ (H c).level)
    (hkeys : (podLeafCellNumbers.map Prod.fst).Nodup)
    (h : t.Schedule H fuel podLeafCellNumbers p suggestedNodes ignoreSuggestedNodes =
      some (podPlacements, FailedReason.none)) :
    ∀ e ∈ podLeafCellNumbers, 1 ≤ e.1 → 1 ≤ e.2 →
      ((placementsOf podPlacements e.1).length : Int) = e.2 ∧
      ∀ cells ∈ placementsOf podPlacements e.1,
        (cells.length : Int) = e.1 ∧ (∀ c ∈ cells, (H c).level = 1) ∧
        ∃ nd ∈ t.cv, ∀ c ∈ cells, Desc H nd.c c := by
  intro e he _ hm
  obtain ⟨q, selectedNodes, _, hlen, hnodes, hplace⟩ :=
    topologyAwareScheduler.Schedule_success h
  obtain ⟨results, hall, hlook, _⟩ :=
    placePods_spec H fuel t.levelLeafCellNum q _ _ _ _ (fun n l hn => by cases hn) hplace
  have hfst : ((sortedPodLeafCellNumbers podLeafCellNumbers).zip selectedNodes).map Prod.fst =
      sortedPodLeafCellNumbers podLeafCellNumbers := List.map_fst_zip _ _ (by omega)
  have hlook' := hlook e.1
  rw [show placementsOf [] e.1 = [] from rfl, List.nil_append] at hlook'
  rw [hlook']
  refine ⟨?_, ?_⟩
  · rw [hfst, cellListsFor_length, count_sortedPodLeafCellNumbers hkeys he]
    · omega
    · rw [← hall.length_eq, List.length_zip, hlen]; simp
  · intro cells hc
    obtain ⟨pod, hpod, hk, _, hcl, hcand⟩ := cellListsFor_mem hall hc
    refine ⟨by rw [hcl, hk], ?_, ?_⟩
    · intro c hcm
      have h1 := (hcand c hcm).2.1
      have h2 := hlev c
      unfold lowestLevel at h2
      omega
    · obtain ⟨nd, hnd, e'⟩ := hnodes pod.2 (List.of_mem_zip (a := pod.1) (b := pod.2) hpod).2
      exact ⟨nd, hnd, fun c hcm => e' ▸ (hcand c hcm).1⟩

/-- C1, on the free example cluster: one pod of two leaf cells and two pods of one leaf
cell, at priority 0; the entry `2 -> 1`. -/
theorem topologyAwareScheduler_Schedule_placement_witness :
    ((placementsOf [(1, [[0], [1]]), (2, [[2, 3]])] 2).length : Int) = 1 ∧
      ∀ cells ∈ placementsOf [(1, [[0], [1]]), (2, [[2, 3]])] 2,
        (cells.length : Int) = 2 ∧
        (∀ c ∈ cells, (exampleCluster exampleAllFree c).level = 1) ∧
        ∃ nd ∈ exampleTopologyScheduler.cv,
          ∀ c ∈ cells, Desc (exampleCluster exampleAllFree) nd.c c :=
  topologyAwareScheduler_Schedule_placement (exampleCluster exampleAllFree) 100
    exampleTopologyScheduler [(2, 1), (1, 2)] 0 [] true [(1, [[0], [1]]), (2, [[2, 3]])]
    (exampleCluster_level_pos _) (by decide) (by decide!) (2, 1) (by decide) (by decide)
    (by decide)

/-- Two children of one cell have no common descendant. -/
theorem siblings_disjoint {H : Hierarchy} (hl : LevelsByOne H) (hc : ChildrenOk H)
    {c a b x : Cell} (ha : a ∈ (H c).children) (hb : b ∈ (H c).children)
    (hax : Desc H a x) (hbx : Desc H b x) : a = b := by
  have la := hl _ _ (hc _ _ ha)
  have lb := hl _ _ (hc _ _ hb)
  have h1 := Anc.chain hl (hax.anc hc) (hbx.anc hc) (by omega)
  exact (h1.eq_of_level_eq hl (by omega)).symm

/-- In a hierarchy whose children point back to their parents, one level below them and
without repetition, `getLeafCellsFromNode` adds no cell twice. -/
theorem getLeafCellsFromNode_nodup {H : Hierarchy} (hl : LevelsByOne H) (hc : ChildrenOk H)
    (hn : ChildrenNodup H) (p : Int) :
    ∀ (fuel : Nat) (c : Cell) (f pr : CellList) (r : CellList × CellList),
      getLeafCellsFromNode H p fuel c f pr = some r →
      ∃ f' pr', r = (f ++ f', pr ++ pr') ∧ (f' ++ pr').Nodup ∧
        ∀ x ∈ f' ++ pr', Cand H p c x := by
  intro fuel
  induction fuel with
  | zero => intro c f pr r h; simp [getLeafCellsFromNode] at h
  | succ fuel ih =>
    intro c f pr r h
    rw [getLeafCellsFromNode] at h
    by_cases hlev : (H c).level > 1
    · rw [if_pos hlev] at h
      have key : ∀ (l : CellList), (∀ cc ∈ l, cc ∈ (H c).children) → l.Nodup →
          ∀ (acc r : CellList × CellList),
          l.foldlM (fun acc cc => getLeafCellsFromNode H p fuel cc acc.1 acc.2) acc = some r →
          ∃ f' pr', r = (acc.1 ++ f', acc.2 ++ pr') ∧ (f' ++ pr').Nodup ∧
            ∀ x ∈ f' ++ pr', ∃ cc ∈ l, Cand H p cc x := by
        intro l
        induction l with
        | nil =>
          intro _ _ acc r h
          simp only [List.foldlM, Option.pure_def, Option.some.injEq] at h
          exact ⟨[], [], by simp [← h], by simp, by simp⟩
        | cons cc l ihl =>
          intro hsub hnd acc r h
          simp only [List.foldlM, Option.bind_eq_bind, Option.bind_eq_some] at h
          obtain ⟨acc1, h1, h2⟩ := h
          rw [List.nodup_cons] at hnd
          obtain ⟨f1, pr1, e1, hn1, hc1⟩ := ih cc acc.1 acc.2 acc1 h1
          obtain ⟨f2, pr2, e2, hn2, hc2⟩ :=
            ihl (fun x hx => hsub x (List.mem_cons_of_mem _ hx)) hnd.2 acc1 r h2
          refine ⟨f1 ++ f2, pr1 ++ pr2, by rw [e2, e1]; simp, ?_, ?_⟩
          · have hperm : (f1 ++ f2 ++ (pr1 ++ pr2)).Perm ((f1 ++ pr1) ++ (f2 ++ pr2)) := by
              rw [List.append_assoc, List.append_assoc]
              refine List.Perm.append_left f1 ?_
              rw [← List.append_assoc, ← List.append_assoc]
              exact List.Perm.append_right pr2 List.perm_append_comm
            rw [hperm.nodup_iff, List.nodup_append]
            refine ⟨hn1, hn2, ?_⟩
            intro x hx1 hx2
            obtain ⟨cc', hcc', hcand'⟩ := hc2 x hx2
            have := siblings_disjoint hl hc (hsub cc (List.mem_cons_self _ _))
              (hsub cc' (List.mem_cons_of_mem _ hcc')) (hc1 x hx1).1 hcand'.1
            exact hnd.1 (this ▸ hcc')
          · intro x hx
            have hx' : x ∈ f1 ++ pr1 ∨ x ∈ f2 ++ pr2 := by
              simp only [List.mem_append] at hx ⊢; tauto
            rcases hx' with hx' | hx'
            · exact ⟨cc, List.mem_cons_self _ _, hc1 x hx'⟩
            · obtain ⟨cc', h1', h2'⟩ := hc2 x hx'
              exact ⟨cc', List.mem_cons_of_mem _ h1', h2'⟩
      obtain ⟨f', pr', e, hnd, hcand⟩ := key _ (fun _ h => h) (hn c) _ _ h
      refine ⟨f', pr', e, hnd, ?_⟩
      intro x hx
      obtain ⟨cc, hcc, h1⟩ := hcand x hx
      exact ⟨Desc.of_child hcc h1.1, h1.2⟩
    · rw [if_neg hlev] at h
      split_ifs at h with h1 h2
      · cases h
        exact ⟨[c], [], by simp, by simp, by
          intro x hx; simp at hx; subst hx; exact ⟨Desc.refl, by omega, Or.inl h1⟩⟩
      · cases h
        exact ⟨[], [c], by simp, by simp, by
          intro x hx; simp at hx; subst hx; exact ⟨Desc.refl, by omega, Or.inr h2⟩⟩
      · cases h
        exact ⟨[], [], by simp, by simp, by simp⟩

theorem candidateLeafCells_none_nodup {H : Hierarchy} (hl : LevelsByOne H) (hc : ChildrenOk H)
    (hn : ChildrenNodup H) {fuel : Nat} {n : Cell} {p : Int}
    {cands : CellList} (h : candidateLeafCells H fuel n p none = some cands) :
    cands.Nodup := by
  unfold candidateLeafCells at h
  simp only at h
  cases hg : getLeafCellsFromNode H p fuel n [] [] with
  | none => rw [hg] at h; cases h
  | some r =>
    rw [hg] at h
    obtain ⟨f', pr', e, hnd, _⟩ := getLeafCellsFromNode_nodup hl hc hn p fuel n [] [] r hg
    subst e
    simp only [List.nil_append, Option.some.injEq] at h
    subst h
    exact hnd

theorem PlaceInv.of_perm {H : Hierarchy} {nodes : CellList} {m : Cell → Option CellList}
    {placed placed' : CellList} (h : PlaceInv H nodes m placed) (hp : placed.Perm placed') :
    PlaceInv H nodes m placed' := by
  obtain ⟨h1, h2, h3⟩ := h
  refine ⟨hp.nodup_iff.mp h1, ?_, ?_⟩
  · intro n l hl
    obtain ⟨a, b, c⟩ := h2 n l hl
    exact ⟨a, b, fun x hx => ⟨(c x hx).1, fun hmem => (c x hx).2 (hp.mem_iff.mpr hmem)⟩⟩
  · intro c hc
    exact h3 c (hp.mem_iff.mpr hc)

/-- One pod placed: the invariant holds for the cells placed so far with the new ones. -/
theorem PlaceInv.step {H : Hierarchy} (hl : LevelsByOne H) (hc : ChildrenOk H)
    (hn : ChildrenNodup H) {nodes : CellList}
    (hdisj : ∀ n1 ∈ nodes, ∀ n2 ∈ nodes, ∀ c, Desc H n1 c → Desc H n2 c → n1 = n2)
    {fuel : Nat} {lln : LevelLeafCellNum} {q k : Int} {n : Cell} {m : Cell → Option CellList}
    {placed cells avail : CellList} (hnode : n ∈ nodes) (hinv : PlaceInv H nodes m placed)
    (hf : findLeafCellsInNode H fuel n k q (m n) lln = some (cells, avail)) :
    PlaceInv H nodes (Function.update m n (some avail)) (placed ++ cells) := by
  obtain ⟨hpn, hmap, hplaced⟩ := hinv
  obtain ⟨cands, idxs, hcand, _, hcombo, hcells, hrest⟩ := findLeafCellsInNode_some hf
  obtain ⟨hperm, hsubRest, hsubCells, _⟩ := removeIndices_combo hcombo
  subst hcells
  subst hrest
  have hcands : cands.Nodup ∧ ∀ c ∈ cands, Desc H n c ∧ c ∉ placed := by
    cases hmn : m n with
    | none =>
      rw [hmn] at hcand
      refine ⟨candidateLeafCells_none_nodup hl hc hn hcand, ?_⟩
      intro c hcm
      have hd := (candidateLeafCells_none hcand c hcm).1
      refine ⟨hd, ?_⟩
      intro hp
      obtain ⟨n', l', hm', hd'⟩ := hplaced c hp
      have := hdisj n' (hmap n' l' hm').1 n hnode c hd' hd
      subst this
      rw [hmn] at hm'
      cases hm'
    | some l =>
      rw [hmn] at hcand
      simp only [candidateLeafCells, Option.some.injEq] at hcand
      subst hcand
      exact (hmap n l hmn).2
  have hnd2 := hperm.nodup_iff.mpr hcands.1
  rw [List.nodup_append] at hnd2
  refine ⟨?_, ?_, ?_⟩
  · rw [List.nodup_append]
    exact ⟨hpn, hnd2.1, fun x hx1 hx2 => (hcands.2 x (hsubCells.subset hx2)).2 hx1⟩
  · intro n' l hl'
    by_cases hnn : n' = n
    · subst hnn
      rw [Function.update_same] at hl'
      cases hl'
      refine ⟨hnode, hnd2.2.1, ?_⟩
      intro c hcm
      have := hcands.2 c (hsubRest.subset hcm)
      refine ⟨this.1, ?_⟩
      rw [List.mem_append]
      rintro (h1 | h1)
      · exact this.2 h1
      · exact hnd2.2.2 h1 hcm
    · rw [Function.update_noteq hnn] at hl'
      obtain ⟨a, b, c'⟩ := hmap n' l hl'
      refine ⟨a, b, ?_⟩
      intro c hcm
      refine ⟨(c' c hcm).1, ?_⟩
      rw [List.mem_append]
      rintro (h1 | h1)
      · exact (c' c hcm).2 h1
      · exact hnn (hdisj n' a n hnode c (c' c hcm).1 (hcands.2 c (hsubCells.subset h1)).1)
  · intro c hcm
    rw [List.mem_append] at hcm
    rcases hcm with h1 | h1
    · obtain ⟨n', l', hm', hd'⟩ := hplaced c h1
      by_cases hnn : n' = n
      · subst hnn
        exact ⟨n', _, Function.update_same _ _ _, hd'⟩
      · exact ⟨n', l', by rw [Function.update_noteq hnn]; exact hm', hd'⟩
    · exact ⟨n, _, Function.update_same _ _ _, (hcands.2 c (hsubCells.subset h1)).1⟩

/-- The last loop of `Schedule` places no cell twice. -/
theorem placePods_nodup {H : Hierarchy} (hl : LevelsByOne H) (hc : ChildrenOk H)
    (hn : ChildrenNodup H) {nodes : CellList}
    (hdisj : ∀ n1 ∈ nodes, ∀ n2 ∈ nodes, ∀ c, Desc H n1 c → Desc H n2 c → n1 = n2)
    (fuel : Nat) (lln : LevelLeafCellNum) (q : Int) :
    ∀ (pods : List (Int × Cell)) (m : Cell → Option CellList)
      (acc final : List (Int × List CellList)),
      (∀ pod ∈ pods, pod.2 ∈ nodes) →
      PlaceInv H nodes m (acc.flatMap Prod.snd).flatten →
      topologyAwareScheduler.placePods H fuel lln q pods m acc = some final →
      (final.flatMap Prod.snd).flatten.Nodup := by
  intro pods
  induction pods with
  | nil =>
    intro m acc final _ hinv h
    simp only [topologyAwareScheduler.placePods, Option.some.injEq] at h
    subst h
    exact hinv.1
  | cons pod rest ih =>
    intro m acc final hnodes hinv h
    obtain ⟨k, n⟩ := pod
    rw [topologyAwareScheduler.placePods] at h
    cases hf : findLeafCellsInNode H fuel n k q (m n) lln with
    | none => rw [hf] at h; cases h
    | some r =>
      obtain ⟨cells, avail⟩ := r
      rw [hf] at h
      simp only at h
      have hstep := PlaceInv.step hl hc hn hdisj (hnodes (k, n) (List.mem_cons_self _ _)) hinv hf
      refine ih _ _ final (fun pod hp => hnodes pod (List.mem_cons_of_mem _ hp)) ?_ h
      refine hstep.of_perm ?_
      have := (appendPlacement_perm acc k cells).flatten
      refine List.Perm.trans ?_ this.symm
      simp

theorem sum_sortedPodLeafCellNumbers (plc : List (Int × Int)) :
    (sortedPodLeafCellNumbers plc).sum = (plc.map (fun e => e.1 * (e.2.toNat : Int))).sum := by
  unfold sortedPodLeafCellNumbers SortInt32
  rw [(List.perm_insertionSort _ _).sum_eq]
  induction plc with
  | nil => rfl
  | cons e rest ih =>
    rw [List.flatMap_cons, List.sum_append, ih, List.map_cons, List.sum_cons,
      List.sum_replicate, nsmul_eq_mul]
    ring

theorem sum_length_of_forall₂ {R : Int × Cell → CellList → Prop} {pods : List (Int × Cell)}
    {results : List CellList} (h : List.Forall₂ R pods results)
    (hR : ∀ pod cells, R pod cells → (cells.length : Int) = pod.1) :
    (results.flatten.length : Int) = (pods.map Prod.fst).sum := by
  induction h with
  | nil => rfl
  | cons hab _ ih =>
    rw [List.flatten_cons, List.length_append, List.map_cons, List.sum_cons, ← ih,
      ← hR _ _ hab]
    push_cast
    rfl

/-- Two cells of one level have no common descendant. -/
theorem desc_disjoint_of_level_eq {H : Hierarchy} (hl : LevelsByOne H) (hc : ChildrenOk H)
    {a b x : Cell} (hlev : (H a).level = (H b).level) (hax : Desc H a x) (hbx : Desc H b x) :
    a = b := by
  have h1 := Anc.chain hl (hax.anc hc) (hbx.anc hc) (by omega)
  exact (h1.eq_of_level_eq hl (by omega)).symm

theorem exampleCluster_children (prio : Nat → Int) (c : Nat) :
    (exampleCluster prio c).children =
      if c < 16 then [] else if c < 24 then [2 * (c - 16), 2 * (c - 16) + 1]
      else if c < 28 then [16 + 2 * (c - 24), 16 + 2 * (c - 24) + 1]
      else if c < 30 then [24 + 2 * (c - 28), 24 + 2 * (c - 28) + 1] else [] := by
  unfold exampleCluster
  split_ifs <;> rfl

theorem exampleCluster_childrenOk (prio : Nat → Int) : ChildrenOk (exampleCluster prio) := by
  intro x c h
  rw [exampleCluster_children] at h
  rw [exampleCluster_parent]
  split_ifs at h with h1 h2 h3 h4 <;>
    simp only [List.mem_cons, List.mem_singleton, List.not_mem_nil, or_false] at h
  all_goals
    rcases h with rfl | rfl
    all_goals
      first
      | (rw [if_pos (by omega)]; congr 1; omega)
      | (rw [if_neg (by omega), if_pos (by omega)]; congr 1; omega)
      | (rw [if_neg (by omega), if_neg (by omega), if_pos (by omega)]; congr 1; omega)

theorem exampleCluster_childrenNodup (prio : Nat → Int) :
    ChildrenNodup (exampleCluster prio) := by
  intro x
  rw [exampleCluster_children]
  split_ifs <;> simp

theorem exampleTopologyScheduler_disjoint (prio : Nat → Int) :
    ∀ n1 ∈ exampleTopologyScheduler.cv, ∀ n2 ∈ exampleTopologyScheduler.cv, ∀ c,
      Desc (exampleCluster prio) n1.c c → Desc (exampleCluster prio) n2.c c → n1.c = n2.c := by
  intro n1 h1 n2 h2 c hd1 hd2
  refine desc_disjoint_of_level_eq (exampleCluster_levelsByOne prio)
    (exampleCluster_childrenOk prio) ?_ hd1 hd2
  simp only [exampleTopologyScheduler, List.mem_cons, List.mem_singleton, List.not_mem_nil,
    or_false] at h1 h2
  rcases h1 with rfl | rfl <;> rcases h2 with rfl | rfl <;> rfl

/-- C3: when `topologyAwareScheduler.Schedule` returns the empty failure reason, in a
hierarchy whose children point back to their parents, one level below them and without
repetition, and for a cluster view whose nodes have pairwise disjoint sub-trees, no leaf
cell occurs twice in the cell lists of the placement, and the number of cells placed is
the sum, over the entries `n -> m` of `podLeafCellNumbers`, of `n` times `m`. -/
theorem topologyAwareScheduler_Schedule_no_overlap (H : Hierarchy) (fuel : Nat)
    (t : topologyAwareScheduler) (podLeafCellNumbers : List (Int × Int)) (p : Int)
    (suggestedNodes : List String) (ignoreSuggestedNodes : Bool)
    (podPlacements : List (Int × List CellList))
    (hl : LevelsByOne H) (hc : ChildrenOk H) (hn : ChildrenNodup H)
    (hdisj : ∀ n1 ∈ t.cv, ∀ n2 ∈ t.cv, ∀ c, Desc H n1.c c → Desc H n2.c c → n1.c = n2.c)
    (h : t.Schedule H fuel podLeafCellNumbers p suggestedNodes ignoreSuggestedNodes =
      some (podPlacements, FailedReason.none)) :
    (podPlacements.flatMap Prod.snd).flatten.Nodup ∧
      ((podPlacements.flatMap Prod.snd).flatten.length : Int) =
        (podLeafCellNumbers.map (fun e => e.1 * (e.2.toNat : Int))).sum := by
  obtain ⟨q, selectedNodes, _, hlen, hnodes, hplace⟩ :=
    topologyAwareScheduler.Schedule_success h
  have hdisj' : ∀ n1 ∈ t.cv.map (fun n => n.c), ∀ n2 ∈ t.cv.map (fun n => n.c), ∀ c,
      Desc H n1 c → Desc H n2 c → n1 = n2 := by
    intro n1 h1 n2 h2 c hd1 hd2
    obtain ⟨a, ha, rfl⟩ := List.mem_map.mp h1
    obtain ⟨b, hb, rfl⟩ := List.mem_map.mp h2
    exact hdisj a ha b hb c hd1 hd2
  refine ⟨?_, ?_⟩
  · refine placePods_nodup hl hc hn hdisj' fuel t.levelLeafCellNum q _ _ _ _ ?_ ?_ hplace
    · intro pod hpod
      obtain ⟨nd, hnd, e⟩ := hnodes pod.2 (List.of_mem_zip (a := pod.1) (b := pod.2) hpod).2
      exact List.mem_map.mpr ⟨nd, hnd, e⟩
    · refine ⟨List.nodup_nil, ?_, ?_⟩
      · intro n l hn; cases hn
      · intro c hc; cases hc
  · obtain ⟨results, hall, _, hperm⟩ :=
      placePods_spec H fuel t.levelLeafCellNum q _ _ _ _ (fun n l hn => by cases hn) hplace
    rw [List.flatMap_nil, List.nil_append] at hperm
    rw [hperm.flatten.length_eq, sum_length_of_forall₂ hall (fun _ _ hR => hR.2.1),
      List.map_fst_zip _ _ (by omega), sum_sortedPodLeafCellNumbers]

/-- C3, on the free example cluster: one pod of two leaf cells and two pods of one leaf
cell, at priority 0, get four different leaf cells. -/
theorem topologyAwareScheduler_Schedule_no_overlap_witness :
    (([(1, [[0], [1]]), (2, [[2, 3]])] : List (Int × List CellList)).flatMap
        Prod.snd).flatten.Nodup ∧
      ((([(1, [[0], [1]]), (2, [[2, 3]])] : List (Int × List CellList)).flatMap
        Prod.snd).flatten.length : Int) =
        (([(2, 1), (1, 2)] : List (Int × Int)).map (fun e => e.1 * (e.2.toNat : Int))).sum :=
  topologyAwareScheduler_Schedule_no_overlap (exampleCluster exampleAllFree) 100
    exampleTopologyScheduler [(2, 1), (1, 2)] 0 [] true [(1, [[0], [1]]), (2, [[2, 3]])]
    (exampleCluster_levelsByOne _) (exampleCluster_childrenOk _)
    (exampleCluster_childrenNodup _) (exampleTopologyScheduler_disjoint _) (by decide!)

theorem isAncestor_anc (H : Hierarchy) :
    ∀ (fuel : Nat) (a c : Cell), isAncestor H fuel a c = some true → Anc H a c := by
  intro fuel
  induction fuel with
  | zero => intro a c h; simp [isAncestor] at h
  | succ fuel ih =>
    intro a c h
    rw [isAncestor] at h
    split_ifs at h with h1 h2
    · subst h1; exact Anc.refl
    · cases h
    · cases hp : (H c).parent with
      | none => rw [hp] at h; cases h
      | some p =>
        rw [hp] at h
        exact Anc.step hp (ih a p h)

theorem foldlM_option_inv {α β : Type} (f : β → α → Option β) (P : β → Prop) :
    ∀ (l : List α), (∀ b a b', a ∈ l → P b → f b a = some b' → P b') →
      ∀ init r, P init → l.foldlM f init = some r → P r := by
  intro l
  induction l with
  | nil =>
    intro _ init r hP h
    simp only [List.foldlM, Option.pure_def, Option.some.injEq] at h
    exact h ▸ hP
  | cons a l ih =>
    intro hstep init r hP h
    simp only [List.foldlM, Option.bind_eq_bind, Option.bind_eq_some] at h
    obtain ⟨b, h1, h2⟩ := h
    exact ih (fun b a b' ha => hstep b a b' (List.mem_cons_of_mem _ ha)) b r
      (hstep init a b (List.mem_cons_self _ _) hP h1) h2

/-- What `getFreeCellsAtLevel` adds to the two lists: cells of the sub-tree of `cell`
that are free or used at a priority below `priority`. -/
theorem getFreeCellsAtLevel_spec (H : Hierarchy) (level priority : Int) (allocated : CellList) :
    ∀ (fuel : Nat) (cell : Cell) (f pr : CellList) (r : CellList × CellList),
      getFreeCellsAtLevel H level priority allocated fuel cell f pr = some r →
      ∃ f' pr', r = (f ++ f', pr ++ pr') ∧
        ∀ x ∈ f' ++ pr', Desc H cell x ∧
          ((H x).priority = freePriority ∨ (H x).priority < priority) := by
  intro fuel
  induction fuel with
  | zero => intro c f pr r h; simp [getFreeCellsAtLevel] at h
  | succ fuel ih =>
    intro c f pr r h
    rw [getFreeCellsAtLevel] at h
    by_cases hlev : (H c).level > level
    · rw [if_pos hlev] at h
      have key := foldlM_option_inv
        (fun (acc : CellList × CellList) cc =>
          getFreeCellsAtLevel H level priority allocated fuel cc acc.1 acc.2)
        (fun acc => ∃ f' pr', acc = (f ++ f', pr ++ pr') ∧
          ∀ x ∈ f' ++ pr', Desc H c x ∧
            ((H x).priority = freePriority ∨ (H x).priority < priority))
        (H c).children
        (by
          intro b a b' ha hP hf
          obtain ⟨f1, pr1, e1, h1⟩ := hP
          obtain ⟨f2, pr2, e2, h2⟩ := ih a b.1 b.2 b' hf
          subst e1
          refine ⟨f1 ++ f2, pr1 ++ pr2, by rw [e2]; simp, ?_⟩
          intro x hx
          have hx' : x ∈ f1 ++ pr1 ∨ x ∈ f2 ++ pr2 := by
            simp only [List.mem_append] at hx ⊢; tauto
          rcases hx' with hx' | hx'
          · exact h1 x hx'
          · exact ⟨Desc.of_child ha (h2 x hx').1, (h2 x hx').2⟩)
        (f, pr) r ⟨[], [], by simp, by simp⟩ h
      exact key
    · rw [if_neg hlev] at h
      by_cases heq : (H c).level = level
      · rw [if_pos heq] at h
        cases ha : getFreeCellsAtLevel.isAllocated H (fuel + 1) c allocated with
        | none => rw [ha] at h; cases h
        | some b =>
          rw [ha] at h
          cases b with
          | true =>
            simp only [Option.some.injEq] at h
            exact ⟨[], [], by simp [← h], by simp⟩
          | false =>
            simp only at h
            split_ifs at h with h1 h2
            · cases h
              exact ⟨[c], [], by simp, by
                intro x hx; simp at hx; subst hx; exact ⟨Desc.refl, Or.inl h1⟩⟩
            · cases h
              exact ⟨[], [c], by simp, by
                intro x hx; simp at hx; subst hx; exact ⟨Desc.refl, Or.inr h2⟩⟩
            · cases h
              exact ⟨[], [], by simp, by simp⟩
      · rw [if_neg heq] at h
        cases h
        exact ⟨[], [], by simp, by simp⟩

/-- The cells that `findCellsForPod` returns are cells of the sub-tree of `within` that
are free or used at a priority below `priority`. -/
theorem skuScheduler.findCellsForPod_spec {H : Hierarchy} {s : skuScheduler} {fuel : Nat}
    {pod : PodGroupMemberSpec} {priority : Int} {within : skuCell} {allocated cells : CellList}
    (h : s.findCellsForPod H fuel pod priority within allocated = some (some cells)) :
    ∀ c ∈ cells, Desc H within.cell c ∧
      ((H c).priority = freePriority ∨ (H c).priority < priority) := by
  unfold skuScheduler.findCellsForPod at h
  simp only at h
  cases hg : getFreeCellsAtLevel H (s.cellLevels pod.CellType) priority allocated fuel
      within.cell [] [] with
  | none => rw [hg] at h; cases h
  | some r =>
    rw [hg] at h
    obtain ⟨f', pr', e, hc⟩ := getFreeCellsAtLevel_spec H _ _ _ _ _ _ _ r hg
    subst e
    simp only [List.nil_append] at h
    split_ifs at h with h1 h2
    · cases h
    cases hs : affinitySearch H fuel (f' ++ pr') pod.CellNumber.toNat
        (findCellsForPod.optimalAffinity s.levelLeafCellNum (s.cellLevels pod.CellType)
          pod.CellNumber) with
    | none => rw [hs] at h; cases h
    | some r =>
      rw [hs] at h
      simp only [Option.map_some', Option.some.injEq] at h
      obtain ⟨_, hcells, _⟩ := affinitySearch_post r hs
      intro c hcm
      rw [← h, hcells, nonNil_map_getElem?] at hcm
      exact hc c (mem_of_mem_cellsAt hcm)

theorem foldl_preserves {α β γ : Type} (g : β → γ) (f : β → α → β)
    (hf : ∀ b a, g (f b a) = g b) : ∀ (l : List α) (init : β), g (l.foldl f init) = g init := by
  intro l
  induction l with
  | nil => intro init; rfl
  | cons a l ih => intro init; rw [List.foldl_cons, ih, hf]

theorem skuScheduler.newSkuCell_cell {H : Hierarchy} {s : skuScheduler} {priority : Int}
    {c : Cell} {cell : skuCell} (h : s.newSkuCell H priority c = some cell) : cell.cell = c := by
  unfold skuScheduler.newSkuCell at h
  simp only at h
  have key := foldl_preserves (fun (x : skuCell) => x.cell)
    (fun (cell : skuCell) (e : Int × Int) =>
      let cell1 : skuCell :=
        if e.1 ≥ priority then
          { cell with freeLeafCellNumAtPriority := cell.freeLeafCellNumAtPriority - e.2 }
        else cell
      if s.crossPriorityPack then
        { cell1 with usedLeafCellNumAtPriority := cell1.usedLeafCellNumAtPriority + e.2 }
      else
        let cell2 : skuCell :=
          if e.1 = priority then
            { cell1 with usedLeafCellNumAtPriority := cell1.usedLeafCellNumAtPriority + e.2 }
          else cell1
        if e.1 > priority then
          { cell2 with usedLeafCellNumHigherPriority := cell2.usedLeafCellNumHigherPriority + e.2 }
        else cell2)
    (by intro b a; simp only; split_ifs <;> rfl)
    (H c).usedLeafCellNumAtPriorities
    { cell := c, freeLeafCellNumAtPriority := (H c).totalLeafCellNum,
      usedLeafCellNumAtPriority := 0, usedLeafCellNumHigherPriority := 0,
      healthy := true, address := "" }
  simp only at key
  split at h
  · simp only [Option.some.injEq] at h
    rw [← h]; exact key
  · split at h
    · simp only [Option.some.injEq] at h
      rw [← h]; exact key
    · cases h
  · simp only [Option.some.injEq] at h
    rw [← h]; exact key

/-- The entries of the view that `createSkuClusterView` builds: cells of the chain at a
level from `withinLevel` down to 1 for which `isAncestor(within.cell, c)` holds when
`within` is given. -/
theorem skuScheduler.createSkuClusterView_mem {H : Hierarchy} {s : skuScheduler} {fuel : Nat}
    {within : Option skuCell} {withinLevel priority : Int} {cv : skuClusterView}
    (h : s.createSkuClusterView H fuel within withinLevel priority = some cv) :
    ∀ w' ∈ cv, (∀ w, within = some w → isAncestor H fuel w.cell w'.cell = some true) ∧
      ∃ l ∈ levelsDownFrom withinLevel, w'.cell ∈ s.chainCellList.atLevel l := by
  unfold skuScheduler.createSkuClusterView at h
  simp only [Option.map_eq_some'] at h
  obtain ⟨cv0, h0, e⟩ := h
  intro w' hw'
  rw [← e] at hw'
  have hw0 : w' ∈ cv0 := (sortStable_perm _ _).mem_iff.mp hw'
  refine foldlM_option_inv _
    (fun (cv : skuClusterView) => ∀ w' ∈ cv,
      (∀ w, within = some w → isAncestor H fuel w.cell w'.cell = some true) ∧
      ∃ l ∈ levelsDownFrom withinLevel, w'.cell ∈ s.chainCellList.atLevel l)
    (levelsDownFrom withinLevel) ?_ [] cv0 (by simp) h0 w' hw0
  intro cv1 l cv2 hl hP hf
  refine foldlM_option_inv _
    (fun (cv : skuClusterView) => ∀ w' ∈ cv,
      (∀ w, within = some w → isAncestor H fuel w.cell w'.cell = some true) ∧
      ∃ l ∈ levelsDownFrom withinLevel, w'.cell ∈ s.chainCellList.atLevel l)
    (s.chainCellList.atLevel l) ?_ cv1 cv2 hP hf
  intro cv3 c cv4 hc hP3 hf3
  simp only at hf3
  split at hf3
  · cases hf3
  · simp only [Option.some.injEq] at hf3
    exact hf3 ▸ hP3
  · rename_i hanc
    split at hf3
    · cases hf3
    · split_ifs at hf3
      · simp only [Option.some.injEq] at hf3
        exact hf3 ▸ hP3
      · simp only [Option.map_eq_some'] at hf3
        obtain ⟨cell, hcell, e4⟩ := hf3
        have hcc := skuScheduler.newSkuCell_cell hcell
        intro w'' hw''
        rw [← e4, List.mem_append, List.mem_singleton] at hw''
        rcases hw'' with hw'' | rfl
        · exact hP3 w'' hw''
        · refine ⟨?_, l, hl, by rw [hcc]; exact hc⟩
          intro w hw
          subst hw
          simp only at hanc
          rw [hcc]
          exact hanc

/-- The cells that `findCellsForPods` places are picked inside `within`. -/
theorem skuScheduler.findCellsForPods_spec {H : Hierarchy} {s : skuScheduler} {fuel : Nat}
    {pods : List PodGroupMemberSpec} {q : Int} {within : skuCell}
    {allocated : Option PodGroupPlacement} {pl : List CellList} {fr : FailedReason}
    (h : s.findCellsForPods H fuel pods q within allocated = some (pl, fr)) :
    ∀ cells ∈ pl, ∀ c ∈ cells, SkuPicked H q within.cell c := by
  unfold skuScheduler.findCellsForPods at h
  cases hnl : s.getNodeLevel H s.chainCellList.length 1 with
  | none => rw [hnl] at h; cases h
  | some nodeLevel =>
    rw [hnl] at h
    simp only at h
    cases hcv : (if (H within.cell).level > nodeLevel then
        s.createSkuClusterView H fuel (some within) nodeLevel q
      else some [within]) with
    | none => rw [hcv] at h; cases h
    | some cv =>
      rw [hcv] at h
      simp only at h
      have hview : ∀ w' ∈ cv, Anc H within.cell w'.cell := by
        intro w' hw'
        split_ifs at hcv
        · exact isAncestor_anc H fuel _ _
            ((skuScheduler.createSkuClusterView_mem hcv w' hw').1 within rfl)
        · simp only [Option.some.injEq] at hcv
          rw [← hcv, List.mem_singleton] at hw'
          rw [hw']
          exact Anc.refl
      refine runLoop_post (skuScheduler.findCellsForPods.step H s fuel pods q cv)
        (fun st => ∀ cells ∈ st.placement, ∀ c ∈ cells, SkuPicked H q within.cell c)
        (fun r => ∀ cells ∈ r.1, ∀ c ∈ cells, SkuPicked H q within.cell c)
        ?_ ?_ _ _ (pl, fr) (by simp) h
      · intro st st' hinv hs
        unfold skuScheduler.findCellsForPods.step at hs
        split at hs
        · cases hs
        · split at hs
          · cases hs
          · rename_i withinCell hw
            split_ifs at hs
            · cases hs
            split at hs
            · cases hs
            · simp only [Option.some.injEq, Sum.inl.injEq] at hs
              subst hs
              exact hinv
            · rename_i podPlacement hpod
              simp only [Option.some.injEq, Sum.inl.injEq] at hs
              subst hs
              intro cells hcells c hc
              simp only [List.mem_append, List.mem_singleton] at hcells
              rcases hcells with hcells | rfl
              · exact hinv cells hcells c hc
              · have hmem : withinCell ∈ cv := by
                  obtain ⟨hlt, e'⟩ := List.getElem?_eq_some_iff.mp hw
                  exact e' ▸ List.getElem_mem _
                have := skuScheduler.findCellsForPod_spec hpod c hc
                exact ⟨⟨withinCell.cell, hview _ hmem, this.1⟩, this.2⟩
      · intro st r hinv hs
        unfold skuScheduler.findCellsForPods.step at hs
        split at hs
        · simp only [Option.some.injEq, Sum.inr.injEq] at hs
          subst hs
          exact hinv
        · split at hs
          · simp only [Option.some.injEq, Sum.inr.injEq] at hs
            subst hs
            simp
          · split_ifs at hs
            · simp only [Option.some.injEq, Sum.inr.injEq] at hs
              subst hs
              simp
            · split at hs <;> cases hs

theorem PodGroupPlacement.cellLists_mk (pods : List CellList) (groups : List PodGroupPlacement) :
    (PodGroupPlacement.mk pods groups).cellLists =
      pods ++ PodGroupPlacement.cellListsOfGroups groups := by
  rw [PodGroupPlacement.cellLists]

theorem PodGroupPlacement.cellListsOfGroups_append (a b : List PodGroupPlacement) :
    PodGroupPlacement.cellListsOfGroups (a ++ b) =
      PodGroupPlacement.cellListsOfGroups a ++ PodGroupPlacement.cellListsOfGroups b := by
  induction a with
  | nil => simp [PodGroupPlacement.cellListsOfGroups]
  | cons g rest ih =>
    rw [List.cons_append, PodGroupPlacement.cellListsOfGroups,
      PodGroupPlacement.cellListsOfGroups, ih, List.append_assoc]

theorem PodGroupPlacement.mem_cellLists_snoc {pods : List CellList}
    {groups : List PodGroupPlacement} {g : PodGroupPlacement} {cells : CellList}
    (h : cells ∈ (PodGroupPlacement.mk pods (groups ++ [g])).cellLists) :
    cells ∈ (PodGroupPlacement.mk pods groups).cellLists ∨ cells ∈ g.cellLists := by
  rw [PodGroupPlacement.cellLists_mk, PodGroupPlacement.cellListsOfGroups_append,
    PodGroupPlacement.cellListsOfGroups, PodGroupPlacement.cellListsOfGroups,
    List.append_nil, ← List.append_assoc, List.mem_append] at h
  rw [PodGroupPlacement.cellLists_mk]
  exact h

/-- The loop over the child groups keeps a property of the placed cells that the
recursive calls establish. -/
theorem skuScheduler.findCellsForPodGroup.children_spec
    {recur : PodGroupSpec → PodGroupPlacement → Option (PodGroupPlacement × FailedReason)}
    {Q : Cell → Prop}
    (hrec : ∀ g pl r, recur g pl = some r → ∀ cells ∈ r.1.cellLists, ∀ c ∈ cells, Q c) :
    ∀ (groups : List PodGroupSpec) (pl0 : PodGroupPlacement)
      (r : PodGroupPlacement × FailedReason),
      skuScheduler.findCellsForPodGroup.children recur groups pl0 = some r →
      (∀ cells ∈ pl0.cellLists, ∀ c ∈ cells, Q c) →
      ∀ cells ∈ r.1.cellLists, ∀ c ∈ cells, Q c := by
  intro groups
  induction groups with
  | nil =>
    intro pl0 r h h0
    simp only [skuScheduler.findCellsForPodGroup.children, Option.some.injEq] at h
    subst h
    exact h0
  | cons g rest ih =>
    intro pl0 r h h0
    rw [skuScheduler.findCellsForPodGroup.children] at h
    cases hr : recur g pl0 with
    | none => rw [hr] at h; cases h
    | some rc =>
      obtain ⟨childPl, childFr⟩ := rc
      rw [hr] at h
      simp only at h
      cases pl0 with
      | mk pods groups =>
        simp only [PodGroupPlacement.podsPlacement, PodGroupPlacement.childGroupsPlacement] at h
        split_ifs at h with hfail
        · simp only [Option.some.injEq] at h
          subst h
          intro cells hcells c hc
          rw [PodGroupPlacement.cellLists_mk, PodGroupPlacement.cellListsOfGroups,
            List.append_nil] at hcells
          exact h0 cells (by rw [PodGroupPlacement.cellLists_mk]; exact List.mem_append_left _ hcells) c hc
        · refine ih _ r h ?_
          intro cells hcells c hc
          rcases PodGroupPlacement.mem_cellLists_snoc hcells with h1 | h1
          · exact h0 cells h1 c hc
          · exact hrec g _ _ hr cells h1 c hc

/-- When the loop over the child groups fails, it returns no child placement. -/
theorem skuScheduler.findCellsForPodGroup.children_failed
    {recur : PodGroupSpec → PodGroupPlacement → Option (PodGroupPlacement × FailedReason)} :
    ∀ (groups : List PodGroupSpec) (pl0 : PodGroupPlacement)
      (r : PodGroupPlacement × FailedReason),
      skuScheduler.findCellsForPodGroup.children recur groups pl0 = some r →
      r.2 ≠ FailedReason.none → r.1.childGroupsPlacement = [] := by
  intro groups
  induction groups with
  | nil =>
    intro pl0 r h hne
    simp only [skuScheduler.findCellsForPodGroup.children, Option.some.injEq] at h
    subst h
    exact absurd rfl hne
  | cons g rest ih =>
    intro pl0 r h hne
    rw [skuScheduler.findCellsForPodGroup.children] at h
    cases hr : recur g pl0 with
    | none => rw [hr] at h; cases h
    | some rc =>
      obtain ⟨childPl, childFr⟩ := rc
      rw [hr] at h
      simp only at h
      split_ifs at h with hfail
      · simp only [Option.some.injEq] at h
        subst h
        rfl
      · exact ih _ r h hne

/-- The loop over the candidate cells keeps a property of the placed cells that
`findCellsForPods` and the recursive calls establish. -/
theorem skuScheduler.findCellsForPodGroup.candidates_spec {H : Hierarchy} {s : skuScheduler}
    {fuel : Nat} {podGroup : PodGroupSpec} {q : Int} {allocated : Option PodGroupPlacement}
    {recur : PodGroupSpec → skuCell → PodGroupPlacement →
      Option (PodGroupPlacement × FailedReason)}
    {Q : Cell → Prop} :
    ∀ (cv : List skuCell),
      (∀ w ∈ cv, ∀ r, s.findCellsForPods H fuel podGroup.Pods q w allocated = some r →
        ∀ cells ∈ r.1, ∀ c ∈ cells, Q c) →
      (∀ w ∈ cv, ∀ g pl r, recur g w pl = some r → ∀ cells ∈ r.1.cellLists, ∀ c ∈ cells, Q c) →
      ∀ (pl0 : PodGroupPlacement) (fr0 : FailedReason) (r : PodGroupPlacement × FailedReason),
      pl0.childGroupsPlacement = [] → (∀ cells ∈ pl0.cellLists, ∀ c ∈ cells, Q c) →
      skuScheduler.findCellsForPodGroup.candidates H s fuel podGroup q allocated recur cv
        pl0 fr0 = some r →
      ∀ cells ∈ r.1.cellLists, ∀ c ∈ cells, Q c := by
  intro cv
  induction cv with
  | nil =>
    intro _ _ pl0 fr0 r _ h0 h
    simp only [skuScheduler.findCellsForPodGroup.candidates, Option.some.injEq] at h
    subst h
    exact h0
  | cons w rest ih =>
    intro hpods hrec pl0 fr0 r hch h0 h
    have ih' := ih (fun w' hw' => hpods w' (List.mem_cons_of_mem _ hw'))
      (fun w' hw' => hrec w' (List.mem_cons_of_mem _ hw'))
    rw [skuScheduler.findCellsForPodGroup.candidates] at h
    split_ifs at h with hbad
    · simp only [Option.some.injEq] at h
      subst h
      intro cells hcells
      simp [PodGroupPlacement.cellLists_mk, PodGroupPlacement.cellListsOfGroups] at hcells
    · cases hp : s.findCellsForPods H fuel podGroup.Pods q w allocated with
      | none => rw [hp] at h; cases h
      | some rp =>
        obtain ⟨podsPlacement, failedReason⟩ := rp
        rw [hp] at h
        simp only [hch] at h
        have h1 : ∀ cells ∈ (PodGroupPlacement.mk podsPlacement []).cellLists,
            ∀ c ∈ cells, Q c := by
          intro cells hcells c hc
          rw [PodGroupPlacement.cellLists_mk, PodGroupPlacement.cellListsOfGroups,
            List.append_nil] at hcells
          exact hpods w (List.mem_cons_self _ _) _ hp cells hcells c hc
        split_ifs at h with hok
        · cases hc : skuScheduler.findCellsForPodGroup.children
              (fun childGroup placement => recur childGroup w placement)
              podGroup.ChildGroups (PodGroupPlacement.mk podsPlacement []) with
          | none => rw [hc] at h; cases h
          | some rc =>
            obtain ⟨placement2, failedReason2⟩ := rc
            rw [hc] at h
            simp only at h
            have h2 := skuScheduler.findCellsForPodGroup.children_spec
              (fun g pl r hr => hrec w (List.mem_cons_self _ _) g pl r hr) _ _ _ hc h1
            split_ifs at h with hok2
            · simp only [Option.some.injEq] at h
              subst h
              exact h2
            · exact ih' placement2 failedReason2 r
                (skuScheduler.findCellsForPodGroup.children_failed _ _ _ hc hok2) h2 h
        · exact ih' (PodGroupPlacement.mk podsPlacement []) failedReason r rfl h1 h

/-- When the loop over the candidate cells succeeds, the pods and the child groups were
placed in one candidate cell, or there was no candidate at all. -/
theorem skuScheduler.findCellsForPodGroup.candidates_success {H : Hierarchy}
    {s : skuScheduler} {fuel : Nat} {podGroup : PodGroupSpec} {q : Int}
    {allocated : Option PodGroupPlacement}
    {recur : PodGroupSpec → skuCell → PodGroupPlacement →
      Option (PodGroupPlacement × FailedReason)} :
    ∀ (cv : List skuCell) (pl0 : PodGroupPlacement) (fr0 : FailedReason)
      (pl : PodGroupPlacement),
      pl0.childGroupsPlacement = [] →
      skuScheduler.findCellsForPodGroup.candidates H s fuel podGroup q allocated recur cv
        pl0 fr0 = some (pl, FailedReason.none) →
      (cv = [] ∧ fr0 = FailedReason.none) ∨
        ∃ w ∈ cv, ∃ podsPlacement,
          s.findCellsForPods H fuel podGroup.Pods q w allocated =
            some (podsPlacement, FailedReason.none) ∧
          skuScheduler.findCellsForPodGroup.children
            (fun childGroup placement => recur childGroup w placement)
            podGroup.ChildGroups (PodGroupPlacement.mk podsPlacement []) =
              some (pl, FailedReason.none) := by
  intro cv
  induction cv with
  | nil =>
    intro pl0 fr0 pl _ h
    simp only [skuScheduler.findCellsForPodGroup.candidates, Option.some.injEq,
      Prod.mk.injEq] at h
    exact Or.inl ⟨rfl, h.2⟩
  | cons w rest ih =>
    intro pl0 fr0 pl hch h
    right
    rw [skuScheduler.findCellsForPodGroup.candidates] at h
    split_ifs at h with hbad
    · simp only [Option.some.injEq, Prod.mk.injEq, reduceCtorEq, and_false] at h
    · cases hp : s.findCellsForPods H fuel podGroup.Pods q w allocated with
      | none => rw [hp] at h; cases h
      | some rp =>
        obtain ⟨podsPlacement, failedReason⟩ := rp
        rw [hp] at h
        simp only [hch] at h
        split_ifs at h with hok
        · cases hc : skuScheduler.findCellsForPodGroup.children
              (fun childGroup placement => recur childGroup w placement)
              podGroup.ChildGroups (PodGroupPlacement.mk podsPlacement []) with
          | none => rw [hc] at h; cases h
          | some rc =>
            obtain ⟨placement2, failedReason2⟩ := rc
            rw [hc] at h
            simp only at h
            split_ifs at h with hok2
            · simp only [Option.some.injEq, Prod.mk.injEq, and_true] at h
              subst h
              subst hok
              subst hok2
              exact ⟨w, List.mem_cons_self _ _, podsPlacement, hp, hc⟩
            · rcases ih placement2 failedReason2 pl
                (skuScheduler.findCellsForPodGroup.children_failed _ _ _ hc hok2) h with
                ⟨_, hnone⟩ | ⟨w', hw', rest'⟩
              · exact absurd hnone hok2
              · exact ⟨w', List.mem_cons_of_mem _ hw', rest'⟩
        · rcases ih (PodGroupPlacement.mk podsPlacement []) failedReason pl rfl h with ⟨_, hnone⟩ | ⟨w', hw', rest'⟩
          · exact absurd hnone hok
          · exact ⟨w', List.mem_cons_of_mem _ hw', rest'⟩

theorem SkuPicked.lift {H : Hierarchy} {q : Int} {w0 w c : Cell} (hw : Anc H w0 w)
    (h : SkuPicked H q w c) : SkuPicked H q w0 c := by
  obtain ⟨⟨v, hv, hd⟩, hp⟩ := h
  exact ⟨⟨v, hw.trans hv, hd⟩, hp⟩

/-- The cells that `findCellsForPodGroup` places for a group and its descendant groups,
when it is called within a cell, are picked inside that cell. -/
theorem skuScheduler.findCellsForPodGroup_within (H : Hierarchy) (s : skuScheduler) :
    ∀ (fuel : Nat) (g : PodGroupSpec) (q : Int) (w0 : skuCell)
      (allocated : Option PodGroupPlacement) (r : PodGroupPlacement × FailedReason),
      s.findCellsForPodGroup H fuel g q (some w0) allocated = some r →
      ∀ cells ∈ r.1.cellLists, ∀ c ∈ cells, SkuPicked H q w0.cell c := by
  intro fuel
  induction fuel with
  | zero => intro g q w0 allocated r h; simp [skuScheduler.findCellsForPodGroup] at h
  | succ fuel ih =>
    intro g q w0 allocated r h
    rw [skuScheduler.findCellsForPodGroup] at h
    cases hcv : s.createSkuClusterView H fuel (some w0) (s.cellLevels g.WithinOneCell) q with
    | none => rw [hcv] at h; cases h
    | some cv =>
      rw [hcv] at h
      simp only at h
      have hview : ∀ w ∈ cv, Anc H w0.cell w.cell := fun w hw =>
        isAncestor_anc H fuel _ _ ((skuScheduler.createSkuClusterView_mem hcv w hw).1 w0 rfl)
      refine skuScheduler.findCellsForPodGroup.candidates_spec cv ?_ ?_
        (PodGroupPlacement.mk [] []) _ r rfl ?_ h
      · intro w hw rp hp cells hcells c hc
        obtain ⟨rpl, rfr⟩ := rp
        exact (skuScheduler.findCellsForPods_spec hp cells hcells c hc).lift (hview w hw)
      · intro w hw g' pl rp hp cells hcells c hc
        exact (ih g' q w (some pl) rp hp cells hcells c hc).lift (hview w hw)
      · intro cells hcells
        simp [PodGroupPlacement.cellLists_mk, PodGroupPlacement.cellListsOfGroups] at hcells

/-- The cells that `findCellsForPodGroup` places are free or used at a priority below
the priority of the search. -/
theorem skuScheduler.findCellsForPodGroup_priority (H : Hierarchy) (s : skuScheduler)
    (fuel : Nat) (g : PodGroupSpec) (q : Int) (within : Option skuCell)
    (allocated : Option PodGroupPlacement) (r : PodGroupPlacement × FailedReason)
    (h : s.findCellsForPodGroup H fuel g q within allocated = some r) :
    ∀ cells ∈ r.1.cellLists, ∀ c ∈ cells,
      (H c).priority = freePriority ∨ (H c).priority < q := by
  cases fuel with
  | zero => simp [skuScheduler.findCellsForPodGroup] at h
  | succ fuel =>
    rw [skuScheduler.findCellsForPodGroup] at h
    cases hcv : s.createSkuClusterView H fuel within (s.cellLevels g.WithinOneCell) q with
    | none => rw [hcv] at h; cases h
    | some cv =>
      rw [hcv] at h
      simp only at h
      refine skuScheduler.findCellsForPodGroup.candidates_spec cv ?_ ?_
        (PodGroupPlacement.mk [] []) _ r rfl ?_ h
      · intro w _ rp hp cells hcells c hc
        obtain ⟨rpl, rfr⟩ := rp
        exact (skuScheduler.findCellsForPods_spec hp cells hcells c hc).2
      · intro w _ g' pl rp hp cells hcells c hc
        exact (skuScheduler.findCellsForPodGroup_within H s fuel g' q w (some pl) rp hp
          cells hcells c hc).2
      · intro cells hcells
        simp [PodGroupPlacement.cellLists_mk, PodGroupPlacement.cellListsOfGroups] at hcells

/-- The cells of a successful pass of the topology-aware `Schedule` are free or used at
a priority below the priority of the pass. -/
theorem topologyAwareScheduler.passResult_priority {H : Hierarchy} {fuel : Nat}
    {t : topologyAwareScheduler} {q : Int} {suggestedNodes : List String}
    {ignoreSuggestedNodes : Bool} {leafCellNums : List Int}
    {pl : List (Int × List CellList)} {fr : FailedReason}
    (h : t.passResult H fuel q suggestedNodes ignoreSuggestedNodes leafCellNums =
      some (pl, fr)) :
    ∀ cells ∈ pl.flatMap Prod.snd, ∀ c ∈ cells,
      (H c).priority = freePriority ∨ (H c).priority < q := by
  unfold topologyAwareScheduler.passResult at h
  split at h
  · cases h
  · simp only [Option.some.injEq, Prod.mk.injEq] at h
    intro cells hcells
    rw [← h.1] at hcells
    cases hcells
  · split at h
    · cases h
    · simp only [Option.map_eq_some', Prod.mk.injEq] at h
      obtain ⟨pl', hplace, rfl, _⟩ := h
      obtain ⟨results, hall, _, hperm⟩ :=
        placePods_spec H fuel t.levelLeafCellNum q _ _ _ _ (fun n l hn => by cases hn) hplace
      intro cells hcells c hc
      rw [List.flatMap_nil, List.nil_append] at hperm
      obtain ⟨pod, _, hR⟩ := forall₂_exists_left hall cells (hperm.subset hcells)
      exact (hR.2.2 c hc).2.2

theorem exampleCluster_priority_free_or_used (c : Nat) :
    (exampleCluster exampleOneUsed c).priority = freePriority ∨
      opportunisticPriority ≤ (exampleCluster exampleOneUsed c).priority := by
  have key : ∀ (l : List Int) (init : Int),
      (init = freePriority ∨ opportunisticPriority ≤ init) →
      (∀ x ∈ l, x = freePriority ∨ opportunisticPriority ≤ x) →
      (l.foldl max init = freePriority ∨ opportunisticPriority ≤ l.foldl max init) := by
    intro l
    induction l with
    | nil => intro init h _; exact h
    | cons x xs ih =>
      intro init h hx
      rw [List.foldl_cons]
      refine ih _ ?_ (fun y hy => hx y (List.mem_cons_of_mem _ hy))
      rcases h with h | h
      · rcases hx x (List.mem_cons_self _ _) with h' | h'
        · left; rw [h, h']; exact max_self _
        · right; exact le_trans h' (le_max_right _ _)
      · right; exact le_trans h (le_max_left _ _)
  have hprio : ∀ l : Nat, exampleOneUsed l = freePriority ∨
      opportunisticPriority ≤ exampleOneUsed l := by
    intro l
    unfold exampleOneUsed
    split_ifs
    · right; decide
    · left; rfl
  have hall : ∀ (l : CellList), (l.map exampleOneUsed).foldl max freePriority = freePriority ∨
      opportunisticPriority ≤ (l.map exampleOneUsed).foldl max freePriority := by
    intro l
    refine key _ _ (Or.inl rfl) ?_
    intro x hx
    obtain ⟨y, _, rfl⟩ := List.mem_map.mp hx
    exact hprio y
  unfold exampleCluster
  split_ifs <;> exact hall _

/-- C6: for a request priority `p >= opportunisticPriority`, every cell of a successful
placement of the topology-aware `Schedule`, and every cell of the placement that the two
passes of the SKU `Schedule` return before the leaf expansion, is free or has a priority
strictly below `p`; and when `opportunisticPriority` is the lowest priority of a cell
that is not free, the cells that a pass at `opportunisticPriority` places, in either
scheduler, are all free. -/
theorem schedule_priority_safety (H : Hierarchy) (p : Int)
    (hp : opportunisticPriority ≤ p) :
    (∀ (fuel : Nat) (t : topologyAwareScheduler) (podLeafCellNumbers : List (Int × Int))
        (suggestedNodes : List String) (ignoreSuggestedNodes : Bool)
        (podPlacements : List (Int × List CellList)),
      t.Schedule H fuel podLeafCellNumbers p suggestedNodes ignoreSuggestedNodes =
          some (podPlacements, FailedReason.none) →
        ∀ cells ∈ podPlacements.flatMap Prod.snd, ∀ c ∈ cells,
          (H c).priority = freePriority ∨ (H c).priority < p) ∧
    (∀ (fuel : Nat) (s : skuScheduler) (podRootGroup : PodGroupSpec)
        (placement : PodGroupPlacement) (failedReason : FailedReason),
      skuScheduler.Schedule.passes H s fuel podRootGroup p =
          some (placement, failedReason) →
        ∀ cells ∈ placement.cellLists, ∀ c ∈ cells,
          (H c).priority = freePriority ∨ (H c).priority < p) ∧
    ((∀ c, (H c).priority = freePriority ∨ opportunisticPriority ≤ (H c).priority) →
      (∀ (fuel : Nat) (t : topologyAwareScheduler) (suggestedNodes : List String)
          (ignoreSuggestedNodes : Bool) (leafCellNums : List Int)
          (podPlacements : List (Int × List CellList)),
        t.passResult H fuel opportunisticPriority suggestedNodes ignoreSuggestedNodes
            leafCellNums = some (podPlacements, FailedReason.none) →
          ∀ cells ∈ podPlacements.flatMap Prod.snd, ∀ c ∈ cells,
            (H c).priority = freePriority) ∧
      (∀ (fuel : Nat) (s : skuScheduler) (podGroup : PodGroupSpec) (within : Option skuCell)
          (allocated : Option PodGroupPlacement) (placement : PodGroupPlacement)
          (failedReason : FailedReason),
        s.findCellsForPodGroup H fuel podGroup opportunisticPriority within allocated =
            some (placement, failedReason) →
          ∀ cells ∈ placement.cellLists, ∀ c ∈ cells, (H c).priority = freePriority)) := by
  refine ⟨?_, ?_, ?_⟩
  · intro fuel t plc sn ign pl h cells hcells c hc
    obtain ⟨q, selectedNodes, hq, _, _, hplace⟩ := topologyAwareScheduler.Schedule_success h
    obtain ⟨results, hall, _, hperm⟩ :=
      placePods_spec H fuel t.levelLeafCellNum q _ _ _ _ (fun n l hn => by cases hn) hplace
    rw [List.flatMap_nil, List.nil_append] at hperm
    obtain ⟨pod, _, hR⟩ := forall₂_exists_left hall cells (hperm.subset hcells)
    rcases (hR.2.2 c hc).2.2 with h1 | h1
    · exact Or.inl h1
    · right
      rcases hq with rfl | ⟨rfl, _⟩
      · omega
      · exact h1
  · intro fuel s g pl fr h cells hcells c hc
    unfold skuScheduler.Schedule.passes at h
    cases h1 : s.findCellsForPodGroup H fuel g opportunisticPriority none none with
    | none => rw [h1] at h; cases h
    | some r1 =>
      obtain ⟨pl1, fr1⟩ := r1
      rw [h1] at h
      simp only at h
      split_ifs at h
      · exact skuScheduler.findCellsForPodGroup_priority H s fuel g p none none _ h
          cells hcells c hc
      · simp only [Option.some.injEq, Prod.mk.injEq] at h
        obtain ⟨rfl, rfl⟩ := h
        rcases skuScheduler.findCellsForPodGroup_priority H s fuel g _ none none _ h1
          cells hcells c hc with h2 | h2
        · exact Or.inl h2
        · right; omega
  · intro hfree
    refine ⟨?_, ?_⟩
    · intro fuel t sn ign nums pl h cells hcells c hc
      rcases topologyAwareScheduler.passResult_priority h cells hcells c hc with h1 | h1
      · exact h1
      · rcases hfree c with h2 | h2
        · exact h2
        · omega
    · intro fuel s g within allocated pl fr h cells hcells c hc
      rcases skuScheduler.findCellsForPodGroup_priority H s fuel g _ within allocated _ h
        cells hcells c hc with h1 | h1
      · exact h1
      · rcases hfree c with h2 | h2
        · exact h2
        · omega

/-- C6, on the example cluster with leaf cell 1 used at priority 0: two pods of eight
leaf cells at priority 3 take the leaf cells of both nodes, leaf cell 1 among them; a pod
of two leaf cells placed by a pass at `opportunisticPriority` gets the free cells 2, 3. -/
theorem schedule_priority_safety_witness :
    opportunisticPriority ≤ 3 ∧
      (∀ cells ∈ ([(8, [[0, 2, 3, 4, 5, 6, 7, 1], [8, 9, 10, 11, 12, 13, 14, 15]])] :
          List (Int × List CellList)).flatMap Prod.snd, ∀ c ∈ cells,
        (exampleCluster exampleOneUsed c).priority = freePriority ∨
          (exampleCluster exampleOneUsed c).priority < 3) ∧
      (∀ cells ∈ ([(2, [[2, 3]])] : List (Int × List CellList)).flatMap Prod.snd,
        ∀ c ∈ cells, (exampleCluster exampleOneUsed c).priority = freePriority) :=
  have all := schedule_priority_safety (exampleCluster exampleOneUsed) 3 (by decide)
  ⟨by decide,
    all.1 100 exampleTopologyScheduler [(8, 2)] [] true
      [(8, [[0, 2, 3, 4, 5, 6, 7, 1], [8, 9, 10, 11, 12, 13, 14, 15]])] (by decide!),
    (all.2.2 exampleCluster_priority_free_or_used).1 100 exampleTopologyScheduler [] true [2]
      [(2, [[2, 3]])] (by decide!)⟩

theorem mem_levelsDownFrom {l L : Int} (h : l ∈ levelsDownFrom L) : 1 ≤ l ∧ l ≤ L := by
  unfold levelsDownFrom at h
  simp only [List.mem_map, List.mem_reverse, List.mem_range] at h
  obtain ⟨i, hi, rfl⟩ := h
  omega

theorem SkuPicked.to_anc {H : Hierarchy} (hco : ChildrenOk H) {q : Int} {w c : Cell}
    (h : SkuPicked H q w c) : Anc H w c := by
  obtain ⟨⟨v, hv, hd⟩, _⟩ := h
  exact hv.trans (hd.anc hco)

theorem exampleChain_level (prio : Nat → Int) (l : Int) (c : Nat)
    (h : c ∈ exampleChain.atLevel l) : (exampleCluster prio c).level = l := by
  unfold ChainCellList.atLevel at h
  split_ifs at h with h1
  · rw [exampleCluster_level]
    have hl : l = ((l - 1).toNat : Int) + 1 := by omega
    generalize (l - 1).toNat = n at h hl
    subst hl
    match n, h with
    | 0, h =>
      simp only [exampleChain, List.getD_cons_zero, List.mem_range] at h
      rw [if_pos h]; rfl
    | 1, h =>
      simp only [exampleChain, List.getD_cons_succ, List.getD_cons_zero,
        List.mem_range'_1] at h
      rw [if_neg (by omega), if_pos (by omega)]; rfl
    | 2, h =>
      simp only [exampleChain, List.getD_cons_succ, List.getD_cons_zero,
        List.mem_range'_1] at h
      rw [if_neg (by omega), if_neg (by omega), if_pos (by omega)]; rfl
    | 3, h =>
      simp only [exampleChain, List.getD_cons_succ, List.getD_cons_zero, List.mem_cons,
        List.mem_singleton, List.not_mem_nil, or_false] at h
      rw [if_neg (by omega), if_neg (by omega), if_neg (by omega), if_pos (by omega)]; rfl
    | n + 4, h =>
      simp [exampleChain] at h
  · cases h

/-- C10: when `findCellsForPodGroup` succeeds for a group on a view that is not empty,
in a hierarchy whose children point back to their parents and whose chain lists every
cell at its level, there is a cell `w` of the view, of level `<=` the level of the
group's `WithinOneCell`, such that every cell placed for the pods of the group and of
all its descendant groups is `w` or has `w` among its ancestors. -/
theorem skuScheduler_findCellsForPodGroup_within_one_cell (H : Hierarchy) (s : skuScheduler)
    (fuel : Nat) (podGroup : PodGroupSpec) (priority : Int) (within : Option skuCell)
    (allocated : Option PodGroupPlacement) (cv : skuClusterView)
    (placement : PodGroupPlacement)
    (hco : ChildrenOk H)
    (hchain : ∀ l c, c ∈ s.chainCellList.atLevel l → (H c).level = l)
    (hcv : s.createSkuClusterView H fuel within (s.cellLevels podGroup.WithinOneCell)
      priority = some cv)
    (hne : cv ≠ [])
    (h : s.findCellsForPodGroup H (fuel + 1) podGroup priority within allocated =
      some (placement, FailedReason.none)) :
    ∃ w ∈ cv, (H w.cell).level ≤ s.cellLevels podGroup.WithinOneCell ∧
      ∀ cells ∈ placement.cellLists, ∀ c ∈ cells, Anc H w.cell c := by
  rw [skuScheduler.findCellsForPodGroup, hcv] at h
  simp only at h
  rcases skuScheduler.findCellsForPodGroup.candidates_success cv (PodGroupPlacement.mk [] [])
    _ placement rfl h with ⟨he, _⟩ | ⟨w, hw, podsPlacement, hpods, hchildren⟩
  · exact absurd he hne
  · refine ⟨w, hw, ?_, ?_⟩
    · obtain ⟨l, hl, hmem⟩ := (skuScheduler.createSkuClusterView_mem hcv w hw).2
      rw [hchain l _ hmem]
      exact (mem_levelsDownFrom hl).2
    · intro cells hcells c hc
      refine SkuPicked.to_anc hco (q := priority) ?_
      refine skuScheduler.findCellsForPodGroup.children_spec
        (Q := fun c => SkuPicked H priority w.cell c) ?_ _ _ _ hchildren ?_ cells hcells c hc
      · intro g pl r hr
        exact skuScheduler.findCellsForPodGroup_within H s fuel g priority w (some pl) r hr
      · intro cells' hcells' c' hc'
        rw [PodGroupPlacement.cellLists_mk, PodGroupPlacement.cellListsOfGroups,
          List.append_nil] at hcells'
        exact skuScheduler.findCellsForPods_spec hpods cells' hcells' c' hc'

/-- C10, on the free example cluster: a group of one pod of one leaf cell within one
node, with a child group of one pod of one leaf cell within one socket, is placed in
node 29. -/
theorem skuScheduler_findCellsForPodGroup_within_one_cell_witness :
    ∃ w ∈ [skuCell.mk 29 8 0 0 true "", skuCell.mk 28 8 0 0 true ""],
      (exampleCluster exampleAllFree w.cell).level ≤ exampleSkuScheduler.cellLevels "node" ∧
      ∀ cells ∈ (PodGroupPlacement.mk [[8]] [PodGroupPlacement.mk [[14]] []]).cellLists,
        ∀ c ∈ cells, Anc (exampleCluster exampleAllFree) w.cell c :=
  skuScheduler_findCellsForPodGroup_within_one_cell (exampleCluster exampleAllFree)
    exampleSkuScheduler 19
    (PodGroupSpec.mk [⟨1, "leaf", 1⟩] [PodGroupSpec.mk [⟨1, "leaf", 1⟩] [] "socket"] "node")
    0 none none [skuCell.mk 29 8 0 0 true "", skuCell.mk 28 8 0 0 true ""]
    (PodGroupPlacement.mk [[8]] [PodGroupPlacement.mk [[14]] []])
    (exampleCluster_childrenOk _) (exampleChain_level _) (by decide!) (by decide) (by decide!)

theorem child_level {H : Hierarchy} (hl : LevelsByOne H) (hco : ChildrenOk H) {x c : Cell}
    (h : c ∈ (H x).children) : (H c).level = (H x).level - 1 := by
  have := hl _ _ (hco _ _ h)
  omega

theorem Desc.desc_level_le {H : Hierarchy} (hl : LevelsByOne H) (hco : ChildrenOk H) {a c : Cell}
    (h : Desc H a c) : (H c).level ≤ (H a).level :=
  (h.anc hco).level_le hl

theorem Desc.cases_top {H : Hierarchy} {a c : Cell} (h : Desc H a c) :
    a = c ∨ ∃ b ∈ (H a).children, Desc H b c := by
  induction h with
  | refl => exact Or.inl rfl
  | @step x c _ hc ih =>
    right
    rcases ih with rfl | ⟨b, hb, hd⟩
    · exact ⟨c, hc, Desc.refl⟩
    · exact ⟨b, hb, Desc.step hd hc⟩

/-- The leaf descendants of a cell are the cells of level 1 of its sub-tree. -/
theorem mem_leafDescendants {H : Hierarchy} (hl : LevelsByOne H) (hco : ChildrenOk H) :
    ∀ (d : Nat) (c x : Cell), (H c).level = d + 1 →
      (x ∈ leafDescendants H d c ↔ (H x).level = 1 ∧ Desc H c x) := by
  intro d
  induction d with
  | zero =>
    intro c x hc
    simp only [leafDescendants, List.mem_singleton]
    constructor
    · rintro rfl
      exact ⟨by simpa using hc, Desc.refl⟩
    · rintro ⟨hx, hd⟩
      rcases hd.cases_top with rfl | ⟨b, hb, hd'⟩
      · rfl
      · have h1 := child_level hl hco hb
        have h2 := hd'.desc_level_le hl hco
        omega
  | succ d ih =>
    intro c x hc
    rw [leafDescendants, if_pos (by omega), List.mem_flatMap]
    constructor
    · rintro ⟨b, hb, hx⟩
      have hlev : (H b).level = d + 1 := by
        have := child_level hl hco hb
        omega
      obtain ⟨h1, h2⟩ := (ih b x hlev).mp hx
      exact ⟨h1, Desc.of_child hb h2⟩
    · rintro ⟨hx, hd⟩
      rcases hd.cases_top with rfl | ⟨b, hb, hd'⟩
      · omega
      · have hlev : (H b).level = d + 1 := by
          have := child_level hl hco hb
          omega
        exact ⟨b, hb, (ih b x hlev).mpr ⟨hx, hd'⟩⟩

/-- The loop of `Schedule` that replaces cells by their children stops at the leaf
descendants of the cells, when these are on one level. -/
theorem skuScheduler.Schedule.expand_eq {H : Hierarchy} (hl : LevelsByOne H)
    (hco : ChildrenOk H) (hne : ChildrenNonempty H) :
    ∀ (d fuel : Nat) (cells : CellList), d < fuel → cells ≠ [] →
      (∀ c ∈ cells, (H c).level = d + 1) →
      skuScheduler.Schedule.expand H fuel cells =
        some (cells.flatMap (leafDescendants H d)) := by
  intro d
  induction d with
  | zero =>
    intro fuel cells hf hcells hlev
    obtain ⟨f, rfl⟩ : ∃ f, fuel = f + 1 := ⟨fuel - 1, by omega⟩
    obtain ⟨c, rest, rfl⟩ := List.exists_cons_of_ne_nil hcells
    rw [skuScheduler.Schedule.expand]
    simp only [List.head?_cons]
    rw [if_neg (by rw [hlev c (List.mem_cons_self _ _)]; omega)]
    have key : ∀ l : CellList, l.flatMap (leafDescendants H 0) = l := by
      intro l
      induction l with
      | nil => rfl
      | cons a l ih => rw [List.flatMap_cons, ih]; rfl
    rw [key]
  | succ d ih =>
    intro fuel cells hf hcells hlev
    obtain ⟨f, rfl⟩ : ∃ f, fuel = f + 1 := ⟨fuel - 1, by omega⟩
    obtain ⟨c, rest, rfl⟩ := List.exists_cons_of_ne_nil hcells
    rw [skuScheduler.Schedule.expand]
    simp only [List.head?_cons]
    rw [if_pos (by rw [hlev c (List.mem_cons_self _ _)]; omega)]
    rw [ih f _ (by omega) ?_ ?_]
    · congr 1
      rw [List.flatMap_assoc]
      apply List.flatMap_congr
      intro x hx
      rw [leafDescendants, if_pos (by rw [hlev x hx]; omega)]
    · rw [List.flatMap_cons]
      intro he
      have := hne c (by rw [hlev c (List.mem_cons_self _ _)]; omega)
      exact this (List.append_eq_nil.mp he).1
    · intro x hx
      obtain ⟨b, hb, hx'⟩ := List.mem_flatMap.mp hx
      have := child_level hl hco hx'
      rw [this, hlev b hb]
      omega

/-- The leaf cells that `Schedule` puts in the place of a cell list. -/
theorem skuScheduler.Schedule.leafCells_eq {H : Hierarchy} (hl : LevelsByOne H)
    (hco : ChildrenOk H) (hne : ChildrenNonempty H) (hlow : ∀ c, lowestLevel ≤ (H c).level)
    (fuel : Nat) :
    ∀ (cells : CellList), (∀ c ∈ cells, (H c).level ≤ fuel) →
      skuScheduler.Schedule.leafCells H fuel cells = some (cells.flatMap (leavesOf H)) := by
  intro cells
  induction cells with
  | nil => intro _; rfl
  | cons c rest ih =>
    intro hf
    have h1 := hlow c
    unfold lowestLevel at h1
    have h2 := hf c (List.mem_cons_self _ _)
    rw [skuScheduler.Schedule.leafCells,
      skuScheduler.Schedule.expand_eq hl hco hne ((H c).level - 1).toNat fuel [c] (by omega)
        (by simp) (by intro x hx; simp at hx; subst hx; omega),
      ih (fun x hx => hf x (List.mem_cons_of_mem _ hx))]
    simp [leavesOf]

mutual
theorem PodGroupPlacement.mapCellLists_congr {f g : CellList → CellList} :
    ∀ (pl : PodGroupPlacement), (∀ cells ∈ pl.cellLists, f cells = g cells) →
      pl.mapCellLists f = pl.mapCellLists g
  | PodGroupPlacement.mk pods groups, h => by
    rw [PodGroupPlacement.mapCellLists, PodGroupPlacement.mapCellLists]
    congr 1
    · apply List.map_congr_left
      intro cells hc
      exact h cells (by rw [PodGroupPlacement.cellLists_mk]; exact List.mem_append_left _ hc)
    · exact PodGroupPlacement.mapCellListsOfGroups_congr groups (fun cells hc =>
        h cells (by rw [PodGroupPlacement.cellLists_mk]; exact List.mem_append_right _ hc))
theorem PodGroupPlacement.mapCellListsOfGroups_congr {f g : CellList → CellList} :
    ∀ (gs : List PodGroupPlacement),
      (∀ cells ∈ PodGroupPlacement.cellListsOfGroups gs, f cells = g cells) →
      PodGroupPlacement.mapCellListsOfGroups f gs = PodGroupPlacement.mapCellListsOfGroups g gs
  | [], _ => rfl
  | x :: rest, h => by
    rw [PodGroupPlacement.mapCellListsOfGroups, PodGroupPlacement.mapCellListsOfGroups,
      PodGroupPlacement.mapCellLists_congr x (fun cells hc =>
        h cells (by rw [PodGroupPlacement.cellListsOfGroups]; exact List.mem_append_left _ hc)),
      PodGroupPlacement.mapCellListsOfGroups_congr rest (fun cells hc =>
        h cells (by rw [PodGroupPlacement.cellListsOfGroups]; exact List.mem_append_right _ hc))]
end

mutual
theorem PodGroupPlacement.cellLists_mapCellLists (f : CellList → CellList) :
    ∀ (pl : PodGroupPlacement), (pl.mapCellLists f).cellLists = pl.cellLists.map f
  | PodGroupPlacement.mk pods groups => by
    rw [PodGroupPlacement.mapCellLists, PodGroupPlacement.cellLists_mk,
      PodGroupPlacement.cellLists_mk, List.map_append,
      PodGroupPlacement.cellListsOfGroups_mapCellLists f groups]
theorem PodGroupPlacement.cellListsOfGroups_mapCellLists (f : CellList → CellList) :
    ∀ (gs : List PodGroupPlacement),
      PodGroupPlacement.cellListsOfGroups (PodGroupPlacement.mapCellListsOfGroups f gs) =
        (PodGroupPlacement.cellListsOfGroups gs).map f
  | [] => rfl
  | x :: rest => by
    rw [PodGroupPlacement.mapCellListsOfGroups, PodGroupPlacement.cellListsOfGroups,
      PodGroupPlacement.cellListsOfGroups, List.map_append,
      PodGroupPlacement.cellLists_mapCellLists f x,
      PodGroupPlacement.cellListsOfGroups_mapCellLists f rest]
end

theorem exampleCluster_childrenNonempty (prio : Nat → Int) :
    ChildrenNonempty (exampleCluster prio) := by
  intro x hx
  rw [exampleCluster_level] at hx
  rw [exampleCluster_children]
  split_ifs at hx ⊢ <;> first | omega | simp

/-- C9: in a hierarchy whose children point back to their parents, one level above
them, where every cell above level 1 has a child and no cell is below `lowestLevel`,
when the two passes of `Schedule` succeed with a placement whose cells are at levels up
to the fuel, `Schedule` returns that placement with every cell list replaced by the
concatenation, in the order of the cells picked, of the leaf descendants of each cell;
the leaf descendants of a cell are exactly the cells of level 1 of its sub-tree, so
every cell of the placement returned has level 1. -/
theorem skuScheduler_Schedule_leaf_cells (H : Hierarchy) (s : skuScheduler) (fuel : Nat)
    (podRootGroup : PodGroupSpec) (p : Int) (placement : PodGroupPlacement)
    (hl : LevelsByOne H) (hco : ChildrenOk H) (hne : ChildrenNonempty H)
    (hlow : ∀ c, lowestLevel ≤ (H c).level)
    (hpass : skuScheduler.Schedule.passes H s fuel (s.sortPodGroup podRootGroup) p =
      some (placement, FailedReason.none))
    (hfuel : ∀ cells ∈ placement.cellLists, ∀ c ∈ cells, (H c).level ≤ fuel) :
    s.Schedule H fuel podRootGroup p =
        some (placement.mapCellLists (fun cells => cells.flatMap (leavesOf H)),
          FailedReason.none) ∧
      (∀ c x, x ∈ leavesOf H c ↔ (H x).level = 1 ∧ Desc H c x) ∧
      ∀ cells ∈ (placement.mapCellLists (fun cells => cells.flatMap (leavesOf H))).cellLists,
        ∀ x ∈ cells, (H x).level = 1 := by
  have hmem : ∀ c x, x ∈ leavesOf H c ↔ (H x).level = 1 ∧ Desc H c x := by
    intro c x
    have h1 := hlow c
    unfold lowestLevel at h1
    exact mem_leafDescendants hl hco _ c x (by omega)
  refine ⟨?_, hmem, ?_⟩
  · unfold skuScheduler.Schedule
    rw [hpass]
    simp only [skuScheduler.Schedule.convert, if_true]
    have hall : (placement.cellLists.all
        (fun cells => (skuScheduler.Schedule.leafCells H fuel cells).isSome)) = true := by
      rw [List.all_eq_true]
      intro cells hc
      rw [skuScheduler.Schedule.leafCells_eq hl hco hne hlow fuel cells (hfuel cells hc)]
      rfl
    rw [if_pos hall]
    congr 2
    apply PodGroupPlacement.mapCellLists_congr
    intro cells hc
    rw [skuScheduler.Schedule.leafCells_eq hl hco hne hlow fuel cells (hfuel cells hc)]
    rfl
  · intro cells hc x hx
    rw [PodGroupPlacement.cellLists_mapCellLists, List.mem_map] at hc
    obtain ⟨picked, _, rfl⟩ := hc
    obtain ⟨c, _, hxc⟩ := List.mem_flatMap.mp hx
    exact ((hmem c x).mp hxc).1

/-- C9, on the free example cluster: a pod of two sockets and, in a child group, a pod
of one half node; the sockets 20, 21 and the half node 27 are replaced by their leaf
cells. -/
theorem skuScheduler_Schedule_leaf_cells_witness :
    exampleSkuScheduler.Schedule (exampleCluster exampleAllFree) 20
        (PodGroupSpec.mk [⟨1, "socket", 2⟩] [PodGroupSpec.mk [⟨1, "half", 1⟩] [] "node"]
          "node") 0 =
        some ((PodGroupPlacement.mk [[20, 21]] [PodGroupPlacement.mk [[27]] []]).mapCellLists
          (fun cells => cells.flatMap (leavesOf (exampleCluster exampleAllFree))),
          FailedReason.none) ∧
      (∀ c x, x ∈ leavesOf (exampleCluster exampleAllFree) c ↔
        (exampleCluster exampleAllFree x).level = 1 ∧
          Desc (exampleCluster exampleAllFree) c x) ∧
      ∀ cells ∈ ((PodGroupPlacement.mk [[20, 21]] [PodGroupPlacement.mk [[27]] []]).mapCellLists
          (fun cells => cells.flatMap (leavesOf (exampleCluster exampleAllFree)))).cellLists,
        ∀ x ∈ cells, (exampleCluster exampleAllFree x).level = 1 :=
  skuScheduler_Schedule_leaf_cells (exampleCluster exampleAllFree) exampleSkuScheduler 20
    (PodGroupSpec.mk [⟨1, "socket", 2⟩] [PodGroupSpec.mk [⟨1, "half", 1⟩] [] "node"] "node")
    0 (PodGroupPlacement.mk [[20, 21]] [PodGroupPlacement.mk [[27]] []])
    (exampleCluster_levelsByOne _) (exampleCluster_childrenOk _)
    (exampleCluster_childrenNonempty _) (exampleCluster_level_pos _) (by decide!)
    (by decide!)

theorem usedAt_eq_usedSum {used : List (Int × Int)} (hk : (used.map Prod.fst).Nodup) (p : Int) :
    usedAt used p = usedSum used (fun q => decide (q = p)) := by
  unfold usedAt usedSum
  induction used with
  | nil => rfl
  | cons e rest ih =>
    rw [List.map_cons, List.nodup_cons] at hk
    obtain ⟨a, b⟩ := e
    by_cases h : a = p
    · subst h
      have hz : rest.filter (fun e => decide (e.1 = a)) = [] := by
        rw [List.filter_eq_nil_iff]
        intro x hx hxa
        exact hk.1 (List.mem_map.mpr ⟨x, hx, by simpa using hxa⟩)
      simp [List.lookup, List.filter_cons, hz]
    · have hb : (p == a) = false := by simpa using fun e : p = a => h e.symm
      simp only [List.lookup, hb, List.filter_cons, h, decide_False]
      exact ih hk.2

theorem usedSum_split (used : List (Int × Int)) (p : Int) :
    usedSum used (fun _ => true) =
      usedSum used (fun q => decide (q = p)) + usedSum used (fun q => decide (q ≠ p)) := by
  unfold usedSum
  induction used with
  | nil => rfl
  | cons e rest ih =>
    by_cases h : e.1 = p
    · simp only [List.filter_cons, h, decide_True, if_true, List.map_cons, List.sum_cons,
        ne_eq, not_true_eq_false, decide_False] at ih ⊢
      simp only [Bool.false_eq_true, if_false]
      rw [ih]; ring
    · simp only [List.filter_cons, h, decide_True, if_true, List.map_cons, List.sum_cons,
        ne_eq, not_false_eq_true, decide_False] at ih ⊢
      simp only [Bool.false_eq_true, if_false]
      rw [ih]; ring

theorem foldl_counters (f : node → Int × Int → node) (gs gh gf : Int × Int → Int)
    (hs : ∀ acc e, (f acc e).usedLeafCellNumSamePriority = acc.usedLeafCellNumSamePriority + gs e)
    (hh : ∀ acc e,
      (f acc e).usedLeafCellNumHigherPriority = acc.usedLeafCellNumHigherPriority + gh e)
    (hf : ∀ acc e, (f acc e).freeLeafCellNumAtPriority = acc.freeLeafCellNumAtPriority - gf e) :
    ∀ (l : List (Int × Int)) (start : node),
      (l.foldl f start).usedLeafCellNumSamePriority =
          start.usedLeafCellNumSamePriority + (l.map gs).sum ∧
        (l.foldl f start).usedLeafCellNumHigherPriority =
          start.usedLeafCellNumHigherPriority + (l.map gh).sum ∧
        (l.foldl f start).freeLeafCellNumAtPriority =
          start.freeLeafCellNumAtPriority - (l.map gf).sum := by
  intro l
  induction l with
  | nil => intro start; simp
  | cons e rest ih =>
    intro start
    obtain ⟨h1, h2, h3⟩ := ih (f start e)
    rw [List.foldl_cons, h1, h2, h3, hs, hh, hf]
    simp only [List.map_cons, List.sum_cons]
    refine ⟨by ring, by ring, by ring⟩

theorem sum_map_ite_eq_usedSum (used : List (Int × Int)) (P : Int → Bool) :
    (used.map (fun e => if P e.1 = true then e.2 else 0)).sum = usedSum used P := by
  unfold usedSum
  induction used with
  | nil => rfl
  | cons e rest ih =>
    by_cases h : P e.1 = true
    · simp only [List.map_cons, List.sum_cons, h, if_true, List.filter_cons, ih]
    · have h' : P e.1 = false := by simpa using h
      simp [List.filter_cons, h', ih]

theorem sum_map_zero (used : List (Int × Int)) :
    (used.map (fun _ => (0 : Int))).sum = 0 := by
  induction used with
  | nil => rfl
  | cons e rest ih => simp [ih]

theorem node.updateUsedLeafCellNumForPriority_fold (H : Hierarchy) (n : node) (p : Int)
    (cpp : Bool) :
    (n.updateUsedLeafCellNumForPriority H p cpp).usedLeafCellNumSamePriority =
        usedAt (H n.c).usedLeafCellNumAtPriorities p +
          ((H n.c).usedLeafCellNumAtPriorities.map
            (fun e => if (cpp && decide (e.1 ≠ p)) = true then e.2 else 0)).sum ∧
      (n.updateUsedLeafCellNumForPriority H p cpp).usedLeafCellNumHigherPriority =
        0 + ((H n.c).usedLeafCellNumAtPriorities.map
            (fun e => if (!cpp && decide (e.1 > p)) = true then e.2 else 0)).sum ∧
      (n.updateUsedLeafCellNumForPriority H p cpp).freeLeafCellNumAtPriority =
        (H n.c).totalLeafCellNum -
          ((H n.c).usedLeafCellNumAtPriorities.map
            (fun e => if decide (e.1 ≥ p) = true then e.2 else 0)).sum := by
  unfold node.updateUsedLeafCellNumForPriority
  refine foldl_counters _ _ _ _ ?_ ?_ ?_ _ _
  all_goals
    intro acc e
    cases cpp <;> by_cases h1 : e.1 = p <;> by_cases h2 : e.1 ≥ p <;>
      by_cases h3 : e.1 > p <;> first | omega | simp [h1, h2, h3]

/-- C16: for a node whose usage map has no priority twice, a priority `p` and either
value of the flag, `updateUsedLeafCellNumForPriority` leaves: with `crossPriorityPack`,
`usedLeafCellNumSamePriority` the sum of `used[q]` over all `q` and
`usedLeafCellNumHigherPriority` zero; without it, `usedLeafCellNumSamePriority` the entry
`used[p]` and `usedLeafCellNumHigherPriority` the sum of `used[q]` over `q > p`; and in
both modes `freeLeafCellNumAtPriority` the total leaf cell number minus the sum of
`used[q]` over `q >= p`. -/
theorem node_updateUsedLeafCellNumForPriority_counts (H : Hierarchy) (n : node) (p : Int)
    (crossPriorityPack : Bool)
    (hkeys : ((H n.c).usedLeafCellNumAtPriorities.map Prod.fst).Nodup) :
    (crossPriorityPack = true →
      (n.updateUsedLeafCellNumForPriority H p crossPriorityPack).usedLeafCellNumSamePriority =
          usedSum (H n.c).usedLeafCellNumAtPriorities (fun _ => true) ∧
        (n.updateUsedLeafCellNumForPriority H p crossPriorityPack).usedLeafCellNumHigherPriority
          = 0) ∧
    (crossPriorityPack = false →
      (n.updateUsedLeafCellNumForPriority H p crossPriorityPack).usedLeafCellNumSamePriority =
          usedAt (H n.c).usedLeafCellNumAtPriorities p ∧
        (n.updateUsedLeafCellNumForPriority H p crossPriorityPack).usedLeafCellNumHigherPriority
          = usedSum (H n.c).usedLeafCellNumAtPriorities (fun q => decide (q > p))) ∧
    (n.updateUsedLeafCellNumForPriority H p crossPriorityPack).freeLeafCellNumAtPriority =
      (H n.c).totalLeafCellNum -
        usedSum (H n.c).usedLeafCellNumAtPriorities (fun q => decide (q ≥ p)) := by
  obtain ⟨h1, h2, h3⟩ := node.updateUsedLeafCellNumForPriority_fold H n p crossPriorityPack
  rw [sum_map_ite_eq_usedSum _ (fun q => crossPriorityPack && decide (q ≠ p))] at h1
  rw [sum_map_ite_eq_usedSum _ (fun q => !crossPriorityPack && decide (q > p))] at h2
  rw [sum_map_ite_eq_usedSum _ (fun q => decide (q ≥ p))] at h3
  refine ⟨?_, ?_, ?_⟩
  · intro hc
    subst hc
    simp only [Bool.true_and, Bool.not_true, Bool.false_and] at h1 h2
    rw [h1, h2, usedAt_eq_usedSum hkeys, usedSum_split _ p]
    exact ⟨rfl, by simp [usedSum]⟩
  · intro hc
    subst hc
    simp only [Bool.false_and, Bool.not_false, Bool.true_and] at h1 h2
    rw [h1, h2]
    exact ⟨by simp [usedSum], by simp⟩
  · rw [h3]

/-- C16, on node 28 of the example cluster with leaf cell 1 used at priority 0, at
priority 0 with cross-priority packing. -/
theorem node_updateUsedLeafCellNumForPriority_counts_witness :
    ((node.ofCell 28).updateUsedLeafCellNumForPriority (exampleCluster exampleOneUsed) 0
        true).freeLeafCellNumAtPriority =
      (exampleCluster exampleOneUsed 28).totalLeafCellNum -
        usedSum (exampleCluster exampleOneUsed 28).usedLeafCellNumAtPriorities
          (fun q => decide (q ≥ 0)) :=
  (node_updateUsedLeafCellNumForPriority_counts (exampleCluster exampleOneUsed)
    (node.ofCell 28) 0 true (by decide!)).2.2

theorem clusterView.Less_iff_nodeFavoured (a b : node) :
    clusterView.Less a b = true ↔ nodeFavoured a b := by
  unfold clusterView.Less nodeFavoured
  cases ha : a.healthy <;> cases hb : b.healthy <;> cases hsa : a.suggested <;>
    cases hsb : b.suggested <;> simp <;> omega

/-- C17: `clusterView.Less` holds exactly when the first key, in the order health,
suggestion, `usedLeafCellNumSamePriority` (larger first), `usedLeafCellNumHigherPriority`
(smaller first), on which the two nodes differ favours the first node; it is
irreflexive, asymmetric and transitive, and it is false for two nodes that are equal on
the four keys. -/
theorem clusterView_Less_strict_order (a b c : node) :
    (clusterView.Less a b = true ↔ nodeFavoured a b) ∧
      clusterView.Less a a = false ∧
      (clusterView.Less a b = true → clusterView.Less b a = false) ∧
      (clusterView.Less a b = true → clusterView.Less b c = true →
        clusterView.Less a c = true) ∧
      (a.healthy = b.healthy → a.suggested = b.suggested →
        a.usedLeafCellNumSamePriority = b.usedLeafCellNumSamePriority →
        a.usedLeafCellNumHigherPriority = b.usedLeafCellNumHigherPriority →
        clusterView.Less a b = false) := by
  refine ⟨clusterView.Less_iff_nodeFavoured a b, ?_, ?_, ?_, ?_⟩
  · rw [← Bool.not_eq_true, clusterView.Less_iff_nodeFavoured]
    unfold nodeFavoured
    cases a.healthy <;> cases a.suggested <;> simp
  · intro h
    rw [← Bool.not_eq_true, clusterView.Less_iff_nodeFavoured]
    rw [clusterView.Less_iff_nodeFavoured] at h
    unfold nodeFavoured at h ⊢
    cases ha : a.healthy <;> cases hb : b.healthy <;> cases hsa : a.suggested <;>
      cases hsb : b.suggested <;> simp [ha, hb, hsa, hsb] at h ⊢ <;> omega
  · intro h1 h2
    rw [clusterView.Less_iff_nodeFavoured] at h1 h2 ⊢
    unfold nodeFavoured at h1 h2 ⊢
    cases ha : a.healthy <;> cases hb : b.healthy <;> cases hc : c.healthy <;>
      cases hsa : a.suggested <;> cases hsb : b.suggested <;> cases hsc : c.suggested <;>
      simp [ha, hb, hc, hsa, hsb, hsc] at h1 h2 ⊢ <;> omega
  · intro h1 h2 h3 h4
    rw [← Bool.not_eq_true, clusterView.Less_iff_nodeFavoured]
    unfold nodeFavoured
    rw [h1, h2, h3, h4]
    cases b.healthy <;> cases b.suggested <;> simp

theorem skuClusterView.Less_iff_skuFavoured (H : Hierarchy) (a b : skuCell) (hd : skuKeysDiffer H a b) :
    skuClusterView.Less H a b = true ↔ skuFavoured H a b := by
  unfold skuClusterView.Less skuFavoured
  unfold skuKeysDiffer at hd
  cases ha : a.healthy <;> cases hb : b.healthy <;> simp [ha, hb] at hd ⊢ <;>
    split_ifs <;> simp_all

/-- C18: for two entries of a SKU view that differ on at least one key,
`skuClusterView.Less` holds exactly when the first key on which they differ, in the
order health (healthy first), cell level (lower first), `usedLeafCellNumAtPriority`
(higher first), `usedLeafCellNumHigherPriority` (lower first), favours the first
entry. -/
theorem skuClusterView_Less_first_differing_key (H : Hierarchy) (a b : skuCell)
    (hd : skuKeysDiffer H a b) :
    skuClusterView.Less H a b = true ↔ skuFavoured H a b :=
  skuClusterView.Less_iff_skuFavoured H a b hd

/-- C18, on the example cluster: the socket 16 with two leaf cells in use against the
free socket 17. -/
theorem skuClusterView_Less_first_differing_key_witness :
    skuClusterView.Less (exampleCluster exampleAllFree) (skuCell.mk 16 0 2 0 true "")
        (skuCell.mk 17 2 0 0 true "") = true ↔
      skuFavoured (exampleCluster exampleAllFree) (skuCell.mk 16 0 2 0 true "")
        (skuCell.mk 17 2 0 0 true "") :=
  skuClusterView_Less_first_differing_key (exampleCluster exampleAllFree)
    (skuCell.mk 16 0 2 0 true "") (skuCell.mk 17 2 0 0 true "")
    (Or.inr (Or.inr (Or.inl (by decide))))

theorem sortStable_pair {α : Type} (less : α → α → Bool) (x y : α) :
    sortStable less [x, y] = if less y x = true then [y, x] else [x, y] := by
  unfold sortStable
  by_cases h : less y x = true <;> simp [List.foldl, insertFromRight, h]

/-- C11 (code defect): on the free example cluster, whose chain lists the free healthy
leaf cell 0 at level 1, the level of the empty `WithinOneCell` is 0, the view of a group
with one pod of one leaf cell and an empty `WithinOneCell` is empty, and
`findCellsForPodGroup` returns the empty failure reason with a placement that holds no
cell list for the pod. -/
theorem skuScheduler_findCellsForPodGroup_empty_withinOneCell :
    (0 ∈ exampleSkuScheduler.chainCellList.atLevel 1 ∧
      (exampleCluster exampleAllFree 0).priority = freePriority ∧
      (exampleCluster exampleAllFree 0).kind = CellKind.physical true []) ∧
    exampleSkuScheduler.cellLevels "" = 0 ∧
    exampleSkuScheduler.createSkuClusterView (exampleCluster exampleAllFree) 19 none
      (exampleSkuScheduler.cellLevels "") 0 = some [] ∧
    exampleSkuScheduler.findCellsForPodGroup (exampleCluster exampleAllFree) 20
      (PodGroupSpec.mk [⟨1, "leaf", 1⟩] [] "") 0 none none =
        some (PodGroupPlacement.mk [] [], FailedReason.none) := by
  decide!

/-- C12 (code defect): on the free example cluster, a group with one pod of one leaf
cell and a child group whose pod asks for nine leaf cells within one node: the child
group fails in every node, and `Schedule` returns the failure reason "insufficient
capacity" together with a placement that still holds the cell list of the pod of the
root group. -/
theorem skuScheduler_Schedule_partial_placement_on_failure :
    exampleSkuScheduler.Schedule (exampleCluster exampleAllFree) 20
        (PodGroupSpec.mk [⟨1, "leaf", 1⟩] [PodGroupSpec.mk [⟨1, "leaf", 9⟩] [] "node"]
          "node") 0 =
      some (PodGroupPlacement.mk [[0]] [], FailedReason.insufficientCapacity) := by
  decide!

/-- C15 (code defect): on the example cluster with five leaf cells of node 28 and four
of node 29 in use at priority 0, with cross-priority packing and both nodes healthy and
suggested, two pods of two leaf cells and one pod of three: the sorted view has node 28
(three free leaf cells) before node 29 (four free leaf cells), the assignment of the two
small pods to node 29 and of the large one to node 28 fits, and yet `findNodesForPods`
and `Schedule` answer "insufficient capacity". -/
theorem findNodesForPods_misses_feasible_placement :
    exampleTopologyScheduler.crossPriorityPack = true ∧
    exampleTopologyScheduler.pass (exampleCluster exampleNineUsed) 0 [] true [2, 2, 3] =
      some ([node.mk 28 3 5 0 true true "", node.mk 29 4 4 0 true true ""], none,
        FailedReason.insufficientCapacity) ∧
    findNodesForPods [node.mk 28 3 5 0 true true "", node.mk 29 4 4 0 true true ""]
        [2, 2, 3] =
      some ([node.mk 28 3 5 0 true true "", node.mk 29 4 4 0 true true ""], none,
        FailedReason.insufficientCapacity) ∧
    assignedSum [1, 1, 0] [2, 2, 3] 0 ≤ 3 ∧ assignedSum [1, 1, 0] [2, 2, 3] 1 ≤ 4 ∧
    exampleTopologyScheduler.Schedule (exampleCluster exampleNineUsed) 100
        [(2, 2), (3, 1)] 0 [] true = some ([], FailedReason.insufficientCapacity) := by
  refine ⟨by decide!, by decide!, by decide!, by decide!, by decide!, by decide!⟩

/-- C19, counterexample: on the example cluster, of the two healthy entries for the
socket 16 (level 2, two leaf cells in use) and the leaf cell 0 (level 1, none in use),
the one with the higher `usedLeafCellNumAtPriority` is at the higher level, and
`skuClusterView.Less` and the sort put the leaf cell first. -/
theorem skuClusterView_Less_level_last_counterexample :
    (skuCell.mk 16 0 2 0 true "").healthy = (skuCell.mk 0 1 0 0 true "").healthy ∧
    (skuCell.mk 16 0 2 0 true "").usedLeafCellNumAtPriority >
      (skuCell.mk 0 1 0 0 true "").usedLeafCellNumAtPriority ∧
    (exampleCluster exampleAllFree 16).level > (exampleCluster exampleAllFree 0).level ∧
    skuClusterView.Less (exampleCluster exampleAllFree) (skuCell.mk 16 0 2 0 true "")
      (skuCell.mk 0 1 0 0 true "") = false ∧
    skuClusterView.Less (exampleCluster exampleAllFree) (skuCell.mk 0 1 0 0 true "")
      (skuCell.mk 16 0 2 0 true "") = true ∧
    sortStable (skuClusterView.Less (exampleCluster exampleAllFree))
        [skuCell.mk 16 0 2 0 true "", skuCell.mk 0 1 0 0 true ""] =
      [skuCell.mk 0 1 0 0 true "", skuCell.mk 16 0 2 0 true ""] := by
  decide!

/-- C19 (amended): in the SKU view the cell level is the second sort key, after the
health and before `usedLeafCellNumAtPriority`: of two equally healthy entries at
different levels the one at the lower level is ordered first, whatever their used leaf
cell numbers; of two equally healthy entries at the same level the one with the higher
`usedLeafCellNumAtPriority` is ordered first. -/
theorem skuClusterView_Less_level_second (H : Hierarchy) (a b : skuCell)
    (hh : a.healthy = b.healthy) :
    ((H a.cell).level < (H b.cell).level →
      skuClusterView.Less H a b = true ∧ skuClusterView.Less H b a = false ∧
        sortStable (skuClusterView.Less H) [b, a] = [a, b] ∧
        sortStable (skuClusterView.Less H) [a, b] = [a, b]) ∧
    ((H a.cell).level = (H b.cell).level →
      a.usedLeafCellNumAtPriority > b.usedLeafCellNumAtPriority →
      skuClusterView.Less H a b = true ∧ skuClusterView.Less H b a = false ∧
        sortStable (skuClusterView.Less H) [b, a] = [a, b] ∧
        sortStable (skuClusterView.Less H) [a, b] = [a, b]) := by
  refine ⟨?_, ?_⟩
  · intro hl
    have h1 : skuClusterView.Less H a b = true := by
      unfold skuClusterView.Less
      rw [if_neg (by simp [hh]), if_pos (by omega)]
      simpa using hl
    have h2 : skuClusterView.Less H b a = false := by
      unfold skuClusterView.Less
      rw [if_neg (by simp [hh]), if_pos (by omega)]
      simp; omega
    refine ⟨h1, h2, ?_, ?_⟩
    · rw [sortStable_pair, if_pos h1]
    · rw [sortStable_pair, if_neg (by simp [h2])]
  · intro hl hu
    have h1 : skuClusterView.Less H a b = true := by
      unfold skuClusterView.Less
      rw [if_neg (by simp [hh]), if_neg (by simp [hl]), if_pos (by omega)]
      simpa using hu
    have h2 : skuClusterView.Less H b a = false := by
      unfold skuClusterView.Less
      rw [if_neg (by simp [hh]), if_neg (by simp [hl]), if_pos (by omega)]
      simp; omega
    refine ⟨h1, h2, ?_, ?_⟩
    · rw [sortStable_pair, if_pos h1]
    · rw [sortStable_pair, if_neg (by simp [h2])]

/-- C19 (amended), on the example cluster: the free leaf cell 0 against the socket 16
with two leaf cells in use. -/
theorem skuClusterView_Less_level_second_witness :
    skuClusterView.Less (exampleCluster exampleAllFree) (skuCell.mk 0 1 0 0 true "")
        (skuCell.mk 16 0 2 0 true "") = true ∧
      skuClusterView.Less (exampleCluster exampleAllFree) (skuCell.mk 16 0 2 0 true "")
        (skuCell.mk 0 1 0 0 true "") = false ∧
      sortStable (skuClusterView.Less (exampleCluster exampleAllFree))
          [skuCell.mk 16 0 2 0 true "", skuCell.mk 0 1 0 0 true ""] =
        [skuCell.mk 0 1 0 0 true "", skuCell.mk 16 0 2 0 true ""] ∧
      sortStable (skuClusterView.Less (exampleCluster exampleAllFree))
          [skuCell.mk 0 1 0 0 true "", skuCell.mk 16 0 2 0 true ""] =
        [skuCell.mk 0 1 0 0 true "", skuCell.mk 16 0 2 0 true ""] :=
  (skuClusterView_Less_level_second (exampleCluster exampleAllFree)
    (skuCell.mk 0 1 0 0 true "") (skuCell.mk 16 0 2 0 true "") rfl).1 (by decide)

/-- C20 (code defect): `skuClusterView.Less` holds for every entry against itself, so it
is not irreflexive; on the free example cluster the chain lists the nodes 28 and 29 in
this order, their entries tie on every sort key, `Less` holds between them in both
directions, and the view that `createSkuClusterView` returns has node 29 before
node 28. -/
theorem skuClusterView_Less_reflexive_sort_unstable :
    (∀ (H : Hierarchy) (a : skuCell), skuClusterView.Less H a a = true) ∧
    exampleSkuScheduler.chainCellList.atLevel 4 = [28, 29] ∧
    skuClusterView.Less (exampleCluster exampleAllFree) (skuCell.mk 28 8 0 0 true "")
      (skuCell.mk 29 8 0 0 true "") = true ∧
    skuClusterView.Less (exampleCluster exampleAllFree) (skuCell.mk 29 8 0 0 true "")
      (skuCell.mk 28 8 0 0 true "") = true ∧
    exampleSkuScheduler.createSkuClusterView (exampleCluster exampleAllFree) 10 none 4 0 =
      some [skuCell.mk 29 8 0 0 true "", skuCell.mk 28 8 0 0 true ""] := by
  refine ⟨?_, by decide!, by decide!, by decide!, by decide!⟩
  intro H a
  unfold skuClusterView.Less
  simp

theorem assignedSum_snoc (j x : Nat) (k : Int) :
    ∀ (pre : List Nat) (nums : List Int), nums[pre.length]? = some k →
      assignedSum (pre ++ [x]) nums j = assignedSum pre nums j + if x = j then k else 0 := by
  intro pre
  induction pre with
  | nil =>
    intro nums hk
    cases nums with
    | nil => simp at hk
    | cons b rest =>
      simp only [List.length_nil, List.getElem?_cons_zero, Option.some.injEq] at hk
      subst hk
      by_cases h : x = j <;> simp [assignedSum, List.filter_cons, h]
  | cons a pre ih =>
    intro nums hk
    cases nums with
    | nil => simp at hk
    | cons b rest =>
      simp only [List.length_cons, List.getElem?_cons_succ] at hk
      have := ih rest hk
      unfold assignedSum at this ⊢
      by_cases h : a = j
      · simp only [List.cons_append, List.zip_cons_cons, List.filter_cons, h, decide_True,
          if_true, List.map_cons, List.sum_cons, this]
        ring
      · simp only [List.cons_append, List.zip_cons_cons, List.filter_cons, h, decide_False,
          Bool.false_eq_true, if_false, this]

theorem assignedSum_eq_zero {j : Nat} :
    ∀ (pre : List Nat) (nums : List Int), j ∉ pre → assignedSum pre nums j = 0 := by
  intro pre nums h
  unfold assignedSum
  have : (pre.zip nums).filter (fun e => decide (e.1 = j)) = [] := by
    rw [List.filter_eq_nil_iff]
    intro e he hej
    have := (List.of_mem_zip (a := e.1) (b := e.2) he).1
    simp only [decide_eq_true_eq] at hej
    exact h (hej ▸ this)
  rw [this]
  rfl

theorem take_set_succ {α : Type} (l : List α) (i : Nat) (x : α) (h : i < l.length) :
    (l.set i x).take (i + 1) = l.take i ++ [x] := by
  induction l generalizing i with
  | nil => simp at h
  | cons a l ih =>
    cases i with
    | zero => simp
    | succ i =>
      simp only [List.length_cons, Nat.add_lt_add_iff_right] at h
      simp [List.set, List.take, ih i h]

/-- The five ways in which one iteration of the loop of `findNodesForPods` ends. -/
theorem findNodesForPods.step_cases {cv : clusterView} {nums : List Int} {st : PickState}
    {out : PickState ⊕ (Option (List Nat) × FailedReason)}
    (h : findNodesForPods.step cv nums st = some out) :
    (cv[st.nodeIndex]? = none ∧ out = Sum.inr (none, FailedReason.insufficientCapacity)) ∨
    ∃ n count, cv[st.nodeIndex]? = some n ∧ nums[st.podIndex]? = some count ∧
      ((n.freeLeafCellNumAtPriority - st.pickedLeafCellNum ≥ count ∧ n.healthy = false ∧
          out = Sum.inr (none, FailedReason.badNode n.nodeAddress)) ∨
        (n.freeLeafCellNumAtPriority - st.pickedLeafCellNum ≥ count ∧ n.healthy = true ∧
          n.suggested = false ∧
          out = Sum.inr (none, FailedReason.nonSuggestedNode n.nodeAddress)) ∨
        (n.freeLeafCellNumAtPriority - st.pickedLeafCellNum ≥ count ∧ n.healthy = true ∧
          n.suggested = true ∧ st.podIndex + 1 = nums.length ∧
          out = Sum.inr (some (st.pickedNodeIndices.set st.podIndex st.nodeIndex),
            FailedReason.none)) ∨
        (n.freeLeafCellNumAtPriority - st.pickedLeafCellNum ≥ count ∧ n.healthy = true ∧
          n.suggested = true ∧ st.podIndex + 1 ≠ nums.length ∧
          out = Sum.inl { st with
            pickedNodeIndices := st.pickedNodeIndices.set st.podIndex st.nodeIndex
            pickedLeafCellNum := st.pickedLeafCellNum + count
            podIndex := st.podIndex + 1 }) ∨
        (¬ n.freeLeafCellNumAtPriority - st.pickedLeafCellNum ≥ count ∧
          out = Sum.inl { st with pickedLeafCellNum := 0, nodeIndex := st.nodeIndex + 1 })) := by
  unfold findNodesForPods.step at h
  cases hcv : cv[st.nodeIndex]? with
  | none =>
    rw [hcv] at h
    simp only [Option.some.injEq] at h
    exact Or.inl ⟨rfl, h.symm⟩
  | some n =>
    rw [hcv] at h
    simp only at h
    cases hn : nums[st.podIndex]? with
    | none => rw [hn] at h; cases h
    | some count =>
      rw [hn] at h
      simp only at h
      right
      refine ⟨n, count, rfl, rfl, ?_⟩
      by_cases hge : n.freeLeafCellNumAtPriority - st.pickedLeafCellNum ≥ count
      · rw [if_pos hge] at h
        cases hh : n.healthy with
        | false =>
          simp only [hh, Bool.not_false, if_true, Option.some.injEq] at h
          exact Or.inl ⟨hge, rfl, h.symm⟩
        | true =>
          simp only [hh, Bool.not_true, Bool.false_eq_true, if_false] at h
          cases hs : n.suggested with
          | false =>
            simp only [hs, Bool.not_false, if_true, Option.some.injEq] at h
            exact Or.inr (Or.inl ⟨hge, rfl, rfl, h.symm⟩)
          | true =>
            simp only [hs, Bool.not_true, Bool.false_eq_true, if_false] at h
            by_cases hlast : st.podIndex + 1 = nums.length
            · rw [if_pos hlast] at h
              simp only [Option.some.injEq] at h
              exact Or.inr (Or.inr (Or.inl ⟨hge, rfl, rfl, hlast, h.symm⟩))
            · rw [if_neg hlast] at h
              simp only [Option.some.injEq] at h
              exact Or.inr (Or.inr (Or.inr (Or.inl ⟨hge, rfl, rfl, hlast, h.symm⟩)))
      · rw [if_neg hge] at h
        simp only [Option.some.injEq] at h
        exact Or.inr (Or.inr (Or.inr (Or.inr ⟨hge, h.symm⟩)))

/-- A pod placed in the current node keeps the invariant of the loop. -/
theorem PickInv.assign {cv : clusterView} {nums : List Int} {st : PickState} {n : node}
    {count : Int} (hinv : PickInv cv nums st) (hcv : cv[st.nodeIndex]? = some n)
    (hn : nums[st.podIndex]? = some count)
    (hge : n.freeLeafCellNumAtPriority - st.pickedLeafCellNum ≥ count)
    (hh : n.healthy = true) (hs : n.suggested = true) :
    PickInv cv nums { st with
      pickedNodeIndices := st.pickedNodeIndices.set st.podIndex st.nodeIndex
      pickedLeafCellNum := st.pickedLeafCellNum + count
      podIndex := st.podIndex + 1 } := by
  obtain ⟨hlen, ⟨hsorted, hok, hcap⟩, hle, hcur⟩ := hinv
  have hpod : st.podIndex < nums.length := (List.getElem?_eq_some_iff.mp hn).1
  have htake : (st.pickedNodeIndices.set st.podIndex st.nodeIndex).take (st.podIndex + 1) =
      st.pickedNodeIndices.take st.podIndex ++ [st.nodeIndex] :=
    take_set_succ _ _ _ (by omega)
  have hprelen : (st.pickedNodeIndices.take st.podIndex).length = st.podIndex := by
    rw [List.length_take]; omega
  have hk : nums[(st.pickedNodeIndices.take st.podIndex).length]? = some count := by
    rw [hprelen]; exact hn
  refine ⟨by simp [hlen], ?_, ?_, ?_⟩
  · simp only [htake]
    refine ⟨?_, ?_, ?_⟩
    · rw [List.pairwise_append]
      refine ⟨hsorted, List.pairwise_singleton _ _, ?_⟩
      intro a ha b hb
      rw [List.mem_singleton] at hb
      rw [hb]
      exact hle a ha
    · intro i hi
      rw [List.mem_append, List.mem_singleton] at hi
      rcases hi with hi | rfl
      · exact hok i hi
      · exact ⟨n, hcv, hh, hs⟩
    · intro j n' hj hmem
      rw [assignedSum_snoc j st.nodeIndex count _ _ hk]
      by_cases hjn : st.nodeIndex = j
      · subst hjn
        rw [hcv] at hj
        cases hj
        rw [if_pos rfl, hcur]
        omega
      · rw [if_neg hjn, add_zero]
        rw [List.mem_append, List.mem_singleton] at hmem
        rcases hmem with hmem | rfl
        · exact hcap j n' hj hmem
        · exact absurd rfl hjn
  · simp only [htake]
    intro i hi
    rw [List.mem_append, List.mem_singleton] at hi
    rcases hi with hi | rfl
    · exact hle i hi
    · exact le_refl _
  · simp only [htake]
    rw [assignedSum_snoc _ _ count _ _ hk, if_pos rfl, hcur]

/-- Going on to the next node keeps the invariant of the loop. -/
theorem PickInv.advance {cv : clusterView} {nums : List Int} {st : PickState}
    (hinv : PickInv cv nums st) :
    PickInv cv nums { st with pickedLeafCellNum := 0, nodeIndex := st.nodeIndex + 1 } := by
  obtain ⟨hlen, hpicked, hle, _⟩ := hinv
  refine ⟨hlen, hpicked, ?_, ?_⟩
  · intro i hi
    have := hle i hi
    simp only
    omega
  · apply assignedSum_eq_zero
    intro hmem
    have := hle _ hmem
    simp only at this
    omega

/-- The indices that `findNodesForPods` returns: one per pod, not decreasing, every
node picked healthy and suggested, and no node given more than its
`freeLeafCellNumAtPriority`. -/
theorem findNodesForPods_picked {cv sorted : clusterView} {nums : List Int}
    {picked : List Nat} {fr : FailedReason}
    (h : findNodesForPods cv nums = some (sorted, some picked, fr)) :
    picked.length = nums.length ∧ PickedOk sorted nums picked := by
  unfold findNodesForPods at h
  simp only [Option.map_eq_some'] at h
  obtain ⟨r, hr, e⟩ := h
  simp only [Prod.mk.injEq] at e
  obtain ⟨e1, e2⟩ := e
  subst e1
  refine runLoop_post (findNodesForPods.step (sortStable clusterView.Less cv) nums)
    (PickInv (sortStable clusterView.Less cv) nums)
    (fun r => ∀ picked, r.1 = some picked →
      picked.length = nums.length ∧ PickedOk (sortStable clusterView.Less cv) nums picked)
    ?_ ?_ _ _ r ?_ hr picked (by rw [e2])
  · intro st st' hinv hs
    rcases findNodesForPods.step_cases hs with ⟨_, ho⟩ | ⟨n, count, hcv, hn, hc⟩
    · cases ho
    · rcases hc with ⟨_, _, ho⟩ | ⟨_, _, _, ho⟩ | ⟨_, _, _, _, ho⟩ | ⟨hge, hh, hsg, _, ho⟩ |
        ⟨_, ho⟩
      · cases ho
      · cases ho
      · cases ho
      · cases ho
        exact hinv.assign hcv hn hge hh hsg
      · cases ho
        exact hinv.advance
  · intro st r hinv hs picked hp
    rcases findNodesForPods.step_cases hs with ⟨_, ho⟩ | ⟨n, count, hcv, hn, hc⟩
    · cases ho; cases hp
    · rcases hc with ⟨_, _, ho⟩ | ⟨_, _, _, ho⟩ | ⟨hge, hh, hsg, hlast, ho⟩ | ⟨_, _, _, _, ho⟩ |
        ⟨_, ho⟩
      · cases ho; cases hp
      · cases ho; cases hp
      · cases ho
        simp only [Option.some.injEq] at hp
        subst hp
        obtain ⟨hlen, hok, _, _⟩ := hinv.assign hcv hn hge hh hsg
        simp only at hlen hok
        refine ⟨hlen, ?_⟩
        rw [hlast, ← hlen, List.take_length] at hok
        exact hok
      · cases ho
      · cases ho
  · refine ⟨by simp, ⟨by simp, by simp, by simp⟩, by simp, ?_⟩
    simp [assignedSum]

/-- When `findNodesForPods` fails with "non-suggested node", the view has a node that is
not suggested. -/
theorem findNodesForPods_nonSuggested {cv sorted : clusterView} {nums : List Int}
    {sel : Option (List Nat)} {addr : CellAddress}
    (h : findNodesForPods cv nums = some (sorted, sel, FailedReason.nonSuggestedNode addr)) :
    ∃ n ∈ cv, n.suggested = false := by
  unfold findNodesForPods at h
  simp only [Option.map_eq_some'] at h
  obtain ⟨r, hr, e⟩ := h
  simp only [Prod.mk.injEq] at e
  obtain ⟨_, e2⟩ := e
  have key := runLoop_post (findNodesForPods.step (sortStable clusterView.Less cv) nums)
    (fun _ => True)
    (fun r => ∀ addr, r.2 = FailedReason.nonSuggestedNode addr →
      ∃ n ∈ sortStable clusterView.Less cv, n.suggested = false)
    (fun _ _ _ _ => trivial) ?_ _ _ r trivial hr addr (by rw [e2])
  · obtain ⟨n, hn, hs⟩ := key
    exact ⟨n, (sortStable_perm _ _).mem_iff.mp hn, hs⟩
  · intro st r _ hs addr hr
    rcases findNodesForPods.step_cases hs with ⟨_, ho⟩ | ⟨n, count, hcv, hn, hc⟩
    · cases ho; cases hr
    · rcases hc with ⟨_, _, ho⟩ | ⟨_, _, hsg, ho⟩ | ⟨_, _, _, _, ho⟩ | ⟨_, _, _, _, ho⟩ |
        ⟨_, ho⟩
      · cases ho; cases hr
      · refine ⟨n, ?_, hsg⟩
        obtain ⟨hlt, e'⟩ := List.getElem?_eq_some_iff.mp hcv
        exact e' ▸ List.getElem_mem _
      · cases ho; cases hr
      · cases ho
      · cases ho

/-- C13: when `findNodesForPods` succeeds it returns, with the sorted view, exactly one
node index per pod; the indices do not decrease and are positions of the sorted view;
and for every node that has a pod, or whose `freeLeafCellNumAtPriority` is not negative,
the leaf cell numbers of the pods assigned to it sum up to at most its
`freeLeafCellNumAtPriority`. -/
theorem findNodesForPods_indices (cv sorted : clusterView) (leafCellNums : List Int)
    (picked : List Nat) (failedReason : FailedReason)
    (h : findNodesForPods cv leafCellNums = some (sorted, some picked, failedReason)) :
    sorted = sortStable clusterView.Less cv ∧
      picked.length = leafCellNums.length ∧
      picked.Pairwise (fun i j => i ≤ j) ∧
      (∀ i ∈ picked, i < sorted.length) ∧
      ∀ j n, sorted[j]? = some n → (j ∈ picked ∨ 0 ≤ n.freeLeafCellNumAtPriority) →
        assignedSum picked leafCellNums j ≤ n.freeLeafCellNumAtPriority := by
  obtain ⟨hlen, hsorted, hok, hcap⟩ := findNodesForPods_picked h
  refine ⟨(findNodesForPods_spec h).1, hlen, hsorted, ?_, ?_⟩
  · intro i hi
    obtain ⟨n, hn, _⟩ := hok i hi
    exact (List.getElem?_eq_some_iff.mp hn).1
  · intro j n hj hor
    by_cases hmem : j ∈ picked
    · exact hcap j n hj hmem
    · rw [assignedSum_eq_zero picked leafCellNums hmem]
      rcases hor with h1 | h1
      · exact absurd h1 hmem
      · exact h1

/-- C13, on two free nodes of eight leaf cells: pods of one, two and eight leaf cells
get the nodes at the positions 0, 0 and 1. -/
theorem findNodesForPods_indices_witness :
    [node.mk 28 8 0 0 true true "", node.mk 29 8 0 0 true true ""] =
        sortStable clusterView.Less
          [node.mk 28 8 0 0 true true "", node.mk 29 8 0 0 true true ""] ∧
      ([0, 0, 1] : List Nat).length = ([1, 2, 8] : List Int).length ∧
      ([0, 0, 1] : List Nat).Pairwise (fun i j => i ≤ j) ∧
      (∀ i ∈ ([0, 0, 1] : List Nat),
        i < [node.mk 28 8 0 0 true true "", node.mk 29 8 0 0 true true ""].length) ∧
      ∀ j n, [node.mk 28 8 0 0 true true "", node.mk 29 8 0 0 true true ""][j]? = some n →
        (j ∈ ([0, 0, 1] : List Nat) ∨ 0 ≤ n.freeLeafCellNumAtPriority) →
        assignedSum [0, 0, 1] [1, 2, 8] j ≤ n.freeLeafCellNumAtPriority :=
  findNodesForPods_indices [node.mk 28 8 0 0 true true "", node.mk 29 8 0 0 true true ""]
    [node.mk 28 8 0 0 true true "", node.mk 29 8 0 0 true true ""] [1, 2, 8] [0, 0, 1]
    FailedReason.none (by decide!)

theorem nodeHealthyAndInSuggested_congr (H : Hierarchy) {n n' : node} (h : n'.c = n.c)
    (suggestedNodes : List String) (ign : Bool) :
    nodeHealthyAndInSuggested H n' suggestedNodes ign =
      nodeHealthyAndInSuggested H n suggestedNodes ign := by
  unfold nodeHealthyAndInSuggested
  rw [h]

theorem nodeHealthyAndInSuggested_ignore {H : Hierarchy} {n : node}
    {suggestedNodes : List String} {r : Bool × Bool × CellAddress}
    (h : nodeHealthyAndInSuggested H n suggestedNodes true = some r) : r.2.1 = true := by
  unfold nodeHealthyAndInSuggested at h
  split at h
  · simp only [inSuggested, if_true, Option.map_some', Option.some.injEq] at h
    rw [← h]
  · split at h
    · simp only [inSuggested, if_true, Option.map_some', Option.some.injEq] at h
      rw [← h]
    · cases h
  · simp only [Option.some.injEq] at h
    rw [← h]

/-- The flags of the entries of the view that `updateClusterView` returns are those that
`nodeHealthyAndInSuggested` gives for the entry. -/
theorem topologyAwareScheduler.updateClusterView_flags {H : Hierarchy}
    {t : topologyAwareScheduler} {p : Int} {suggestedNodes : List String} {ign : Bool}
    {cv : clusterView} (h : t.updateClusterView H p suggestedNodes ign = some cv) :
    ∀ n ∈ cv, nodeHealthyAndInSuggested H n suggestedNodes ign =
      some (n.healthy, n.suggested, n.nodeAddress) := by
  unfold topologyAwareScheduler.updateClusterView at h
  intro n' hn'
  obtain ⟨n, _, hf⟩ := forall₂_exists_left (mapM_option_forall₂ _ _ _ h) n' hn'
  simp only [Option.map_eq_some'] at hf
  obtain ⟨r, hr, e⟩ := hf
  rw [nodeHealthyAndInSuggested_congr H (n := n.updateUsedLeafCellNumForPriority H p
    t.crossPriorityPack) (by rw [← e]), hr, ← e]

/-- The pass that the result of the node selection comes from. -/
theorem topologyAwareScheduler.selectNodes_pass {H : Hierarchy} {t : topologyAwareScheduler}
    {p q : Int} {suggestedNodes : List String} {ign : Bool}
    {leafCellNums : List Int} {cv : clusterView} {sel : Option (List Nat)} {fr : FailedReason}
    (h : t.selectNodes H p suggestedNodes ign leafCellNums = some (q, cv, sel, fr)) :
    ∃ t' : topologyAwareScheduler,
      t'.pass H q suggestedNodes ign leafCellNums = some (cv, sel, fr) := by
  unfold topologyAwareScheduler.selectNodes at h
  cases h1 : t.pass H opportunisticPriority suggestedNodes ign leafCellNums with
  | none => rw [h1] at h; cases h
  | some r1 =>
    obtain ⟨cv1, sel1, fr1⟩ := r1
    rw [h1] at h
    simp only at h
    split_ifs at h with hc
    · simp only [Option.map_eq_some'] at h
      obtain ⟨r2, h2, e⟩ := h
      obtain ⟨cv2, sel2, fr2⟩ := r2
      simp only [Prod.mk.injEq] at e
      obtain ⟨rfl, rfl, rfl, rfl⟩ := e
      exact ⟨_, h2⟩
    · simp only [Option.some.injEq, Prod.mk.injEq] at h
      obtain ⟨rfl, rfl, rfl, rfl⟩ := h
      exact ⟨t, h1⟩

/-- What a pass of `Schedule` returns, in terms of `findNodesForPods`. -/
theorem topologyAwareScheduler.pass_some {H : Hierarchy} {t : topologyAwareScheduler}
    {q : Int} {suggestedNodes : List String} {ign : Bool} {leafCellNums : List Int}
    {r : clusterView × Option (List Nat) × FailedReason}
    (h : t.pass H q suggestedNodes ign leafCellNums = some r) :
    ∃ cv1, t.updateClusterView H q suggestedNodes ign = some cv1 ∧
      findNodesForPods cv1 leafCellNums = some r := by
  unfold topologyAwareScheduler.pass at h
  cases hu : t.updateClusterView H q suggestedNodes ign with
  | none => rw [hu] at h; cases h
  | some cv1 => rw [hu] at h; exact ⟨cv1, rfl, h⟩

/-- C14: every node that `findNodesForPods` picks is healthy and suggested in the view;
in a pass of `Schedule` these flags are the ones `nodeHealthyAndInSuggested` computes
from the cell and `suggestedNodes`; and with `ignoreSuggestedNodes` set, `Schedule`
never returns the failure reason "have to use at least one non-suggested node". -/
theorem schedule_healthy_suggested_nodes (H : Hierarchy) (t : topologyAwareScheduler)
    (suggestedNodes : List String) :
    (∀ (cv sorted : clusterView) (leafCellNums : List Int) (picked : List Nat)
        (failedReason : FailedReason),
      findNodesForPods cv leafCellNums = some (sorted, some picked, failedReason) →
        ∀ i ∈ picked, ∃ n, sorted[i]? = some n ∧ n.healthy = true ∧ n.suggested = true) ∧
    (∀ (q : Int) (ignoreSuggestedNodes : Bool) (leafCellNums : List Int) (cv : clusterView)
        (picked : List Nat) (failedReason : FailedReason),
      t.pass H q suggestedNodes ignoreSuggestedNodes leafCellNums =
          some (cv, some picked, failedReason) →
        ∀ i ∈ picked, ∃ n, cv[i]? = some n ∧
          nodeHealthyAndInSuggested H n suggestedNodes ignoreSuggestedNodes =
            some (true, true, n.nodeAddress)) ∧
    (∀ (fuel : Nat) (podLeafCellNumbers : List (Int × Int)) (p : Int)
        (r : List (Int × List CellList) × FailedReason),
      t.Schedule H fuel podLeafCellNumbers p suggestedNodes true = some r →
        ∀ address, r.2 ≠ FailedReason.nonSuggestedNode address) := by
  refine ⟨?_, ?_, ?_⟩
  · intro cv sorted nums picked fr h
    exact (findNodesForPods_picked h).2.2.1
  · intro q ign nums cv picked fr h i hi
    obtain ⟨cv1, hu, hf⟩ := topologyAwareScheduler.pass_some h
    obtain ⟨n, hn, hh, hs⟩ := (findNodesForPods_picked hf).2.2.1 i hi
    refine ⟨n, hn, ?_⟩
    have hmem : n ∈ cv := by
      obtain ⟨hlt, e'⟩ := List.getElem?_eq_some_iff.mp hn
      exact e' ▸ List.getElem_mem _
    rw [(findNodesForPods_spec hf).1] at hmem
    have := topologyAwareScheduler.updateClusterView_flags hu n
      ((sortStable_perm _ _).mem_iff.mp hmem)
    rw [this, hh, hs]
  · intro fuel plc p r h address hr
    unfold topologyAwareScheduler.Schedule at h
    simp only at h
    cases hs : t.selectNodes H p suggestedNodes true (sortedPodLeafCellNumbers plc) with
    | none => rw [hs] at h; cases h
    | some sr =>
      obtain ⟨q, cv, sel, fr⟩ := sr
      rw [hs] at h
      cases sel with
      | none =>
        simp only [Option.some.injEq] at h
        rw [← h] at hr
        simp only at hr
        subst hr
        obtain ⟨t', hp⟩ := topologyAwareScheduler.selectNodes_pass hs
        obtain ⟨cv1, hu, hf⟩ := topologyAwareScheduler.pass_some hp
        obtain ⟨n, hn, hsg⟩ := findNodesForPods_nonSuggested hf
        have h1 := topologyAwareScheduler.updateClusterView_flags hu n hn
        have h2 := nodeHealthyAndInSuggested_ignore h1
        simp only at h2
        rw [hsg] at h2
        cases h2
      | some picked =>
        simp only at h
        cases hm : picked.mapM (fun i => cv[i]?.map (fun (n : node) => n.c)) with
        | none => rw [hm] at h; cases h
        | some selectedNodes =>
          rw [hm] at h
          simp only [Option.map_eq_some'] at h
          obtain ⟨pl, _, e⟩ := h
          rw [← e] at hr
          cases hr

/-- C14, on the free example cluster: pods of one, two and eight leaf cells are given
the nodes at the positions 0, 0 and 1 of the view; the node at position 1 is healthy and
suggested. -/
theorem schedule_healthy_suggested_nodes_witness :
    ∃ n, [node.mk 28 8 0 0 true true "", node.mk 29 8 0 0 true true ""][1]? = some n ∧
      nodeHealthyAndInSuggested (exampleCluster exampleAllFree) n [] true =
        some (true, true, n.nodeAddress) :=
  (schedule_healthy_suggested_nodes (exampleCluster exampleAllFree) exampleTopologyScheduler
    []).2.1 0 true [1, 2, 8] [node.mk 28 8 0 0 true true "", node.mk 29 8 0 0 true true ""]
    [0, 0, 1] FailedReason.none (by decide!) 1 (by decide)

theorem LevelsByOne.strict {H : Hierarchy} (hl : LevelsByOne H) : StrictLevels H := by
  intro c p hp
  have := hl c p hp
  omega

theorem Anc.level_lt_of_ne {H : Hierarchy} (hl : StrictLevels H) {a c : Cell} (h : Anc H a c)
    (hne : a ≠ c) : (H c).level < (H a).level := by
  induction h with
  | refl => exact absurd rfl hne
  | @step c p hp _ ih =>
    have h1 := hl _ _ hp
    by_cases e : a = p
    · subst e; exact h1
    · have := ih e
      omega

/-- With enough fuel `isAncestor` answers whether `a` is `c` or above `c`. -/
theorem isAncestor_iff_anc {H : Hierarchy} (hl : StrictLevels H) (a : Cell) :
    ∀ (fuel : Nat) (c : Cell), ((H a).level - (H c).level).toNat < fuel →
      ∃ b, isAncestor H fuel a c = some b ∧ (b = true ↔ Anc H a c) := by
  intro fuel
  induction fuel with
  | zero => intro c h; omega
  | succ fuel ih =>
    intro c hf
    rw [isAncestor]
    by_cases h1 : a = c
    · subst h1
      exact ⟨true, by simp, by simp [Anc.refl]⟩
    · rw [if_neg h1]
      by_cases h2 : (H c).level ≥ (H a).level
      · rw [if_pos h2]
        refine ⟨false, rfl, ?_⟩
        constructor
        · intro h; cases h
        · intro h
          have := Anc.level_lt_of_ne hl h h1
          omega
      · rw [if_neg h2]
        cases hp : (H c).parent with
        | none =>
          refine ⟨false, rfl, ?_⟩
          constructor
          · intro h; cases h
          · intro h
            exact absurd (Anc.eq_of_no_parent h hp) h1
        | some p =>
          have h3 := hl c p hp
          obtain ⟨b, hb, hiff⟩ := ih p (by omega)
          refine ⟨b, hb, hiff.trans ?_⟩
          constructor
          · intro h; exact Anc.step hp h
          · intro h; exact Anc.of_parent h hp h1

/-- The plain parent walk answers whether `a` is `c` or above `c`. -/
theorem isAncestorWalk_iff_anc (H : Hierarchy) (a : Cell) :
    ∀ (fuel : Nat) (c : Cell) (b : Bool), isAncestorWalk H fuel a c = some b →
      (b = true ↔ Anc H a c) := by
  intro fuel
  induction fuel with
  | zero => intro c b h; simp [isAncestorWalk] at h
  | succ fuel ih =>
    intro c b h
    rw [isAncestorWalk] at h
    by_cases h1 : a = c
    · subst h1
      rw [if_pos rfl] at h
      cases h
      simp [Anc.refl]
    · rw [if_neg h1] at h
      cases hp : (H c).parent with
      | none =>
        rw [hp] at h
        cases h
        constructor
        · intro h; cases h
        · intro h; exact absurd (Anc.eq_of_no_parent h hp) h1
      | some p =>
        rw [hp] at h
        refine (ih p b h).trans ?_
        constructor
        · intro h; exact Anc.step hp h
        · intro h; exact Anc.of_parent h hp h1

/-- C26: in a hierarchy whose level goes up along every parent link, `isAncestor(a, c)`
returns, given fuel for the levels between `c` and `a`, true exactly when `a` is `c` or
is reached from `c` by parent links; it returns what the plain parent walk without the
level test returns; and `isAncestor(c, c)` is true. -/
theorem isAncestor_parent_walk (H : Hierarchy) (a c : Cell) (fuel : Nat)
    (hl : StrictLevels H) (hf : ((H a).level - (H c).level).toNat < fuel) :
    (∃ b, isAncestor H fuel a c = some b ∧ (b = true ↔ Anc H a c)) ∧
      (∀ fuel' b, isAncestorWalk H fuel' a c = some b → isAncestor H fuel a c = some b) ∧
      isAncestor H fuel c c = some true := by
  obtain ⟨b, hb, hiff⟩ := isAncestor_iff_anc hl a fuel c hf
  refine ⟨⟨b, hb, hiff⟩, ?_, ?_⟩
  · intro fuel' b' hw
    have hiff' := isAncestorWalk_iff_anc H a fuel' c b' hw
    have e : b = b' := by
      cases b <;> cases b' <;> simp_all
    rw [hb, e]
  · cases fuel with
    | zero => omega
    | succ n => simp [isAncestor]

/-- C26, in the example cluster: the node 28 is an ancestor of the leaf cell 3, and the
walk with fuel 4 says so. -/
theorem isAncestor_parent_walk_witness :
    (∃ b, isAncestor (exampleCluster exampleAllFree) 4 28 3 = some b ∧
        (b = true ↔ Anc (exampleCluster exampleAllFree) 28 3)) ∧
      (∀ fuel' b, isAncestorWalk (exampleCluster exampleAllFree) fuel' 28 3 = some b →
        isAncestor (exampleCluster exampleAllFree) 4 28 3 = some b) ∧
      isAncestor (exampleCluster exampleAllFree) 4 3 3 = some true :=
  isAncestor_parent_walk (exampleCluster exampleAllFree) 28 3 4
    (LevelsByOne.strict (exampleCluster_levelsByOne _)) (by decide!)

/-- What `ancestorNoHigherThanLevel` returns in a hierarchy whose levels go up by one:
the cell itself when it is at level `withinLevel` or above, else the highest of the cell
and its ancestors that is not above `withinLevel`. -/
theorem ancestorNoHigherThanLevel_spec {H : Hierarchy} (hl : LevelsByOne H)
    (withinLevel : Int) :
    ∀ (fuel : Nat) (c : Cell), (withinLevel - (H c).level).toNat < fuel →
      ∃ r, ancestorNoHigherThanLevel H withinLevel fuel c = some r ∧ Anc H r c ∧
        (withinLevel ≤ (H c).level → r = c) ∧
        ((H c).level ≤ withinLevel →
          (H r).level ≤ withinLevel ∧
          (∀ a, Anc H a c → (H a).level ≤ withinLevel → Anc H r a) ∧
          ((H r).level = withinLevel ∨ (H r).parent = none)) := by
  intro fuel
  induction fuel with
  | zero => intro c h; omega
  | succ fuel ih =>
    intro c hf
    rw [ancestorNoHigherThanLevel]
    by_cases h1 : (H c).level ≥ withinLevel
    · rw [if_pos h1]
      refine ⟨c, rfl, Anc.refl, fun _ => rfl, fun h2 => ⟨h2, ?_, Or.inl (by omega)⟩⟩
      intro a ha hle
      have e : a = c := Anc.eq_of_level_eq hl ha (by omega)
      subst e
      exact Anc.refl
    · rw [if_neg h1]
      cases hp : (H c).parent with
      | none =>
        refine ⟨c, rfl, Anc.refl, fun h => absurd h (by omega),
          fun h2 => ⟨h2, ?_, Or.inr hp⟩⟩
        intro a ha _
        have e : a = c := Anc.eq_of_no_parent ha hp
        subst e
        exact Anc.refl
      | some p =>
        have h3 := hl c p hp
        obtain ⟨r, hr, hanc, _, hlow⟩ := ih p (by omega)
        obtain ⟨hle, hhigh, htop⟩ := hlow (by omega)
        refine ⟨r, hr, Anc.step hp hanc, fun h => absurd h (by omega),
          fun _ => ⟨hle, ?_, htop⟩⟩
        intro a ha hale
        by_cases e : a = c
        · subst e; exact Anc.step hp hanc
        · exact hhigh a (Anc.of_parent ha hp e) hale

/-- C27 (counterexample): in the example cluster, for the socket 16 (level 2, parent 24)
and the level 1, `ancestorNoHigherThanLevel` returns the socket itself: a cell above
level 1 that is not the top cell of its tree, while none of the socket and its ancestors
is at level 1 or below. -/
theorem ancestorNoHigherThanLevel_above_counterexample :
    ancestorNoHigherThanLevel (exampleCluster exampleAllFree) 1 10 16 = some 16 ∧
      (exampleCluster exampleAllFree 16).level = 2 ∧
      (exampleCluster exampleAllFree 16).parent = some 24 ∧
      ∀ a, Anc (exampleCluster exampleAllFree) a 16 →
        ¬ (exampleCluster exampleAllFree a).level ≤ 1 := by
  refine ⟨by decide!, by decide!, by decide!, ?_⟩
  intro a ha hle
  have h1 := Anc.level_le (exampleCluster_levelsByOne _) ha
  have h2 : (exampleCluster exampleAllFree 16).level = 2 := by decide!
  omega

/-- C27 (amended): in a hierarchy whose levels go up by one along every parent link,
given fuel for the levels between `c` and `L`, `ancestorNoHigherThanLevel(L, c)` returns
`c` itself when `c` is at level `L` or above; when `c` is at level `L` or below it
returns the highest cell among `c` and its ancestors whose level is at most `L`, which is
at level `L` or is the top cell of the tree of `c`. -/
theorem ancestorNoHigherThanLevel_highest_or_self (H : Hierarchy) (L : Int) (c : Cell)
    (fuel : Nat) (hl : LevelsByOne H) (hf : (L - (H c).level).toNat < fuel) :
    ∃ r, ancestorNoHigherThanLevel H L fuel c = some r ∧ Anc H r c ∧
      (L ≤ (H c).level → r = c) ∧
      ((H c).level ≤ L →
        (H r).level ≤ L ∧
        (∀ a, Anc H a c → (H a).level ≤ L → Anc H r a ∧ (H a).level ≤ (H r).level) ∧
        ((H r).level = L ∨ (H r).parent = none)) := by
  obtain ⟨r, hr, hanc, hself, hlow⟩ := ancestorNoHigherThanLevel_spec hl L fuel c hf
  refine ⟨r, hr, hanc, hself, fun h => ?_⟩
  obtain ⟨hle, hhigh, htop⟩ := hlow h
  exact ⟨hle, fun a ha hale => ⟨hhigh a ha hale, Anc.level_le hl (hhigh a ha hale)⟩, htop⟩

/-- C27 (amended), in the example cluster: for the leaf cell 5 and the level 3 the
result is the half node 25; for the level 6, which the tree does not reach, it is the
node 28, the top cell. -/
theorem ancestorNoHigherThanLevel_highest_or_self_witness :
    (ancestorNoHigherThanLevel (exampleCluster exampleAllFree) 3 3 5 = some 25 ∧
      ancestorNoHigherThanLevel (exampleCluster exampleAllFree) 6 6 5 = some 28 ∧
      (exampleCluster exampleAllFree 28).parent = none) ∧
    ∃ r, ancestorNoHigherThanLevel (exampleCluster exampleAllFree) 3 3 5 = some r ∧
      Anc (exampleCluster exampleAllFree) r 5 ∧
      ((3 : Int) ≤ (exampleCluster exampleAllFree 5).level → r = 5) ∧
      ((exampleCluster exampleAllFree 5).level ≤ 3 →
        (exampleCluster exampleAllFree r).level ≤ 3 ∧
        (∀ a, Anc (exampleCluster exampleAllFree) a 5 →
          (exampleCluster exampleAllFree a).level ≤ 3 →
          Anc (exampleCluster exampleAllFree) r a ∧
            (exampleCluster exampleAllFree a).level ≤ (exampleCluster exampleAllFree r).level) ∧
        ((exampleCluster exampleAllFree r).level = 3 ∨
          (exampleCluster exampleAllFree r).parent = none)) :=
  ⟨by decide!, ancestorNoHigherThanLevel_highest_or_self (exampleCluster exampleAllFree) 3 5 3
    (exampleCluster_levelsByOne _) (by decide!)⟩

/-- The first loop of `findLCA` ends within the levels between the two cells. -/
theorem findLCA.lift_returns {H : Hierarchy} (hl : LevelsByOne H) (higher : Cell) :
    ∀ (fuel : Nat) (lower : Cell), ((H higher).level - (H lower).level).toNat < fuel →
      ∃ r, findLCA.lift H higher fuel lower = some r := by
  intro fuel
  induction fuel with
  | zero => intro lower h; omega
  | succ fuel ih =>
    intro lower hf
    rw [findLCA.lift]
    split_ifs with h1
    · cases hp : (H lower).parent with
      | none => exact ⟨none, rfl⟩
      | some p =>
        have := hl lower p hp
        exact ih p (by omega)
    · exact ⟨_, rfl⟩

/-- The second loop of `findLCA` ends within the levels above the two cells. -/
theorem findLCA.walk_returns {H : Hierarchy} (hl : LevelsByOne H) (M : Int)
    (hM : ∀ c, (H c).level ≤ M) :
    ∀ (fuel : Nat) (lower higher : Cell), (M - (H lower).level).toNat < fuel →
      ∃ r, findLCA.walk H fuel lower higher = some r := by
  intro fuel
  induction fuel with
  | zero => intro lower higher h; omega
  | succ fuel ih =>
    intro lower higher hf
    rw [findLCA.walk]
    split_ifs with h1
    · cases hp : (H lower).parent with
      | none => exact ⟨none, rfl⟩
      | some pl =>
        cases hq : (H higher).parent with
        | none => exact ⟨none, rfl⟩
        | some ph =>
          have h2 := hl lower pl hp
          have h3 := hM pl
          exact ih pl ph (by omega)
    · exact ⟨_, rfl⟩

/-- The call `findLCA(x, y)` returns when the first cell is not above the second one. -/
theorem findLCA_returns {H : Hierarchy} (hl : LevelsByOne H) (M : Int)
    (hM : ∀ c, (H c).level ≤ M) (fuel : Nat) (x y : Cell)
    (hf : (M - (H x).level).toNat < fuel) :
    ∃ r, findLCA H fuel x y = some r := by
  have h1 := hM y
  obtain ⟨r, hr⟩ := findLCA.lift_returns hl y fuel x (by omega)
  unfold findLCA
  rw [hr]
  cases r with
  | none => exact ⟨none, rfl⟩
  | some l =>
    simp only
    split_ifs with h2
    · exact ⟨_, rfl⟩
    · have h3 := (findLCA.lift_spec hl y fuel x (some l) hr).1 l rfl
      have h4 := Anc.level_le hl h3.1
      exact findLCA.walk_returns hl M hM fuel l y (by omega)

/-- C24: in a hierarchy whose levels go up by one along every parent link and are
bounded, for two cells `x` and `y` with `level(x) <= level(y)` the call `findLCA(x, y)`
returns, given fuel for the levels above `x`; a cell it returns is an ancestor-or-self
of `x` and of `y`, and every common ancestor-or-self of `x` and `y` is an
ancestor-or-self of it; it returns `nil` exactly when `x` and `y` have no common
ancestor-or-self. -/
theorem findLCA_lowest_common_ancestor (H : Hierarchy) (M : Int) (x y : Cell) (fuel : Nat)
    (hl : LevelsByOne H) (hM : ∀ c, (H c).level ≤ M)
    (hxy : (H x).level ≤ (H y).level) (hf : (M - (H x).level).toNat < fuel) :
    ∃ r, findLCA H fuel x y = some r ∧
      (∀ a, r = some a → Anc H a x ∧ Anc H a y ∧ ∀ b, Anc H b x → Anc H b y → Anc H b a) ∧
      (r = none ↔ ¬ ∃ b, Anc H b x ∧ Anc H b y) := by
  obtain ⟨r, hr⟩ := findLCA_returns hl M hM fuel x y hf
  obtain ⟨hsome, hnone⟩ := findLCA_spec hl fuel x y r hxy hr
  refine ⟨r, hr, hsome, ?_⟩
  constructor
  · intro e
    rintro ⟨b, hb⟩
    exact hnone e b hb
  · intro hno
    cases r with
    | none => rfl
    | some a =>
      obtain ⟨h1, h2, _⟩ := hsome a rfl
      exact absurd ⟨a, h1, h2⟩ hno

theorem exampleCluster_level_le (prio : Nat → Int) (c : Nat) :
    (exampleCluster prio c).level ≤ 4 := by
  rw [exampleCluster_level]
  split_ifs <;> omega

/-- C24, in the example cluster: the lowest common ancestor of the leaf cell 0 and the
socket 17 is the half node 24. -/
theorem findLCA_lowest_common_ancestor_witness :
    findLCA (exampleCluster exampleAllFree) 4 0 17 = some (some 24) ∧
    ∃ r, findLCA (exampleCluster exampleAllFree) 4 0 17 = some r ∧
      (∀ a, r = some a → Anc (exampleCluster exampleAllFree) a 0 ∧
        Anc (exampleCluster exampleAllFree) a 17 ∧
        ∀ b, Anc (exampleCluster exampleAllFree) b 0 →
          Anc (exampleCluster exampleAllFree) b 17 → Anc (exampleCluster exampleAllFree) b a) ∧
      (r = none ↔ ¬ ∃ b, Anc (exampleCluster exampleAllFree) b 0 ∧
        Anc (exampleCluster exampleAllFree) b 17) :=
  ⟨by decide!, findLCA_lowest_common_ancestor (exampleCluster exampleAllFree) 4 0 17 4
    (exampleCluster_levelsByOne _) (exampleCluster_level_le _) (by decide!) (by decide!)⟩

/-- The lock-step walk of `findLCA` does not depend on the order of its two cells. -/
theorem findLCA.walk_comm (H : Hierarchy) :
    ∀ (fuel : Nat) (x y : Cell), findLCA.walk H fuel x y = findLCA.walk H fuel y x := by
  intro fuel
  induction fuel with
  | zero => intro x y; rfl
  | succ fuel ih =>
    intro x y
    rw [findLCA.walk, findLCA.walk]
    by_cases h : (H x).parent = (H y).parent
    · simp [CellEqual, h]
    · have h' : ¬ (H y).parent = (H x).parent := fun e => h e.symm
      simp only [CellEqual, h, h', decide_False, Bool.not_false, if_true]
      cases hp : (H x).parent with
      | none => cases hq : (H y).parent <;> rfl
      | some px =>
        cases hq : (H y).parent with
        | none => rfl
        | some py => exact ih px py

/-- C25 (counterexample): in the example cluster `findLCA` of the leaf cell 0 and the
socket 16 above it is the socket, while `findLCA` of the socket and the leaf cell, in
this order, is `nil`. -/
theorem findLCA_not_commutative_counterexample :
    findLCA (exampleCluster exampleAllFree) 10 0 16 = some (some 16) ∧
      findLCA (exampleCluster exampleAllFree) 10 16 0 = some none ∧
      (exampleCluster exampleAllFree 0).level = 1 ∧
      (exampleCluster exampleAllFree 16).level = 2 := by
  refine ⟨by decide!, by decide!, by decide!, by decide!⟩

/-- When the levels go up by one along parent links, the lock-step walk of `findLCA`
from two cells of different levels never meets: whatever it returns is `nil`. -/
theorem findLCA.walk_none_of_level_ne {H : Hierarchy} (hl : LevelsByOne H) :
    ∀ (fuel : Nat) (lower higher : Cell) (r : Option Cell),
      (H lower).level ≠ (H higher).level → findLCA.walk H fuel lower higher = some r →
      r = none := by
  intro fuel
  induction fuel with
  | zero => intro lower higher r _ h; simp [findLCA.walk] at h
  | succ fuel ih =>
    intro lower higher r hne h
    rw [findLCA.walk] at h
    cases hpl : (H lower).parent with
    | none =>
      rw [hpl] at h
      cases hph : (H higher).parent with
      | none =>
        rw [hph] at h
        simp [CellEqual] at h
        exact h.symm
      | some ph =>
        rw [hph] at h
        simp [CellEqual] at h
        exact h.symm
    | some pl =>
      rw [hpl] at h
      cases hph : (H higher).parent with
      | none =>
        rw [hph] at h
        simp [CellEqual] at h
        exact h.symm
      | some ph =>
        rw [hph] at h
        have e1 := hl _ _ hpl
        have e2 := hl _ _ hph
        have hpne : pl ≠ ph := by
          intro e
          subst e
          omega
        simp only [CellEqual, Option.some.injEq, hpne, decide_False, Bool.not_false,
          if_true] at h
        exact ih pl ph r (by omega) h

/-- When the levels go up by one along parent links, `findLCA` called with the cell of
the higher level first returns `nil`, whenever it returns. -/
theorem findLCA_none_of_level_gt {H : Hierarchy} (hl : LevelsByOne H) (fuel : Nat)
    (u v : Cell) (r : Option Cell) (hlev : (H v).level < (H u).level)
    (h : findLCA H fuel u v = some r) : r = none := by
  cases fuel with
  | zero => simp [findLCA, findLCA.lift] at h
  | succ fuel =>
    unfold findLCA at h
    rw [findLCA.lift, if_neg (by omega)] at h
    have hne : u ≠ v := by
      intro e
      subst e
      omega
    simp only [CellEqual, Option.some.injEq, hne, decide_False, Bool.false_eq_true,
      if_false] at h
    exact findLCA.walk_none_of_level_ne hl _ u v r (by omega) h

/-- C25 (amended): `findLCA(c, c) = c` for every cell `c`, and `findLCA(x, y) =
findLCA(y, x)` for every two cells `x` and `y` of the same level, returned or not with
the same fuel. For two cells `u` and `v` of different levels, in a hierarchy whose
levels go up by one along parent links and are bounded by `M`, `findLCA(u, v)` with the
cell `u` of the higher level first returns `nil`, given fuel for the levels above
`u`. -/
theorem findLCA_idempotent_comm_same_level (H : Hierarchy) (fuel : Nat) (c x y : Cell)
    (hlev : (H x).level = (H y).level) :
    findLCA H (fuel + 1) c c = some (some c) ∧
      findLCA H fuel x y = findLCA H fuel y x ∧
      ∀ (u v : Cell) (M : Int), LevelsByOne H → (H v).level < (H u).level →
        (∀ a, (H a).level ≤ M) → (M - (H u).level).toNat < fuel →
        findLCA H fuel u v = some none := by
  refine ⟨?_, ?_, ?_⟩
  · simp [findLCA, findLCA.lift, CellEqual]
  · cases fuel with
    | zero => rfl
    | succ fuel =>
      unfold findLCA
      rw [findLCA.lift, findLCA.lift, if_neg (by omega), if_neg (by omega)]
      simp only [CellEqual]
      by_cases e : x = y
      · subst e; rfl
      · have e' : ¬ y = x := fun h => e h.symm
        simp only [Option.some.injEq, e, e', decide_False]
        exact findLCA.walk_comm H _ x y
  · intro u v M hl huv hM hf
    obtain ⟨r, hr⟩ := findLCA_returns hl M hM fuel u v hf
    rw [hr, findLCA_none_of_level_gt hl fuel u v r huv hr]

/-- C25 (amended), in the example cluster: the leaf cells 0 and 2 have the half node 24
as lowest common ancestor, in both orders, the socket 16 is its own lowest common
ancestor, and `findLCA` of the socket 16 and the leaf cell 0, in this order, is `nil`. -/
theorem findLCA_idempotent_comm_same_level_witness :
    (exampleCluster exampleAllFree 0).level = (exampleCluster exampleAllFree 2).level ∧
      findLCA (exampleCluster exampleAllFree) 3 0 2 = some (some 24) ∧
      findLCA (exampleCluster exampleAllFree) (3 + 1) 16 16 = some (some 16) ∧
      findLCA (exampleCluster exampleAllFree) 3 0 2 =
        findLCA (exampleCluster exampleAllFree) 3 2 0 ∧
      (exampleCluster exampleAllFree 0).level < (exampleCluster exampleAllFree 16).level ∧
      findLCA (exampleCluster exampleAllFree) 3 16 0 = some none :=
  have h := findLCA_idempotent_comm_same_level (exampleCluster exampleAllFree) 3 16 0 2
    (by decide!)
  ⟨by decide!, by decide!, h.1, h.2.1, by decide!,
    h.2.2 16 0 4 (exampleCluster_levelsByOne _) (by decide!) (exampleCluster_level_le _)
      (by decide!)⟩

/-- Moving an element to its place from the right keeps the sorted part sorted. -/
theorem insertFromRight_sorted {α : Type} (less : α → α → Bool)
    (hasym : ∀ a b, less a b = true → less b a = false)
    (hneg : ∀ a b c, less a c = true → less a b = true ∨ less b c = true) (x : α) :
    ∀ ys : List α, ys.Pairwise (fun a b => less a b = false) →
      (insertFromRight less x ys).Pairwise (fun a b => less a b = false) := by
  intro ys
  induction ys with
  | nil => intro _; simp [insertFromRight]
  | cons y ys ih =>
    intro h
    rw [List.pairwise_cons] at h
    unfold insertFromRight
    split_ifs with hxy
    · rw [List.pairwise_cons]
      refine ⟨?_, ih h.2⟩
      intro z hz
      rcases List.mem_cons.mp ((insertFromRight_perm less x ys).subset hz) with e | hz'
      · subst e; exact hasym _ _ hxy
      · exact h.1 z hz'
    · rw [List.pairwise_cons]
      refine ⟨?_, List.pairwise_cons.mpr h⟩
      intro z hz
      rcases List.mem_cons.mp hz with e | hz'
      · subst e; simpa using hxy
      · cases hxz : less x z with
        | false => rfl
        | true =>
          rcases hneg x y z hxz with h1 | h1
          · exact absurd h1 hxy
          · rw [h.1 z hz'] at h1; cases h1

/-- The stable sort puts no element in front of one that is less than it. -/
theorem sortStable_sorted {α : Type} (less : α → α → Bool)
    (hasym : ∀ a b, less a b = true → less b a = false)
    (hneg : ∀ a b c, less a c = true → less a b = true ∨ less b c = true) (l : List α) :
    (sortStable less l).Pairwise (fun a b => less b a = false) := by
  unfold sortStable
  rw [List.pairwise_reverse]
  have key : ∀ (l init : List α), init.Pairwise (fun a b => less a b = false) →
      (l.foldl (fun sortedRev x => insertFromRight less x sortedRev) init).Pairwise
        (fun a b => less a b = false) := by
    intro l
    induction l with
    | nil => intro init h; exact h
    | cons x xs ih =>
      intro init h
      rw [List.foldl_cons]
      exact ih _ (insertFromRight_sorted less hasym hneg x init h)
  exact key l [] List.Pairwise.nil

/-- Two orders of the same elements are sorted to the same list when no two different
elements tie. -/
theorem sortStable_eq_of_perm {α : Type} (less : α → α → Bool)
    (hasym : ∀ a b, less a b = true → less b a = false)
    (hneg : ∀ a b c, less a c = true → less a b = true ∨ less b c = true)
    {l₁ l₂ : List α} (hp : l₁.Perm l₂)
    (hties : ∀ a ∈ l₁, ∀ b ∈ l₁, less a b = false → less b a = false → a = b) :
    sortStable less l₁ = sortStable less l₂ := by
  refine List.Perm.eq_of_sorted ?_ (sortStable_sorted less hasym hneg l₁)
    (sortStable_sorted less hasym hneg l₂)
    ((sortStable_perm less l₁).trans (hp.trans (sortStable_perm less l₂).symm))
  intro a b ha hb h1 h2
  exact hties a ((sortStable_perm less l₁).subset ha)
    b (hp.symm.subset ((sortStable_perm less l₂).subset hb)) h2 h1

/-- Moving an element to its place does not take it across an element tied with it. -/
theorem insertFromRight_filter {α : Type} (less : α → α → Bool) (P : α → Bool)
    (hP : ∀ a b, P a = true → P b = true → less a b = false) (x : α) :
    ∀ ys : List α, (insertFromRight less x ys).filter P = (x :: ys).filter P := by
  intro ys
  induction ys with
  | nil => rfl
  | cons y ys ih =>
    unfold insertFromRight
    split_ifs with hxy
    · rw [List.filter_cons, ih]
      cases hy : P y with
      | false => simp [List.filter_cons, hy]
      | true =>
        have hx : P x = false := by
          cases hx : P x with
          | false => rfl
          | true => rw [hP x y hx hy] at hxy; cases hxy
        simp [List.filter_cons, hy, hx]
    · rfl

/-- The stable sort keeps the order of the elements that tie with each other. -/
theorem sortStable_filter {α : Type} (less : α → α → Bool) (P : α → Bool)
    (hP : ∀ a b, P a = true → P b = true → less a b = false) (l : List α) :
    (sortStable less l).filter P = l.filter P := by
  unfold sortStable
  have key : ∀ (l init : List α),
      (l.foldl (fun sortedRev x => insertFromRight less x sortedRev) init).filter P =
        (l.filter P).reverse ++ init.filter P := by
    intro l
    induction l with
    | nil => intro init; rfl
    | cons x xs ih =>
      intro init
      rw [List.foldl_cons, ih, insertFromRight_filter less P hP]
      cases hx : P x <;> simp [List.filter_cons, hx]
  rw [List.filter_reverse, key l []]
  simp

theorem insertFromRight_map {α β : Type} (less : α → α → Bool) (less' : β → β → Bool)
    (h : α → β) (hless : ∀ a b, less' (h a) (h b) = less a b) (x : α) :
    ∀ ys : List α, insertFromRight less' (h x) (ys.map h) = (insertFromRight less x ys).map h := by
  intro ys
  induction ys with
  | nil => rfl
  | cons y ys ih =>
    rw [List.map_cons, insertFromRight, insertFromRight, hless, ih]
    split_ifs <;> rfl

/-- Sorting the images by a comparison that agrees with the one of the elements gives
the images of the sorted elements. -/
theorem sortStable_map {α β : Type} (less : α → α → Bool) (less' : β → β → Bool)
    (h : α → β) (hless : ∀ a b, less' (h a) (h b) = less a b) (l : List α) :
    sortStable less' (l.map h) = (sortStable less l).map h := by
  unfold sortStable
  have key : ∀ (l init : List α),
      (l.map h).foldl (fun sortedRev x => insertFromRight less' x sortedRev) (init.map h) =
        (l.foldl (fun sortedRev x => insertFromRight less x sortedRev) init).map h := by
    intro l
    induction l with
    | nil => intro init; rfl
    | cons x xs ih =>
      intro init
      rw [List.map_cons, List.foldl_cons, List.foldl_cons,
        insertFromRight_map less less' h hless, ih]
  rw [List.map_reverse]
  exact congrArg List.reverse (key l [])

theorem skuScheduler.sortPodGroups_eq (s : skuScheduler) :
    ∀ gs : List PodGroupSpec, skuScheduler.sortPodGroups s gs =
      gs.map (fun g => (s.countLeafCellNumsOfGroup g, s.sortPodGroup g))
  | [] => by rw [skuScheduler.sortPodGroups]; rfl
  | g :: rest => by
    rw [skuScheduler.sortPodGroups, skuScheduler.sortPodGroups_eq s rest]; rfl

/-- The pods that `sortPodGroup` leaves in a group: the members sorted by their leaf
cell numbers, each repeated `PodMinNumber` times. -/
theorem skuScheduler.sortPodGroup_pods (s : skuScheduler) (g : PodGroupSpec) :
    (s.sortPodGroup g).Pods =
      (sortStable (fun a b => decide (s.countLeafCellNums a > s.countLeafCellNums b))
        g.Pods).flatMap (fun p => List.replicate p.PodMinNumber.toNat p) := by
  cases g
  rw [skuScheduler.sortPodGroup]
  rfl

/-- The child groups that `sortPodGroup` leaves in a group: the child groups sorted by
the leaf cell numbers they have when the group is sorted, each then sorted itself. -/
theorem skuScheduler.sortPodGroup_childGroups (s : skuScheduler) (g : PodGroupSpec) :
    (s.sortPodGroup g).ChildGroups =
      (sortStable (fun a b => decide
          (s.countLeafCellNumsOfGroup a > s.countLeafCellNumsOfGroup b))
        g.ChildGroups).map s.sortPodGroup := by
  cases g with
  | mk pods childGroups w =>
    rw [skuScheduler.sortPodGroup]
    simp only [PodGroupSpec.ChildGroups]
    rw [skuScheduler.sortPodGroups_eq,
      sortStable_map (fun a b => decide
          (s.countLeafCellNumsOfGroup a > s.countLeafCellNumsOfGroup b))
        (fun (a b : Int × PodGroupSpec) => decide (a.1 > b.1))
        (fun g => (s.countLeafCellNumsOfGroup g, s.sortPodGroup g)) (fun _ _ => rfl),
      List.map_map]
    rfl

theorem PodGroupSpec.groupsOfList_eq :
    ∀ gs : List PodGroupSpec, PodGroupSpec.groupsOfList gs = gs.flatMap PodGroupSpec.groups
  | [] => by rw [PodGroupSpec.groupsOfList]; rfl
  | g :: rest => by
    rw [PodGroupSpec.groupsOfList, PodGroupSpec.groupsOfList_eq rest, List.flatMap_cons]

theorem PodGroupSpec.groups_eq (g : PodGroupSpec) :
    g.groups = g :: g.ChildGroups.flatMap PodGroupSpec.groups := by
  cases g
  rw [PodGroupSpec.groups, PodGroupSpec.groupsOfList_eq]
  rfl

mutual
/-- The groups of the sorted tree are the sorted groups of the tree. -/
theorem skuScheduler.groups_sortPodGroup (s : skuScheduler) :
    ∀ g : PodGroupSpec, (s.sortPodGroup g).groups.Perm (g.groups.map s.sortPodGroup)
  | PodGroupSpec.mk pods childGroups w => by
    rw [PodGroupSpec.groups_eq, PodGroupSpec.groups_eq (PodGroupSpec.mk pods childGroups w),
      List.map_cons, skuScheduler.sortPodGroup_childGroups]
    refine List.Perm.cons _ ?_
    simp only [PodGroupSpec.ChildGroups]
    rw [List.flatMap_map]
    have h1 := skuScheduler.groups_sortPodGroups s childGroups
    refine List.Perm.trans ?_ h1
    exact List.Perm.flatMap_right _ (sortStable_perm _ childGroups)
theorem skuScheduler.groups_sortPodGroups (s : skuScheduler) :
    ∀ gs : List PodGroupSpec,
      (gs.flatMap (fun g => (s.sortPodGroup g).groups)).Perm
        ((gs.flatMap PodGroupSpec.groups).map s.sortPodGroup)
  | [] => by simp
  | g :: rest => by
    rw [List.flatMap_cons, List.flatMap_cons, List.map_append]
    exact List.Perm.append (skuScheduler.groups_sortPodGroup s g)
      (skuScheduler.groups_sortPodGroups s rest)
end

theorem count_flatMap_replicate {α : Type} [DecidableEq α] (n : α → Nat) (m : α) :
    ∀ l : List α, (l.flatMap (fun p => List.replicate (n p) p)).count m = l.count m * n m := by
  intro l
  induction l with
  | nil => simp
  | cons x xs ih =>
    rw [List.flatMap_cons, List.count_append, ih, List.count_replicate, List.count_cons]
    by_cases e : x = m
    · subst e; simp [Nat.add_mul, Nat.add_comm]
    · simp [e]

theorem pairwise_flatMap_replicate {α : Type} (R : α → α → Prop) (hrefl : ∀ a, R a a)
    (n : α → Nat) :
    ∀ l : List α, l.Pairwise R → (l.flatMap (fun p => List.replicate (n p) p)).Pairwise R := by
  intro l
  induction l with
  | nil => intro _; simp
  | cons x xs ih =>
    intro h
    rw [List.pairwise_cons] at h
    rw [List.flatMap_cons, List.pairwise_append]
    refine ⟨?_, ih h.2, ?_⟩
    · rw [List.pairwise_replicate]
      exact Or.inr (hrefl x)
    · intro a ha b hb
      rw [List.eq_of_mem_replicate ha]
      obtain ⟨y, hy, hby⟩ := List.mem_flatMap.mp hb
      rw [List.eq_of_mem_replicate hby]
      exact h.1 y hy

theorem filter_flatMap_replicate {α : Type} (P : α → Bool) (n : α → Nat) :
    ∀ l : List α, (l.flatMap (fun p => List.replicate (n p) p)).filter P =
      (l.filter P).flatMap (fun p => List.replicate (n p) p) := by
  intro l
  induction l with
  | nil => rfl
  | cons x xs ih =>
    rw [List.flatMap_cons, List.filter_append, ih, List.filter_replicate, List.filter_cons]
    cases hx : P x <;> simp

/-- C28: every group of the tree that `sortPodGroup` leaves is the sorted form of a
group of the original tree; its pod list holds every member `PodMinNumber` times for
each time the original list holds it, is in non-increasing order of the leaf cell
numbers `levelLeafCellNum[level(cellType)] * cellNumber` of the members, and lists the
members of equal leaf cell number in their original order. -/
theorem skuScheduler_sortPodGroup_pods_sorted_replicated (s : skuScheduler)
    (root : PodGroupSpec) :
    (∀ g ∈ root.groups, s.sortPodGroup g ∈ (s.sortPodGroup root).groups) ∧
    ∀ g' ∈ (s.sortPodGroup root).groups, ∃ g ∈ root.groups, g' = s.sortPodGroup g ∧
      (∀ m, g'.Pods.count m = g.Pods.count m * m.PodMinNumber.toNat) ∧
      g'.Pods.Pairwise (fun a b => s.countLeafCellNums a ≥ s.countLeafCellNums b) ∧
      ∀ d : Int, g'.Pods.filter (fun m => decide (s.countLeafCellNums m = d)) =
        (g.Pods.filter (fun m => decide (s.countLeafCellNums m = d))).flatMap
          (fun p => List.replicate p.PodMinNumber.toNat p) := by
  have hperm := skuScheduler.groups_sortPodGroup s root
  constructor
  · intro g hg
    exact hperm.symm.subset (List.mem_map_of_mem _ hg)
  intro g' hg'
  obtain ⟨g, hg, e⟩ := List.mem_map.mp (hperm.subset hg')
  subst e
  refine ⟨g, hg, rfl, ?_, ?_, ?_⟩
  · intro m
    rw [skuScheduler.sortPodGroup_pods,
      count_flatMap_replicate (fun p : PodGroupMemberSpec => p.PodMinNumber.toNat) m,
      (sortStable_perm _ g.Pods).count_eq]
  · rw [skuScheduler.sortPodGroup_pods]
    refine pairwise_flatMap_replicate
      (fun a b : PodGroupMemberSpec => s.countLeafCellNums a ≥ s.countLeafCellNums b)
      (fun a => Int.le_refl _) _ _ ?_
    refine (sortStable_sorted _ ?_ ?_ g.Pods).imp ?_
    · intro a b h
      simp only [decide_eq_true_eq, decide_eq_false_iff_not] at h ⊢
      omega
    · intro a b c h
      simp only [decide_eq_true_eq] at h ⊢
      omega
    · intro a b h
      simp only [decide_eq_false_iff_not] at h
      omega
  · intro d
    rw [skuScheduler.sortPodGroup_pods,
      filter_flatMap_replicate _ (fun p : PodGroupMemberSpec => p.PodMinNumber.toNat),
      sortStable_filter]
    intro a b ha hb
    simp only [decide_eq_true_eq, decide_eq_false_iff_not] at ha hb ⊢
    omega

/-- C29 (counterexample): a group with the child groups `A`, one pod of 3 leaf cells,
and `B`, two pods (`PodMinNumber = 2`) of 2 leaf cells each. `sortPodGroup` leaves `A`
in front of `B`, their pods being one pod of 3 and two pods of 2 leaf cells: the total
demands of `A` and `B`, 3 and 4, are in increasing order, and so are the leaf cell
numbers `countLeafCellNums` gives the two groups that `sortPodGroup` left. -/
theorem skuScheduler_sortPodGroup_childGroups_counterexample :
    ((exampleSkuScheduler.sortPodGroup
        (PodGroupSpec.mk []
          [PodGroupSpec.mk [⟨1, "leaf", 3⟩] [] "node",
            PodGroupSpec.mk [⟨2, "leaf", 2⟩] [] "node"] "node")).ChildGroups.map
        PodGroupSpec.Pods =
      [[⟨1, "leaf", 3⟩], [⟨2, "leaf", 2⟩, ⟨2, "leaf", 2⟩]]) ∧
    ((exampleSkuScheduler.sortPodGroup
        (PodGroupSpec.mk []
          [PodGroupSpec.mk [⟨1, "leaf", 3⟩] [] "node",
            PodGroupSpec.mk [⟨2, "leaf", 2⟩] [] "node"] "node")).ChildGroups.map
        exampleSkuScheduler.countLeafCellNumsOfGroup = [3, 4]) ∧
    exampleSkuScheduler.demandOfGroup (PodGroupSpec.mk [⟨1, "leaf", 3⟩] [] "node") = 3 ∧
    exampleSkuScheduler.demandOfGroup (PodGroupSpec.mk [⟨2, "leaf", 2⟩] [] "node") = 4 := by
  refine ⟨by decide!, by decide!, by decide!, by decide!⟩

mutual
/-- The count of `countLeafCellNums` is the total demand of a group in whose tree every
member has `PodMinNumber = 1`. -/
theorem skuScheduler.demandOfGroup_eq_count (s : skuScheduler) :
    ∀ g : PodGroupSpec, (∀ g0 ∈ g.groups, ∀ m ∈ g0.Pods, m.PodMinNumber = 1) →
      s.demandOfGroup g = s.countLeafCellNumsOfGroup g
  | PodGroupSpec.mk pods childGroups w => by
    intro h
    rw [skuScheduler.demandOfGroup, skuScheduler.countLeafCellNumsOfGroup]
    rw [PodGroupSpec.groups_eq] at h
    have h1 : ∀ m ∈ pods, m.PodMinNumber = 1 := h _ (List.mem_cons_self _ _)
    have h2 := skuScheduler.demandOfGroups_eq_count s childGroups
      (fun g0 hg0 => h g0 (List.mem_cons_of_mem _ hg0))
    rw [h2]
    congr 1
    congr 1
    apply List.map_congr_left
    intro m hm
    rw [h1 m hm]
    simp
theorem skuScheduler.demandOfGroups_eq_count (s : skuScheduler) :
    ∀ gs : List PodGroupSpec,
      (∀ g0 ∈ gs.flatMap PodGroupSpec.groups, ∀ m ∈ g0.Pods, m.PodMinNumber = 1) →
      s.demandOfGroups gs = s.countLeafCellNumsOfGroups gs
  | [] => by
    intro _
    rw [skuScheduler.demandOfGroups, skuScheduler.countLeafCellNumsOfGroups]
  | g :: rest => by
    intro h
    rw [List.flatMap_cons] at h
    rw [skuScheduler.demandOfGroups, skuScheduler.countLeafCellNumsOfGroups,
      skuScheduler.demandOfGroup_eq_count s g (fun g0 hg0 => h g0 (List.mem_append_left _ hg0)),
      skuScheduler.demandOfGroups_eq_count s rest
        (fun g0 hg0 => h g0 (List.mem_append_right _ hg0))]
end

/-- C29 (amended): every group of the tree that `sortPodGroup` leaves is the sorted form
of a group of the original tree, and its child groups are the sorted forms of the
original child groups, put in non-increasing order of the leaf cell numbers that
`countLeafCellNums` gives the original child groups, in which every member is counted
once whatever its `PodMinNumber`; child groups of equal number keep their order. That
number is the total demand of a child group in whose tree every member has
`PodMinNumber = 1`. -/
theorem skuScheduler_sortPodGroup_childGroups_by_count (s : skuScheduler)
    (root : PodGroupSpec) :
    ∀ g' ∈ (s.sortPodGroup root).groups, ∃ g ∈ root.groups, g' = s.sortPodGroup g ∧
      ∃ sorted : List PodGroupSpec, sorted.Perm g.ChildGroups ∧
        g'.ChildGroups = sorted.map s.sortPodGroup ∧
        sorted.Pairwise (fun a b =>
          s.countLeafCellNumsOfGroup a ≥ s.countLeafCellNumsOfGroup b) ∧
        (∀ d : Int, sorted.filter (fun a => decide (s.countLeafCellNumsOfGroup a = d)) =
          g.ChildGroups.filter (fun a => decide (s.countLeafCellNumsOfGroup a = d))) ∧
        ∀ a ∈ sorted, (∀ g0 ∈ a.groups, ∀ m ∈ g0.Pods, m.PodMinNumber = 1) →
          s.countLeafCellNumsOfGroup a = s.demandOfGroup a := by
  intro g' hg'
  obtain ⟨g, hg, e⟩ := List.mem_map.mp ((skuScheduler.groups_sortPodGroup s root).subset hg')
  subst e
  refine ⟨g, hg, rfl, _, sortStable_perm _ g.ChildGroups,
    skuScheduler.sortPodGroup_childGroups s g, ?_, ?_, ?_⟩
  · refine (sortStable_sorted _ ?_ ?_ g.ChildGroups).imp ?_
    · intro a b h
      simp only [decide_eq_true_eq, decide_eq_false_iff_not] at h ⊢
      omega
    · intro a b c h
      simp only [decide_eq_true_eq] at h ⊢
      omega
    · intro a b h
      simp only [decide_eq_false_iff_not] at h
      omega
  · intro d
    apply sortStable_filter
    intro a b ha hb
    simp only [decide_eq_true_eq, decide_eq_false_iff_not] at ha hb ⊢
    omega
  · intro a _ h
    exact (skuScheduler.demandOfGroup_eq_count s a h).symm

/-- C29 (amended), on a group with the child groups `A`, one pod of 3 leaf cells, and
`B`, two pods of 2 leaf cells each: the sorted group is a group of the tree that
`sortPodGroup` leaves, so its child groups are in the order of the numbers 3 and 2
that `countLeafCellNums` gives `A` and `B`. -/
theorem skuScheduler_sortPodGroup_childGroups_by_count_witness :
    [PodGroupSpec.mk [⟨1, "leaf", 3⟩] [] "node",
        PodGroupSpec.mk [⟨2, "leaf", 2⟩] [] "node"].map
      exampleSkuScheduler.countLeafCellNumsOfGroup = [3, 2] ∧
    ∃ g ∈ (PodGroupSpec.mk []
          [PodGroupSpec.mk [⟨1, "leaf", 3⟩] [] "node",
            PodGroupSpec.mk [⟨2, "leaf", 2⟩] [] "node"] "node").groups,
      exampleSkuScheduler.sortPodGroup (PodGroupSpec.mk []
          [PodGroupSpec.mk [⟨1, "leaf", 3⟩] [] "node",
            PodGroupSpec.mk [⟨2, "leaf", 2⟩] [] "node"] "node") =
        exampleSkuScheduler.sortPodGroup g ∧
      ∃ sorted : List PodGroupSpec, sorted.Perm g.ChildGroups ∧
        (exampleSkuScheduler.sortPodGroup (PodGroupSpec.mk []
          [PodGroupSpec.mk [⟨1, "leaf", 3⟩] [] "node",
            PodGroupSpec.mk [⟨2, "leaf", 2⟩] [] "node"] "node")).ChildGroups =
          sorted.map exampleSkuScheduler.sortPodGroup ∧
        sorted.Pairwise (fun a b =>
          exampleSkuScheduler.countLeafCellNumsOfGroup a ≥
            exampleSkuScheduler.countLeafCellNumsOfGroup b) ∧
        (∀ d : Int,
          sorted.filter (fun a => decide (exampleSkuScheduler.countLeafCellNumsOfGroup a = d)) =
          g.ChildGroups.filter
            (fun a => decide (exampleSkuScheduler.countLeafCellNumsOfGroup a = d))) ∧
        ∀ a ∈ sorted, (∀ g0 ∈ a.groups, ∀ m ∈ g0.Pods, m.PodMinNumber = 1) →
          exampleSkuScheduler.countLeafCellNumsOfGroup a =
            exampleSkuScheduler.demandOfGroup a :=
  ⟨by decide!, skuScheduler_sortPodGroup_childGroups_by_count exampleSkuScheduler
    (PodGroupSpec.mk []
      [PodGroupSpec.mk [⟨1, "leaf", 3⟩] [] "node",
        PodGroupSpec.mk [⟨2, "leaf", 2⟩] [] "node"] "node") _
    (by rw [PodGroupSpec.groups_eq]; exact List.mem_cons_self _ _)⟩

theorem clusterView.Less_asymm (a b : node) :
    clusterView.Less a b = true → clusterView.Less b a = false := by
  intro h
  rw [← Bool.not_eq_true, clusterView.Less_iff_nodeFavoured]
  rw [clusterView.Less_iff_nodeFavoured] at h
  unfold nodeFavoured at h ⊢
  cases ha : a.healthy <;> cases hb : b.healthy <;> cases hsa : a.suggested <;>
    cases hsb : b.suggested <;> simp [ha, hb, hsa, hsb] at h ⊢ <;> omega

theorem clusterView.Less_negTrans (a b c : node) :
    clusterView.Less a c = true → clusterView.Less a b = true ∨ clusterView.Less b c = true := by
  intro h
  rw [clusterView.Less_iff_nodeFavoured] at h ⊢
  rw [clusterView.Less_iff_nodeFavoured]
  unfold nodeFavoured at h ⊢
  cases ha : a.healthy <;> cases hb : b.healthy <;> cases hc : c.healthy <;>
    cases hsa : a.suggested <;> cases hsb : b.suggested <;> cases hsc : c.suggested <;>
    simp [ha, hb, hc, hsa, hsb, hsc] at h ⊢ <;> omega

/-- The results of `mapM` on two orders of a list are two orders of one list. -/
theorem mapM_option_perm {α β : Type} (f : α → Option β) {l₁ l₂ : List α}
    (hp : l₁.Perm l₂) :
    ∀ v₁, l₁.mapM f = some v₁ → ∃ v₂, l₂.mapM f = some v₂ ∧ v₁.Perm v₂ := by
  induction hp with
  | nil => intro v₁ h; exact ⟨v₁, h, List.Perm.refl _⟩
  | cons a _ ih =>
    intro v₁ h
    simp only [List.mapM_cons, Option.pure_def, Option.bind_eq_bind, Option.bind_eq_some,
      Option.some.injEq] at h ⊢
    obtain ⟨b, hb, r, hr, e⟩ := h
    obtain ⟨r₂, hr₂, hperm⟩ := ih r hr
    subst e
    exact ⟨b :: r₂, ⟨b, hb, r₂, hr₂, rfl⟩, List.Perm.cons b hperm⟩
  | swap a b l =>
    intro v₁ h
    simp only [List.mapM_cons, Option.pure_def, Option.bind_eq_bind, Option.bind_eq_some,
      Option.some.injEq] at h ⊢
    obtain ⟨y, hy, r, ⟨x, hx, r', hr', e'⟩, e⟩ := h
    subst e; subst e'
    exact ⟨x :: y :: r', ⟨x, hx, y :: r', ⟨y, hy, r', hr', rfl⟩, rfl⟩, List.Perm.swap x y r'⟩
  | trans _ _ ih₁ ih₂ =>
    intro v₁ h
    obtain ⟨v₂, h₂, p₁⟩ := ih₁ v₁ h
    obtain ⟨v₃, h₃, p₂⟩ := ih₂ v₂ h₂
    exact ⟨v₃, h₃, p₁.trans p₂⟩

theorem mapM_option_perm_none {α β : Type} (f : α → Option β) {l₁ l₂ : List α}
    (hp : l₁.Perm l₂) (h : l₁.mapM f = none) : l₂.mapM f = none := by
  cases h₂ : l₂.mapM f with
  | none => rfl
  | some v₂ =>
    obtain ⟨v₁, h₁, _⟩ := mapM_option_perm f hp.symm v₂ h₂
    rw [h] at h₁; cases h₁

/-- One pass of `Schedule` on two orders of the node list gives the same result when no
two different nodes of the updated view tie in `clusterView.Less`. -/
theorem topologyAwareScheduler.pass_perm (H : Hierarchy) (t : topologyAwareScheduler)
    (cv2 : clusterView) (q : Int) (suggestedNodes : List String) (ignoreSuggestedNodes : Bool)
    (leafCellNums : List Int) (hperm : t.cv.Perm cv2)
    (hties : ∀ v, t.updateClusterView H q suggestedNodes ignoreSuggestedNodes = some v →
      ∀ a ∈ v, ∀ b ∈ v, clusterView.Less a b = false → clusterView.Less b a = false → a = b) :
    t.pass H q suggestedNodes ignoreSuggestedNodes leafCellNums =
      topologyAwareScheduler.pass H { t with cv := cv2 } q suggestedNodes
        ignoreSuggestedNodes leafCellNums := by
  unfold topologyAwareScheduler.pass
  unfold topologyAwareScheduler.updateClusterView at hties ⊢
  simp only
  cases h₁ : t.cv.mapM (fun n =>
      (nodeHealthyAndInSuggested H (n.updateUsedLeafCellNumForPriority H q t.crossPriorityPack)
        suggestedNodes ignoreSuggestedNodes).map
        (fun r => { n.updateUsedLeafCellNumForPriority H q t.crossPriorityPack with
          healthy := r.1, suggested := r.2.1, nodeAddress := r.2.2 })) with
  | none =>
    rw [mapM_option_perm_none _ hperm h₁]
  | some v₁ =>
    obtain ⟨v₂, h₂, hp⟩ := mapM_option_perm _ hperm v₁ h₁
    rw [h₂]
    simp only
    unfold findNodesForPods
    rw [sortStable_eq_of_perm clusterView.Less clusterView.Less_asymm
      clusterView.Less_negTrans hp (hties v₁ h₁)]

/-- C21 (counterexample): on the free example cluster a pod of one leaf cell gets the
leaf cell 0 of node 28 when the node list stands in the order 28, 29, and the leaf cell
8 of node 29 when it stands in the order 29, 28: the two nodes tie, and the stable sort
keeps them in the order of the list. -/
theorem topologyAwareScheduler_Schedule_order_counterexample :
    exampleTopologyScheduler.cv.Perm [node.ofCell 29, node.ofCell 28] ∧
      exampleTopologyScheduler.Schedule (exampleCluster exampleAllFree) 100 [(1, 1)] 0 [] true =
        some ([(1, [[0]])], FailedReason.none) ∧
      topologyAwareScheduler.Schedule (exampleCluster exampleAllFree) 100
        { exampleTopologyScheduler with cv := [node.ofCell 29, node.ofCell 28] }
        [(1, 1)] 0 [] true = some ([(1, [[8]])], FailedReason.none) := by
  refine ⟨List.Perm.swap _ _ _, by decide!, by decide!⟩

/-- C21 (amended): for one snapshot and the same arguments, `Schedule` returns the same
result (returned or not with the same fuel) on two orders of the node list, provided no
two different nodes of the view tie on the four keys of `clusterView.Less` in the pass
at `opportunisticPriority`. -/
theorem topologyAwareScheduler_Schedule_order_without_ties (H : Hierarchy) (fuel : Nat)
    (t : topologyAwareScheduler) (cv2 : clusterView) (podLeafCellNumbers : List (Int × Int))
    (p : Int) (suggestedNodes : List String) (ignoreSuggestedNodes : Bool)
    (hperm : t.cv.Perm cv2)
    (hties : ∀ v, t.updateClusterView H opportunisticPriority suggestedNodes
        ignoreSuggestedNodes = some v →
      ∀ a ∈ v, ∀ b ∈ v, clusterView.Less a b = false → clusterView.Less b a = false → a = b) :
    t.Schedule H fuel podLeafCellNumbers p suggestedNodes ignoreSuggestedNodes =
      topologyAwareScheduler.Schedule H fuel { t with cv := cv2 } podLeafCellNumbers p
        suggestedNodes ignoreSuggestedNodes := by
  have hsel : ∀ leafCellNums,
      t.selectNodes H p suggestedNodes ignoreSuggestedNodes leafCellNums =
        topologyAwareScheduler.selectNodes H { t with cv := cv2 } p suggestedNodes
          ignoreSuggestedNodes leafCellNums := by
    intro leafCellNums
    unfold topologyAwareScheduler.selectNodes
    rw [← topologyAwareScheduler.pass_perm H t cv2 opportunisticPriority suggestedNodes
      ignoreSuggestedNodes leafCellNums hperm hties]
  unfold topologyAwareScheduler.Schedule
  simp only
  rw [hsel]

/-- C21 (amended), on the example cluster with leaf cell 1 used at priority 0: node 28
has a used leaf cell and node 29 has none, so the nodes do not tie, and a pod of one
leaf cell gets the leaf cell 0 of node 28 in both orders of the node list. -/
theorem topologyAwareScheduler_Schedule_order_without_ties_witness :
    exampleTopologyScheduler.Schedule (exampleCluster exampleOneUsed) 100 [(1, 1)] 0 [] true =
        some ([(1, [[0]])], FailedReason.none) ∧
      exampleTopologyScheduler.Schedule (exampleCluster exampleOneUsed) 100 [(1, 1)] 0 [] true =
        topologyAwareScheduler.Schedule (exampleCluster exampleOneUsed) 100
          { exampleTopologyScheduler with cv := [node.ofCell 29, node.ofCell 28] }
          [(1, 1)] 0 [] true :=
  ⟨by decide!,
    topologyAwareScheduler_Schedule_order_without_ties (exampleCluster exampleOneUsed) 100
      exampleTopologyScheduler [node.ofCell 29, node.ofCell 28] [(1, 1)] 0 [] true
      (List.Perm.swap _ _ _)
      (fun v hv => by
        have e : exampleTopologyScheduler.updateClusterView (exampleCluster exampleOneUsed)
            opportunisticPriority [] true =
            some [node.mk 28 7 1 0 true true "", node.mk 29 8 0 0 true true ""] := by decide!
        rw [e] at hv
        cases hv
        decide)⟩

/-- For one cell to pick, the first candidate is the first choice whose lowest common
ancestor is lowest. -/
theorem FirstLowest.one {H : Hierarchy} (hl : LevelsByOne H) {cands : CellList}
    (hlen : 1 ≤ cands.length) (hleaf : ∀ c ∈ cands, (H c).level = 1) :
    FirstLowest H cands 1 [0] := by
  obtain ⟨c0, rest, e⟩ : ∃ c0 rest, cands = c0 :: rest := by
    cases cands with
    | nil => simp at hlen
    | cons c0 rest => exact ⟨c0, rest, rfl⟩
  subst e
  refine ⟨⟨rfl, by simp, by simp⟩, c0, ?_, ?_, ?_⟩
  · have : cellsAt (c0 :: rest) [0] = [c0] := by simp [cellsAt]
    rw [this]
    exact IsLCA.singleton H c0
  · intro c hc b hb
    rw [(hleaf c0 (List.mem_cons_self _ _))]
    have hlen1 := (removeIndices_combo hc).2.2.2
    obtain ⟨x, hx⟩ : ∃ x, x ∈ cellsAt (c0 :: rest) c := by
      cases hcs : cellsAt (c0 :: rest) c with
      | nil => rw [hcs] at hlen1; simp at hlen1
      | cons x _ => exact ⟨x, List.mem_cons_self _ _⟩
    have h1 := Anc.level_le hl (hb.1 x hx)
    rw [hleaf x (mem_of_mem_cellsAt hx)] at h1
    exact h1
  · intro c hc hlex
    obtain ⟨hc1, _, _⟩ := hc
    cases c with
    | nil => simp at hc1
    | cons i tl =>
      cases tl with
      | cons _ _ => simp at hc1
      | nil =>
        cases hlex with
        | cons h => cases h
        | rel h => omega

/-- C30: for a node `n`, `k >= 1` and a list of at least `k` distinct leaf cells of `n`,
`findLeafCellsInNode` returns, given enough fuel, the cells at the positions `idxs` and
the other candidates in their order, where `idxs` is, among the choices of `k` positions
whose lowest common ancestor is at the lowest level, the first one in the lexicographic
order of the ascending positions; for `k = 1` it returns the first candidate and the
candidates after it. -/
theorem findLeafCellsInNode_lexicographic_first (H : Hierarchy) (n : Cell) (k : Int)
    (p : Int) (cands : CellList) (lln : LevelLeafCellNum)
    (hl : LevelsByOne H) (hk : 1 ≤ k) (hkn : k ≤ cands.length) (hnd : cands.Nodup)
    (hleaf : ∀ c ∈ cands, (H c).level = 1 ∧ Anc H n c) (hcount : LeafCountBound H lln)
    (hn : (H n).level < highestLevel) :
    ∃ N, ∀ fuel, N ≤ fuel → ∃ idxs,
      findLeafCellsInNode H fuel n k p (some cands) lln =
        some (cellsAt cands idxs, removeIndices cands 0 idxs) ∧
      FirstLowest H cands k.toNat idxs ∧
      (k = 1 → idxs = [0] ∧ cellsAt cands idxs = cands.take 1 ∧
        removeIndices cands 0 idxs = cands.drop 1) := by
  obtain ⟨N, hN⟩ := findLeafCellsInNode_first p hl hk hkn hnd hleaf hcount hn
  refine ⟨N, fun fuel hfuel => ?_⟩
  obtain ⟨idxs, hres, hidx⟩ := hN fuel hfuel
  refine ⟨idxs, hres, hidx, ?_⟩
  intro hk1
  subst hk1
  have hone : FirstLowest H cands 1 [0] :=
    FirstLowest.one hl (by omega) (fun c hc => (hleaf c hc).1)
  have e : idxs = [0] := FirstLowest.unique hidx hone
  subst e
  cases cands with
  | nil => simp at hkn
  | cons c0 rest => simp [cellsAt, removeIndices]

/-- C30, on node 28 of the example cluster with leaf cell 0 used at priority 0: a pod of
one leaf cell gets the first of the candidates 1 to 7, the leaf cell 1, and two such
pods scheduled together get the leaf cells 1 and 2. -/
theorem findLeafCellsInNode_lexicographic_first_witness :
    (candidateLeafCells (exampleCluster exampleLeafZeroUsed) 100 28 0 none =
        some [1, 2, 3, 4, 5, 6, 7] ∧
      exampleTopologyScheduler.Schedule (exampleCluster exampleLeafZeroUsed) 100 [(1, 2)] 0 []
        true = some ([(1, [[1], [2]])], FailedReason.none)) ∧
    ∃ N, ∀ fuel, N ≤ fuel → ∃ idxs,
      findLeafCellsInNode (exampleCluster exampleLeafZeroUsed) fuel 28 1 0
        (some [1, 2, 3, 4, 5, 6, 7]) exampleLevelLeafCellNum =
        some (cellsAt [1, 2, 3, 4, 5, 6, 7] idxs, removeIndices [1, 2, 3, 4, 5, 6, 7] 0 idxs) ∧
      FirstLowest (exampleCluster exampleLeafZeroUsed) [1, 2, 3, 4, 5, 6, 7]
        (1 : Int).toNat idxs ∧
      ((1 : Int) = 1 → idxs = [0] ∧
        cellsAt [1, 2, 3, 4, 5, 6, 7] idxs = ([1, 2, 3, 4, 5, 6, 7] : CellList).take 1 ∧
        removeIndices [1, 2, 3, 4, 5, 6, 7] 0 idxs =
          ([1, 2, 3, 4, 5, 6, 7] : CellList).drop 1) :=
  ⟨⟨by decide!, by decide!⟩,
    findLeafCellsInNode_lexicographic_first (exampleCluster exampleLeafZeroUsed) 28 1 0
      [1, 2, 3, 4, 5, 6, 7] exampleLevelLeafCellNum
      (exampleCluster_levelsByOne _) (by decide) (by decide) (by decide)
      (fun c hc => exampleCluster_anc_node28 _ c
        ((by decide : ∀ x ∈ ([1, 2, 3, 4, 5, 6, 7] : List Nat), x < 8) c hc))
      (exampleCluster_leafCountBound _) (by decide)⟩

/-- A loop over the cells `full` that appends an entry for every kept cell whose
ancestor `anc c` is not recorded yet: it returns, its entries are kept cells of `full`,
and, when the cells come in non-increasing order of `lev` and the ancestor of a kept
cell is the cell itself or a kept cell of `full` with a higher `lev`, no cell is recorded
twice and every recorded cell is its own ancestor. -/
theorem viewLoop_spec {ε : Type} (cellOf : ε → Cell) (keep : Cell → Prop)
    (anc : Cell → Option Cell) (lev : Cell → Int) (f : List ε → Cell → Option (List ε))
    (full : CellList)
    (hskip : ∀ cv c, c ∈ full → ¬ keep c → f cv c = some cv)
    (hhit : ∀ cv c a, c ∈ full → keep c → anc c = some a → a ∈ cv.map cellOf →
      f cv c = some cv)
    (hadd : ∀ cv c a, c ∈ full → keep c → anc c = some a → a ∉ cv.map cellOf →
      ∃ e, f cv c = some (cv ++ [e]) ∧ cellOf e = c)
    (htotal : ∀ c ∈ full, keep c → ∃ a, anc c = some a) :
    ∀ (post pre : CellList) (cv0 : List ε), full = pre ++ post →
      (∀ e ∈ cv0, cellOf e ∈ pre ∧ keep (cellOf e)) →
      ∃ cv, post.foldlM f cv0 = some cv ∧ (∀ e ∈ cv, cellOf e ∈ full ∧ keep (cellOf e)) ∧
        (full.Pairwise (fun x y => lev x ≥ lev y) →
          (∀ c ∈ full, keep c → ∀ a, anc c = some a →
            anc a = some a ∧ (a = c ∨ (a ∈ full ∧ lev a > lev c ∧ keep a))) →
          (cv0.map cellOf).Nodup → (∀ e ∈ cv0, anc (cellOf e) = some (cellOf e)) →
          (∀ c ∈ pre, keep c → anc c = some c → c ∈ cv0.map cellOf) →
          (cv.map cellOf).Nodup ∧ ∀ e ∈ cv, anc (cellOf e) = some (cellOf e)) := by
  intro post
  induction post with
  | nil =>
    intro pre cv0 hfull hweak
    rw [List.append_nil] at hfull
    subst hfull
    exact ⟨cv0, rfl, hweak, fun _ _ h1 h2 _ => ⟨h1, h2⟩⟩
  | cons c post ih =>
    intro pre cv0 hfull hweak
    have hfull' : full = (pre ++ [c]) ++ post := by rw [hfull]; simp
    have hc : c ∈ full := by rw [hfull]; simp
    have hweak' : ∀ e ∈ cv0, cellOf e ∈ pre ++ [c] ∧ keep (cellOf e) :=
      fun e he => ⟨List.mem_append_left _ (hweak e he).1, (hweak e he).2⟩
    rw [List.foldlM_cons]
    by_cases hk : keep c
    · obtain ⟨a, ha⟩ := htotal c hc hk
      by_cases hmem : a ∈ cv0.map cellOf
      · rw [hhit cv0 c a hc hk ha hmem]
        obtain ⟨cv, hcv, hw, hs⟩ := ih (pre ++ [c]) cv0 hfull' hweak'
        refine ⟨cv, hcv, hw, fun hsorted hanc h1 h2 h3 => hs hsorted hanc h1 h2 ?_⟩
        intro c' hc' hk' hself
        rcases List.mem_append.mp hc' with hc' | hc'
        · exact h3 c' hc' hk' hself
        · rw [List.mem_singleton] at hc'
          subst hc'
          rw [ha] at hself
          cases hself
          exact hmem
      · obtain ⟨e, he, hce⟩ := hadd cv0 c a hc hk ha hmem
        rw [he]
        obtain ⟨cv, hcv, hw, hs⟩ := ih (pre ++ [c]) (cv0 ++ [e]) hfull' (by
          intro e' he'
          rcases List.mem_append.mp he' with he' | he'
          · exact hweak' e' he'
          · rw [List.mem_singleton] at he'
            subst he'
            rw [hce]
            exact ⟨by simp, hk⟩)
        refine ⟨cv, hcv, hw, fun hsorted hanc h1 h2 h3 => ?_⟩
        have hac : a = c := by
          obtain ⟨haa, hcase⟩ := hanc c hc hk a ha
          rcases hcase with e1 | ⟨hafull, hlev, hka⟩
          · exact e1
          · exfalso
            rw [hfull] at hafull hsorted
            rcases List.mem_append.mp hafull with hpre | hpost
            · exact hmem (h3 a hpre hka haa)
            · have hp := (List.pairwise_append.mp hsorted).2.1
              rw [List.pairwise_cons] at hp
              rcases List.mem_cons.mp hpost with e2 | hpost
              · rw [e2] at hlev; omega
              · have := hp.1 a hpost
                omega
        subst hac
        refine hs hsorted hanc ?_ ?_ ?_
        · rw [List.map_append, List.map_singleton, hce]
          refine List.Nodup.append h1 (List.nodup_singleton _) ?_
          intro x hx hx'
          rw [List.mem_singleton] at hx'
          subst hx'
          exact hmem hx
        · intro e' he'
          rcases List.mem_append.mp he' with he' | he'
          · exact h2 e' he'
          · rw [List.mem_singleton] at he'
            subst he'
            rw [hce]
            exact ha
        · intro c' hc' hk' hself
          rw [List.map_append, List.map_singleton, hce]
          rcases List.mem_append.mp hc' with hc' | hc'
          · exact List.mem_append_left _ (h3 c' hc' hk' hself)
          · exact List.mem_append_right _ hc'
    · rw [hskip cv0 c hc hk]
      obtain ⟨cv, hcv, hw, hs⟩ := ih (pre ++ [c]) cv0 hfull' hweak'
      refine ⟨cv, hcv, hw, fun hsorted hanc h1 h2 h3 => hs hsorted hanc h1 h2 ?_⟩
      intro c' hc' hk' hself
      rcases List.mem_append.mp hc' with hc' | hc'
      · exact h3 c' hc' hk' hself
      · rw [List.mem_singleton] at hc'
        subst hc'
        exact absurd hk' hk

/-- A loop over the levels with a loop over the cells of each level is one loop over
the cells of all the levels. -/
theorem foldlM_flatMap {α β γ : Type} (g : α → List β) (f : γ → β → Option γ) :
    ∀ (l : List α) (init : γ),
      l.foldlM (fun acc x => (g x).foldlM f acc) init = (l.flatMap g).foldlM f init := by
  intro l
  induction l with
  | nil => intro init; rfl
  | cons x xs ih =>
    intro init
    rw [List.foldlM_cons, List.flatMap_cons, List.foldlM_append]
    cases h : (g x).foldlM f init with
    | none => rfl
    | some b => exact ih b

theorem levelsDownFrom_pairwise (L : Int) : (levelsDownFrom L).Pairwise (fun a b => a > b) := by
  unfold levelsDownFrom
  rw [List.pairwise_map, List.pairwise_reverse]
  exact (List.pairwise_lt_range L.toNat).imp (by intro a b h; omega)

theorem mem_levelsDownFrom_of_le {l L : Int} (h1 : 1 ≤ l) (h2 : l ≤ L) :
    l ∈ levelsDownFrom L := by
  unfold levelsDownFrom
  simp only [List.mem_map, List.mem_reverse, List.mem_range]
  exact ⟨(l - 1).toNat, by omega, by omega⟩

theorem ChainCellList.atLevel_pos {ccl : ChainCellList} {l : Int} {c : Cell}
    (h : c ∈ ccl.atLevel l) : 1 ≤ l ∧ l ≤ ccl.length := by
  unfold ChainCellList.atLevel at h
  split_ifs at h with h1
  · refine ⟨h1, ?_⟩
    by_contra hlt
    rw [List.getD_eq_default _ _ (by omega)] at h
    cases h
  · cases h

/-- The cells of the levels `L, L - 1, ..., 1` of a chain, in the order of the loops of
the two view constructors. -/
theorem chainCells_mem {ccl : ChainCellList} {L : Int} {c : Cell} :
    c ∈ (levelsDownFrom L).flatMap ccl.atLevel ↔ ∃ l, l ≤ L ∧ c ∈ ccl.atLevel l := by
  rw [List.mem_flatMap]
  constructor
  · rintro ⟨l, hl, hc⟩
    exact ⟨l, (mem_levelsDownFrom hl).2, hc⟩
  · rintro ⟨l, hl, hc⟩
    exact ⟨l, mem_levelsDownFrom_of_le (ChainCellList.atLevel_pos hc).1 hl, hc⟩

theorem chainCells_sorted {H : Hierarchy} {ccl : ChainCellList} (hc : ChainOk H ccl) (L : Int) :
    ((levelsDownFrom L).flatMap ccl.atLevel).Pairwise
      (fun x y => (H x).level ≥ (H y).level) := by
  rw [List.pairwise_flatMap]
  constructor
  · intro l _
    rw [List.pairwise_iff_forall_sublist]
    intro a b hab
    have ha := hc.level_eq l a (hab.subset (by simp))
    have hb := hc.level_eq l b (hab.subset (by simp))
    omega
  · refine (levelsDownFrom_pairwise L).imp ?_
    intro l1 l2 h x hx y hy
    rw [hc.level_eq l1 x hx, hc.level_eq l2 y hy]
    omega

/-- An ancestor of a listed cell is listed, at its level. -/
theorem ChainOk.anc_mem {H : Hierarchy} {ccl : ChainCellList} (hc : ChainOk H ccl)
    {a c : Cell} (h : Anc H a c) : ∀ l, c ∈ ccl.atLevel l → a ∈ ccl.atLevel (H a).level := by
  induction h with
  | refl => intro l hl; rw [hc.level_eq l _ hl]; exact hl
  | step hp _ ih => intro l hl; exact ih (l + 1) (hc.parent_mem l _ _ hl hp)

theorem exampleChain_mem (l : Int) (c : Nat) :
    c ∈ exampleChain.atLevel l ↔
      (l = 1 ∧ c < 16) ∨ (l = 2 ∧ 16 ≤ c ∧ c < 24) ∨ (l = 3 ∧ 24 ≤ c ∧ c < 28) ∨
        (l = 4 ∧ 28 ≤ c ∧ c < 30) := by
  unfold ChainCellList.atLevel
  split_ifs with h1
  · have hl : l = ((l - 1).toNat : Int) + 1 := by omega
    generalize (l - 1).toNat = n at hl
    subst hl
    match n with
    | 0 => simp only [exampleChain, List.getD_cons_zero, List.mem_range]; omega
    | 1 =>
      simp only [exampleChain, List.getD_cons_succ, List.getD_cons_zero, List.mem_range'_1]
      omega
    | 2 =>
      simp only [exampleChain, List.getD_cons_succ, List.getD_cons_zero, List.mem_range'_1]
      omega
    | 3 =>
      simp only [exampleChain, List.getD_cons_succ, List.getD_cons_zero, List.mem_cons,
        List.mem_singleton, List.not_mem_nil, or_false]
      omega
    | n + 4 =>
      simp only [exampleChain, List.getD_cons_succ, List.getD_nil, List.not_mem_nil,
        false_iff]
      omega
  · simp only [List.not_mem_nil, false_iff]
    omega

theorem exampleChain_chainOk (prio : Nat → Int) : ChainOk (exampleCluster prio) exampleChain := by
  constructor
  · intro l c h
    exact exampleChain_level prio l c h
  · intro l c p h hp
    rw [exampleCluster_parent] at hp
    rw [exampleChain_mem] at h ⊢
    split_ifs at hp <;> simp only [Option.some.injEq] at hp <;> subst hp <;> omega

theorem exampleCluster_atOrHigherThanNode (prio : Nat → Int) (c : Nat) :
    (exampleCluster prio c).atOrHigherThanNode = decide (28 ≤ c ∧ c < 30) := by
  unfold exampleCluster
  split_ifs with h1 h2 h3 h4 <;> simp only [exampleCell] <;> simp <;> omega

theorem exampleChain_nodeBoundaryOk (prio : Nat → Int) :
    NodeBoundaryOk (exampleCluster prio) exampleChain := by
  constructor
  · intro l h1 h2 he
    have h3 : l ≤ 4 := h2
    have hmem : ∀ c : Nat, c ∉ exampleChain.atLevel l := by
      intro c; rw [he]; simp
    have := hmem 0
    have := hmem 16
    have := hmem 24
    have := hmem 28
    simp only [exampleChain_mem] at *
    omega
  · intro l c c' h h'
    rw [exampleCluster_atOrHigherThanNode, exampleCluster_atOrHigherThanNode]
    rw [exampleChain_mem] at h h'
    simp only [decide_eq_decide]
    omega

theorem clusterView.containsCell_iff (cv : clusterView) (a : Cell) :
    cv.containsCell a = true ↔ a ∈ cv.map node.c := by
  unfold clusterView.containsCell CellEqual
  simp only [List.any_eq_true, decide_eq_true_eq, Option.some.injEq, List.mem_map]
  constructor
  · rintro ⟨n, hn, e⟩; exact ⟨n, hn, e.symm⟩
  · rintro ⟨n, hn, e⟩; exact ⟨n, hn, e.symm⟩

/-- The first loop of `newClusterView` on a chain with a node boundary: the level it
stops at has only cells at or above node level, and the levels below have none. -/
theorem newClusterView.nodeLevel_spec {H : Hierarchy} {ccl : ChainCellList}
    (hb : NodeBoundaryOk H ccl) :
    ∀ (remaining l : Nat), 1 ≤ l → l + remaining = ccl.length + 1 →
      ∃ L : Int, newClusterView.nodeLevel H ccl remaining l = some L ∧ (l : Int) ≤ L ∧
        L ≤ ccl.length + 1 ∧
        (∀ l' : Int, (l : Int) ≤ l' → l' < L →
          ∀ c ∈ ccl.atLevel l', (H c).atOrHigherThanNode = false) ∧
        (∀ c ∈ ccl.atLevel L, (H c).atOrHigherThanNode = true) := by
  intro remaining
  induction remaining with
  | zero =>
    intro l h1 h2
    refine ⟨l, rfl, le_refl _, by omega, fun l' h3 h4 => by omega, ?_⟩
    intro c hc
    have := (ChainCellList.atLevel_pos hc).2
    omega
  | succ remaining ih =>
    intro l h1 h2
    rw [newClusterView.nodeLevel]
    have hne := hb.nonempty l (by omega) (by omega)
    cases hhead : (ccl.atLevel l).head? with
    | none => rw [List.head?_eq_none_iff] at hhead; exact absurd hhead hne
    | some c0 =>
      have hc0 : c0 ∈ ccl.atLevel l := List.mem_of_mem_head? hhead
      simp only
      by_cases hat : (H c0).atOrHigherThanNode = true
      · rw [if_pos hat]
        refine ⟨l, rfl, le_refl _, by omega, fun l' h3 h4 => by omega, ?_⟩
        intro c hc
        rw [hb.uniform l c c0 hc hc0]
        exact hat
      · rw [if_neg hat]
        obtain ⟨L, hL, h3, h4, h5, h6⟩ := ih (l + 1) (by omega) (by omega)
        refine ⟨L, hL, by push_cast at h3; omega, h4, ?_, h6⟩
        intro l' h7 h8 c hc
        by_cases e : l' = l
        · subst e
          rw [hb.uniform _ c c0 hc hc0]
          simpa using hat
        · exact h5 l' (by push_cast; omega) h8 c hc

/-- The ancestor no higher than node of a listed cell: a listed cell that is at or
above node level or has no parent, the cell itself or a cell of a higher level. -/
theorem ancestorNoHigherThanNode_listed {H : Hierarchy} {ccl : ChainCellList}
    (hc : ChainOk H ccl) (L : Int)
    (hat : ∀ c ∈ ccl.atLevel L, (H c).atOrHigherThanNode = true) :
    ∀ (fuel : Nat) (l : Int) (c : Cell), c ∈ ccl.atLevel l → l ≤ L → (L - l).toNat < fuel →
      ∃ a, ancestorNoHigherThanNode H fuel c = some a ∧ Anc H a c ∧
        ((H a).atOrHigherThanNode = true ∨ (H a).parent = none) ∧
        (a = c ∨ ((H a).level > l ∧ (H a).level ≤ L)) ∧ a ∈ ccl.atLevel (H a).level := by
  intro fuel
  induction fuel with
  | zero => intro l c _ _ h; omega
  | succ fuel ih =>
    intro l c hcl hle hf
    have hlev := hc.level_eq l c hcl
    rw [ancestorNoHigherThanNode]
    by_cases h1 : (H c).atOrHigherThanNode = true
    · rw [if_pos h1]
      exact ⟨c, rfl, Anc.refl, Or.inl h1, Or.inl rfl, by rw [hlev]; exact hcl⟩
    · rw [if_neg h1]
      cases hp : (H c).parent with
      | none => exact ⟨c, rfl, Anc.refl, Or.inr hp, Or.inl rfl, by rw [hlev]; exact hcl⟩
      | some p =>
        have hpl := hc.parent_mem l c p hcl hp
        have hlt : l < L := by
          rcases lt_or_eq_of_le hle with h | h
          · exact h
          · subst h; exact absurd (hat c hcl) h1
        obtain ⟨a, ha, hanc, hflag, hcase, hmem⟩ := ih (l + 1) p hpl (by omega) (by omega)
        refine ⟨a, ha, Anc.step hp hanc, hflag, Or.inr ?_, hmem⟩
        rcases hcase with e | ⟨h2, h3⟩
        · subst e
          rw [hc.level_eq (l + 1) a hpl]
          omega
        · omega

theorem ancestorNoHigherThanNode_self {H : Hierarchy} {a : Cell} (fuel : Nat)
    (h : (H a).atOrHigherThanNode = true ∨ (H a).parent = none) :
    ancestorNoHigherThanNode H (fuel + 1) a = some a := by
  rw [ancestorNoHigherThanNode]
  rcases h with h | h
  · rw [if_pos h]
  · rw [h]; split_ifs <;> rfl

/-- C22: for the cell list of a chain (every cell listed at its level, with its parent
on the next level, the levels going up by one, no level empty and every level entirely
below or entirely at or above node level) `newClusterView` returns, given fuel for the
levels of the chain, a view in which no cell occurs twice; every recorded cell is its
own `ancestorNoHigherThanNode`: a cell at or above node level with no such cell on the
levels below it, or a cell below node level without a parent; and no recorded cell has
another recorded cell among its ancestors. -/
theorem newClusterView_distinct_ancestors (H : Hierarchy) (ccl : ChainCellList) (fuel : Nat)
    (hl : LevelsByOne H) (hc : ChainOk H ccl) (hb : NodeBoundaryOk H ccl)
    (hf : ccl.length < fuel) :
    ∃ cv, newClusterView H fuel ccl = some cv ∧ (cv.map node.c).Nodup ∧
      (∀ n ∈ cv, ancestorNoHigherThanNode H fuel n.c = some n.c ∧
        (∃ l, n.c ∈ ccl.atLevel l) ∧
        (((H n.c).atOrHigherThanNode = true ∧
            ∀ l' c', l' < (H n.c).level → c' ∈ ccl.atLevel l' →
              (H c').atOrHigherThanNode = false) ∨
          ((H n.c).atOrHigherThanNode = false ∧ (H n.c).parent = none))) ∧
      (∀ n ∈ cv, ∀ n' ∈ cv, Anc H n'.c n.c → n'.c = n.c) := by
  obtain ⟨L, hL, _, hLle, hbelow, hat⟩ :=
    newClusterView.nodeLevel_spec hb ccl.length 1 (le_refl _) (by omega)
  obtain ⟨fuel', rfl⟩ : ∃ fuel', fuel = fuel' + 1 := ⟨fuel - 1, by omega⟩
  have hlisted : ∀ c ∈ (levelsDownFrom L).flatMap ccl.atLevel,
      ∃ l, c ∈ ccl.atLevel l ∧ l ≤ L ∧ 1 ≤ l ∧
        ∃ a, ancestorNoHigherThanNode H (fuel' + 1) c = some a ∧ Anc H a c ∧
          ((H a).atOrHigherThanNode = true ∨ (H a).parent = none) ∧
          (a = c ∨ ((H a).level > l ∧ (H a).level ≤ L)) ∧ a ∈ ccl.atLevel (H a).level := by
    intro c hcf
    obtain ⟨l, hle, hcl⟩ := chainCells_mem.mp hcf
    have hpos := (ChainCellList.atLevel_pos hcl).1
    exact ⟨l, hcl, hle, hpos,
      ancestorNoHigherThanNode_listed hc L hat (fuel' + 1) l c hcl hle (by omega)⟩
  obtain ⟨cv, hcv, hweak, hstrong⟩ := viewLoop_spec node.c (fun _ => True)
    (ancestorNoHigherThanNode H (fuel' + 1)) (fun c => (H c).level)
    (fun (cv : clusterView) c =>
      match ancestorNoHigherThanNode H (fuel' + 1) c with
      | none => none
      | some a => if !cv.containsCell a then some (cv ++ [node.ofCell c]) else some cv)
    ((levelsDownFrom L).flatMap ccl.atLevel)
    (fun cv c _ h => absurd trivial h)
    (by
      intro cv c a _ _ ha hmem
      simp only [ha, (clusterView.containsCell_iff cv a).mpr hmem]
      rfl)
    (by
      intro cv c a _ _ ha hmem
      have hn : clusterView.containsCell cv a = false := by
        rw [← Bool.not_eq_true, clusterView.containsCell_iff]; exact hmem
      refine ⟨node.ofCell c, ?_, rfl⟩
      simp only [ha, hn]
      rfl)
    (by
      intro c hcf _
      obtain ⟨l, _, _, _, a, ha, _⟩ := hlisted c hcf
      exact ⟨a, ha⟩)
    ((levelsDownFrom L).flatMap ccl.atLevel) [] [] (by simp) (by simp)
  obtain ⟨hnodup, hself⟩ := hstrong (chainCells_sorted hc L)
    (by
      intro c hcf _ a ha
      obtain ⟨l, hcl, hle, hpos, a', ha', _, hflag, hcase, hmem⟩ := hlisted c hcf
      rw [ha] at ha'
      cases ha'
      refine ⟨ancestorNoHigherThanNode_self fuel' hflag, ?_⟩
      rcases hcase with e | ⟨h1, h2⟩
      · exact Or.inl e
      · refine Or.inr ⟨chainCells_mem.mpr ⟨_, h2, hmem⟩, ?_, trivial⟩
        rw [hc.level_eq l c hcl]
        exact h1)
    (by simp) (by simp) (by simp)
  have hkind : ∀ n ∈ cv, ∃ l, n.c ∈ ccl.atLevel l ∧ l ≤ L ∧
      ((H n.c).atOrHigherThanNode = true ∧ (H n.c).level = L ∨
        (H n.c).atOrHigherThanNode = false ∧ (H n.c).parent = none) := by
    intro n hn
    obtain ⟨l, hcl, hle, hpos, a, ha, _, hflag, _, _⟩ := hlisted n.c (hweak n hn).1
    rw [hself n hn] at ha
    cases ha
    refine ⟨l, hcl, hle, ?_⟩
    cases hat' : (H n.c).atOrHigherThanNode with
    | false =>
      rcases hflag with h | h
      · rw [hat'] at h; cases h
      · exact Or.inr ⟨rfl, h⟩
    | true =>
      refine Or.inl ⟨rfl, ?_⟩
      rw [hc.level_eq l n.c hcl]
      rcases lt_or_eq_of_le hle with h | h
      · have := hbelow l (by exact_mod_cast hpos) h n.c hcl
        rw [hat'] at this; cases this
      · exact h
  refine ⟨cv, ?_, hnodup, ?_, ?_⟩
  · unfold newClusterView
    rw [hL]
    simp only
    rw [foldlM_flatMap]
    exact hcv
  · intro n hn
    obtain ⟨l, hcl, hle, hk⟩ := hkind n hn
    refine ⟨hself n hn, ⟨l, hcl⟩, ?_⟩
    rcases hk with ⟨h1, h2⟩ | h
    · refine Or.inl ⟨h1, ?_⟩
      intro l' c' hlt hc'
      exact hbelow l' (by exact_mod_cast (ChainCellList.atLevel_pos hc').1) (by omega) c' hc'
    · exact Or.inr h
  · intro n hn n' hn' hanc
    obtain ⟨l, hcl, hle, hk⟩ := hkind n hn
    obtain ⟨l', hcl', hle', _⟩ := hkind n' hn'
    rcases hk with ⟨_, h2⟩ | ⟨_, h2⟩
    · have h3 := hc.level_eq l' n'.c hcl'
      exact Anc.eq_of_level_eq hl hanc (by omega)
    · exact Anc.eq_of_no_parent hanc h2

/-- C22, on the example cluster: the view holds the two nodes 28 and 29. -/
theorem newClusterView_distinct_ancestors_witness :
    newClusterView (exampleCluster exampleAllFree) 5 exampleChain =
        some [node.ofCell 28, node.ofCell 29] ∧
    ∃ cv, newClusterView (exampleCluster exampleAllFree) 5 exampleChain = some cv ∧
      (cv.map node.c).Nodup ∧
      (∀ n ∈ cv, ancestorNoHigherThanNode (exampleCluster exampleAllFree) 5 n.c = some n.c ∧
        (∃ l, n.c ∈ exampleChain.atLevel l) ∧
        (((exampleCluster exampleAllFree n.c).atOrHigherThanNode = true ∧
            ∀ l' c', l' < (exampleCluster exampleAllFree n.c).level →
              c' ∈ exampleChain.atLevel l' →
              (exampleCluster exampleAllFree c').atOrHigherThanNode = false) ∨
          ((exampleCluster exampleAllFree n.c).atOrHigherThanNode = false ∧
            (exampleCluster exampleAllFree n.c).parent = none))) ∧
      (∀ n ∈ cv, ∀ n' ∈ cv, Anc (exampleCluster exampleAllFree) n'.c n.c → n'.c = n.c) :=
  ⟨by decide!, newClusterView_distinct_ancestors (exampleCluster exampleAllFree) exampleChain 5
    (exampleCluster_levelsByOne _) (exampleChain_chainOk _) (exampleChain_nodeBoundaryOk _)
    (by decide)⟩

theorem skuClusterView.containsAncestor_iff (cv : skuClusterView) (a : Cell) :
    skuClusterView.containsAncestor cv a = true ↔ a ∈ cv.map skuCell.cell := by
  unfold skuClusterView.containsAncestor CellEqual
  simp only [List.any_eq_true, decide_eq_true_eq, Option.some.injEq, List.mem_map]
  constructor
  · rintro ⟨n, hn, e⟩; exact ⟨n, hn, e.symm⟩
  · rintro ⟨n, hn, e⟩; exact ⟨n, hn, e.symm⟩

/-- An entry is built for a physical cell, an unbound virtual cell and a virtual cell
bound to a physical cell. -/
theorem skuScheduler.newSkuCell_some (H : Hierarchy) (s : skuScheduler) (priority : Int)
    (c : Cell)
    (hkind : ∀ pn, (H c).kind = CellKind.virtual (some pn) →
      ∃ healthy nodes, (H pn).kind = CellKind.physical healthy nodes) :
    ∃ e, s.newSkuCell H priority c = some e := by
  unfold skuScheduler.newSkuCell
  simp only
  cases hk : (H c).kind with
  | physical healthy nodes => exact ⟨_, rfl⟩
  | virtual opn =>
    cases opn with
    | none => exact ⟨_, rfl⟩
    | some pn =>
      obtain ⟨healthy, nodes, hpn⟩ := hkind pn hk
      simp only [hpn]
      exact ⟨_, rfl⟩

theorem ancestorNoHigherThanLevel_self {H : Hierarchy} {L : Int} {a : Cell} (fuel : Nat)
    (h : (H a).level ≥ L ∨ (H a).parent = none) :
    ancestorNoHigherThanLevel H L (fuel + 1) a = some a := by
  rw [ancestorNoHigherThanLevel]
  rcases h with h | h
  · rw [if_pos h]
  · rw [h]; split_ifs <;> rfl

/-- C23 (counterexample): on the free example cluster, the view built inside the socket
16 (level 2) for the bounding level 4 holds the socket 16 and its two leaf cells 0 and
1: the socket is the parent of both. -/
theorem skuScheduler_createSkuClusterView_overlap_counterexample :
    (exampleSkuScheduler.createSkuClusterView (exampleCluster exampleAllFree) 10
        (some (skuCell.mk 16 2 0 0 true "")) 4 0).map (fun cv => cv.map skuCell.cell) =
      some [1, 0, 16] ∧
    (exampleCluster exampleAllFree 16).level = 2 ∧
    (exampleCluster exampleAllFree 0).parent = some 16 ∧
    (exampleCluster exampleAllFree 1).parent = some 16 := by
  refine ⟨by decide!, by decide!, by decide!, by decide!⟩

/-- What the loop of `createSkuClusterView` over the cells of the levels from the
bounding level down to 1 builds, for a loop body `F`. -/
theorem skuScheduler.createSkuClusterView_loop (H : Hierarchy) (s : skuScheduler)
    (fuel : Nat) (within : Option skuCell) (withinLevel priority : Int)
    (hl : LevelsByOne H) (hc : ChainOk H s.chainCellList)
    (hkind : ∀ l c pn, c ∈ s.chainCellList.atLevel l →
      (H c).kind = CellKind.virtual (some pn) →
      ∃ healthy nodes, (H pn).kind = CellKind.physical healthy nodes)
    (hf : withinLevel < fuel) (hfw : ∀ w, within = some w → (H w.cell).level ≤ fuel)
    (F : skuClusterView → Cell → Option skuClusterView)
    (hF : ∀ cv c, F cv c =
      match (match within with
        | none => some true
        | some w => isAncestor H fuel w.cell c) with
      | none => none
      | some false => some cv
      | some true =>
        match ancestorNoHigherThanLevel H withinLevel fuel c with
        | none => none
        | some a =>
          if skuClusterView.containsAncestor cv a then some cv
          else (s.newSkuCell H priority c).map (fun cell => cv ++ [cell])) :
    ∃ cv, (((levelsDownFrom withinLevel).flatMap s.chainCellList.atLevel).foldlM F []).map
        (fun cv => sortStable (skuClusterView.Less H) cv) = some cv ∧
      (∀ e ∈ cv, (H e.cell).level ≤ withinLevel ∧
        (∃ l, e.cell ∈ s.chainCellList.atLevel l) ∧
        ∀ w, within = some w → Anc H w.cell e.cell) ∧
      ((∀ w, within = some w → withinLevel ≤ (H w.cell).level) →
        (cv.map skuCell.cell).Nodup ∧
        ∀ e ∈ cv, ∀ e' ∈ cv, Anc H e'.cell e.cell → e'.cell = e.cell) := by
  have hlisted : ∀ c ∈ (levelsDownFrom withinLevel).flatMap s.chainCellList.atLevel,
      ∃ l, c ∈ s.chainCellList.atLevel l ∧ (H c).level = l ∧ 1 ≤ l ∧ l ≤ withinLevel := by
    intro c hcf
    obtain ⟨l, hle, hcl⟩ := chainCells_mem.mp hcf
    exact ⟨l, hcl, hc.level_eq l c hcl, (ChainCellList.atLevel_pos hcl).1, hle⟩
  have hkeep : ∀ c ∈ (levelsDownFrom withinLevel).flatMap s.chainCellList.atLevel,
      ∃ b, (match within with
          | none => some true
          | some w => isAncestor H fuel w.cell c) = some b ∧
        (b = true ↔ ∀ w, within = some w → Anc H w.cell c) := by
    intro c hcf
    obtain ⟨l, _, hlev, hpos, _⟩ := hlisted c hcf
    cases hw : within with
    | none => exact ⟨true, rfl, by simp⟩
    | some w =>
      have h1 := hfw w hw
      obtain ⟨b, hb, hiff⟩ := isAncestor_iff_anc (LevelsByOne.strict hl) w.cell fuel c (by omega)
      refine ⟨b, hb, hiff.trans ?_⟩
      constructor
      · intro h w' hw'; cases hw'; exact h
      · intro h; exact h w rfl
  have hanc : ∀ c ∈ (levelsDownFrom withinLevel).flatMap s.chainCellList.atLevel,
      ∃ r, ancestorNoHigherThanLevel H withinLevel fuel c = some r ∧ Anc H r c ∧
        (H r).level ≤ withinLevel ∧ ((H r).level = withinLevel ∨ (H r).parent = none) := by
    intro c hcf
    obtain ⟨l, _, hlev, hpos, hle⟩ := hlisted c hcf
    obtain ⟨r, hr, hanc, _, hlow⟩ := ancestorNoHigherThanLevel_spec hl withinLevel fuel c
      (by omega)
    obtain ⟨h1, _, h3⟩ := hlow (by omega)
    exact ⟨r, hr, hanc, h1, h3⟩
  obtain ⟨cv, hcv, hweak, hstrong⟩ := viewLoop_spec skuCell.cell
    (fun c => ∀ w, within = some w → Anc H w.cell c)
    (ancestorNoHigherThanLevel H withinLevel fuel) (fun c => (H c).level)
    F
    ((levelsDownFrom withinLevel).flatMap s.chainCellList.atLevel)
    (by
      intro cv c hcf hk
      obtain ⟨b, hb, hiff⟩ := hkeep c hcf
      have : b = false := by
        cases b with
        | false => rfl
        | true => exact absurd (hiff.mp rfl) hk
      subst this
      rw [hF]
      simp only [hb])
    (by
      intro cv c a hcf hk ha hmem
      obtain ⟨b, hb, hiff⟩ := hkeep c hcf
      have : b = true := hiff.mpr hk
      subst this
      rw [hF]
      simp only [hb, ha, (skuClusterView.containsAncestor_iff cv a).mpr hmem]
      rfl)
    (by
      intro cv c a hcf hk ha hmem
      obtain ⟨b, hb, hiff⟩ := hkeep c hcf
      have : b = true := hiff.mpr hk
      subst this
      have hn : skuClusterView.containsAncestor cv a = false := by
        rw [← Bool.not_eq_true, skuClusterView.containsAncestor_iff]; exact hmem
      obtain ⟨l, hcl, _⟩ := hlisted c hcf
      obtain ⟨e, he⟩ := skuScheduler.newSkuCell_some H s priority c
        (fun pn hpn => hkind l c pn hcl hpn)
      refine ⟨e, ?_, skuScheduler.newSkuCell_cell he⟩
      rw [hF]
      simp only [hb, ha, hn, he]
      rfl)
    (by
      intro c hcf _
      obtain ⟨r, hr, _⟩ := hanc c hcf
      exact ⟨r, hr⟩)
    ((levelsDownFrom withinLevel).flatMap s.chainCellList.atLevel) [] [] (by simp) (by simp)
  have hperm := sortStable_perm (skuClusterView.Less H) cv
  refine ⟨sortStable (skuClusterView.Less H) cv, ?_, ?_, ?_⟩
  · rw [hcv]
    rfl
  · intro e he
    obtain ⟨hcf, hk⟩ := hweak e (hperm.subset he)
    obtain ⟨l, hcl, hlev, _, hle⟩ := hlisted e.cell hcf
    exact ⟨by omega, ⟨l, hcl⟩, hk⟩
  · intro hwl
    obtain ⟨hnodup, hself⟩ := hstrong (chainCells_sorted hc withinLevel)
      (by
        intro c hcf hk a ha
        obtain ⟨l, hcl, hlev, hpos, hle⟩ := hlisted c hcf
        obtain ⟨r, hr, hrc, hrle, htop⟩ := hanc c hcf
        rw [ha] at hr
        cases hr
        obtain ⟨fuel', rfl⟩ : ∃ fuel', fuel = fuel' + 1 := ⟨fuel - 1, by omega⟩
        refine ⟨ancestorNoHigherThanLevel_self fuel' (htop.imp (fun h => by omega) id), ?_⟩
        by_cases e : a = c
        · exact Or.inl e
        · refine Or.inr ⟨chainCells_mem.mpr ⟨_, hrle, hc.anc_mem hrc l hcl⟩,
            Anc.level_lt_of_ne (LevelsByOne.strict hl) hrc e, ?_⟩
          intro w hw
          have h1 := hwl w hw
          exact Anc.chain hl hrc (hk w hw) (by omega))
      (by simp) (by simp) (by simp)
    refine ⟨(hperm.map skuCell.cell).nodup_iff.mpr hnodup, ?_⟩
    intro e he e' he' hee
    have hse := hself e (hperm.subset he)
    obtain ⟨hcf, _⟩ := hweak e (hperm.subset he)
    obtain ⟨hcf', _⟩ := hweak e' (hperm.subset he')
    obtain ⟨l', _, hlev', _, hle'⟩ := hlisted e'.cell hcf'
    obtain ⟨r, hr, _, _, htop⟩ := hanc e.cell hcf
    rw [hse] at hr
    cases hr
    rcases htop with h | h
    · exact Anc.eq_of_level_eq hl hee (by omega)
    · exact Anc.eq_of_no_parent hee h

/-- C23 (amended): for the cell list of a chain (every cell listed at its level, with
its parent on the next level, the levels going up by one) `createSkuClusterView`
returns, given fuel for the levels up to the bounding level and to `within`, a view of
listed cells of level at most the bounding level that are `within` or below it; when
`within` is `nil` or its level is at least the bounding level, no cell occurs twice in
the view and no entry has another entry among its ancestors. -/
theorem skuScheduler_createSkuClusterView_no_overlap (H : Hierarchy) (s : skuScheduler)
    (fuel : Nat) (within : Option skuCell) (withinLevel priority : Int)
    (hl : LevelsByOne H) (hc : ChainOk H s.chainCellList)
    (hkind : ∀ l c pn, c ∈ s.chainCellList.atLevel l →
      (H c).kind = CellKind.virtual (some pn) →
      ∃ healthy nodes, (H pn).kind = CellKind.physical healthy nodes)
    (hf : withinLevel < fuel) (hfw : ∀ w, within = some w → (H w.cell).level ≤ fuel) :
    ∃ cv, s.createSkuClusterView H fuel within withinLevel priority = some cv ∧
      (∀ e ∈ cv, (H e.cell).level ≤ withinLevel ∧
        (∃ l, e.cell ∈ s.chainCellList.atLevel l) ∧
        ∀ w, within = some w → Anc H w.cell e.cell) ∧
      ((∀ w, within = some w → withinLevel ≤ (H w.cell).level) →
        (cv.map skuCell.cell).Nodup ∧
        ∀ e ∈ cv, ∀ e' ∈ cv, Anc H e'.cell e.cell → e'.cell = e.cell) := by
  unfold skuScheduler.createSkuClusterView
  rw [foldlM_flatMap]
  exact skuScheduler.createSkuClusterView_loop H s fuel within withinLevel priority hl hc
    hkind hf hfw _ (fun cv c => by cases within <;> rfl)

theorem exampleCluster_kind (prio : Nat → Int) (c : Nat) :
    (exampleCluster prio c).kind = CellKind.physical true [] := by
  unfold exampleCluster
  split_ifs <;> rfl

/-- C23 (amended), on the free example cluster: the view built inside node 28 for the
bounding level 2 holds the four sockets of the node. -/
theorem skuScheduler_createSkuClusterView_no_overlap_witness :
    (exampleSkuScheduler.createSkuClusterView (exampleCluster exampleAllFree) 10
        (some (skuCell.mk 28 8 0 0 true "")) 2 0).map (fun cv => cv.map skuCell.cell) =
      some [19, 18, 17, 16] ∧
    ∃ cv, exampleSkuScheduler.createSkuClusterView (exampleCluster exampleAllFree) 10
        (some (skuCell.mk 28 8 0 0 true "")) 2 0 = some cv ∧
      (∀ e ∈ cv, (exampleCluster exampleAllFree e.cell).level ≤ 2 ∧
        (∃ l, e.cell ∈ exampleSkuScheduler.chainCellList.atLevel l) ∧
        ∀ w, some (skuCell.mk 28 8 0 0 true "") = some w →
          Anc (exampleCluster exampleAllFree) w.cell e.cell) ∧
      ((∀ w, some (skuCell.mk 28 8 0 0 true "") = some w →
          2 ≤ (exampleCluster exampleAllFree w.cell).level) →
        (cv.map skuCell.cell).Nodup ∧
        ∀ e ∈ cv, ∀ e' ∈ cv, Anc (exampleCluster exampleAllFree) e'.cell e.cell →
          e'.cell = e.cell) :=
  ⟨by decide!, skuScheduler_createSkuClusterView_no_overlap (exampleCluster exampleAllFree)
    exampleSkuScheduler 10 (some (skuCell.mk 28 8 0 0 true "")) 2 0
    (exampleCluster_levelsByOne _) (exampleChain_chainOk _)
    (fun l c pn _ h => by rw [exampleCluster_kind] at h; cases h)
    (by decide) (fun w hw => by cases hw; decide!)⟩

/-- The list without the elements at ascending positions, by positions: the elements
whose position is not one of `indices`, in their order. -/
theorem removeIndices_eq_filter :
    ∀ (indices : List Nat) (base : Nat) (l : CellList),
      indices.Pairwise (fun a b => a < b) →
      (∀ i ∈ indices, base ≤ i ∧ i < base + l.length) →
      removeIndices l base indices =
        ((l.enumFrom base).filter (fun e => decide (e.1 ∉ indices))).map Prod.snd := by
  intro indices
  induction indices with
  | nil =>
    intro base l _ _
    simp [removeIndices, List.enumFrom_map_snd]
  | cons index rest ih =>
    intro base l hsorted hvalid
    obtain ⟨hb, hlt⟩ := hvalid index (List.mem_cons_self _ _)
    rw [List.pairwise_cons] at hsorted
    have hd : index - base < l.length := by omega
    have hsplit : l = l.take (index - base) ++ l[index - base] :: l.drop (index - base + 1) := by
      rw [List.getElem_cons_drop l _ hd, List.take_append_drop]
    have hlen : (l.take (index - base)).length = index - base := by
      rw [List.length_take]; omega
    rw [removeIndices,
      ih (index + 1) (l.drop (index - base + 1)) hsorted.2 (by
        intro i hi
        have h1 := hsorted.1 i hi
        have h2 := (hvalid i (List.mem_cons_of_mem _ hi)).2
        rw [List.length_drop]
        omega)]
    conv_rhs => rw [hsplit]
    rw [List.enumFrom_append, List.filter_append, List.map_append, hlen,
      List.enumFrom_cons, List.filter_cons]
    have hbi : base + (index - base) = index := by omega
    rw [hbi]
    simp only [List.mem_cons, true_or, not_true_eq_false, decide_False, Bool.false_eq_true,
      if_false]
    congr 1
    · rw [List.filter_eq_self.mpr, List.enumFrom_map_snd]
      intro e he
      have h1 := List.fst_lt_add_of_mem_enumFrom he
      rw [hlen] at h1
      simp only [decide_eq_true_eq, not_or]
      refine ⟨by omega, ?_⟩
      intro hr
      have := hsorted.1 e.1 hr
      omega
    · congr 1
      apply List.filter_congr
      intro e he
      have h1 := List.le_fst_of_mem_enumFrom he
      have hne : e.1 ≠ index := by omega
      simp [hne]

/-- C31: for a cell list and a strictly increasing list of positions of the list,
`removePickedLeafCells` returns the elements whose position is not in the list of
positions, in their original order; the result is shorter than the cell list by the
number of positions. -/
theorem removePickedLeafCells_removes_positions (leafCells : CellList) (indices : List Nat)
    (hinc : indices.Pairwise (fun a b => a < b))
    (hvalid : ∀ i ∈ indices, i < leafCells.length) :
    ∃ rest, removePickedLeafCells leafCells indices = some rest ∧
      rest = ((leafCells.enum).filter (fun e => decide (e.1 ∉ indices))).map Prod.snd ∧
      rest.Sublist leafCells ∧
      rest.length = leafCells.length - indices.length ∧
      indices.length ≤ leafCells.length := by
  have hcombo : IsCombo leafCells.length indices.length indices := ⟨rfl, hinc, hvalid⟩
  have hspec := removeIndices_combo hcombo
  have hlen := hspec.1.length_eq
  rw [List.length_append, hspec.2.2.2] at hlen
  refine ⟨removeIndices leafCells 0 indices, removePickedLeafCells_eq hcombo, ?_, hspec.2.1,
    by omega, by omega⟩
  rw [List.enum_eq_enumFrom]
  exact removeIndices_eq_filter indices 0 leafCells hinc
    (fun i hi => ⟨Nat.zero_le _, by have := hvalid i hi; omega⟩)

/-- C31, on a list of eight cells and the positions 1, 2 and 5. -/
theorem removePickedLeafCells_removes_positions_witness :
    removePickedLeafCells [10, 11, 12, 13, 14, 15, 16, 17] [1, 2, 5] =
        some [10, 13, 14, 16, 17] ∧
    ∃ rest, removePickedLeafCells [10, 11, 12, 13, 14, 15, 16, 17] [1, 2, 5] = some rest ∧
      rest = ((([10, 11, 12, 13, 14, 15, 16, 17] : CellList).enum).filter
        (fun e => decide (e.1 ∉ ([1, 2, 5] : List Nat)))).map Prod.snd ∧
      rest.Sublist [10, 11, 12, 13, 14, 15, 16, 17] ∧
      rest.length = ([10, 11, 12, 13, 14, 15, 16, 17] : CellList).length -
        ([1, 2, 5] : List Nat).length ∧
      ([1, 2, 5] : List Nat).length ≤ ([10, 11, 12, 13, 14, 15, 16, 17] : CellList).length :=
  ⟨by decide!, removePickedLeafCells_removes_positions [10, 11, 12, 13, 14, 15, 16, 17]
    [1, 2, 5] (by decide) (by decide)⟩

theorem foldl_skuCounters (f : skuCell → Int × Int → skuCell) (gs gh gf : Int × Int → Int)
    (hs : ∀ acc e, (f acc e).usedLeafCellNumAtPriority = acc.usedLeafCellNumAtPriority + gs e)
    (hh : ∀ acc e,
      (f acc e).usedLeafCellNumHigherPriority = acc.usedLeafCellNumHigherPriority + gh e)
    (hf : ∀ acc e, (f acc e).freeLeafCellNumAtPriority = acc.freeLeafCellNumAtPriority - gf e) :
    ∀ (l : List (Int × Int)) (start : skuCell),
      (l.foldl f start).usedLeafCellNumAtPriority =
          start.usedLeafCellNumAtPriority + (l.map gs).sum ∧
        (l.foldl f start).usedLeafCellNumHigherPriority =
          start.usedLeafCellNumHigherPriority + (l.map gh).sum ∧
        (l.foldl f start).freeLeafCellNumAtPriority =
          start.freeLeafCellNumAtPriority - (l.map gf).sum := by
  intro l
  induction l with
  | nil => intro start; simp
  | cons e l ih =>
    intro start
    rw [List.foldl_cons]
    obtain ⟨h1, h2, h3⟩ := ih (f start e)
    rw [h1, h2, h3, hs, hh, hf]
    simp only [List.map_cons, List.sum_cons]
    refine ⟨by ring, by ring, by ring⟩

/-- The three counters of the entry that `createSkuClusterView` builds for a cell, as
sums over the usage map of the cell. -/
theorem skuScheduler.newSkuCell_counters {H : Hierarchy} {s : skuScheduler} {priority : Int}
    {c : Cell} {cell : skuCell} (h : s.newSkuCell H priority c = some cell) :
    cell.usedLeafCellNumAtPriority =
        0 + ((H c).usedLeafCellNumAtPriorities.map
          (fun e => if (s.crossPriorityPack || decide (e.1 = priority)) = true then e.2
            else 0)).sum ∧
      cell.usedLeafCellNumHigherPriority =
        0 + ((H c).usedLeafCellNumAtPriorities.map
          (fun e => if (!s.crossPriorityPack && decide (e.1 > priority)) = true then e.2
            else 0)).sum ∧
      cell.freeLeafCellNumAtPriority =
        (H c).totalLeafCellNum -
          ((H c).usedLeafCellNumAtPriorities.map
            (fun e => if decide (e.1 ≥ priority) = true then e.2 else 0)).sum := by
  unfold skuScheduler.newSkuCell at h
  simp only at h
  have key := foldl_skuCounters
    (fun (cell : skuCell) (e : Int × Int) =>
      let cell1 : skuCell :=
        if e.1 ≥ priority then
          { cell with freeLeafCellNumAtPriority := cell.freeLeafCellNumAtPriority - e.2 }
        else cell
      if s.crossPriorityPack then
        { cell1 with usedLeafCellNumAtPriority := cell1.usedLeafCellNumAtPriority + e.2 }
      else
        let cell2 : skuCell :=
          if e.1 = priority then
            { cell1 with usedLeafCellNumAtPriority := cell1.usedLeafCellNumAtPriority + e.2 }
          else cell1
        if e.1 > priority then
          { cell2 with usedLeafCellNumHigherPriority := cell2.usedLeafCellNumHigherPriority + e.2 }
        else cell2)
    (fun e => if (s.crossPriorityPack || decide (e.1 = priority)) = true then e.2 else 0)
    (fun e => if (!s.crossPriorityPack && decide (e.1 > priority)) = true then e.2 else 0)
    (fun e => if decide (e.1 ≥ priority) = true then e.2 else 0)
    (by
      intro acc e
      cases s.crossPriorityPack <;> by_cases h1 : e.1 ≥ priority <;>
        by_cases h2 : e.1 = priority <;> by_cases h3 : e.1 > priority <;>
        first
          | omega
          | simp [h1, h2, h3])
    (by
      intro acc e
      cases s.crossPriorityPack <;> by_cases h1 : e.1 ≥ priority <;>
        by_cases h2 : e.1 = priority <;> by_cases h3 : e.1 > priority <;>
        first
          | omega
          | simp [h1, h2, h3])
    (by
      intro acc e
      cases s.crossPriorityPack <;> by_cases h1 : e.1 ≥ priority <;>
        by_cases h2 : e.1 = priority <;> by_cases h3 : e.1 > priority <;>
        first
          | omega
          | simp [h1, h2, h3])
    (H c).usedLeafCellNumAtPriorities
    { cell := c, freeLeafCellNumAtPriority := (H c).totalLeafCellNum,
      usedLeafCellNumAtPriority := 0, usedLeafCellNumHigherPriority := 0,
      healthy := true, address := "" }
  simp only at key
  split at h
  · simp only [Option.some.injEq] at h
    rw [← h]; exact key
  · split at h
    · simp only [Option.some.injEq] at h
      rw [← h]; exact key
    · cases h
  · simp only [Option.some.injEq] at h
    rw [← h]; exact key

/-- Every entry of the view that `createSkuClusterView` builds is the entry built for
its cell. -/
theorem skuScheduler.createSkuClusterView_entry {H : Hierarchy} {s : skuScheduler} {fuel : Nat}
    {within : Option skuCell} {withinLevel priority : Int} {cv : skuClusterView}
    (h : s.createSkuClusterView H fuel within withinLevel priority = some cv) :
    ∀ e ∈ cv, s.newSkuCell H priority e.cell = some e := by
  unfold skuScheduler.createSkuClusterView at h
  simp only [Option.map_eq_some'] at h
  obtain ⟨cv0, h0, e0⟩ := h
  intro e he
  rw [← e0] at he
  have he0 : e ∈ cv0 := (sortStable_perm _ _).mem_iff.mp he
  refine foldlM_option_inv _
    (fun (cv : skuClusterView) => ∀ e ∈ cv, s.newSkuCell H priority e.cell = some e)
    (levelsDownFrom withinLevel) ?_ [] cv0 (by simp) h0 e he0
  intro cv1 l cv2 _ hP hf
  refine foldlM_option_inv _
    (fun (cv : skuClusterView) => ∀ e ∈ cv, s.newSkuCell H priority e.cell = some e)
    (s.chainCellList.atLevel l) ?_ cv1 cv2 hP hf
  intro cv3 c cv4 _ hP3 hf3
  simp only at hf3
  split at hf3
  · cases hf3
  · simp only [Option.some.injEq] at hf3
    exact hf3 ▸ hP3
  · split at hf3
    · cases hf3
    · split_ifs at hf3
      · simp only [Option.some.injEq] at hf3
        exact hf3 ▸ hP3
      · simp only [Option.map_eq_some'] at hf3
        obtain ⟨cell, hcell, e4⟩ := hf3
        have hcc := skuScheduler.newSkuCell_cell hcell
        intro e' he'
        rw [← e4, List.mem_append, List.mem_singleton] at he'
        rcases he' with he' | rfl
        · exact hP3 e' he'
        · rw [hcc]; exact hcell

/-- C35: for a cell whose usage map has no priority twice, the three counters of the
entry that `createSkuClusterView` builds for the cell at priority `p` (free, used at the
priority, used by higher priorities) are the three counters that
`node.updateUsedLeafCellNumForPriority` computes at `p`, with the `crossPriorityPack` of
the scheduler, for a node on the same cell. -/
theorem skuScheduler_createSkuClusterView_counters_eq_node (H : Hierarchy) (s : skuScheduler)
    (p : Int) (n : node)
    (hkeys : ((H n.c).usedLeafCellNumAtPriorities.map Prod.fst).Nodup) :
    (∀ e, s.newSkuCell H p n.c = some e →
      e.freeLeafCellNumAtPriority =
          (n.updateUsedLeafCellNumForPriority H p s.crossPriorityPack).freeLeafCellNumAtPriority ∧
        e.usedLeafCellNumAtPriority =
          (n.updateUsedLeafCellNumForPriority H p
            s.crossPriorityPack).usedLeafCellNumSamePriority ∧
        e.usedLeafCellNumHigherPriority =
          (n.updateUsedLeafCellNumForPriority H p
            s.crossPriorityPack).usedLeafCellNumHigherPriority) ∧
    ∀ fuel within withinLevel cv,
      s.createSkuClusterView H fuel within withinLevel p = some cv →
      ∀ e ∈ cv, e.cell = n.c →
        e.freeLeafCellNumAtPriority =
            (n.updateUsedLeafCellNumForPriority H p
              s.crossPriorityPack).freeLeafCellNumAtPriority ∧
          e.usedLeafCellNumAtPriority =
            (n.updateUsedLeafCellNumForPriority H p
              s.crossPriorityPack).usedLeafCellNumSamePriority ∧
          e.usedLeafCellNumHigherPriority =
            (n.updateUsedLeafCellNumForPriority H p
              s.crossPriorityPack).usedLeafCellNumHigherPriority := by
  have key : ∀ e, s.newSkuCell H p n.c = some e →
      e.freeLeafCellNumAtPriority =
          (n.updateUsedLeafCellNumForPriority H p s.crossPriorityPack).freeLeafCellNumAtPriority ∧
        e.usedLeafCellNumAtPriority =
          (n.updateUsedLeafCellNumForPriority H p
            s.crossPriorityPack).usedLeafCellNumSamePriority ∧
        e.usedLeafCellNumHigherPriority =
          (n.updateUsedLeafCellNumForPriority H p
            s.crossPriorityPack).usedLeafCellNumHigherPriority := by
    intro e he
    obtain ⟨h1, h2, h3⟩ := skuScheduler.newSkuCell_counters he
    obtain ⟨g1, g2, g3⟩ := node.updateUsedLeafCellNumForPriority_fold H n p s.crossPriorityPack
    refine ⟨by rw [h3, g3], ?_, by rw [h2, g2]⟩
    rw [h1, g1, usedAt_eq_usedSum hkeys p]
    cases hcpp : s.crossPriorityPack with
    | true =>
      simp only [Bool.true_or, Bool.true_and, if_true, zero_add]
      rw [sum_map_ite_eq_usedSum _ (fun q => decide (q ≠ p))]
      have h4 := usedSum_split (H n.c).usedLeafCellNumAtPriorities p
      have h5 : ((H n.c).usedLeafCellNumAtPriorities.map (fun e => e.2)).sum =
          usedSum (H n.c).usedLeafCellNumAtPriorities (fun _ => true) := by
        unfold usedSum
        simp
      rw [h5, h4]
    | false =>
      simp only [Bool.false_or, Bool.false_and, Bool.false_eq_true, if_false, zero_add]
      rw [sum_map_ite_eq_usedSum _ (fun q => decide (q = p)), sum_map_zero]
      ring
  refine ⟨key, ?_⟩
  intro fuel within withinLevel cv hcv e he hec
  have h1 := skuScheduler.createSkuClusterView_entry hcv e he
  rw [hec] at h1
  exact key e h1

/-- C35, on node 28 of the example cluster with leaf cell 1 used at priority 0: at
priority 0 the entry of the SKU view has 7 free leaf cells, 1 used at the priority
(cross-priority packing counts all the used ones) and none used by higher priorities,
as the node of the topology view has. -/
theorem skuScheduler_createSkuClusterView_counters_eq_node_witness :
    (exampleSkuScheduler.newSkuCell (exampleCluster exampleOneUsed) 0 28 =
        some (skuCell.mk 28 7 1 0 true "") ∧
      (node.ofCell 28).updateUsedLeafCellNumForPriority (exampleCluster exampleOneUsed) 0 true =
        node.mk 28 7 1 0 false false "") ∧
    ((∀ e, exampleSkuScheduler.newSkuCell (exampleCluster exampleOneUsed) 0 (node.ofCell 28).c =
        some e →
      e.freeLeafCellNumAtPriority =
          ((node.ofCell 28).updateUsedLeafCellNumForPriority (exampleCluster exampleOneUsed) 0
            exampleSkuScheduler.crossPriorityPack).freeLeafCellNumAtPriority ∧
        e.usedLeafCellNumAtPriority =
          ((node.ofCell 28).updateUsedLeafCellNumForPriority (exampleCluster exampleOneUsed) 0
            exampleSkuScheduler.crossPriorityPack).usedLeafCellNumSamePriority ∧
        e.usedLeafCellNumHigherPriority =
          ((node.ofCell 28).updateUsedLeafCellNumForPriority (exampleCluster exampleOneUsed) 0
            exampleSkuScheduler.crossPriorityPack).usedLeafCellNumHigherPriority) ∧
    ∀ fuel within withinLevel cv,
      exampleSkuScheduler.createSkuClusterView (exampleCluster exampleOneUsed) fuel within
        withinLevel 0 = some cv →
      ∀ e ∈ cv, e.cell = (node.ofCell 28).c →
        e.freeLeafCellNumAtPriority =
            ((node.ofCell 28).updateUsedLeafCellNumForPriority (exampleCluster exampleOneUsed) 0
              exampleSkuScheduler.crossPriorityPack).freeLeafCellNumAtPriority ∧
          e.usedLeafCellNumAtPriority =
            ((node.ofCell 28).updateUsedLeafCellNumForPriority (exampleCluster exampleOneUsed) 0
              exampleSkuScheduler.crossPriorityPack).usedLeafCellNumSamePriority ∧
          e.usedLeafCellNumHigherPriority =
            ((node.ofCell 28).updateUsedLeafCellNumForPriority (exampleCluster exampleOneUsed) 0
              exampleSkuScheduler.crossPriorityPack).usedLeafCellNumHigherPriority) :=
  ⟨⟨by decide!, by decide!⟩,
    skuScheduler_createSkuClusterView_counters_eq_node (exampleCluster exampleOneUsed)
      exampleSkuScheduler 0 (node.ofCell 28) (by decide!)⟩

/-- C36 (counterexample): a group with one member of `PodMinNumber = 2`. After
`sortPodGroup` its pod list holds the member twice, and after a second `sortPodGroup`
four times; `Schedule` sorts the group it is given, so on the group as a first call
left it a second call places four pods where the first call placed two. -/
theorem skuScheduler_sortPodGroup_not_idempotent_counterexample :
    (exampleSkuScheduler.sortPodGroup
        (PodGroupSpec.mk [⟨2, "leaf", 1⟩] [] "node")).Pods =
      [⟨2, "leaf", 1⟩, ⟨2, "leaf", 1⟩] ∧
    (exampleSkuScheduler.sortPodGroup (exampleSkuScheduler.sortPodGroup
        (PodGroupSpec.mk [⟨2, "leaf", 1⟩] [] "node"))).Pods =
      [⟨2, "leaf", 1⟩, ⟨2, "leaf", 1⟩, ⟨2, "leaf", 1⟩, ⟨2, "leaf", 1⟩] ∧
    exampleSkuScheduler.Schedule (exampleCluster exampleAllFree) 20
        (PodGroupSpec.mk [⟨2, "leaf", 1⟩] [] "node") 0 =
      some (PodGroupPlacement.mk [[8], [9]] [], FailedReason.none) ∧
    exampleSkuScheduler.Schedule (exampleCluster exampleAllFree) 20
        (exampleSkuScheduler.sortPodGroup (PodGroupSpec.mk [⟨2, "leaf", 1⟩] [] "node")) 0 =
      some (PodGroupPlacement.mk [[8], [9], [10], [11]] [], FailedReason.none) := by
  refine ⟨by decide!, by decide!, by decide!, by decide!⟩

/-- The stable sort leaves a sorted list as it is. -/
theorem sortStable_of_sorted {α : Type} (less : α → α → Bool) (l : List α)
    (h : l.Pairwise (fun a b => less b a = false)) : sortStable less l = l := by
  unfold sortStable
  have key : ∀ (l acc : List α), (acc.reverse ++ l).Pairwise (fun a b => less b a = false) →
      l.foldl (fun sortedRev x => insertFromRight less x sortedRev) acc = l.reverse ++ acc := by
    intro l
    induction l with
    | nil => intro acc _; rfl
    | cons x xs ih =>
      intro acc hs
      rw [List.foldl_cons]
      have hins : insertFromRight less x acc = x :: acc := by
        cases acc with
        | nil => rfl
        | cons y ys =>
          unfold insertFromRight
          have hyx : less x y = false := by
            rw [List.pairwise_append] at hs
            exact hs.2.2 y (by simp) x (by simp)
          rw [hyx]
          rfl
      rw [hins, ih (x :: acc) (by simpa using hs)]
      simp
  rw [key l [] (by simpa using h)]
  simp

theorem flatMap_replicate_one {α : Type} (n : α → Nat) :
    ∀ l : List α, (∀ p ∈ l, n p = 1) → l.flatMap (fun p => List.replicate (n p) p) = l := by
  intro l
  induction l with
  | nil => intro _; rfl
  | cons x xs ih =>
    intro h
    rw [List.flatMap_cons, h x (List.mem_cons_self _ _),
      ih (fun p hp => h p (List.mem_cons_of_mem _ hp))]
    rfl

theorem skuScheduler.countLeafCellNumsOfGroups_eq_sum (s : skuScheduler) :
    ∀ gs : List PodGroupSpec,
      s.countLeafCellNumsOfGroups gs = (gs.map s.countLeafCellNumsOfGroup).sum
  | [] => by rw [skuScheduler.countLeafCellNumsOfGroups]; rfl
  | g :: rest => by
    rw [skuScheduler.countLeafCellNumsOfGroups,
      skuScheduler.countLeafCellNumsOfGroups_eq_sum s rest, List.map_cons, List.sum_cons]

theorem skuScheduler.countLeafCellNumsOfGroup_eq (s : skuScheduler) (g : PodGroupSpec) :
    s.countLeafCellNumsOfGroup g =
      (g.Pods.map s.countLeafCellNums).sum +
        (g.ChildGroups.map s.countLeafCellNumsOfGroup).sum := by
  cases g
  rw [skuScheduler.countLeafCellNumsOfGroup, skuScheduler.countLeafCellNumsOfGroups_eq_sum]
  rfl

theorem PodGroupSpec.eq_of_fields {g g' : PodGroupSpec} (h1 : g.Pods = g'.Pods)
    (h2 : g.ChildGroups = g'.ChildGroups) (h3 : g.WithinOneCell = g'.WithinOneCell) :
    g = g' := by
  cases g
  cases g'
  simp only [PodGroupSpec.Pods, PodGroupSpec.ChildGroups, PodGroupSpec.WithinOneCell] at h1 h2 h3
  rw [h1, h2, h3]

/-- What one more `sortPodGroup` does to a sorted group whose members and child groups
are already in place: nothing, when every member has `PodMinNumber = 1` and the sorted
child groups keep their leaf cell numbers and are left unchanged by `sortPodGroup`. -/
theorem skuScheduler.sortPodGroup_twice_of_children (s : skuScheduler) (g : PodGroupSpec)
    (hmin : ∀ m ∈ g.Pods, m.PodMinNumber = 1)
    (hch : ∀ c ∈ g.ChildGroups, s.sortPodGroup (s.sortPodGroup c) = s.sortPodGroup c ∧
      s.countLeafCellNumsOfGroup (s.sortPodGroup c) = s.countLeafCellNumsOfGroup c) :
    s.sortPodGroup (s.sortPodGroup g) = s.sortPodGroup g ∧
      s.countLeafCellNumsOfGroup (s.sortPodGroup g) = s.countLeafCellNumsOfGroup g := by
  have hpl : (sortStable (fun a b => decide (s.countLeafCellNums a > s.countLeafCellNums b))
      g.Pods).Perm g.Pods := sortStable_perm _ _
  have hcl : (sortStable (fun a b => decide
      (s.countLeafCellNumsOfGroup a > s.countLeafCellNumsOfGroup b)) g.ChildGroups).Perm
      g.ChildGroups := sortStable_perm _ _
  have hP : (s.sortPodGroup g).Pods =
      sortStable (fun a b => decide (s.countLeafCellNums a > s.countLeafCellNums b)) g.Pods := by
    rw [skuScheduler.sortPodGroup_pods]
    exact flatMap_replicate_one _ _ (fun m hm => by rw [hmin m (hpl.subset hm)]; rfl)
  have hC := skuScheduler.sortPodGroup_childGroups s g
  have hPsorted : (s.sortPodGroup g).Pods.Pairwise
      (fun a b => decide (s.countLeafCellNums b > s.countLeafCellNums a) = false) := by
    rw [hP]
    refine sortStable_sorted _ ?_ ?_ g.Pods
    · intro a b h
      simp only [decide_eq_true_eq, decide_eq_false_iff_not] at h ⊢
      omega
    · intro a b c h
      simp only [decide_eq_true_eq] at h ⊢
      omega
  have hCsorted : (s.sortPodGroup g).ChildGroups.Pairwise
      (fun a b => decide (s.countLeafCellNumsOfGroup b > s.countLeafCellNumsOfGroup a) =
        false) := by
    rw [hC, List.pairwise_map]
    have h0 := sortStable_sorted (fun a b => decide
        (s.countLeafCellNumsOfGroup a > s.countLeafCellNumsOfGroup b))
      (by
        intro a b h
        simp only [decide_eq_true_eq, decide_eq_false_iff_not] at h ⊢
        omega)
      (by
        intro a b c h
        simp only [decide_eq_true_eq] at h ⊢
        omega) g.ChildGroups
    rw [List.pairwise_iff_forall_sublist] at h0 ⊢
    intro a b hab
    have ha := (hch a (hcl.subset (hab.subset (by simp)))).2
    have hb := (hch b (hcl.subset (hab.subset (by simp)))).2
    rw [ha, hb]
    exact h0 hab
  constructor
  · apply PodGroupSpec.eq_of_fields
    · rw [skuScheduler.sortPodGroup_pods, sortStable_of_sorted _ _ hPsorted]
      refine flatMap_replicate_one _ _ (fun m hm => ?_)
      rw [hP] at hm
      rw [hmin m (hpl.subset hm)]
      rfl
    · rw [skuScheduler.sortPodGroup_childGroups, sortStable_of_sorted _ _ hCsorted, hC,
        List.map_map]
      apply List.map_congr_left
      intro c hc
      exact (hch c (hcl.subset hc)).1
    · rw [skuScheduler.sortPodGroup_withinOneCell]
  · rw [skuScheduler.countLeafCellNumsOfGroup_eq, skuScheduler.countLeafCellNumsOfGroup_eq s g,
      hP, hC, List.map_map]
    congr 1
    · exact (hpl.map _).sum_eq
    · rw [← (hcl.map s.countLeafCellNumsOfGroup).sum_eq]
      congr 1
      apply List.map_congr_left
      intro c hc
      exact (hch c (hcl.subset hc)).2

mutual
/-- On a tree in which every member has `PodMinNumber = 1`, a second `sortPodGroup`
changes nothing, and `sortPodGroup` keeps the leaf cell number of the group. -/
theorem skuScheduler.sortPodGroup_twice (s : skuScheduler) :
    ∀ g : PodGroupSpec, (∀ g0 ∈ g.groups, ∀ m ∈ g0.Pods, m.PodMinNumber = 1) →
      s.sortPodGroup (s.sortPodGroup g) = s.sortPodGroup g ∧
        s.countLeafCellNumsOfGroup (s.sortPodGroup g) = s.countLeafCellNumsOfGroup g
  | PodGroupSpec.mk pods childGroups w => by
    intro h
    rw [PodGroupSpec.groups_eq] at h
    refine skuScheduler.sortPodGroup_twice_of_children s _
      (h _ (List.mem_cons_self _ _)) ?_
    exact skuScheduler.sortPodGroups_twice s childGroups
      (fun g0 hg0 => h g0 (List.mem_cons_of_mem _ hg0))
theorem skuScheduler.sortPodGroups_twice (s : skuScheduler) :
    ∀ gs : List PodGroupSpec,
      (∀ g0 ∈ gs.flatMap PodGroupSpec.groups, ∀ m ∈ g0.Pods, m.PodMinNumber = 1) →
      ∀ c ∈ gs, s.sortPodGroup (s.sortPodGroup c) = s.sortPodGroup c ∧
        s.countLeafCellNumsOfGroup (s.sortPodGroup c) = s.countLeafCellNumsOfGroup c
  | [] => by intro _ c hc; cases hc
  | g :: rest => by
    intro h c hc
    rw [List.flatMap_cons] at h
    rcases List.mem_cons.mp hc with e | hc'
    · subst e
      exact skuScheduler.sortPodGroup_twice s c
        (fun g0 hg0 => h g0 (List.mem_append_left _ hg0))
    · exact skuScheduler.sortPodGroups_twice s rest
        (fun g0 hg0 => h g0 (List.mem_append_right _ hg0)) c hc'
end

/-- C36 (amended): on a pod group tree in which every member has `PodMinNumber = 1`,
`sortPodGroup` is idempotent, and `Schedule` returns on the group as a first call left
it what it returns on the group itself. -/
theorem skuScheduler_sortPodGroup_idempotent_min_one (H : Hierarchy) (s : skuScheduler)
    (fuel : Nat) (g : PodGroupSpec) (p : Int)
    (hmin : ∀ g0 ∈ g.groups, ∀ m ∈ g0.Pods, m.PodMinNumber = 1) :
    s.sortPodGroup (s.sortPodGroup g) = s.sortPodGroup g ∧
      s.Schedule H fuel (s.sortPodGroup g) p = s.Schedule H fuel g p := by
  have h := (skuScheduler.sortPodGroup_twice s g hmin).1
  refine ⟨h, ?_⟩
  unfold skuScheduler.Schedule
  rw [h]

/-- C36 (amended), on a group with two members and a child group, all of
`PodMinNumber = 1`: the sorted group has the member of 2 leaf cells first, and a second
call of `Schedule` places the same three pods. -/
theorem skuScheduler_sortPodGroup_idempotent_min_one_witness :
    ((exampleSkuScheduler.sortPodGroup
        (PodGroupSpec.mk [⟨1, "leaf", 1⟩, ⟨1, "leaf", 2⟩]
          [PodGroupSpec.mk [⟨1, "leaf", 1⟩] [] "node"] "node")).Pods =
      [⟨1, "leaf", 2⟩, ⟨1, "leaf", 1⟩] ∧
      exampleSkuScheduler.Schedule (exampleCluster exampleAllFree) 20
        (PodGroupSpec.mk [⟨1, "leaf", 1⟩, ⟨1, "leaf", 2⟩]
          [PodGroupSpec.mk [⟨1, "leaf", 1⟩] [] "node"] "node") 0 =
        some (PodGroupPlacement.mk [[8, 9], [10]] [PodGroupPlacement.mk [[11]] []],
          FailedReason.none)) ∧
    exampleSkuScheduler.sortPodGroup (exampleSkuScheduler.sortPodGroup
        (PodGroupSpec.mk [⟨1, "leaf", 1⟩, ⟨1, "leaf", 2⟩]
          [PodGroupSpec.mk [⟨1, "leaf", 1⟩] [] "node"] "node")) =
      exampleSkuScheduler.sortPodGroup
        (PodGroupSpec.mk [⟨1, "leaf", 1⟩, ⟨1, "leaf", 2⟩]
          [PodGroupSpec.mk [⟨1, "leaf", 1⟩] [] "node"] "node") ∧
    exampleSkuScheduler.Schedule (exampleCluster exampleAllFree) 20
        (exampleSkuScheduler.sortPodGroup
          (PodGroupSpec.mk [⟨1, "leaf", 1⟩, ⟨1, "leaf", 2⟩]
            [PodGroupSpec.mk [⟨1, "leaf", 1⟩] [] "node"] "node")) 0 =
      exampleSkuScheduler.Schedule (exampleCluster exampleAllFree) 20
        (PodGroupSpec.mk [⟨1, "leaf", 1⟩, ⟨1, "leaf", 2⟩]
          [PodGroupSpec.mk [⟨1, "leaf", 1⟩] [] "node"] "node") 0 :=
  ⟨⟨by decide!, by decide!⟩,
    skuScheduler_sortPodGroup_idempotent_min_one (exampleCluster exampleAllFree)
      exampleSkuScheduler 20
      (PodGroupSpec.mk [⟨1, "leaf", 1⟩, ⟨1, "leaf", 2⟩]
        [PodGroupSpec.mk [⟨1, "leaf", 1⟩] [] "node"] "node") 0
      (by
        intro g0 hg0 m hm
        simp only [PodGroupSpec.groups, PodGroupSpec.groupsOfList, List.append_nil,
          List.mem_cons, List.mem_singleton, List.not_mem_nil, or_false] at hg0
        rcases hg0 with e | e <;> subst e <;>
          simp only [PodGroupSpec.Pods, List.mem_cons, List.mem_singleton, List.not_mem_nil,
            or_false] at hm
        · rcases hm with e | e <;> subst e <;> rfl
        · subst hm; rfl)⟩

/-- The leaf cells that `getLeafCellsFromNode` adds to its two lists, for a cell of
level `d + 1`: the free ones and the preemptible ones among the leaf descendants. -/
theorem getLeafCellsFromNode_eq_filter {H : Hierarchy} (hl : LevelsByOne H)
    (hco : ChildrenOk H) (p : Int) :
    ∀ (d fuel : Nat) (c : Cell) (f pr : CellList), (H c).level = d + 1 → d < fuel →
      getLeafCellsFromNode H p fuel c f pr =
        some (f ++ (leafDescendants H d c).filter
            (fun x => decide ((H x).priority = freePriority)),
          pr ++ (leafDescendants H d c).filter
            (fun x => decide ((H x).priority ≠ freePriority ∧ (H x).priority < p))) := by
  intro d
  induction d with
  | zero =>
    intro fuel c f pr hlev hf
    obtain ⟨fuel', rfl⟩ : ∃ fuel', fuel = fuel' + 1 := ⟨fuel - 1, by omega⟩
    rw [getLeafCellsFromNode, if_neg (by rw [hlev]; simp)]
    simp only [leafDescendants]
    by_cases h1 : (H c).priority = freePriority
    · rw [if_pos h1]
      simp [h1]
    · rw [if_neg h1]
      by_cases h2 : (H c).priority < p
      · rw [if_pos h2]
        simp [h1, h2]
      · rw [if_neg h2]
        simp [h1, h2]
  | succ d ih =>
    intro fuel c f pr hlev hf
    obtain ⟨fuel', rfl⟩ : ∃ fuel', fuel = fuel' + 1 := ⟨fuel - 1, by omega⟩
    have hgt : (H c).level > 1 := by rw [hlev]; push_cast; omega
    rw [getLeafCellsFromNode, if_pos hgt, leafDescendants, if_pos hgt]
    have key : ∀ (chs : CellList) (f pr : CellList),
        (∀ cc ∈ chs, (H cc).level = (d : Int) + 1) →
        chs.foldlM (fun acc cc => getLeafCellsFromNode H p fuel' cc acc.1 acc.2) (f, pr) =
          some (f ++ (chs.flatMap (leafDescendants H d)).filter
              (fun x => decide ((H x).priority = freePriority)),
            pr ++ (chs.flatMap (leafDescendants H d)).filter
              (fun x => decide ((H x).priority ≠ freePriority ∧ (H x).priority < p))) := by
      intro chs
      induction chs with
      | nil => intro f pr _; simp
      | cons cc rest ihc =>
        intro f pr hch
        rw [List.foldlM_cons, ih fuel' cc f pr (hch cc (List.mem_cons_self _ _)) (by omega)]
        simp only [Option.bind_eq_bind, Option.some_bind]
        rw [ihc _ _ (fun x hx => hch x (List.mem_cons_of_mem _ hx))]
        simp [List.flatMap_cons, List.filter_append, List.append_assoc]
    apply key
    intro cc hcc
    rw [child_level hl hco hcc, hlev]
    push_cast
    omega

theorem usedAt_of_mem {used : List (Int × Int)} (hk : (used.map Prod.fst).Nodup) :
    ∀ e ∈ used, usedAt used e.1 = e.2 := by
  unfold usedAt
  induction used with
  | nil => intro e he; cases he
  | cons x rest ih =>
    intro e he
    rw [List.map_cons, List.nodup_cons] at hk
    rcases List.mem_cons.mp he with h | h
    · subst h
      simp [List.lookup]
    · have hne : e.1 ≠ x.1 := by
        intro heq
        exact hk.1 (heq ▸ List.mem_map_of_mem Prod.fst h)
      have hb : (e.1 == x.1) = false := by simpa using hne
      rw [List.lookup_cons, hb]
      exact ih hk.2 e h

theorem usedAt_of_not_mem {used : List (Int × Int)} {q : Int}
    (h : q ∉ used.map Prod.fst) : usedAt used q = 0 := by
  unfold usedAt
  induction used with
  | nil => rfl
  | cons x rest ih =>
    rw [List.map_cons, List.mem_cons, not_or] at h
    have hb : (q == x.1) = false := by simpa using h.1
    rw [List.lookup_cons, hb]
    exact ih h.2

/-- The sum over distinct values `q` of the number of elements whose key is `q` is the
number of elements whose key is one of the values. -/
theorem sum_length_filter_eq {α : Type} (key : α → Int) (L : List α) :
    ∀ (K : List Int), K.Nodup →
      (K.map (fun q => ((L.filter (fun x => decide (key x = q))).length : Int))).sum =
        ((L.filter (fun x => decide (key x ∈ K))).length : Int) := by
  intro K
  induction K with
  | nil => intro _; simp
  | cons q K ih =>
    intro hK
    rw [List.nodup_cons] at hK
    rw [List.map_cons, List.sum_cons, ih hK.2]
    have hsplit : ∀ L : List α,
        ((L.filter (fun x => decide (key x = q))).length : Int) +
          ((L.filter (fun x => decide (key x ∈ K))).length : Int) =
        ((L.filter (fun x => decide (key x ∈ q :: K))).length : Int) := by
      intro L
      induction L with
      | nil => simp
      | cons x xs ihx =>
        by_cases h1 : key x = q
        · subst h1
          simp only [List.filter_cons, hK.1, decide_True, decide_False, if_true,
            Bool.false_eq_true, if_false, List.mem_cons, true_or, List.length_cons] at ihx ⊢
          push_cast
          omega
        · by_cases h2 : key x ∈ K
          · simp only [List.filter_cons, h1, h2, decide_True, decide_False, if_true,
              Bool.false_eq_true, if_false, List.mem_cons, or_true, false_or,
              List.length_cons] at ihx ⊢
            push_cast
            omega
          · simp only [List.filter_cons, h1, h2, decide_False, Bool.false_eq_true, if_false,
              List.mem_cons, or_self] at ihx ⊢
            exact ihx
    exact hsplit L

/-- The entries of a usage map at or above `p` sum to the number of leaf cells used at
those priorities, when the map records for every priority but `freePriority` the number
of leaf cells `L` used at it. -/
theorem usedSum_eq_length_filter {H : Hierarchy} {used : List (Int × Int)} {L : CellList}
    {p : Int} (hk : (used.map Prod.fst).Nodup) (hp : freePriority < p)
    (hused : ∀ q, q ≠ freePriority →
      usedAt used q = ((L.filter (fun x => decide ((H x).priority = q))).length : Int)) :
    usedSum used (fun q => decide (q ≥ p)) =
      ((L.filter (fun x => decide ((H x).priority ≥ p))).length : Int) := by
  unfold usedSum
  have h1 : (used.filter (fun e => decide (e.1 ≥ p))).map Prod.snd =
      ((used.filter (fun e => decide (e.1 ≥ p))).map Prod.fst).map
        (fun q => ((L.filter (fun x => decide ((H x).priority = q))).length : Int)) := by
    rw [List.map_map]
    apply List.map_congr_left
    intro e he
    obtain ⟨hmem, hge⟩ := List.mem_filter.mp he
    simp only [decide_eq_true_eq] at hge
    simp only [Function.comp]
    rw [← hused e.1 (by omega), usedAt_of_mem hk e hmem]
  have hnd : ((used.filter (fun e => decide (e.1 ≥ p))).map Prod.fst).Nodup :=
    ((List.filter_sublist used).map Prod.fst).nodup hk
  rw [h1, sum_length_filter_eq (fun x => (H x).priority) L _ hnd]
  congr 2
  apply List.filter_congr
  intro x hx
  simp only [decide_eq_decide, List.mem_map, List.mem_filter, decide_eq_true_eq]
  constructor
  · rintro ⟨e, ⟨_, hge⟩, heq⟩
    omega
  · intro hge
    by_contra hno
    have hnk : (H x).priority ∉ used.map Prod.fst := by
      intro hmem
      obtain ⟨e, he, heq⟩ := List.mem_map.mp hmem
      exact hno ⟨e, ⟨he, by omega⟩, heq⟩
    have h2 := hused (H x).priority (by omega)
    rw [usedAt_of_not_mem hnk] at h2
    have h3 : x ∈ L.filter (fun y => decide ((H y).priority = (H x).priority)) :=
      List.mem_filter.mpr ⟨hx, by simp⟩
    have h4 := List.length_pos_of_mem h3
    omega

theorem length_eq_three_filters {H : Hierarchy} {p : Int} (hp : freePriority < p) :
    ∀ L : CellList, (L.length : Int) =
      ((L.filter (fun x => decide ((H x).priority = freePriority))).length : Int) +
        ((L.filter (fun x =>
          decide ((H x).priority ≠ freePriority ∧ (H x).priority < p))).length : Int) +
        ((L.filter (fun x => decide ((H x).priority ≥ p))).length : Int) := by
  intro L
  induction L with
  | nil => simp
  | cons x xs ih =>
    by_cases h1 : (H x).priority = freePriority
    · have h2 : ¬ freePriority ≥ p := by omega
      simp only [List.filter_cons, h1, h2, decide_True, decide_False, if_true,
        Bool.false_eq_true, if_false, ne_eq, not_true_eq_false, false_and,
        List.length_cons] at ih ⊢
      push_cast
      omega
    · by_cases h2 : (H x).priority < p
      · have h3 : ¬ (H x).priority ≥ p := by omega
        simp only [List.filter_cons, h1, h2, h3, decide_True, decide_False, if_true,
          Bool.false_eq_true, if_false, ne_eq, not_false_eq_true, and_self,
          List.length_cons] at ih ⊢
        push_cast
        omega
      · have h3 : (H x).priority ≥ p := by omega
        simp only [List.filter_cons, h1, h2, h3, decide_True, decide_False, if_true,
          Bool.false_eq_true, if_false, ne_eq, not_false_eq_true, and_false,
          List.length_cons] at ih ⊢
        push_cast
        omega

/-- C34: for a node whose cell has a usage map without a priority twice that records
for every priority but `freePriority` the number of leaf cells of the node at that
priority, and whose `totalLeafCellNum` is the number of its leaf cells, and for a
priority `p > freePriority`: `getLeafCellsFromNode` returns, given fuel for the levels
of the node, and the `freeLeafCellNumAtPriority` that
`updateUsedLeafCellNumForPriority` computes at `p` is the number of free and preemptible
leaf cells it collects; so a pod of at most `freeLeafCellNumAtPriority` leaf cells has
enough candidates. -/
theorem node_freeLeafCellNumAtPriority_eq_candidates (H : Hierarchy) (n : node) (p : Int)
    (crossPriorityPack : Bool) (fuel : Nat)
    (hl : LevelsByOne H) (hco : ChildrenOk H) (hlev : 1 ≤ (H n.c).level)
    (hfuel : ((H n.c).level - 1).toNat < fuel)
    (hkeys : ((H n.c).usedLeafCellNumAtPriorities.map Prod.fst).Nodup)
    (hp : freePriority < p)
    (htotal : (H n.c).totalLeafCellNum = ((leavesOf H n.c).length : Int))
    (hused : ∀ q, q ≠ freePriority →
      usedAt (H n.c).usedLeafCellNumAtPriorities q =
        (((leavesOf H n.c).filter (fun x => decide ((H x).priority = q))).length : Int)) :
    ∃ freeLeafCells preemptibleLeafCells,
      getLeafCellsFromNode H p fuel n.c [] [] = some (freeLeafCells, preemptibleLeafCells) ∧
      candidateLeafCells H fuel n.c p none = some (freeLeafCells ++ preemptibleLeafCells) ∧
      (n.updateUsedLeafCellNumForPriority H p crossPriorityPack).freeLeafCellNumAtPriority =
        ((freeLeafCells ++ preemptibleLeafCells).length : Int) ∧
      ∀ leafCellNum : Int,
        leafCellNum ≤ (n.updateUsedLeafCellNumForPriority H p
          crossPriorityPack).freeLeafCellNumAtPriority →
        leafCellNum ≤ ((freeLeafCells ++ preemptibleLeafCells).length : Int) := by
  have hget := getLeafCellsFromNode_eq_filter hl hco p ((H n.c).level - 1).toNat fuel n.c [] []
    (by omega) hfuel
  have hfree : (n.updateUsedLeafCellNumForPriority H p crossPriorityPack).freeLeafCellNumAtPriority =
      ((((leavesOf H n.c).filter (fun x => decide ((H x).priority = freePriority))) ++
        ((leavesOf H n.c).filter (fun x =>
          decide ((H x).priority ≠ freePriority ∧ (H x).priority < p)))).length : Int) := by
    rw [(node.updateUsedLeafCellNumForPriority_fold H n p crossPriorityPack).2.2,
      sum_map_ite_eq_usedSum _ (fun q => decide (q ≥ p)),
      usedSum_eq_length_filter hkeys hp hused, htotal, List.length_append]
    have := length_eq_three_filters (H := H) hp (leavesOf H n.c)
    push_cast
    omega
  refine ⟨_, _, hget, ?_, ?_, ?_⟩
  · unfold candidateLeafCells
    simp only [hget]
  · simpa [leavesOf] using hfree
  · intro k hk
    have h := hfree
    simp only [leavesOf] at h
    simp only [List.nil_append] at h ⊢
    omega

/-- C34, on node 28 of the example cluster with leaf cell 1 used at priority 0, at
priority 3: the node has 8 leaf cells free at the priority, and the candidates are the
7 free leaf cells followed by the preemptible leaf cell 1. -/
theorem node_freeLeafCellNumAtPriority_eq_candidates_witness :
    (getLeafCellsFromNode (exampleCluster exampleOneUsed) 3 4 28 [] [] =
        some ([0, 2, 3, 4, 5, 6, 7], [1]) ∧
      ((node.ofCell 28).updateUsedLeafCellNumForPriority (exampleCluster exampleOneUsed) 3
        true).freeLeafCellNumAtPriority = 8) ∧
    ∃ freeLeafCells preemptibleLeafCells,
      getLeafCellsFromNode (exampleCluster exampleOneUsed) 3 4 (node.ofCell 28).c [] [] =
        some (freeLeafCells, preemptibleLeafCells) ∧
      candidateLeafCells (exampleCluster exampleOneUsed) 4 (node.ofCell 28).c 3 none =
        some (freeLeafCells ++ preemptibleLeafCells) ∧
      ((node.ofCell 28).updateUsedLeafCellNumForPriority (exampleCluster exampleOneUsed) 3
        true).freeLeafCellNumAtPriority =
        ((freeLeafCells ++ preemptibleLeafCells).length : Int) ∧
      ∀ leafCellNum : Int,
        leafCellNum ≤ ((node.ofCell 28).updateUsedLeafCellNumForPriority
          (exampleCluster exampleOneUsed) 3 true).freeLeafCellNumAtPriority →
        leafCellNum ≤ ((freeLeafCells ++ preemptibleLeafCells).length : Int) :=
  ⟨⟨by decide!, by decide!⟩,
    node_freeLeafCellNumAtPriority_eq_candidates (exampleCluster exampleOneUsed)
      (node.ofCell 28) 3 true 4 (exampleCluster_levelsByOne _) (exampleCluster_childrenOk _)
      (by decide!) (by decide!) (by decide!) (by decide!) (by decide!)
      (by
        intro q hq
        have e1 : (exampleCluster exampleOneUsed (node.ofCell 28).c).usedLeafCellNumAtPriorities =
            [(0, 1)] := by decide!
        have e2 : leavesOf (exampleCluster exampleOneUsed) (node.ofCell 28).c =
            [0, 1, 2, 3, 4, 5, 6, 7] := by decide!
        have e3 : ([0, 1, 2, 3, 4, 5, 6, 7] : CellList).map
            (fun x => (exampleCluster exampleOneUsed x).priority) =
            [-2, 0, -2, -2, -2, -2, -2, -2] := by decide!
        have e4 : freePriority = -2 := by decide!
        rw [e1, e2]
        have e5 : ∀ L : CellList,
            (L.filter (fun x => decide ((exampleCluster exampleOneUsed x).priority = q))).length =
            ((L.map (fun x => (exampleCluster exampleOneUsed x).priority)).filter
              (fun r => decide (r = q))).length := by
          intro L
          induction L with
          | nil => rfl
          | cons x xs ih =>
            simp only [List.filter_cons, List.map_cons]
            split_ifs <;> simp [ih]
        rw [e5, e3]
        rw [e4] at hq
        unfold usedAt
        by_cases h0 : q = 0
        · subst h0; decide
        · have h0' : ¬ (0 : Int) = q := fun h => h0 h.symm
          have hq' : ¬ (-2 : Int) = q := fun h => hq h.symm
          have hb : (q == 0) = false := by simpa using h0
          simp [List.lookup, hb, List.filter_cons, h0', hq'])⟩

section

section

variable {H : Hierarchy} {fuel : Nat} {avail : CellList} {k : Nat} {optimal : Int}

/-- The three ways in which an iteration of the search goes on: the body of the inner
loop moves to the next candidate, with or without picking the current one, or the code
after the inner loop goes back to the position picked last. -/
theorem affinitySearch.step_next {st st' : SearchState}
    (h : affinitySearch.step H fuel avail k optimal st = some (Sum.inl st')) :
    (∃ (hidx : st.availableLeafCellIndex < avail.length) (a : Option Cell),
        st.searchLeafCellIndex < st.currentLeafCellIndices.length ∧
        st.searchLeafCellIndex < st.currentAffinity.length ∧
        affinitySearch.lca H fuel st avail[st.availableLeafCellIndex] = some a ∧
        st'.availableLeafCellIndex = st.availableLeafCellIndex + 1 ∧
        st'.currentLeafCellIndices =
          st.currentLeafCellIndices.set st.searchLeafCellIndex st.availableLeafCellIndex ∧
        st'.currentAffinity = st.currentAffinity.set st.searchLeafCellIndex a ∧
        ((affinitySearch.pruned H st a = true ∧
            st'.searchLeafCellIndex = st.searchLeafCellIndex ∧
            st'.bestAffinity = st.bestAffinity) ∨
          (affinitySearch.pruned H st a = false ∧ st.searchLeafCellIndex + 1 = k ∧
            st'.searchLeafCellIndex = st.searchLeafCellIndex ∧
            ∃ last, (st.currentAffinity.set st.searchLeafCellIndex a).getLast? =
                some (some last) ∧
              st'.bestAffinity =
                if (H last).level < st.bestAffinity then (H last).level
                else st.bestAffinity) ∨
          (affinitySearch.pruned H st a = false ∧ st.searchLeafCellIndex + 1 ≠ k ∧
            st'.searchLeafCellIndex = st.searchLeafCellIndex + 1 ∧
            st'.bestAffinity = st.bestAffinity))) ∨
    (¬ st.availableLeafCellIndex < avail.length ∧ st.searchLeafCellIndex ≠ 0 ∧
      ∃ i, st.currentLeafCellIndices[st.searchLeafCellIndex - 1]? = some i ∧
        st'.availableLeafCellIndex = i + 1 ∧
        st'.searchLeafCellIndex = st.searchLeafCellIndex - 1 ∧
        st'.currentLeafCellIndices = st.currentLeafCellIndices ∧
        st'.currentAffinity = st.currentAffinity ∧
        st'.bestAffinity = st.bestAffinity) := by
  unfold affinitySearch.step at h
  by_cases hidx : st.availableLeafCellIndex < avail.length
  · left
    have hleaf : avail[st.availableLeafCellIndex]? = some avail[st.availableLeafCellIndex] :=
      List.getElem?_eq_getElem hidx
    rw [if_pos hidx, hleaf] at h
    simp only [] at h
    by_cases hlen : st.searchLeafCellIndex < st.currentLeafCellIndices.length ∧
        st.searchLeafCellIndex < st.currentAffinity.length
    swap
    · rw [if_neg hlen] at h; cases h
    rw [if_pos hlen] at h
    cases hl : affinitySearch.lca H fuel st avail[st.availableLeafCellIndex] with
    | none => rw [hl] at h; simp at h
    | some a =>
      rw [hl] at h
      simp only [] at h
      refine ⟨hidx, a, hlen.1, hlen.2, hl, ?_⟩
      by_cases hpr : affinitySearch.pruned H st a = true
      · rw [if_pos hpr] at h
        simp only [Option.some.injEq, Sum.inl.injEq] at h
        subst h
        exact ⟨rfl, rfl, rfl, Or.inl ⟨hpr, rfl, rfl⟩⟩
      · rw [if_neg hpr] at h
        have hpr' : affinitySearch.pruned H st a = false := by simpa using hpr
        by_cases hk : st.searchLeafCellIndex + 1 = k
        · rw [if_pos hk] at h
          cases hg : (st.currentAffinity.set st.searchLeafCellIndex a).getLast? with
          | none => rw [hg] at h; simp at h
          | some ol =>
            rw [hg] at h
            cases ol with
            | none => simp at h
            | some last =>
              simp only [] at h
              unfold checkCurrentLeafCells at h
              by_cases hlt : (H last).level < st.bestAffinity
              · rw [if_pos hlt] at h
                by_cases hall : ((st.currentLeafCellIndices.set st.searchLeafCellIndex
                    st.availableLeafCellIndex).all (fun i => decide (i < avail.length))) = true
                swap
                · rw [if_neg hall] at h; simp at h
                rw [if_pos hall] at h
                simp only [] at h
                by_cases hfound : (H last).level = optimal
                · rw [if_pos (decide_eq_true hfound)] at h
                  simp at h
                · rw [if_neg (by simpa using hfound)] at h
                  simp only [Option.some.injEq, Sum.inl.injEq] at h
                  subst h
                  exact ⟨rfl, rfl, rfl, Or.inr (Or.inl ⟨hpr', hk, rfl, last, rfl,
                    by simp [hlt]⟩)⟩
              · rw [if_neg hlt] at h
                simp only [Bool.false_eq_true, if_false, Option.some.injEq,
                  Sum.inl.injEq] at h
                subst h
                exact ⟨rfl, rfl, rfl, Or.inr (Or.inl ⟨hpr', hk, rfl, last, rfl,
                  by simp [hlt]⟩)⟩
        · rw [if_neg hk] at h
          simp only [Option.some.injEq, Sum.inl.injEq] at h
          subst h
          exact ⟨rfl, rfl, rfl, Or.inr (Or.inr ⟨hpr', hk, rfl, rfl⟩)⟩
  · right
    rw [if_neg hidx] at h
    by_cases hs0 : st.searchLeafCellIndex = 0
    · rw [if_pos hs0] at h
      split_ifs at h
      simp at h
    · rw [if_neg hs0] at h
      refine ⟨hidx, hs0, ?_⟩
      cases hg : st.currentLeafCellIndices[st.searchLeafCellIndex - 1]? with
      | none => rw [hg] at h; cases h
      | some i =>
        rw [hg] at h
        simp only [Option.some.injEq, Sum.inl.injEq] at h
        subst h
        exact ⟨i, rfl, rfl, rfl, rfl, rfl, rfl⟩

/-- Between two consecutive loop tests the frontier of the search goes up in the
lexicographic order. -/
theorem affinitySearch.step_lex {st st' : SearchState}
    (h : affinitySearch.step H fuel avail k optimal st = some (Sum.inl st')) :
    List.Lex (fun a b => a < b) (affinitySearch.frontier st) (affinitySearch.frontier st') := by
  unfold affinitySearch.frontier
  rcases affinitySearch.step_next h with
    ⟨hidx, a, hlc, hla, hl, e1, e2, e3, hcase⟩ | ⟨hidx, hs0, i, hi, e1, e2, e3, e4, e5⟩
  · have hsame : st'.searchLeafCellIndex = st.searchLeafCellIndex →
        List.Lex (fun a b => a < b)
          (st.currentLeafCellIndices.take st.searchLeafCellIndex ++ [st.availableLeafCellIndex])
          (st'.currentLeafCellIndices.take st'.searchLeafCellIndex ++
            [st'.availableLeafCellIndex]) := by
      intro es
      rw [es, e1, e2]
      have : (st.currentLeafCellIndices.set st.searchLeafCellIndex
          st.availableLeafCellIndex).take st.searchLeafCellIndex =
          st.currentLeafCellIndices.take st.searchLeafCellIndex := by
        apply List.ext_getElem?
        intro m
        rw [List.getElem?_take, List.getElem?_take]
        split_ifs with hm
        · exact List.getElem?_set_ne (by omega)
        · rfl
      rw [this]
      exact List.Lex.append_left _ (List.Lex.rel (Nat.lt_succ_self _)) _
    rcases hcase with ⟨_, es, _⟩ | ⟨_, _, es, _⟩ | ⟨_, _, es, _⟩
    · exact hsame es
    · exact hsame es
    · rw [es, e1, e2, List.take_succ, List.getElem?_set_self hlc]
      have : (st.currentLeafCellIndices.set st.searchLeafCellIndex
          st.availableLeafCellIndex).take st.searchLeafCellIndex =
          st.currentLeafCellIndices.take st.searchLeafCellIndex := by
        apply List.ext_getElem?
        intro m
        rw [List.getElem?_take, List.getElem?_take]
        split_ifs with hm
        · exact List.getElem?_set_ne (by omega)
        · rfl
      rw [this]
      simp only [Option.toList, List.append_assoc]
      exact List.Lex.append_left _ (List.Lex.cons List.Lex.nil) _
  · rw [e2, e1, e3]
    obtain ⟨s, hs⟩ : ∃ s, st.searchLeafCellIndex = s + 1 :=
      ⟨st.searchLeafCellIndex - 1, by omega⟩
    rw [hs] at hi ⊢
    simp only [Nat.add_sub_cancel] at hi ⊢
    rw [List.take_succ, hi]
    simp only [Option.toList, List.append_assoc]
    exact List.Lex.append_left _ (List.Lex.rel (Nat.lt_succ_self _)) _

end

end

section

section

variable {H : Hierarchy} {fuel : Nat} {avail : CellList} {k : Nat} {optimal : Int}

theorem affinitySearch.stateAfter_succ {j : Nat} {st' : SearchState}
    (h : affinitySearch.stateAfter H fuel avail k optimal (j + 1) = some st') :
    ∃ st, affinitySearch.stateAfter H fuel avail k optimal j = some st ∧
      affinitySearch.step H fuel avail k optimal st = some (Sum.inl st') := by
  rw [affinitySearch.stateAfter] at h
  cases hj : affinitySearch.stateAfter H fuel avail k optimal j with
  | none => rw [hj] at h; cases h
  | some st =>
    rw [hj] at h
    simp only [] at h
    cases hs : affinitySearch.step H fuel avail k optimal st with
    | none => rw [hs] at h; cases h
    | some out =>
      rw [hs] at h
      cases out with
      | inl st1 =>
        simp only [Option.some.injEq] at h
        subst h
        exact ⟨st, rfl, hs⟩
      | inr r => cases h

theorem affinitySearch.stateAfter_step {j : Nat} {st st' : SearchState}
    (hj : affinitySearch.stateAfter H fuel avail k optimal j = some st)
    (hs : affinitySearch.step H fuel avail k optimal st = some (Sum.inl st')) :
    affinitySearch.stateAfter H fuel avail k optimal (j + 1) = some st' := by
  rw [affinitySearch.stateAfter, hj]
  simp only []
  rw [hs]

/-- Once the loop has stopped there is no later loop test. -/
theorem affinitySearch.stateAfter_none {i : Nat}
    (h : affinitySearch.stateAfter H fuel avail k optimal i = none) :
    ∀ d, affinitySearch.stateAfter H fuel avail k optimal (i + d) = none := by
  intro d
  induction d with
  | zero => exact h
  | succ d ih =>
    show affinitySearch.stateAfter H fuel avail k optimal (i + d + 1) = none
    rw [affinitySearch.stateAfter, ih]

/-- At every loop test the invariant of the search holds, and the measure of the search
has gone up at every iteration. -/
theorem affinitySearch.stateAfter_inv (hk : 0 < k) :
    ∀ (j : Nat) (st : SearchState),
      affinitySearch.stateAfter H fuel avail k optimal j = some st →
      SearchInv H avail k optimal st ∧ j ≤ searchMeasure avail.length k st := by
  intro j
  induction j with
  | zero =>
    intro st h
    rw [affinitySearch.stateAfter] at h
    cases h
    exact ⟨affinitySearch.init_inv hk, Nat.zero_le _⟩
  | succ j ih =>
    intro st' h
    obtain ⟨st, hj, hs⟩ := affinitySearch.stateAfter_succ h
    obtain ⟨hinv, hm⟩ := ih st hj
    have := affinitySearch.step_spec st hinv _ hs
    exact ⟨this.1, by have := this.2; omega⟩

/-- The loop test is reached at most `(n + 2) ^ k + 1` times. -/
theorem affinitySearch.stateAfter_bound (hk : 0 < k) (j : Nat)
    (hj : (avail.length + 2) ^ k < j) :
    affinitySearch.stateAfter H fuel avail k optimal j = none := by
  cases h : affinitySearch.stateAfter H fuel avail k optimal j with
  | none => rfl
  | some st =>
    obtain ⟨hinv, hm⟩ := affinitySearch.stateAfter_inv hk j st h
    have := searchMeasure_le hinv
    omega

/-- The loop stops: some loop test is the last one, and the iteration that starts there
returns or panics. -/
theorem affinitySearch.stateAfter_last (hk : 0 < k) :
    ∃ j st, j ≤ (avail.length + 2) ^ k ∧
      affinitySearch.stateAfter H fuel avail k optimal j = some st ∧
      (affinitySearch.step H fuel avail k optimal st = none ∨
        ∃ r, affinitySearch.step H fuel avail k optimal st = some (Sum.inr r)) ∧
      ∀ i, j < i → affinitySearch.stateAfter H fuel avail k optimal i = none := by
  have key : ∀ m, affinitySearch.stateAfter H fuel avail k optimal m = none →
      ∃ j st, j < m ∧ affinitySearch.stateAfter H fuel avail k optimal j = some st ∧
        affinitySearch.stateAfter H fuel avail k optimal (j + 1) = none := by
    intro m
    induction m with
    | zero => intro h; rw [affinitySearch.stateAfter] at h; cases h
    | succ m ih =>
      intro h
      cases hm : affinitySearch.stateAfter H fuel avail k optimal m with
      | none =>
        obtain ⟨j, st, h1, h2, h3⟩ := ih hm
        exact ⟨j, st, by omega, h2, h3⟩
      | some st => exact ⟨m, st, Nat.lt_succ_self _, hm, h⟩
  obtain ⟨j, st, h1, h2, h3⟩ := key ((avail.length + 2) ^ k + 1)
    (affinitySearch.stateAfter_bound hk _ (Nat.lt_succ_self _))
  refine ⟨j, st, by omega, h2, ?_, ?_⟩
  · rw [affinitySearch.stateAfter, h2] at h3
    simp only [] at h3
    cases hs : affinitySearch.step H fuel avail k optimal st with
    | none => exact Or.inl rfl
    | some out =>
      cases out with
      | inl st' => rw [hs] at h3; cases h3
      | inr r => exact Or.inr ⟨r, rfl⟩
  · intro i hi
    obtain ⟨d, rfl⟩ : ∃ d, i = j + 1 + d := ⟨i - (j + 1), by omega⟩
    exact affinitySearch.stateAfter_none h3 d

/-- Between any two loop tests the frontier of the search goes up in the lexicographic
order. -/
theorem affinitySearch.stateAfter_lex (i : Nat) (sti : SearchState)
    (hi : affinitySearch.stateAfter H fuel avail k optimal i = some sti) :
    ∀ (d : Nat) (stj : SearchState),
      affinitySearch.stateAfter H fuel avail k optimal (i + d + 1) = some stj →
      List.Lex (fun a b => a < b) (affinitySearch.frontier sti)
        (affinitySearch.frontier stj) := by
  intro d
  induction d with
  | zero =>
    intro stj hj
    obtain ⟨st, h1, h2⟩ := affinitySearch.stateAfter_succ hj
    rw [hi] at h1
    cases h1
    exact affinitySearch.step_lex h2
  | succ d ih =>
    intro stj hj
    obtain ⟨st, h1, h2⟩ := affinitySearch.stateAfter_succ hj
    exact Trans.trans (ih st h1) (affinitySearch.step_lex h2)

/-- The frontier of a state in which the invariant holds: ascending positions, at most
`k` of them, and a choice of `k` candidates when the last position is being tried. -/
theorem affinitySearch.frontier_sorted {st : SearchState}
    (hinv : SearchInv H avail k optimal st) :
    (affinitySearch.frontier st).Pairwise (fun a b => a < b) ∧
      (affinitySearch.frontier st).length = st.searchLeafCellIndex + 1 ∧
      (affinitySearch.frontier st).length ≤ k ∧
      (st.searchLeafCellIndex + 1 = k → st.availableLeafCellIndex < avail.length →
        IsCombo avail.length k (affinitySearch.frontier st)) := by
  obtain ⟨prevRev, affRev, curRest, affRest, inv⟩ := hinv
  have e : affinitySearch.frontier st = prevRev.reverse ++ [st.availableLeafCellIndex] := by
    unfold affinitySearch.frontier
    rw [inv.cur_eq, List.take_left' (by rw [List.length_reverse]; exact inv.len_prev)]
  rw [e]
  have hlen : (prevRev.reverse ++ [st.availableLeafCellIndex]).length =
      st.searchLeafCellIndex + 1 := by simp [inv.len_prev]
  refine ⟨?_, hlen, by have := inv.s_lt; omega, ?_⟩
  · rw [List.pairwise_append]
    refine ⟨List.pairwise_reverse.mpr ?_, List.pairwise_singleton _ _, ?_⟩
    · exact inv.sorted.imp (fun h => h)
    · intro a ha b hb
      simp only [List.mem_singleton] at hb
      subst hb
      exact inv.prev_lt a (List.mem_reverse.mp ha)
  · intro hk hidx
    exact isCombo_snoc inv.sorted inv.prev_lt hidx (by rw [inv.len_prev]; exact hk)

end

end

section

section

variable {H : Hierarchy} {fuel : Nat} {avail : CellList} {k : Nat} {optimal : Int}
  {n : Cell} {l0 : Int} {j : Nat}

/-- Under `SearchSafe` the affinity stored for a candidate is a cell below `n`: the
previous affinity is not `nil` and `findLCA` finds a common ancestor. -/
theorem affinitySearch.lca_safe {st : SearchState} (hu : SearchUnder H fuel avail k n l0)
    (hs : SearchSafe H n l0 j st) (hidx : st.availableLeafCellIndex < avail.length) :
    ∃ a, affinitySearch.lca H fuel st avail[st.availableLeafCellIndex] = some (some a) ∧
      Anc H n a ∧ l0 ≤ (H a).level ∧ (H a).level < highestLevel := by
  have hmem : avail[st.availableLeafCellIndex] ∈ avail := List.getElem_mem _
  have hlt : ∀ a, Anc H n a → (H a).level < highestLevel := by
    intro a ha
    have := ha.level_le hu.levels
    have := hu.level_lt
    omega
  unfold affinitySearch.lca
  by_cases hs0 : st.searchLeafCellIndex = 0
  · rw [if_pos hs0]
    exact ⟨_, rfl, hu.under _ hmem, le_of_eq (hu.same _ hmem).symm, hlt _ (hu.under _ hmem)⟩
  · rw [if_neg hs0]
    obtain ⟨higher, hget, hanc, hlev⟩ := hs.aff (st.searchLeafCellIndex - 1) (by omega)
    rw [hget]
    simp only []
    have hle : (H avail[st.availableLeafCellIndex]).level ≤ (H higher).level := by
      rw [hu.same _ hmem]; exact hlev
    obtain ⟨a, ha⟩ := findLCA_total hu.levels n fuel _ higher (hu.under _ hmem) hanc hle
      (by rw [hu.same _ hmem]; exact hu.fuel_ok)
    obtain ⟨h1, h2, h3⟩ := (findLCA_spec hu.levels fuel _ higher (some a) hle ha).1 a rfl
    have hna : Anc H n a := h3 n (hu.under _ hmem) hanc
    refine ⟨a, ha, hna, ?_, hlt a hna⟩
    have := h1.level_le hu.levels
    rw [hu.same _ hmem] at this
    exact this

/-- Under `SearchSafe` no iteration of the search panics, and `SearchSafe` holds at the
next loop test. -/
theorem affinitySearch.step_safe (st : SearchState)
    (hinv : SearchInv H avail k optimal st) (hu : SearchUnder H fuel avail k n l0)
    (hs : SearchSafe H n l0 j st) :
    ∃ out, affinitySearch.step H fuel avail k optimal st = some out ∧
      ∀ st', out = Sum.inl st' → SearchSafe H n l0 (j + 1) st' := by
  obtain ⟨prevRev, affRev, curRest, affRest, inv⟩ := hinv
  have hprog : ∃ out, affinitySearch.step H fuel avail k optimal st = some out := by
    unfold affinitySearch.step
    by_cases hidx : st.availableLeafCellIndex < avail.length
    · obtain ⟨a0, arest', harest⟩ := exists_cons_of_length_lt affRev.reverse affRest k
        (by rw [← inv.aff_eq]; exact inv.len_aff) (by simp [inv.len_affRev, inv.s_lt])
      have haff' : ∀ a, st.currentAffinity.set st.searchLeafCellIndex a
          = affRev.reverse ++ a :: arest' := by
        intro a
        rw [inv.aff_eq, harest]
        exact set_append_cons _ _ _ _ _ (by simp [inv.len_affRev])
      have hlena : ∀ a, (affRev.reverse ++ a :: arest').length = k := by
        intro a; rw [← haff', List.length_set]; exact inv.len_aff
      have hleaf : avail[st.availableLeafCellIndex]? = some avail[st.availableLeafCellIndex] :=
        List.getElem?_eq_getElem hidx
      obtain ⟨a, ha, _⟩ := affinitySearch.lca_safe hu hs hidx
      rw [if_pos hidx, hleaf]
      simp only []
      rw [if_pos ⟨by rw [inv.len_cur]; exact inv.s_lt, by rw [inv.len_aff]; exact inv.s_lt⟩, ha]
      simp only []
      by_cases hpr : affinitySearch.pruned H st (some a) = true
      · rw [if_pos hpr]; exact ⟨_, rfl⟩
      · rw [if_neg hpr]
        by_cases hk : st.searchLeafCellIndex + 1 = k
        · rw [if_pos hk, haff']
          have harest' : arest' = [] := by
            have := hlena (some a)
            simp [inv.len_affRev] at this
            apply List.eq_nil_of_length_eq_zero
            omega
          subst harest'
          rw [List.getLast?_concat]
          simp only []
          unfold checkCurrentLeafCells
          by_cases hlt : (H a).level < st.bestAffinity
          · rw [if_pos hlt]
            have hall : ((st.currentLeafCellIndices.set st.searchLeafCellIndex
                st.availableLeafCellIndex).all (fun i => decide (i < avail.length))) = true := by
              obtain ⟨r0, rest', hrest⟩ := exists_cons_of_length_lt prevRev.reverse curRest k
                (by rw [← inv.cur_eq]; exact inv.len_cur) (by simp [inv.len_prev, inv.s_lt])
              have hcur' : st.currentLeafCellIndices.set st.searchLeafCellIndex
                  st.availableLeafCellIndex
                  = prevRev.reverse ++ st.availableLeafCellIndex :: rest' := by
                rw [inv.cur_eq, hrest]
                exact set_append_cons _ _ _ _ _ (by simp [inv.len_prev])
              have hrest' : rest' = [] := by
                have := inv.len_cur
                rw [inv.cur_eq, hrest] at this
                simp [inv.len_prev] at this
                apply List.eq_nil_of_length_eq_zero
                omega
              subst hrest'
              rw [hcur', List.all_eq_true]
              intro x hx
              simp only [decide_eq_true_eq]
              simp only [List.mem_append, List.mem_reverse, List.mem_singleton] at hx
              rcases hx with hx | hx
              · exact lt_trans (inv.prev_lt x hx) hidx
              · subst hx; exact hidx
            rw [if_pos hall]
            simp only []
            split_ifs <;> exact ⟨_, rfl⟩
          · rw [if_neg hlt]
            simp
        · rw [if_neg hk]; exact ⟨_, rfl⟩
    · rw [if_neg hidx]
      by_cases hs0 : st.searchLeafCellIndex = 0
      · rw [if_pos hs0]
        have hbest : st.bestAffinity ≠ highestLevel := by
          intro hb
          obtain ⟨e1, e2⟩ := hs.first hb
          have := inv.s_lt
          have := hu.k_le
          omega
        rw [if_neg hbest]; exact ⟨_, rfl⟩
      · rw [if_neg hs0]
        have : st.searchLeafCellIndex - 1 < st.currentLeafCellIndices.length := by
          rw [inv.len_cur]; have := inv.s_lt; omega
        rw [List.getElem?_eq_getElem this]
        exact ⟨_, rfl⟩
  obtain ⟨out, hout⟩ := hprog
  refine ⟨out, hout, ?_⟩
  intro st' e
  subst e
  rcases affinitySearch.step_next hout with
    ⟨hidx, a, hlc, hla, hl, e1, e2, e3, hcase⟩ | ⟨hidx, hs0, i, hi, e1, e2, e3, e4, e5⟩
  · obtain ⟨a', ha', hanc, hlev, hhigh⟩ := affinitySearch.lca_safe hu hs hidx
    rw [hl] at ha'
    simp only [Option.some.injEq] at ha'
    subst ha'
    have hkeep : ∀ i, i < st.searchLeafCellIndex →
        ∃ b, st'.currentAffinity[i]? = some (some b) ∧ Anc H n b ∧ l0 ≤ (H b).level := by
      intro i hi
      rw [e3, List.getElem?_set_ne (by omega)]
      exact hs.aff i hi
    rcases hcase with ⟨hpr, es, eb⟩ | ⟨hpr, hk, es, last, hlast, eb⟩ | ⟨hpr, hk, es, eb⟩
    · refine ⟨by rw [es]; exact hkeep, ?_⟩
      intro hb
      exfalso
      rw [eb] at hb
      simp only [affinitySearch.pruned, Bool.and_eq_true, decide_eq_true_eq] at hpr
      have := hpr.2
      omega
    · refine ⟨by rw [es]; exact hkeep, ?_⟩
      intro hb
      exfalso
      have hl' : last = a' := by
        rw [List.getLast?_eq_getElem?, List.length_set] at hlast
        have hlen : st.currentAffinity.length - 1 = st.searchLeafCellIndex := by
          rw [inv.len_aff]; omega
        rw [hlen, List.getElem?_set_self hla] at hlast
        simp only [Option.some.injEq] at hlast
        exact hlast.symm
      subst hl'
      rw [eb] at hb
      have := inv.best_le
      split_ifs at hb <;> omega
    · refine ⟨?_, ?_⟩
      · intro i hi
        rw [es] at hi
        by_cases hi' : i < st.searchLeafCellIndex
        · exact hkeep i hi'
        · have : i = st.searchLeafCellIndex := by omega
          subst this
          rw [e3, List.getElem?_set_self hla]
          exact ⟨a', rfl, hanc, hlev⟩
      · intro hb
        rw [eb] at hb
        obtain ⟨f1, f2⟩ := hs.first hb
        rw [e1, es, f1, f2]
        exact ⟨rfl, rfl⟩
  · refine ⟨?_, ?_⟩
    · intro i' hi'
      rw [e4]
      exact hs.aff i' (by rw [e2] at hi'; omega)
    · intro hb
      exfalso
      rw [e5] at hb
      obtain ⟨f1, f2⟩ := hs.first hb
      have := inv.s_lt
      have := hu.k_le
      omega

theorem affinitySearch.init_safe : SearchSafe H n l0 0 (affinitySearch.init k) where
  aff := by intro i hi; exact absurd hi (Nat.not_lt_zero _)
  first := fun _ => ⟨rfl, rfl⟩

/-- Under `SearchUnder`, `SearchSafe` holds at every loop test. -/
theorem affinitySearch.stateAfter_safe (hu : SearchUnder H fuel avail k n l0) (hk : 0 < k) :
    ∀ (j : Nat) (st : SearchState),
      affinitySearch.stateAfter H fuel avail k optimal j = some st → SearchSafe H n l0 j st := by
  intro j
  induction j with
  | zero =>
    intro st h
    rw [affinitySearch.stateAfter] at h
    cases h
    exact affinitySearch.init_safe
  | succ j ih =>
    intro st' h
    obtain ⟨st, hj, hs⟩ := affinitySearch.stateAfter_succ h
    obtain ⟨out, hout, hnext⟩ := affinitySearch.step_safe st
      (affinitySearch.stateAfter_inv hk j st hj).1 hu (ih st hj)
    rw [hs] at hout
    cases hout
    exact hnext st' rfl

/-- Under `SearchUnder`, and with fuel for every iteration, the search returns. -/
theorem affinitySearch_returns (hu : SearchUnder H fuel avail k n l0) (hk : 0 < k)
    (hfuel : (avail.length + 2) ^ k < fuel) :
    ∃ r, affinitySearch H fuel avail k optimal = some r ∧ IsCombo avail.length k r.2 := by
  have key : ∃ r, affinitySearch H fuel avail k optimal = some r := by
    unfold affinitySearch
    refine runLoop_terminates (affinitySearch.step H fuel avail k optimal)
      (fun st => ∃ j, affinitySearch.stateAfter H fuel avail k optimal j = some st)
      (searchMeasure avail.length k) ((avail.length + 2) ^ k)
      ?_ ?_ fuel _ ⟨0, rfl⟩ (by omega)
    · intro st ⟨j, hj⟩
      have hinv := (affinitySearch.stateAfter_inv hk j st hj).1
      obtain ⟨out, hout, _⟩ := affinitySearch.step_safe st hinv hu
        (affinitySearch.stateAfter_safe hu hk j st hj)
      have hspec := affinitySearch.step_spec st hinv out hout
      cases out with
      | inl st' =>
        exact Or.inr ⟨st', hout, ⟨j + 1, affinitySearch.stateAfter_step hj hout⟩, hspec.2⟩
      | inr r => exact Or.inl ⟨r, hout⟩
    · intro st ⟨j, hj⟩
      exact searchMeasure_le (affinitySearch.stateAfter_inv hk j st hj).1
  obtain ⟨r, hr⟩ := key
  exact ⟨r, hr, (affinitySearch_post r hr).1⟩

/-- Under `SearchUnder`, and with fuel for every iteration, `findLeafCellsInNode` returns
when `avail` is its candidate list. -/
theorem findLeafCellsInNode_returns (hu : SearchUnder H fuel avail k n l0) (hk : 0 < k)
    (hfuel : (avail.length + 2) ^ k < fuel) (m : Cell) (p : Int) (lln : LevelLeafCellNum)
    (availableLeafCells : Option CellList)
    (hcand : candidateLeafCells H fuel m p availableLeafCells = some avail)
    (hopt : getOptimalAffinity (k : Int) lln = some optimal) :
    ∃ r, findLeafCellsInNode H fuel m (k : Int) p availableLeafCells lln = some r := by
  obtain ⟨r, hr, hcombo⟩ := @affinitySearch_returns H fuel avail k optimal n l0 hu hk hfuel
  unfold findLeafCellsInNode
  rw [if_neg (by omega), hopt]
  simp only [hcand, Int.toNat_ofNat]
  rw [hr]
  obtain ⟨bc, bi⟩ := r
  simp only [] at hcombo ⊢
  rw [removePickedLeafCells_eq hcombo]
  exact ⟨_, rfl⟩

/-- The candidates that `findLeafCellsInNode` collects itself in a node: leaf cells of
level one below the node. -/
theorem candidateLeafCells_under (hl : LevelsByOne H) (hco : ChildrenOk H) {m : Cell}
    {p : Int} (hlev : 1 ≤ (H m).level) (hf : ((H m).level - 1).toNat < fuel)
    (hcand : candidateLeafCells H fuel m p none = some avail) :
    ∀ c ∈ avail, (H c).level = 1 ∧ Anc H m c := by
  have e := getLeafCellsFromNode_eq_filter hl hco p ((H m).level - 1).toNat fuel m [] []
    (by omega) hf
  simp only [candidateLeafCells, e, List.nil_append, Option.some.injEq] at hcand
  subst hcand
  intro c hc
  have hmem : c ∈ leafDescendants H ((H m).level - 1).toNat m := by
    rcases List.mem_append.mp hc with h | h
    · exact (List.mem_filter.mp h).1
    · exact (List.mem_filter.mp h).1
  obtain ⟨h1, h2⟩ := (mem_leafDescendants hl hco _ m c (by omega)).mp hmem
  exact ⟨h1, h2.anc hco⟩

/-- Under `SearchUnder`, and with fuel for every iteration, `findCellsForPod` returns
cells when the cells it collects are the candidates `avail`. -/
theorem skuScheduler.findCellsForPod_returns (hu : SearchUnder H fuel avail k n l0)
    (hk : 0 < k) (hfuel : (avail.length + 2) ^ k < fuel) (s : skuScheduler)
    (pod : PodGroupMemberSpec) (priority : Int) (within : skuCell) (allocated : CellList)
    (f pr : CellList)
    (hg : getFreeCellsAtLevel H (s.cellLevels pod.CellType) priority allocated fuel
      within.cell [] [] = some (f, pr))
    (hav : f ++ pr = avail) (hnum : pod.CellNumber = (k : Int)) :
    ∃ cells, s.findCellsForPod H fuel pod priority within allocated = some (some cells) := by
  obtain ⟨r, hr, _⟩ := @affinitySearch_returns H fuel avail k
    (findCellsForPod.optimalAffinity s.levelLeafCellNum (s.cellLevels pod.CellType)
      pod.CellNumber) n l0 hu hk hfuel
  unfold skuScheduler.findCellsForPod
  simp only [hg, hav, hnum] at hr ⊢
  have := hu.k_le
  rw [if_neg (by omega), if_neg (by omega)]
  simp only [Int.toNat_ofNat]
  rw [hr]
  exact ⟨_, rfl⟩

end

end

/-- The search of the candidates `0` and `1` of `exampleTwoRoots`, which have no common
ancestor, for two cells: the second iteration stores a `nil` affinity and panics when
it reads the level of that affinity. -/
theorem affinitySearch_two_roots_panics :
    (affinitySearch.stateAfter exampleTwoRoots 26 [0, 1] 2 2 1).map
        (fun st => affinitySearch.lca exampleTwoRoots 26 st 1) = some (some none) ∧
      (affinitySearch.stateAfter exampleTwoRoots 26 [0, 1] 2 2 1).map
        (fun st => affinitySearch.step exampleTwoRoots 26 [0, 1] 2 2 st) = some none ∧
      affinitySearch exampleTwoRoots 26 [0, 1] 2 2 = none := by
  refine ⟨by decide!, by decide!, by decide!⟩

/-- C32: when `1 <= k <= number of candidates` and all candidates lie on one level `l0`
below one cell `n` (in a hierarchy whose levels go up by one along parent links, with
`n` below `highestLevel` and fuel for every call of `findLCA`), the search loop that
`findLeafCellsInNode` and `findCellsForPod` share never panics. At every loop test
the next iteration is defined, so neither the "Assert Failure" panic nor a panic on a
`nil` affinity happens; the affinity stored for the candidate at hand is a cell and not
`nil`; as long as no best choice is recorded (`bestAffinity = highestLevel`) the loop
has only descended, being at its `j`-th test at position `j` with candidate `j` and
`j < k`, so a best choice is recorded by the first complete choice of `k` cells; and
the state of the branch marked `Unreachable` never occurs. With fuel for every
iteration the search returns, and so do `findLeafCellsInNode` and `findCellsForPod`
on these candidates. -/
theorem affinitySearch_assert_unreachable (H : Hierarchy) (fuel : Nat) (avail : CellList)
    (k : Nat) (optimal : Int) (n : Cell) (l0 : Int)
    (hl : LevelsByOne H) (hk : 1 ≤ k) (hkn : k ≤ avail.length)
    (hsame : ∀ c ∈ avail, (H c).level = l0) (hunder : ∀ c ∈ avail, Anc H n c)
    (hn : (H n).level < highestLevel) (hf : ((H n).level - l0).toNat < fuel) :
    (∀ j st, affinitySearch.stateAfter H fuel avail k optimal j = some st →
      (∃ out, affinitySearch.step H fuel avail k optimal st = some out) ∧
      (∀ hidx : st.availableLeafCellIndex < avail.length,
        ∃ a, affinitySearch.lca H fuel st (avail.get ⟨st.availableLeafCellIndex, hidx⟩) =
          some (some a)) ∧
      (st.bestAffinity = highestLevel →
        j < k ∧ st.availableLeafCellIndex = j ∧ st.searchLeafCellIndex = j) ∧
      (k ≤ j → st.bestAffinity < highestLevel) ∧
      ¬ (¬ st.availableLeafCellIndex < avail.length ∧ st.searchLeafCellIndex = 0 ∧
        st.bestAffinity = highestLevel)) ∧
    ((avail.length + 2) ^ k < fuel →
      (∃ r, affinitySearch H fuel avail k optimal = some r) ∧
      (∀ (m : Cell) (p : Int) (lln : LevelLeafCellNum) (availableLeafCells : Option CellList),
        candidateLeafCells H fuel m p availableLeafCells = some avail →
        getOptimalAffinity (k : Int) lln = some optimal →
        ∃ r, findLeafCellsInNode H fuel m (k : Int) p availableLeafCells lln = some r) ∧
      (∀ (s : skuScheduler) (pod : PodGroupMemberSpec) (priority : Int) (within : skuCell)
          (allocated f pr : CellList),
        getFreeCellsAtLevel H (s.cellLevels pod.CellType) priority allocated fuel
          within.cell [] [] = some (f, pr) →
        f ++ pr = avail → pod.CellNumber = (k : Int) →
        ∃ cells, s.findCellsForPod H fuel pod priority within allocated =
          some (some cells))) := by
  have hu : SearchUnder H fuel avail k n l0 := ⟨hl, hsame, hunder, hn, hf, hkn⟩
  have hk0 : 0 < k := hk
  refine ⟨?_, ?_⟩
  · intro j st hj
    have hinv := (affinitySearch.stateAfter_inv hk0 j st hj).1
    have hs := affinitySearch.stateAfter_safe hu hk0 j st hj
    obtain ⟨out, hout, _⟩ := affinitySearch.step_safe st hinv hu hs
    obtain ⟨prevRev, affRev, curRest, affRest, inv⟩ := hinv
    have hfirst : st.bestAffinity = highestLevel →
        j < k ∧ st.availableLeafCellIndex = j ∧ st.searchLeafCellIndex = j := by
      intro hb
      obtain ⟨e1, e2⟩ := hs.first hb
      have := inv.s_lt
      exact ⟨by omega, e1, e2⟩
    refine ⟨⟨out, hout⟩, ?_, hfirst, ?_, ?_⟩
    · intro hidx
      obtain ⟨a, ha, _⟩ := affinitySearch.lca_safe hu hs hidx
      exact ⟨a, ha⟩
    · intro hkj
      have := inv.best_le
      rcases lt_or_eq_of_le this with h | h
      · exact h
      · have := (hfirst h).1
        omega
    · rintro ⟨h1, _, h3⟩
      obtain ⟨f1, f2, _⟩ := hfirst h3
      omega
  · intro hfuel
    refine ⟨?_, ?_, ?_⟩
    · obtain ⟨r, hr, _⟩ := @affinitySearch_returns H fuel avail k optimal n l0 hu hk0 hfuel
      exact ⟨r, hr⟩
    · intro m p lln availableLeafCells hcand hopt
      exact findLeafCellsInNode_returns hu hk0 hfuel m p lln availableLeafCells hcand hopt
    · intro s pod priority within allocated f pr hg hav hnum
      exact skuScheduler.findCellsForPod_returns hu hk0 hfuel s pod priority within allocated
        f pr hg hav hnum

/-- C32, on node 28 of the example cluster with the candidates 1, 2 and 3 and `k = 2`:
the search returns the leaf cells 2 and 3, and `findLeafCellsInNode` returns them with
the remaining candidate 1. -/
theorem affinitySearch_assert_unreachable_witness :
    (affinitySearch (exampleCluster exampleAllFree) 26 [1, 2, 3] 2 2 =
        some ([some 2, some 3], [1, 2]) ∧
      findLeafCellsInNode (exampleCluster exampleAllFree) 26 28 2 0 (some [1, 2, 3])
        exampleLevelLeafCellNum = some ([2, 3], [1])) ∧
    ((∀ j st, affinitySearch.stateAfter (exampleCluster exampleAllFree) 26 [1, 2, 3] 2 2 j =
        some st →
      (∃ out, affinitySearch.step (exampleCluster exampleAllFree) 26 [1, 2, 3] 2 2 st =
        some out) ∧
      (∀ hidx : st.availableLeafCellIndex < ([1, 2, 3] : CellList).length,
        ∃ a, affinitySearch.lca (exampleCluster exampleAllFree) 26 st
          (([1, 2, 3] : CellList).get ⟨st.availableLeafCellIndex, hidx⟩) = some (some a)) ∧
      (st.bestAffinity = highestLevel →
        j < 2 ∧ st.availableLeafCellIndex = j ∧ st.searchLeafCellIndex = j) ∧
      (2 ≤ j → st.bestAffinity < highestLevel) ∧
      ¬ (¬ st.availableLeafCellIndex < ([1, 2, 3] : CellList).length ∧
        st.searchLeafCellIndex = 0 ∧ st.bestAffinity = highestLevel)) ∧
    ((([1, 2, 3] : CellList).length + 2) ^ 2 < 26 →
      (∃ r, affinitySearch (exampleCluster exampleAllFree) 26 [1, 2, 3] 2 2 = some r) ∧
      (∀ (m : Cell) (p : Int) (lln : LevelLeafCellNum) (availableLeafCells : Option CellList),
        candidateLeafCells (exampleCluster exampleAllFree) 26 m p availableLeafCells =
          some [1, 2, 3] →
        getOptimalAffinity ((2 : Nat) : Int) lln = some 2 →
        ∃ r, findLeafCellsInNode (exampleCluster exampleAllFree) 26 m ((2 : Nat) : Int) p
          availableLeafCells lln = some r) ∧
      (∀ (s : skuScheduler) (pod : PodGroupMemberSpec) (priority : Int) (within : skuCell)
          (allocated f pr : CellList),
        getFreeCellsAtLevel (exampleCluster exampleAllFree) (s.cellLevels pod.CellType)
          priority allocated 26 within.cell [] [] = some (f, pr) →
        f ++ pr = [1, 2, 3] → pod.CellNumber = ((2 : Nat) : Int) →
        ∃ cells, s.findCellsForPod (exampleCluster exampleAllFree) 26 pod priority within
          allocated = some (some cells)))) :=
  ⟨⟨by decide!, by decide!⟩,
    affinitySearch_assert_unreachable (exampleCluster exampleAllFree) 26 [1, 2, 3] 2 2 28 1
      (exampleCluster_levelsByOne _) (by decide) (by decide)
      (fun c hc => (exampleCluster_anc_node28 _ c
        ((by decide : ∀ x ∈ ([1, 2, 3] : List Nat), x < 8) c hc)).1)
      (fun c hc => (exampleCluster_anc_node28 _ c
        ((by decide : ∀ x ∈ ([1, 2, 3] : List Nat), x < 8) c hc)).2)
      (by decide) (by decide)⟩

/-- C33: for every candidate list and every `k` with `1 <= k <= number of candidates`
the search loop that `findLeafCellsInNode` and `findCellsForPod` share stops. Some loop
test, not later than test number `(n + 2) ^ k`, is the last one: the iteration that
starts there leaves the loop. Between any two loop tests the frontier (the positions
picked so far and the position of the candidate at hand) goes up in the lexicographic
order, the frontier is an ascending list of at most `k` positions, and it is a choice
of `k` candidate positions whenever the last position is being tried, so that no
choice of `k` positions is tried twice and the choices come in lexicographic order.
The loop then returns `k` ascending positions when the candidates lie on one level
below one cell; that is the case for the candidates that `findLeafCellsInNode` collects
itself in a node, for which it returns. -/
theorem affinitySearch_terminates_lexicographic (H : Hierarchy) (fuel : Nat)
    (avail : CellList) (k : Nat) (optimal : Int) (hk : 1 ≤ k) (hkn : k ≤ avail.length) :
    (∃ j st, j ≤ (avail.length + 2) ^ k ∧
      affinitySearch.stateAfter H fuel avail k optimal j = some st ∧
      (affinitySearch.step H fuel avail k optimal st = none ∨
        ∃ r, affinitySearch.step H fuel avail k optimal st = some (Sum.inr r)) ∧
      ∀ i, j < i → affinitySearch.stateAfter H fuel avail k optimal i = none) ∧
    (∀ i j sti stj, i < j →
      affinitySearch.stateAfter H fuel avail k optimal i = some sti →
      affinitySearch.stateAfter H fuel avail k optimal j = some stj →
      List.Lex (fun a b => a < b) (affinitySearch.frontier sti)
        (affinitySearch.frontier stj)) ∧
    (∀ j st, affinitySearch.stateAfter H fuel avail k optimal j = some st →
      (affinitySearch.frontier st).Pairwise (fun a b => a < b) ∧
      (affinitySearch.frontier st).length = st.searchLeafCellIndex + 1 ∧
      (affinitySearch.frontier st).length ≤ k ∧
      (st.searchLeafCellIndex + 1 = k → st.availableLeafCellIndex < avail.length →
        IsCombo avail.length k (affinitySearch.frontier st))) ∧
    (∀ (n : Cell) (l0 : Int), LevelsByOne H → (∀ c ∈ avail, (H c).level = l0) →
      (∀ c ∈ avail, Anc H n c) → (H n).level < highestLevel →
      ((H n).level - l0).toNat < fuel → (avail.length + 2) ^ k < fuel →
      ∃ r, affinitySearch H fuel avail k optimal = some r ∧ IsCombo avail.length k r.2) ∧
    (∀ (m : Cell) (p : Int) (lln : LevelLeafCellNum), LevelsByOne H → ChildrenOk H →
      1 ≤ (H m).level → (H m).level < highestLevel → ((H m).level - 1).toNat < fuel →
      candidateLeafCells H fuel m p none = some avail →
      getOptimalAffinity (k : Int) lln = some optimal → (avail.length + 2) ^ k < fuel →
      ∃ r, findLeafCellsInNode H fuel m (k : Int) p none lln = some r) := by
  have hk0 : 0 < k := hk
  refine ⟨affinitySearch.stateAfter_last hk0, ?_, ?_, ?_, ?_⟩
  · intro i j sti stj hij hi hj
    obtain ⟨d, rfl⟩ : ∃ d, j = i + d + 1 := ⟨j - i - 1, by omega⟩
    exact affinitySearch.stateAfter_lex i sti hi d stj hj
  · intro j st hj
    exact affinitySearch.frontier_sorted (affinitySearch.stateAfter_inv hk0 j st hj).1
  · intro n l0 hl hsame hunder hn hf hfuel
    exact affinitySearch_returns ⟨hl, hsame, hunder, hn, hf, hkn⟩ hk0 hfuel
  · intro m p lln hl hco hlev hn hf hcand hopt hfuel
    have hc := candidateLeafCells_under hl hco hlev hf hcand
    exact findLeafCellsInNode_returns
      ⟨hl, fun c h => (hc c h).1, fun c h => (hc c h).2, hn, hf, hkn⟩ hk0 hfuel m p lln none
      hcand hopt

/-- C33, on the cell 24 of the example cluster with leaf cell 1 used at priority 0, for
`k = 2` and priority 0: the candidates are the leaf cells 0, 2 and 3, the frontiers at
the six loop tests come in lexicographic order, and the search returns at the choice
of the positions 1 and 2, the leaf cells 2 and 3. -/
theorem affinitySearch_terminates_lexicographic_witness :
    (candidateLeafCells (exampleCluster exampleOneUsed) 26 24 0 none = some [0, 2, 3] ∧
      getOptimalAffinity ((2 : Nat) : Int) exampleLevelLeafCellNum = some 2 ∧
      (List.range 7).map (fun j =>
        (affinitySearch.stateAfter (exampleCluster exampleOneUsed) 26 [0, 2, 3] 2 2 j).map
          affinitySearch.frontier) =
        [some [0], some [0, 1], some [0, 2], some [0, 3], some [1], some [1, 2], none] ∧
      affinitySearch (exampleCluster exampleOneUsed) 26 [0, 2, 3] 2 2 =
        some ([some 2, some 3], [1, 2]) ∧
      findLeafCellsInNode (exampleCluster exampleOneUsed) 26 24 ((2 : Nat) : Int) 0 none
        exampleLevelLeafCellNum = some ([2, 3], [0])) ∧
    ((∃ j st, j ≤ (([0, 2, 3] : CellList).length + 2) ^ 2 ∧
      affinitySearch.stateAfter (exampleCluster exampleOneUsed) 26 [0, 2, 3] 2 2 j = some st ∧
      (affinitySearch.step (exampleCluster exampleOneUsed) 26 [0, 2, 3] 2 2 st = none ∨
        ∃ r, affinitySearch.step (exampleCluster exampleOneUsed) 26 [0, 2, 3] 2 2 st =
          some (Sum.inr r)) ∧
      ∀ i, j < i →
        affinitySearch.stateAfter (exampleCluster exampleOneUsed) 26 [0, 2, 3] 2 2 i = none) ∧
    (∀ i j sti stj, i < j →
      affinitySearch.stateAfter (exampleCluster exampleOneUsed) 26 [0, 2, 3] 2 2 i = some sti →
      affinitySearch.stateAfter (exampleCluster exampleOneUsed) 26 [0, 2, 3] 2 2 j = some stj →
      List.Lex (fun a b => a < b) (affinitySearch.frontier sti)
        (affinitySearch.frontier stj)) ∧
    (∀ j st,
      affinitySearch.stateAfter (exampleCluster exampleOneUsed) 26 [0, 2, 3] 2 2 j = some st →
      (affinitySearch.frontier st).Pairwise (fun a b => a < b) ∧
      (affinitySearch.frontier st).length = st.searchLeafCellIndex + 1 ∧
      (affinitySearch.frontier st).length ≤ 2 ∧
      (st.searchLeafCellIndex + 1 = 2 →
        st.availableLeafCellIndex < ([0, 2, 3] : CellList).length →
        IsCombo ([0, 2, 3] : CellList).length 2 (affinitySearch.frontier st))) ∧
    (∀ (n : Cell) (l0 : Int), LevelsByOne (exampleCluster exampleOneUsed) →
      (∀ c ∈ ([0, 2, 3] : CellList), (exampleCluster exampleOneUsed c).level = l0) →
      (∀ c ∈ ([0, 2, 3] : CellList), Anc (exampleCluster exampleOneUsed) n c) →
      (exampleCluster exampleOneUsed n).level < highestLevel →
      ((exampleCluster exampleOneUsed n).level - l0).toNat < 26 →
      (([0, 2, 3] : CellList).length + 2) ^ 2 < 26 →
      ∃ r, affinitySearch (exampleCluster exampleOneUsed) 26 [0, 2, 3] 2 2 = some r ∧
        IsCombo ([0, 2, 3] : CellList).length 2 r.2) ∧
    (∀ (m : Cell) (p : Int) (lln : LevelLeafCellNum),
      LevelsByOne (exampleCluster exampleOneUsed) →
      ChildrenOk (exampleCluster exampleOneUsed) →
      1 ≤ (exampleCluster exampleOneUsed m).level →
      (exampleCluster exampleOneUsed m).level < highestLevel →
      ((exampleCluster exampleOneUsed m).level - 1).toNat < 26 →
      candidateLeafCells (exampleCluster exampleOneUsed) 26 m p none = some [0, 2, 3] →
      getOptimalAffinity ((2 : Nat) : Int) lln = some 2 →
      (([0, 2, 3] : CellList).length + 2) ^ 2 < 26 →
      ∃ r, findLeafCellsInNode (exampleCluster exampleOneUsed) 26 m ((2 : Nat) : Int) p none
        lln = some r)) :=
  ⟨⟨by decide!, by decide!, by decide!, by decide!, by decide!⟩,
    affinitySearch_terminates_lexicographic (exampleCluster exampleOneUsed) 26 [0, 2, 3] 2 2
      (by decide) (by decide)⟩

/-! ### The two passes of `Schedule` -/

/-- C7: both schedulers return the result of the pass at `opportunisticPriority` when
that pass succeeds; when it fails and `p > opportunisticPriority` they return the result
of one pass at `p` (run on the view as the first pass left it); when it fails and
`p <= opportunisticPriority` they return the failure reason of the first pass. -/
theorem schedule_two_passes (H : Hierarchy) (fuel : Nat) (t : topologyAwareScheduler)
    (podLeafCellNumbers : List (Int × Int)) (p : Int) (suggestedNodes : List String)
    (ignoreSuggestedNodes : Bool) (s : skuScheduler) (podRootGroup : PodGroupSpec) :
    (∀ cv indices r,
      t.pass H opportunisticPriority suggestedNodes ignoreSuggestedNodes
          (sortedPodLeafCellNumbers podLeafCellNumbers) = some (cv, some indices, r) →
        t.Schedule H fuel podLeafCellNumbers p suggestedNodes ignoreSuggestedNodes =
          t.passResult H fuel opportunisticPriority suggestedNodes ignoreSuggestedNodes
            (sortedPodLeafCellNumbers podLeafCellNumbers)) ∧
    (∀ cv r,
      t.pass H opportunisticPriority suggestedNodes ignoreSuggestedNodes
          (sortedPodLeafCellNumbers podLeafCellNumbers) = some (cv, none, r) →
        p > opportunisticPriority →
        t.Schedule H fuel podLeafCellNumbers p suggestedNodes ignoreSuggestedNodes =
          topologyAwareScheduler.passResult H fuel { t with cv := cv } p suggestedNodes
            ignoreSuggestedNodes (sortedPodLeafCellNumbers podLeafCellNumbers)) ∧
    (∀ cv r,
      t.pass H opportunisticPriority suggestedNodes ignoreSuggestedNodes
          (sortedPodLeafCellNumbers podLeafCellNumbers) = some (cv, none, r) →
        p ≤ opportunisticPriority →
        t.Schedule H fuel podLeafCellNumbers p suggestedNodes ignoreSuggestedNodes =
          some ([], r)) ∧
    (∀ placement,
      s.findCellsForPodGroup H fuel (s.sortPodGroup podRootGroup) opportunisticPriority
          none none = some (placement, FailedReason.none) →
        s.Schedule H fuel podRootGroup p =
          skuScheduler.Schedule.convert H fuel (placement, FailedReason.none)) ∧
    (∀ placement r,
      s.findCellsForPodGroup H fuel (s.sortPodGroup podRootGroup) opportunisticPriority
          none none = some (placement, r) →
        r ≠ FailedReason.none → p > opportunisticPriority →
        s.Schedule H fuel podRootGroup p =
          (s.findCellsForPodGroup H fuel (s.sortPodGroup podRootGroup) p none none).bind
            (skuScheduler.Schedule.convert H fuel)) ∧
    (∀ placement r,
      s.findCellsForPodGroup H fuel (s.sortPodGroup podRootGroup) opportunisticPriority
          none none = some (placement, r) →
        r ≠ FailedReason.none → p ≤ opportunisticPriority →
        s.Schedule H fuel podRootGroup p = some (placement, r)) := by
  refine ⟨?_, ?_, ?_, ?_, ?_, ?_⟩
  · intro cv indices r h
    simp [topologyAwareScheduler.Schedule, topologyAwareScheduler.selectNodes,
      topologyAwareScheduler.passResult, h]
  · intro cv r h hp
    simp only [topologyAwareScheduler.Schedule, topologyAwareScheduler.selectNodes,
      topologyAwareScheduler.passResult, h, Option.isNone_none, true_and, hp, if_true]
    cases topologyAwareScheduler.pass H { t with cv := cv } p suggestedNodes
        ignoreSuggestedNodes (sortedPodLeafCellNumbers podLeafCellNumbers) with
    | none => rfl
    | some x =>
      obtain ⟨cv2, sel, r2⟩ := x
      cases sel <;> rfl
  · intro cv r h hp
    have hp' : ¬ p > opportunisticPriority := not_lt.mpr hp
    simp [topologyAwareScheduler.Schedule, topologyAwareScheduler.selectNodes, h, hp']
  · intro placement h
    simp [skuScheduler.Schedule, skuScheduler.Schedule.passes, h]
  · intro placement r h hr hp
    simp only [skuScheduler.Schedule, skuScheduler.Schedule.passes, h, ne_eq, hr,
      not_false_eq_true, hp, and_self, if_true]
    cases s.findCellsForPodGroup H fuel (s.sortPodGroup podRootGroup) p none none <;> rfl
  · intro placement r h hr hp
    have hp' : ¬ p > opportunisticPriority := not_lt.mpr hp
    simp [skuScheduler.Schedule, skuScheduler.Schedule.passes, h, hp',
      skuScheduler.Schedule.convert, hr]

/-- C7, on the example cluster: with every leaf cell free the first pass succeeds and
its result is returned. -/
theorem schedule_two_passes_witness :
    exampleTopologyScheduler.Schedule (exampleCluster exampleAllFree) 20 [(1, 1)] 0 [] true =
      exampleTopologyScheduler.passResult (exampleCluster exampleAllFree) 20
        opportunisticPriority [] true (sortedPodLeafCellNumbers [(1, 1)]) :=
  (schedule_two_passes (exampleCluster exampleAllFree) 20 exampleTopologyScheduler [(1, 1)] 0
    [] true exampleSkuScheduler (PodGroupSpec.mk [] [] "")).1
    [node.mk 28 8 0 0 true true "", node.mk 29 8 0 0 true true ""] [0] FailedReason.none
    (by decide!)

end Hived
